import Mathlib

/-!
# Constraint inference engine of `IcarousCommunicationService`

A shallow embedding of the constraint model and the compatibility checker of
`src/IcarousCommunicationService.cpp` / `.h`, followed by theorems about it.

Conventions of the embedding

* `std::vector<T>` is a `List T`; `int` identifiers are `Int` (the engine only
  copies and compares them, it never does arithmetic on them).
* `constraintNode *` is an address: an index into a `Heap` (a list of nodes in
  allocation order).  The program never frees a node, so an address handed
  out by `new` stays valid.
* The two `float` fields of `constraint` are carried as integers: no function
  embedded here reads them.
* Loops that the source runs by index are recursions over the part of the
  vector that is left; loops and recursions without a syntactic bound take a
  step budget and report `Fault.fuel` when it runs out.
* Where the source reads outside a vector and uses the value, or moves a
  pointer off its object, the run ends in `Fault.undefined`.  One loop has no
  bound on its index at all, the loop of `sliceRequirementIDs` (cpp line 176):
  it compares the words behind the kind vector with the kind of the run, and
  for every word that holds the kind it reads an id behind the id vector.
  The words behind the kind vector are a parameter of the embedding,
  `Service.wordsBehind`; the comparison reads them, and a read of an id
  outside the id vector is `Fault.undefined`.
-/

namespace Icarous

/-! ## Data model (`IcarousCommunicationService.h`, lines 199-222) -/

/-- The enumeration `constraintTypes{centroid, monitor, global, relative, invalid}`. -/
inductive constraintTypes where
  | centroid
  | monitor
  | global
  | relative
  | invalid
  deriving DecidableEq, Repr, Inhabited

/-- The struct `constraint`. -/
structure constraint where
  type : constraintTypes
  centroidX : Int
  centroidY : Int
  groupIDs : List Int
  monitorIDs : List Int
  monitorDistances : List Int
  deriving DecidableEq, Repr, Inhabited

/-- The struct `inferenceRule`. -/
structure inferenceRule where
  requirementIDs : List Int
  requirementTypes : List constraintTypes
  resultIDs : List Int
  resultTypes : List constraintTypes
  deriving DecidableEq, Repr, Inhabited

/-- The struct `constraintNode`; `parents` and `children` hold addresses. -/
structure constraintNode where
  data : constraint
  parents : List Nat
  children : List Nat
  deriving DecidableEq, Repr, Inhabited

/-- The nodes allocated so far, in allocation order; an address is an index. -/
abbrev Heap := List constraintNode

/-- Dereference `p->...`.  Addresses that were never allocated read as a node
with an empty constraint and no edges. -/
def deref (heap : Heap) (p : Nat) : constraintNode :=
  heap.getD p default

/-! ## `vectorIntsEqual` (cpp lines 182-221) -/

/-- The inner `j` loop of the `orderMatters` branch: scan `right` for the first
position holding `x` and erase it; `none` when `x` does not occur (`found`
stays false). -/
def eraseFirst (x : Int) : List Int → Option (List Int)
  | [] => none
  | y :: right => if x = y then some right else (eraseFirst x right).map (fun r => y :: r)

/-- The outer loop of the `orderMatters` branch.  Every successful round erases
`left[i]` and steps `i` back, so the loop always looks at the current head of
`left`; when `left` is exhausted the function tests that both vectors are
empty. -/
def matchLoop : List Int → List Int → Bool
  | [], right => right.isEmpty
  | x :: left, right =>
    match eraseFirst x right with
    | none => false
    | some right1 => matchLoop left right1

/-- The loop of the `else` branch: compare `left[i]` with `right[i]` for every
index of `left` (both vectors have the same size at this point). -/
def positionLoop : List Int → List Int → Bool
  | x :: left, y :: right => if x ≠ y then false else positionLoop left right
  | _, _ => true

/-- The function `vectorIntsEqual(left, right, orderMatters)`. -/
def vectorIntsEqual (left right : List Int) (orderMatters : Bool) : Bool :=
  if left.length ≠ right.length then false
  else if orderMatters then matchLoop left right
  else positionLoop left right

/-! ## `constraintsEqual` (cpp lines 250-267) -/

/-- The function `constraintsEqual(left, right, orderMatters)`. -/
def constraintsEqual (left right : constraint) (orderMatters : Bool) : Bool :=
  if left.type ≠ right.type then false
  else if !vectorIntsEqual left.groupIDs right.groupIDs orderMatters then false
  else if left.type = constraintTypes.monitor then
    if !vectorIntsEqual left.monitorIDs right.monitorIDs orderMatters then false
    else true
  else true

/-- The flag every caller in the engine passes for a constraint of kind `t`:
`(type != centroid)`. -/
def engineFlag (t : constraintTypes) : Bool :=
  t ≠ constraintTypes.centroid

/-! ## Faults of the embedding -/

/-- Why a run of the embedded program has no result. -/
inductive Fault where
  /-- The source reads or writes memory it does not own (an index outside a
  vector whose value is then used, or a pointer moved off its object). -/
  | undefined
  /-- The step budget given to a loop or to a recursion ran out. -/
  | fuel
  deriving DecidableEq, Repr, Inhabited

/-! ## Slot scanning helpers (cpp lines 162-180, 223-232) -/

/-- The function `vectorContainsOnlyConstraintTypes(hay, haystack)`. -/
def vectorContainsOnlyConstraintTypes (hay : constraintTypes) :
    List constraintTypes → Bool
  | [] => true
  | currType :: haystack =>
    if currType ≠ hay then false else vectorContainsOnlyConstraintTypes hay haystack

/-- The loop `while(haystack[startIndex] == typeToSlice)
sliceToReturn->push_back(vectorToSlice[startIndex++])` of `sliceRequirementIDs`
(cpp lines 176-178).  The loop has no bound check: when the run ends the
vector, the test goes on with the words that lie behind the vector, `behind`
(a word that is no kind, or the end of `behind`, ends the run).  An id read
outside `vectorToSlice` would be stored in the slice and is a fault.  `fuel`
bounds the number of rounds. -/
def sliceLoop (typeToSlice : constraintTypes) (haystack behind : List constraintTypes)
    (vectorToSlice : List Int) : Nat → Nat → Except Fault (List Int)
  | 0, _ => .error Fault.fuel
  | fuel + 1, startIndex =>
    if (haystack ++ behind).get? startIndex = some typeToSlice then
      match vectorToSlice.get? startIndex with
      | none => .error Fault.undefined
      | some x =>
        (sliceLoop typeToSlice haystack behind vectorToSlice fuel (startIndex + 1)).map
          (fun slice => x :: slice)
    else .ok []

/-- The function `sliceRequirementIDs(startIndex, haystack, vectorToSlice)`, run
with the words `behind` lying behind `haystack`.  Every round of the loop
reads one more id, so one round more than there are ids is budget enough
(`sliceRequirementIDs_error`). -/
def sliceRequirementIDs (behind : List constraintTypes) (startIndex : Nat)
    (haystack : List constraintTypes) (vectorToSlice : List Int) : Except Fault (List Int) :=
  match haystack.get? startIndex with
  | none => .error Fault.undefined
  | some typeToSlice =>
    sliceLoop typeToSlice haystack behind vectorToSlice (vectorToSlice.length + 1) startIndex

/-- The number of words from index `s` on that the loop test of
`sliceRequirementIDs` finds equal to `t`: the length of the run of `t` that
starts at `s` in the kind vector followed by the words behind it. -/
def runLength (t : constraintTypes) (haystack behind : List constraintTypes) (s : Nat) : Nat :=
  (((haystack ++ behind).drop s).takeWhile (fun u => decide (u = t))).length

/-- The function `findNextConstraintTypeWithPosition(haystack, position)`; the
result is the returned kind together with the value left in `*position`.
The loop header steps with `*position++`, which advances the pointer and not
the counter: when `haystack[0]` is `invalid` the next test reads the memory
behind the caller's variable, a fault. -/
def findNextConstraintTypeWithPosition (haystack : List constraintTypes) :
    Except Fault (constraintTypes × Nat) :=
  match haystack with
  | [] => .ok (constraintTypes.invalid, 0)
  | currType :: _ =>
    if currType ≠ constraintTypes.invalid then .ok (currType, 0)
    else .error Fault.undefined

/-- The loops `while(remaining[pos] == t && pos < size) remaining[pos++] = invalid`
(cpp line 328) and `for(j = i; remaining[j] == foundType && j < size; j++)`
(cpp line 300): overwrite the entries from `pos` on with `invalid` for as long
as they hold `t`.  The result is the new vector and the final value of `pos`. -/
def invalidateRun (t : constraintTypes) :
    Nat → List constraintTypes → List constraintTypes × Nat
  | pos, [] => ([], pos)
  | 0, x :: remaining =>
    if x = t then
      ((constraintTypes.invalid :: (invalidateRun t 0 remaining).1),
        (invalidateRun t 0 remaining).2 + 1)
    else (x :: remaining, 0)
  | pos + 1, x :: remaining =>
    ((x :: (invalidateRun t pos remaining).1), (invalidateRun t pos remaining).2 + 1)

/-! ## Node lookup (cpp lines 234-248, 268-278) -/

/-- The function `nodeIsPresentInGraph(nodeToAdd, otherNode, constraintGraph)`:
`some p` stands for `true` with `*otherNode = p`, `none` for `false` (the
out-parameter is then left as it was). -/
def nodeIsPresentInGraph (heap : Heap) (nodeToAdd : Nat) : List Nat → Option Nat
  | [] => none
  | currNode :: constraintGraph =>
    if constraintsEqual (deref heap currNode).data (deref heap nodeToAdd).data
          (engineFlag (deref heap nodeToAdd).data.type)
        && !(nodeToAdd = currNode) then
      some currNode
    else nodeIsPresentInGraph heap nodeToAdd constraintGraph

/-- The function `nodeCombosEqual(comboToAdd, otherCombo)`. -/
def nodeCombosEqual (heap : Heap) (comboToAdd otherCombo : List Nat) : Bool :=
  match comboToAdd with
  | [] => true
  | currNode :: rest =>
    if !(nodeIsPresentInGraph heap currNode otherCombo).isSome then false
    else nodeCombosEqual heap rest otherCombo

/-! ## Descendants (cpp lines 365-404) -/

/-- The function `gatherDescendents(node, descendentsFound)`: push the node,
then recurse into every child in order.  `fuel` bounds the recursion depth. -/
def gatherDescendents (heap : Heap) : Nat → Nat → List Nat → Except Fault (List Nat)
  | 0, _, _ => .error Fault.fuel
  | fuel + 1, node, descendentsFound =>
    (deref heap node).children.foldlM
      (fun found currNode => gatherDescendents heap fuel currNode found)
      (descendentsFound ++ [node])

/-- The inner `j` loop of `descendentsAreSuperset`: find the first entry of
`nodeChildren` whose constraint equals that of `nodeToCheck` and erase it;
`none` when there is none (`nodeFound` stays false). -/
def eraseFirstEqual (heap : Heap) (nodeToCheck : Nat) : List Nat → Option (List Nat)
  | [] => none
  | possibleEqualNode :: nodeChildren =>
    if constraintsEqual (deref heap nodeToCheck).data (deref heap possibleEqualNode).data
        (engineFlag (deref heap nodeToCheck).data.type) then
      some nodeChildren
    else
      (eraseFirstEqual heap nodeToCheck nodeChildren).map (fun r => possibleEqualNode :: r)

/-- The outer `i` loop of `descendentsAreSuperset` followed by the final test
`otherChildren.size() == 0`.  A successful round erases `otherChildren[i]` and
steps `i` back, so the loop always examines the head of `otherChildren`. -/
def supersetLoop (heap : Heap) : List Nat → List Nat → Bool
  | [], _ => true
  | nodeToCheck :: otherChildren, nodeChildren =>
    match eraseFirstEqual heap nodeToCheck nodeChildren with
    | none => false
    | some nodeChildren1 => supersetLoop heap otherChildren nodeChildren1

/-- The descendant list of a node as `descendentsAreSuperset` gathers it.  The
recursion budget `heap.length + 1` is enough whenever the children edges are
acyclic (`gatherDescendents_total`). -/
def descendents (heap : Heap) (node : Nat) : Except Fault (List Nat) :=
  gatherDescendents heap (heap.length + 1) node []

/-- The function `descendentsAreSuperset(nodeToAdd, otherNode)`. -/
def descendentsAreSuperset (heap : Heap) (nodeToAdd otherNode : Nat) : Except Fault Bool :=
  match descendents heap nodeToAdd, descendents heap otherNode with
  | .ok nodeChildren, .ok otherChildren => .ok (supersetLoop heap otherChildren nodeChildren)
  | .error e, _ => .error e
  | _, .error e => .error e

/-! ## Service state -/

/-- The members of `IcarousCommunicationService` the engine works on, together
with the nodes allocated so far. -/
structure Service where
  heap : Heap
  nodeCombosThisIteration : List (List Nat)
  rulesAppliedThisIteration : List inferenceRule
  ruleList : List inferenceRule
  /-- What lies in memory behind the copy of a kind vector that is handed to
  `sliceRequirementIDs`: the words that read as kinds, up to the first word
  that is no kind.  The source does not fix them; the embedding keeps them
  the same for every copy made during a run. -/
  wordsBehind : List constraintTypes
  deriving DecidableEq, Repr, Inhabited

/-! ## `ruleApplies` (cpp lines 280-363) -/

/-- Local variables of the search for the remaining requirement slots. -/
structure SlotScan where
  applicableNodes : List Nat
  nodeFound : Bool
  remainingRequirements : List constraintTypes
  pos : Nat
  deriving DecidableEq, Repr, Inhabited

/-- One round of the loop `for(int j = 0; j < constraintGraph.size(); j++)`
(cpp lines 319-332). -/
def otherNodeStep (heap : Heap) (currNode : Nat) (currType : constraintTypes)
    (requirementSlice : List Int) (scan : SlotScan) (otherNode : Nat) : SlotScan :=
  if decide ((deref heap otherNode).data.type = currType)
      && vectorIntsEqual (deref heap otherNode).data.groupIDs requirementSlice
          (engineFlag currType)
      && decide (currNode ≠ otherNode) then
    { applicableNodes := scan.applicableNodes ++ [otherNode]
      nodeFound := true
      remainingRequirements := (invalidateRun currType scan.pos scan.remainingRequirements).1
      pos := (invalidateRun currType scan.pos scan.remainingRequirements).2 }
  else scan

/-- The loop `while(!vectorContainsOnlyConstraintTypes(invalid, remainingRequirements))`
(cpp lines 309-337).  `some nodes` is the completed `applicableNodes`; `none`
means that a slot found no node, where `ruleApplies` returns false. -/
def remainingLoop (heap : Heap) (behind : List constraintTypes) (ruleToCheck : inferenceRule)
    (constraintGraph : List Nat) (currNode : Nat) :
    Nat → List constraintTypes → List Nat → Except Fault (Option (List Nat))
  | 0, _, _ => .error Fault.fuel
  | fuel + 1, remainingRequirements, applicableNodes =>
    if vectorContainsOnlyConstraintTypes constraintTypes.invalid remainingRequirements then
      .ok (some applicableNodes)
    else
      match findNextConstraintTypeWithPosition remainingRequirements with
      | .error e => .error e
      | .ok (currType, pos) =>
        match sliceRequirementIDs behind pos ruleToCheck.requirementTypes
            ruleToCheck.requirementIDs with
        | .error e => .error e
        | .ok requirementSlice =>
          let scan := constraintGraph.foldl
            (otherNodeStep heap currNode currType requirementSlice)
            { applicableNodes := applicableNodes
              nodeFound := false
              remainingRequirements := remainingRequirements
              pos := pos }
          if !scan.nodeFound then .ok none
          else remainingLoop heap behind ruleToCheck constraintGraph currNode fuel
            scan.remainingRequirements scan.applicableNodes

/-- The pairs `(currNode, i)` in the order in which the two outer loops of
`ruleApplies` visit them. -/
def anchorPositions (ruleToCheck : inferenceRule) (constraintGraph : List Nat) :
    List (Nat × Nat) :=
  constraintGraph.flatMap
    (fun currNode => (List.range ruleToCheck.requirementTypes.length).map
      (fun i => (currNode, i)))

/-- The body of the two outer loops of `ruleApplies`, run over the remaining
`(currNode, i)` pairs; the flag carried along is `anyNodeFound`.  The result
is the returned boolean with the updated state. -/
def ruleAppliesLoop (ruleToCheck : inferenceRule) (constraintGraph : List Nat) :
    List (Nat × Nat) → Bool → Service → Except Fault (Bool × Service)
  | [], anyNodeFound, sv => .ok (anyNodeFound, sv)
  | (currNode, i) :: rest, anyNodeFound, sv =>
    match sliceRequirementIDs sv.wordsBehind i ruleToCheck.requirementTypes
        ruleToCheck.requirementIDs with
    | .error e => .error e
    | .ok requirementSlice =>
      if requirementSlice.length = 0 then .ok (false, sv)
      else if decide (ruleToCheck.requirementTypes.get? i
              = some (deref sv.heap currNode).data.type)
          && vectorIntsEqual (deref sv.heap currNode).data.groupIDs requirementSlice
              (engineFlag (deref sv.heap currNode).data.type) then
        match remainingLoop sv.heap sv.wordsBehind ruleToCheck constraintGraph currNode
            (ruleToCheck.requirementTypes.length + 1)
            (invalidateRun (deref sv.heap currNode).data.type i
              ruleToCheck.requirementTypes).1
            [currNode] with
        | .error e => .error e
        | .ok none => .ok (false, sv)
        | .ok (some applicableNodes) =>
          if sv.nodeCombosThisIteration.any
              (fun combo => nodeCombosEqual sv.heap applicableNodes combo) then
            ruleAppliesLoop ruleToCheck constraintGraph rest true sv
          else
            ruleAppliesLoop ruleToCheck constraintGraph rest true
              { sv with
                nodeCombosThisIteration := sv.nodeCombosThisIteration ++ [applicableNodes]
                rulesAppliedThisIteration := sv.rulesAppliedThisIteration ++ [ruleToCheck] }
      else ruleAppliesLoop ruleToCheck constraintGraph rest anyNodeFound sv

/-- The function `ruleApplies(ruleToCheck, constraintGraph)`; `none` is the
`NULL` rule. -/
def ruleApplies (ruleToCheck : Option inferenceRule) (constraintGraph : List Nat)
    (sv : Service) : Except Fault (Bool × Service) :=
  match ruleToCheck with
  | none => .ok (true, { sv with nodeCombosThisIteration := [] })
  | some rule =>
    ruleAppliesLoop rule constraintGraph (anchorPositions rule constraintGraph) false sv

/-! ## `checkCompatibility` (cpp lines 406-582) -/

/-- Overwrite the node at address `p` with `f` of it. -/
def modifyAt (f : constraintNode → constraintNode) : Nat → Heap → Heap
  | _, [] => []
  | 0, n :: heap => f n :: heap
  | p + 1, n :: heap => n :: modifyAt f p heap

/-- The wiring loop `for(currNode : currentCombo)`: `nodeToAdd->children.push_back(currNode)`
and `currNode->parents.push_back(nodeToAdd)`. -/
def wire (nodeToAdd : Nat) (currentCombo : List Nat) (heap : Heap) : Heap :=
  currentCombo.foldl
    (fun h currNode =>
      modifyAt (fun n => { n with parents := n.parents ++ [nodeToAdd] }) currNode
        (modifyAt (fun n => { n with children := n.children ++ [currNode] }) nodeToAdd h))
    heap

/-- The undo of the wiring: `nodeToAdd->children.clear()` and
`currNode->parents.pop_back()` for every node of the combination. -/
def unwire (nodeToAdd : Nat) (currentCombo : List Nat) (heap : Heap) : Heap :=
  currentCombo.foldl
    (fun h currNode => modifyAt (fun n => { n with parents := n.parents.dropLast }) currNode h)
    (modifyAt (fun n => { n with children := [] }) nodeToAdd heap)

/-- The loops `while(currType == kind && i < size){ currType = resultTypes[i];
push_back(resultIDs[i++]); }` of the centroid and monitor branches, run on the
parts of both vectors from `i` on.  The kind is tested before the element is
read, so the element that ends the run is pushed as well. -/
def slotLoop (kind : constraintTypes) :
    constraintTypes → List constraintTypes → List Int → Except Fault (List Int)
  | _, [], _ => .ok []
  | currType, t :: resultTypes, ids =>
    if currType = kind then
      match ids with
      | [] => .error Fault.undefined
      | x :: ids1 => (slotLoop kind t resultTypes ids1).map (fun pushed => x :: pushed)
    else .ok []

/-- Read `resultIDs[i]`; an index outside the vector is a fault. -/
def idAt (ids : List Int) (i : Nat) : Except Fault Int :=
  match ids.get? i with
  | none => .error Fault.undefined
  | some x => .ok x

/-- A freshly built `constraint`: only the fields the branch assigns are set. -/
def freshConstraint (t : constraintTypes) (groupIDs monitorIDs : List Int) : constraint :=
  { type := t, centroidX := 0, centroidY := 0, groupIDs := groupIDs,
    monitorIDs := monitorIDs, monitorDistances := [] }

/-- The part of one round of the result loop that fills `nodeToAdd->data` from
`resultTypes[i]` on.  `some (c, i1)` is the constraint with the value of `i`
when the branch reaches its wiring loop; `none` is the final `else` branch
(no known kind). -/
def decodeResult (currRule : inferenceRule) (i : Nat) (currType : constraintTypes) :
    Except Fault (Option (constraint × Nat)) :=
  match currType with
  | constraintTypes.global =>
    match idAt currRule.resultIDs i with
    | .error e => .error e
    | .ok x => .ok (some (freshConstraint constraintTypes.global [x] [], i))
  | constraintTypes.centroid =>
    match slotLoop constraintTypes.centroid constraintTypes.centroid
        (currRule.resultTypes.drop i) (currRule.resultIDs.drop i) with
    | .error e => .error e
    | .ok pushed =>
      .ok (some (freshConstraint constraintTypes.centroid pushed [], i + pushed.length))
  | constraintTypes.monitor =>
    match idAt currRule.resultIDs i with
    | .error e => .error e
    | .ok x =>
      match slotLoop constraintTypes.monitor constraintTypes.monitor
          (currRule.resultTypes.drop (i + 1)) (currRule.resultIDs.drop (i + 1)) with
      | .error e => .error e
      | .ok pushed =>
        .ok (some (freshConstraint constraintTypes.monitor [x] pushed, i + 1 + pushed.length))
  | constraintTypes.relative =>
    match idAt currRule.resultIDs i, idAt currRule.resultIDs (i + 1) with
    | .ok x, .ok y => .ok (some (freshConstraint constraintTypes.relative [x, y] [], i + 1))
    | .error e, _ => .error e
    | _, .error e => .error e
  | constraintTypes.invalid => .ok none

/-- The local variables of one sweep of `checkCompatibility` that the result
loop changes: the heap, the callee's copy of `constraintGraph`, and
`continueLoop`. -/
structure Sweep where
  heap : Heap
  constraintGraph : List Nat
  continueLoop : Bool
  deriving DecidableEq, Repr, Inhabited

/-- How a loop of `checkCompatibility` was left. -/
inductive Exit where
  /-- The loop ran to its end. -/
  | running
  /-- Left by `return false` of a contradiction branch (the memo is cleared). -/
  | contradiction
  /-- Left by `return false` of the unknown-kind branch (the memo is kept). -/
  | invalidKind
  deriving DecidableEq, Repr, Inhabited

/-- The three-way branch that ends each of the four kind branches: wire the
combination under `nodeToAdd`, then accept the node, drop it as redundant, or
report a contradiction. -/
def resolve (nodeToAdd : Nat) (currentCombo : List Nat) (sw : Sweep) :
    Except Fault (Exit × Sweep) :=
  match nodeIsPresentInGraph (wire nodeToAdd currentCombo sw.heap) nodeToAdd
      sw.constraintGraph with
  | none =>
    .ok (Exit.running,
      { heap := wire nodeToAdd currentCombo sw.heap
        constraintGraph := sw.constraintGraph ++ [nodeToAdd]
        continueLoop := true })
  | some otherNode =>
    match descendentsAreSuperset (wire nodeToAdd currentCombo sw.heap) nodeToAdd otherNode with
    | .error e => .error e
    | .ok true =>
      .ok (Exit.running,
        { sw with heap := unwire nodeToAdd currentCombo (wire nodeToAdd currentCombo sw.heap) })
    | .ok false =>
      .ok (Exit.contradiction,
        { sw with heap := unwire nodeToAdd currentCombo (wire nodeToAdd currentCombo sw.heap) })

/-- The loop `for(int i = 0; i < currRule.resultTypes.size(); i++)`.  Every
round allocates `nodeToAdd` (the next free address) and advances `i` by at
least one, so `resultTypes.size()` rounds of budget are enough. -/
def resultLoop (currentCombo : List Nat) (currRule : inferenceRule) :
    Nat → Nat → Sweep → Except Fault (Exit × Sweep)
  | 0, i, sw =>
    if i < currRule.resultTypes.length then .error Fault.fuel else .ok (Exit.running, sw)
  | fuel + 1, i, sw =>
    match currRule.resultTypes.get? i with
    | none => .ok (Exit.running, sw)
    | some currType =>
      match decodeResult currRule i currType with
      | .error e => .error e
      | .ok none =>
        .ok (Exit.invalidKind,
          { sw with heap := sw.heap ++ [{ data := default, parents := [], children := [] }] })
      | .ok (some (c, i1)) =>
        match resolve sw.heap.length currentCombo
            { sw with heap := sw.heap ++ [{ data := c, parents := [], children := [] }] } with
        | .error e => .error e
        | .ok (Exit.running, sw1) => resultLoop currentCombo currRule fuel (i1 + 1) sw1
        | .ok (exit, sw1) => .ok (exit, sw1)

/-- The loop `for(int j = 0; j < nodeCombosThisIteration.size(); j++)`, run over
the combinations from index `j` on; `rulesAppliedThisIteration[j]` outside the
vector is a fault. -/
def comboLoop (rulesAppliedThisIteration : List inferenceRule) :
    List (List Nat) → Nat → Sweep → Except Fault (Exit × Sweep)
  | [], _, sw => .ok (Exit.running, sw)
  | currentCombo :: combos, j, sw =>
    match rulesAppliedThisIteration.get? j with
    | none => .error Fault.undefined
    | some currRule =>
      match resultLoop currentCombo currRule currRule.resultTypes.length 0 sw with
      | .error e => .error e
      | .ok (Exit.running, sw1) => comboLoop rulesAppliedThisIteration combos (j + 1) sw1
      | .ok (exit, sw1) => .ok (exit, sw1)

/-- The loop `for(inferenceRule currRule : ruleList)` with the flag
`continueLoop` it sets. -/
def rulesLoop (constraintGraph : List Nat) :
    List inferenceRule → Bool → Service → Except Fault (Bool × Service)
  | [], continueLoop, sv => .ok (continueLoop, sv)
  | currRule :: rules, continueLoop, sv =>
    match ruleApplies (some currRule) constraintGraph sv with
    | .error e => .error e
    | .ok (true, sv1) => rulesLoop constraintGraph rules true sv1
    | .ok (false, sv1) => rulesLoop constraintGraph rules continueLoop sv1

/-- What a call of `checkCompatibility` leaves behind: the returned boolean,
the service state, and the callee's own copy of `constraintGraph` (the
parameter is passed by value, the caller's vector is not changed). -/
structure Verdict where
  accepted : Bool
  service : Service
  constraintGraph : List Nat
  deriving DecidableEq, Repr, Inhabited

/-- The function `checkCompatibility(constraintGraph)`; `fuel` bounds the
number of rounds of `while(continueLoop)`. -/
def checkCompatibility : Nat → Service → List Nat → Except Fault Verdict
  | 0, _, _ => .error Fault.fuel
  | fuel + 1, sv, constraintGraph =>
    match rulesLoop constraintGraph sv.ruleList false sv with
    | .error e => .error e
    | .ok (false, sv1) =>
      .ok { accepted := true
            service := { sv1 with nodeCombosThisIteration := []
                                  rulesAppliedThisIteration := [] }
            constraintGraph := constraintGraph }
    | .ok (true, sv1) =>
      match comboLoop sv1.rulesAppliedThisIteration sv1.nodeCombosThisIteration 0
          { heap := sv1.heap, constraintGraph := constraintGraph, continueLoop := false } with
      | .error e => .error e
      | .ok (Exit.invalidKind, sw) =>
        .ok { accepted := false
              service := { sv1 with heap := sw.heap }
              constraintGraph := sw.constraintGraph }
      | .ok (Exit.contradiction, sw) =>
        .ok { accepted := false
              service := { sv1 with heap := sw.heap
                                    nodeCombosThisIteration := []
                                    rulesAppliedThisIteration := [] }
              constraintGraph := sw.constraintGraph }
      | .ok (Exit.running, sw) =>
        if sw.continueLoop then
          checkCompatibility fuel
            { sv1 with heap := sw.heap
                       nodeCombosThisIteration := []
                       rulesAppliedThisIteration := [] }
            sw.constraintGraph
        else
          .ok { accepted := true
                service := { sv1 with heap := sw.heap
                                      nodeCombosThisIteration := []
                                      rulesAppliedThisIteration := [] }
                constraintGraph := sw.constraintGraph }

/-! ## Vocabulary of the specification -/

/-- The node at address `c` is a child of the node at address `p`. -/
def childEdge (heap : Heap) (p c : Nat) : Prop :=
  c ∈ (deref heap p).children

/-- Membership in the descendant set: `q` is `p` itself or is reached from `p`
through children edges. -/
def Reaches (heap : Heap) : Nat → Nat → Prop :=
  Relation.ReflTransGen (childEdge heap)

/-- The children edges form no cycle. -/
def Acyclic (heap : Heap) : Prop :=
  ∀ p, ¬ Relation.TransGen (childEdge heap) p p

/-- Structural equality of the constraints of two nodes as the engine tests it:
`constraintsEqual(*a->data, *b->data, a->data->type != centroid)`. -/
def nodesEqual (heap : Heap) (a b : Nat) : Bool :=
  constraintsEqual (deref heap a).data (deref heap b).data
    (engineFlag (deref heap a).data.type)

/-- The test of `nodeIsPresentInGraph` on one graph node: a node other than
`nodeToAdd` whose constraint equals that of `nodeToAdd`. -/
def presentAt (heap : Heap) (nodeToAdd currNode : Nat) : Prop :=
  currNode ≠ nodeToAdd ∧
    constraintsEqual (deref heap currNode).data (deref heap nodeToAdd).data
      (engineFlag (deref heap nodeToAdd).data.type) = true

/-- The number of entries of a list of nodes whose constraint is structurally
equal to `c`. -/
def countEqual (heap : Heap) (c : constraint) (nodes : List Nat) : Nat :=
  nodes.countP (fun e => constraintsEqual c (deref heap e).data (engineFlag c.type))

/-- Every child address is smaller than the address of its parent (a node is
wired only to nodes allocated before it). -/
def childrenBelow (heap : Heap) : Bool :=
  (List.range heap.length).all
    (fun p => (deref heap p).children.all (fun c => decide (c < p)))

/-! ## Concrete inputs -/

/-- A node without edges holding the given constraint. -/
def leafNode (c : constraint) : constraintNode :=
  { data := c, parents := [], children := [] }

/-- A heap in which node 4 reaches node 0 along two child paths (through 1 and
through 2) and node 5 reaches it along one (through 1); nodes 2 and 3 hold the
same Relative, nodes 4 and 5 the same Centroid. -/
def diamondHeap : Heap :=
  [ leafNode (freshConstraint constraintTypes.global [1] []),
    { data := freshConstraint constraintTypes.relative [1, 2] [], parents := [], children := [0] },
    { data := freshConstraint constraintTypes.relative [1, 3] [], parents := [], children := [0] },
    leafNode (freshConstraint constraintTypes.relative [1, 3] []),
    { data := freshConstraint constraintTypes.centroid [1, 2] [], parents := [],
      children := [1, 2] },
    { data := freshConstraint constraintTypes.centroid [1, 2] [], parents := [],
      children := [1, 3] } ]

/-- The rule `monitor{ids} -> relative{ids}` as `start` writes it (cpp lines
602-606): both patterns are one run of two entries. -/
def monitorRule (x y : Int) : inferenceRule :=
  { requirementIDs := [x, y]
    requirementTypes := [constraintTypes.monitor, constraintTypes.monitor]
    resultIDs := [x, y]
    resultTypes := [constraintTypes.relative, constraintTypes.relative] }

/-- The candidate `Monitor(subject, target)` as the harness builds it (cpp lines
3025-3034): `groupIDs = [subject, target]`, `monitorIDs = [target]`. -/
def monitorTask (subject target : Int) : constraint :=
  freshConstraint constraintTypes.monitor [subject, target] [target]

/-- Scenario A: the graph holds `Monitor(1,2)` (node 0) and `Monitor(2,1)`
(node 1); the rule list holds `monitor{1,2} -> relative{1,2}` and
`monitor{2,1} -> relative{2,1}`. -/
def scenarioA : Service :=
  { heap := [leafNode (monitorTask 1 2), leafNode (monitorTask 2 1)]
    nodeCombosThisIteration := []
    rulesAppliedThisIteration := []
    ruleList := [monitorRule 1 2, monitorRule 2 1]
    wordsBehind := [] }

/-! ## The assignor loop of `start` (cpp lines 3119-3186) -/

/-- The function `vectorContainsInt(needle, haystack)` (cpp lines 124-133). -/
def vectorContainsInt (needle : Int) : List Int → Bool
  | [] => false
  | toCheck :: haystack =>
    if toCheck = needle then true else vectorContainsInt needle haystack

/-- The assignment `v[i] = x`; an index outside the vector is a fault. -/
def writeAt (v : List Int) (i : Nat) (x : Int) : Except Fault (List Int) :=
  if i < v.length then .ok (v.set i x) else .error Fault.undefined

/-- The variables the assignor loop works on: the service, its members
`monitoringIDs` and `vehicleIDs`, and the locals of `start`. -/
structure Assignor where
  service : Service
  monitoringIDs : List Int
  vehicleIDs : List Int
  constraintGraph : List Nat
  centroidOptions : List Nat
  monitorOptions : List Nat
  centroidTaskToTry : Nat
  monitorTaskToTry : Nat
  centroidTasksTried : List Int
  monitorTasksTried : List Int
  centroidsAssigned : Int
  monitorsAssigned : Int
  continueLoopCentroid : Bool
  continueLoopMonitor : Bool
  deriving DecidableEq, Repr, Inhabited

/-- The rejecting branches of the centroid turn: `constraintGraph.pop_back()`
(which leaves `graph`, the vector before the candidate was pushed),
`centroidTasksTried[centroidTaskToTry] = 1` with the cursor already advanced,
and the test for a remaining `0`. -/
def rejectCentroid (st : Assignor) (sv : Service) (graph : List Nat) (cursor : Nat)
    (continueLoopCentroid : Bool) : Except Fault Assignor :=
  match writeAt st.centroidTasksTried cursor 1 with
  | .error e => .error e
  | .ok tried =>
    .ok { st with
          service := sv
          constraintGraph := graph
          centroidTaskToTry := cursor
          centroidTasksTried := tried
          continueLoopCentroid :=
            if !vectorContainsInt 0 tried then false else continueLoopCentroid }

/-- The constraint of the candidate the cursor points at:
`options[taskToTry]->data`; `none` when the cursor is outside the pool. -/
def candidate (st : Assignor) (options : List Nat) (taskToTry : Nat) : Option constraint :=
  (options.get? taskToTry).map (fun option => (deref st.service.heap option).data)

/-- The tentative insertion of a turn: `nodeToAdd = new constraintNode` holding
the candidate, `constraintGraph.push_back(nodeToAdd)`, and the call
`checkCompatibility(constraintGraph)`, which receives a copy of the vector. -/
def tentativeCheck (checkFuel : Nat) (st : Assignor) (c : constraint) : Except Fault Verdict :=
  checkCompatibility checkFuel
    { st.service with heap := st.service.heap ++ [leafNode c] }
    (st.constraintGraph ++ [st.service.heap.length])

/-- The accepting branches of the centroid turn: the candidate stays in the
graph and `committed` is pushed on `monitoringIDs`. -/
def keepCentroid (st : Assignor) (sv : Service) (committed : Int) : Assignor :=
  { st with
    service := sv
    constraintGraph := st.constraintGraph ++ [st.service.heap.length]
    centroidTaskToTry := st.centroidTaskToTry + 1
    continueLoopCentroid :=
      if st.centroidTaskToTry + 1 = st.centroidOptions.length then false
      else st.continueLoopCentroid
    centroidsAssigned := st.centroidsAssigned + 1
    monitoringIDs := st.monitoringIDs ++ [committed] }

/-- The body of `if(continueLoopCentroid)` (cpp lines 3125-3161); `checkFuel`
is the sweep budget given to `checkCompatibility`. -/
def centroidTurn (checkFuel : Nat) (st : Assignor) : Except Fault Assignor :=
  match candidate st st.centroidOptions st.centroidTaskToTry with
  | none => .error Fault.undefined
  | some c =>
    match tentativeCheck checkFuel st c with
    | .error e => .error e
    | .ok v =>
      if v.accepted then
        match c.groupIDs.get? 0, c.groupIDs.get? 1 with
        | some g0, some g1 =>
          if vectorContainsInt g0 st.monitoringIDs
              && !vectorContainsInt g1 st.monitoringIDs then
            .ok (keepCentroid st v.service g1)
          else if vectorContainsInt g1 st.monitoringIDs
              && !vectorContainsInt g0 st.monitoringIDs then
            .ok (keepCentroid st v.service g0)
          else
            rejectCentroid st v.service st.constraintGraph (st.centroidTaskToTry + 1)
              (if st.centroidTaskToTry + 1 = st.centroidOptions.length then false
                else st.continueLoopCentroid)
        | _, _ => .error Fault.undefined
      else
        rejectCentroid st v.service st.constraintGraph (st.centroidTaskToTry + 1)
          (if st.centroidTaskToTry + 1 = st.centroidOptions.length then false
            else st.continueLoopCentroid)

/-- The rejecting branch of the monitor turn: `constraintGraph.pop_back()`,
`monitorTasksTried[monitorTaskToTry] = 1` with the cursor already advanced, and
the test for a remaining `0`. -/
def rejectMonitor (st : Assignor) (sv : Service) (graph : List Nat) (cursor : Nat)
    (continueLoopMonitor : Bool) : Except Fault Assignor :=
  match writeAt st.monitorTasksTried cursor 1 with
  | .error e => .error e
  | .ok tried =>
    .ok { st with
          service := sv
          constraintGraph := graph
          monitorTaskToTry := cursor
          monitorTasksTried := tried
          continueLoopMonitor :=
            if !vectorContainsInt 0 tried then false else continueLoopMonitor }

/-- The accepting branch of the monitor turn: the candidate stays in the graph
and its subject is pushed on `monitoringIDs` (and on `vehicleIDs` if new). -/
def keepMonitor (st : Assignor) (sv : Service) (g0 : Int) : Assignor :=
  { st with
    service := sv
    constraintGraph := st.constraintGraph ++ [st.service.heap.length]
    monitorTaskToTry := st.monitorTaskToTry + 1
    continueLoopMonitor :=
      if st.monitorTaskToTry + 1 = st.monitorOptions.length then false
      else st.continueLoopMonitor
    monitorsAssigned := st.monitorsAssigned + 1
    monitoringIDs := st.monitoringIDs ++ [g0]
    vehicleIDs :=
      if !vectorContainsInt g0 st.vehicleIDs then st.vehicleIDs ++ [g0] else st.vehicleIDs }

/-- The body of `if(continueLoopMonitor)` (cpp lines 3162-3184).  The test
`!vectorContainsInt(groupIDs[0], monitoringIDs) && checkCompatibility(...)`
does not call `checkCompatibility` when the subject is already committed; the
candidate node has been allocated and pushed by then. -/
def monitorTurn (checkFuel : Nat) (st : Assignor) : Except Fault Assignor :=
  match candidate st st.monitorOptions st.monitorTaskToTry with
  | none => .error Fault.undefined
  | some c =>
    match c.groupIDs.get? 0 with
    | none => .error Fault.undefined
    | some g0 =>
      if vectorContainsInt g0 st.monitoringIDs then
        rejectMonitor st
          { st.service with heap := st.service.heap ++ [leafNode c] }
          st.constraintGraph (st.monitorTaskToTry + 1)
          (if st.monitorTaskToTry + 1 = st.monitorOptions.length then false
            else st.continueLoopMonitor)
      else
        match tentativeCheck checkFuel st c with
        | .error e => .error e
        | .ok v =>
          if v.accepted then .ok (keepMonitor st v.service g0)
          else
            rejectMonitor st v.service st.constraintGraph (st.monitorTaskToTry + 1)
              (if st.monitorTaskToTry + 1 = st.monitorOptions.length then false
                else st.continueLoopMonitor)

/-- One round of `while(continueLoop)`: the centroid turn if its flag is set,
then the monitor turn if its flag is set. -/
def assignorRound (checkFuel : Nat) (st : Assignor) : Except Fault Assignor :=
  match (if st.continueLoopCentroid then centroidTurn checkFuel st else .ok st) with
  | .error e => .error e
  | .ok st1 => if st1.continueLoopMonitor then monitorTurn checkFuel st1 else .ok st1

/-- The loop `while(continueLoop)` of `start`, entered with both flags as the
state holds them; `fuel` bounds the number of rounds. -/
def assignorLoop (checkFuel : Nat) : Nat → Assignor → Except Fault Assignor
  | 0, st =>
    if st.continueLoopCentroid || st.continueLoopMonitor then .error Fault.fuel else .ok st
  | fuel + 1, st =>
    if st.continueLoopCentroid || st.continueLoopMonitor then
      match assignorRound checkFuel st with
      | .error e => .error e
      | .ok st1 => assignorLoop checkFuel fuel st1
    else .ok st

/-! ## The final de-duplication pass of `start` (cpp lines 3188-3198) -/

/-- The inner `j` loop for a fixed `i`: the first index `j` other than `i`
whose constraint equals that of `constraintGraph[i]`; `graphRest` is the part
of the vector from index `j` on. -/
def firstEqualOther (heap : Heap) (nodeI : Nat) (i : Nat) : Nat → List Nat → Option Nat
  | _, [] => none
  | j, nodeJ :: graphRest =>
    if constraintsEqual (deref heap nodeI).data (deref heap nodeJ).data
          (engineFlag (deref heap nodeI).data.type)
        && decide (i ≠ j) then
      some j
    else firstEqualOther heap nodeI i (j + 1) graphRest

/-- The outer `i` loop: when the inner loop erases position `j` it steps `i`
back, so the next round looks at the same index again; otherwise `i` advances.
`fuel` bounds the number of rounds. -/
def dedupLoop (heap : Heap) : Nat → Nat → List Nat → Except Fault (List Nat)
  | 0, i, constraintGraph =>
    if i < constraintGraph.length then .error Fault.fuel else .ok constraintGraph
  | fuel + 1, i, constraintGraph =>
    match constraintGraph.get? i with
    | none => .ok constraintGraph
    | some nodeI =>
      match firstEqualOther heap nodeI i 0 constraintGraph with
      | some j => dedupLoop heap fuel i (constraintGraph.eraseIdx j)
      | none => dedupLoop heap fuel (i + 1) constraintGraph

/-- The de-duplication pass; every round erases an entry or advances `i`, so
twice the length of the vector is budget enough. -/
def dedupPass (heap : Heap) (constraintGraph : List Nat) : Except Fault (List Nat) :=
  dedupLoop heap (2 * constraintGraph.length) 0 constraintGraph

/-- Every node allocated in `h` is still present in `h1` with the same
constraint and the same children, and with its parents list extended at the
end only. -/
def HeapExtends (h h1 : Heap) : Prop :=
  h.length ≤ h1.length ∧
    ∀ p, p < h.length →
      (deref h1 p).data = (deref h p).data ∧
        (deref h1 p).children = (deref h p).children ∧
        (deref h p).parents <+: (deref h1 p).parents

/-- The test `ruleApplies` makes on the pair `(currNode, i)`: the kind of the
node is `requirementTypes[i]` and its `groupIDs` equal the slice cut at `i`. -/
def anchorMatches (heap : Heap) (behind : List constraintTypes) (ruleToCheck : inferenceRule)
    (currNode i : Nat) : Bool :=
  match sliceRequirementIDs behind i ruleToCheck.requirementTypes
      ruleToCheck.requirementIDs with
  | .error _ => false
  | .ok requirementSlice =>
    decide (ruleToCheck.requirementTypes.get? i = some (deref heap currNode).data.type)
      && vectorIntsEqual (deref heap currNode).data.groupIDs requirementSlice
          (engineFlag (deref heap currNode).data.type)

/-- The slice of the rule at position `i` is cut inside the id vector:
`sliceRequirementIDs` returns there. -/
def sliceDefined (behind : List constraintTypes) (rule : inferenceRule) (i : Nat) : Bool :=
  match sliceRequirementIDs behind i rule.requirementTypes rule.requirementIDs with
  | .ok _ => true
  | .error _ => false

/-- Every slice that `ruleApplies` can cut from the rule is cut inside the id
vector: `sliceRequirementIDs` returns at every position of the pattern. -/
def slicesDefined (behind : List constraintTypes) (rule : inferenceRule) : Bool :=
  (List.range rule.requirementTypes.length).all (sliceDefined behind rule)

/-- All addresses stored in the heap and in the graph are allocated. -/
def ValidPointers (heap : Heap) (graph : List Nat) : Prop :=
  (∀ p c, childEdge heap p c → c < heap.length) ∧ ∀ p ∈ graph, p < heap.length

/-- From `(h, g)` to `(h1, g1)` the heap is extended and the graph vector has
only grown at its end, by nodes allocated in between. -/
def GraphGrows (h : Heap) (g : List Nat) (h1 : Heap) (g1 : List Nat) : Prop :=
  HeapExtends h h1 ∧
    ∃ added, g1 = g ++ added ∧ ∀ x ∈ added, h.length ≤ x ∧ x < h1.length

/-! ## Concrete inputs of the assignor scenarios -/

/-- An assignor state at the start of the loop: empty graph, both cursors at
0, both flags set, no id committed, tried vectors of the size of the pools
(cpp lines 3023-3024, 3049-3050 size them by the number of tasks). -/
def startState (heap : Heap) (wordsBehind : List constraintTypes) (rules : List inferenceRule)
    (centroidOptions monitorOptions : List Nat) : Assignor :=
  { service := { heap := heap, nodeCombosThisIteration := [],
                 rulesAppliedThisIteration := [], ruleList := rules,
                 wordsBehind := wordsBehind }
    monitoringIDs := []
    vehicleIDs := []
    constraintGraph := []
    centroidOptions := centroidOptions
    monitorOptions := monitorOptions
    centroidTaskToTry := 0
    monitorTaskToTry := 0
    centroidTasksTried := List.replicate centroidOptions.length 0
    monitorTasksTried := List.replicate monitorOptions.length 0
    centroidsAssigned := 0
    monitorsAssigned := 0
    continueLoopCentroid := true
    continueLoopMonitor := true }

/-- Scenario C: a Centroid over `[1,2]` (node 0) and a Centroid over `[2,1]`
(node 1). -/
def scenarioCHeap : Heap :=
  [leafNode (freshConstraint constraintTypes.centroid [1, 2] []),
   leafNode (freshConstraint constraintTypes.centroid [2, 1] [])]

/-- A monitor pool holding `Monitor(1,2)` (node 0) with the rule
`monitor{1,2} -> relative{1,2}` loaded. -/
def oneMonitorState : Assignor :=
  startState [leafNode (monitorTask 1 2)] [] [monitorRule 1 2] [] [0]

/-- A monitor pool holding `Monitor(1,2)` and `Monitor(1,3)` (nodes 0 and 1)
while vehicle 1 is already committed to monitoring. -/
def committedState : Assignor :=
  { startState [leafNode (monitorTask 1 2), leafNode (monitorTask 1 3)] [] [] [] [0, 1] with
    monitoringIDs := [1] }

/-- The constraint the result loop builds when it reaches index `i` of the
result pattern of a rule, if it builds one. -/
def derivableAt (rule : inferenceRule) (i : Nat) : Option constraint :=
  match rule.resultTypes.get? i with
  | none => none
  | some t =>
    match decodeResult rule i t with
    | .ok (some (c, _)) => some c
    | _ => none

/-- Every constraint that a rule of the list can derive (one entry per rule and
index of its result pattern). -/
def derivable (rules : List inferenceRule) : List constraint :=
  rules.flatMap (fun r => (List.range r.resultTypes.length).filterMap (derivableAt r))

/-- Some node of the graph has a constraint equal to `u`: a fresh node holding
`u` would be found present. -/
def covered (heap : Heap) (graph : List Nat) (u : constraint) : Bool :=
  graph.any (fun p => constraintsEqual (deref heap p).data u (engineFlag u.type))

/-- The number of entries of `derivable` that no node of the graph equals: a
bound on the number of nodes `checkCompatibility` can still accept. -/
def missing (heap : Heap) (graph : List Nat) (rules : List inferenceRule) : Nat :=
  ((derivable rules).filter (fun u => !covered heap graph u)).length

/-- What every part of a sweep keeps: the state `sw1` reached from `sw` is
acyclic and valid, its graph contains the graph of `sw`, no more derivable
constraints are missing, and if `continueLoop` was set on the way then fewer
are missing. -/
def SweepStep (rules : List inferenceRule) (sw sw1 : Sweep) : Prop :=
  Acyclic sw1.heap ∧ ValidPointers sw1.heap sw1.constraintGraph ∧
    (∀ x ∈ sw.constraintGraph, x ∈ sw1.constraintGraph) ∧
    missing sw1.heap sw1.constraintGraph rules ≤ missing sw.heap sw.constraintGraph rules ∧
    (sw1.continueLoop = true → sw.continueLoop = true ∨
      missing sw1.heap sw1.constraintGraph rules < missing sw.heap sw.constraintGraph rules)


/-! ## Concrete inputs of the order scenarios -/

/-- The requirement pattern of the rule is one run: every kind of the pattern is
the same kind, that kind is not `invalid`, and there are at least as many
requirement ids as kinds, so the pattern asks for a single node. -/
def singleRun (rule : inferenceRule) : Bool :=
  match rule.requirementTypes with
  | [] => false
  | t :: types =>
    decide (t ≠ constraintTypes.invalid) && types.all (fun u => decide (u = t))
      && decide (rule.requirementTypes.length ≤ rule.requirementIDs.length)

/-- Scenario A with one recorded combination left in the memo: `[0]`, recorded
with the rule `monitor{1,2} -> relative{1,2}`. -/
def staleMemo : Service :=
  { scenarioA with
    nodeCombosThisIteration := [[0]]
    rulesAppliedThisIteration := [monitorRule 1 2] }

/-- A rule `monitor{1,2} -> monitor{1,2}`: its result pattern is one Monitor run
over the ids `[1, 2]`. -/
def monitorResultRule : inferenceRule :=
  { requirementIDs := [1, 2]
    requirementTypes := [constraintTypes.monitor, constraintTypes.monitor]
    resultIDs := [1, 2]
    resultTypes := [constraintTypes.monitor, constraintTypes.monitor] }

/-! ## Vocabulary and inputs of the turn claims -/

/-- The state `st1` is reached from `st` by turns of the assignor (centroid or
monitor turns, in any order), each with the sweep budget `checkFuel`. -/
inductive Later (checkFuel : Nat) : Assignor → Assignor → Prop where
  /-- No turn. -/
  | same (st : Assignor) : Later checkFuel st st
  /-- One more centroid turn. -/
  | centroid {st st1 st2 : Assignor} (h : Later checkFuel st st1)
      (ht : centroidTurn checkFuel st1 = .ok st2) : Later checkFuel st st2
  /-- One more monitor turn. -/
  | monitor {st st1 st2 : Assignor} (h : Later checkFuel st st1)
      (ht : monitorTurn checkFuel st1 = .ok st2) : Later checkFuel st st2

/-- A centroid pool holding a Centroid over `[1,2]` (node 0) and a Centroid over
`[3,4]` (node 1), no rule, while vehicle 1 is committed to monitoring. -/
def centroidPoolState : Assignor :=
  { startState
      [leafNode (freshConstraint constraintTypes.centroid [1, 2] []),
       leafNode (freshConstraint constraintTypes.centroid [3, 4] [])] [] [] [0, 1] [] with
    monitoringIDs := [1] }

/-! ## Vocabulary and inputs of the combination claims -/

/-- The number of contiguous same-kind runs of a pattern, i.e. the number of
its slots. -/
def runCount : List constraintTypes → Nat
  | [] => 0
  | [_] => 1
  | a :: b :: rest => (if a = b then 0 else 1) + runCount (b :: rest)

/-- The test the scan for one slot makes on `otherNode` (cpp lines 321-324): its
kind is the kind looked for, its `groupIDs` equal the slice, and it is not the
anchor node. -/
def slotTest (heap : Heap) (currNode : Nat) (currType : constraintTypes)
    (requirementSlice : List Int) (otherNode : Nat) : Bool :=
  decide ((deref heap otherNode).data.type = currType)
    && vectorIntsEqual (deref heap otherNode).data.groupIDs requirementSlice
        (engineFlag currType)
    && decide (currNode ≠ otherNode)

/-- What a recorded combination looks like: an anchor node of the graph that
matches the rule at a position `i`, alone, or (for an anchor at a later
position) followed by every node of the graph vector that passes the test of
the first slot. -/
def ComboShape (heap : Heap) (behind : List constraintTypes) (rule : inferenceRule)
    (g : List Nat) (combo : List Nat) : Prop :=
  ∃ n i, n ∈ g ∧ i < rule.requirementTypes.length ∧
    anchorMatches heap behind rule n i = true ∧
    (combo = [n] ∨
      ∃ t slice, 0 < i ∧ rule.requirementTypes.head? = some t ∧
        sliceRequirementIDs behind 0 rule.requirementTypes rule.requirementIDs = .ok slice ∧
        g.filter (slotTest heap n t slice) ≠ [] ∧
        combo = n :: g.filter (slotTest heap n t slice))

/-- A graph holding a Monitor as the deriver builds it, `groupIDs = [2]` and
`monitorIDs = [1]` (node 0), and the candidate `Monitor(1,2)` (node 1), with the
rule `monitor{1,2} -> relative{1,2}`. -/
def tailAnchorService : Service :=
  { heap := [leafNode (freshConstraint constraintTypes.monitor [2] [1]),
             leafNode (monitorTask 1 2)]
    nodeCombosThisIteration := []
    rulesAppliedThisIteration := []
    ruleList := [monitorRule 1 2]
    wordsBehind := [] }

/-! ## Result-pattern decoding -/

/-- The constraints that the loop over the result pattern fills in, in the order
of the rounds: one round decodes at `i` (`decodeResult`), and the next round
starts at the index the branch left `i` at, plus the `i++` of the `for`.  The
unknown-kind branch ends the loop. -/
def decodeAll (currRule : inferenceRule) : Nat → Nat → Except Fault (List constraint)
  | 0, i => if i < currRule.resultTypes.length then .error Fault.fuel else .ok []
  | fuel + 1, i =>
    match currRule.resultTypes.get? i with
    | none => .ok []
    | some currType =>
      match decodeResult currRule i currType with
      | .error e => .error e
      | .ok none => .ok []
      | .ok (some (c, i1)) => (decodeAll currRule fuel (i1 + 1)).map (fun cs => c :: cs)

/-- Result slots as the amended C26 words them (written from that text, to be
compared with `decodeAll`): the pattern is cut from left to right; a Global
entry is a slot of one id; two consecutive Relative entries are a slot of two
ids; a Centroid run or a Monitor run that ends the pattern is one slot with all
of its ids (Monitor: the first id in `groupIDs`, the others in `monitorIDs`).
A pattern that cannot be cut this way has no slots (`none`). -/
def resultSlots : List constraintTypes → List Int → Option (List constraint)
  | [], _ => some []
  | constraintTypes.global :: ts, x :: ids =>
    (resultSlots ts ids).map (fun cs => freshConstraint constraintTypes.global [x] [] :: cs)
  | constraintTypes.relative :: constraintTypes.relative :: ts, x :: y :: ids =>
    (resultSlots ts ids).map (fun cs => freshConstraint constraintTypes.relative [x, y] [] :: cs)
  | constraintTypes.centroid :: ts, ids =>
    if ts.all (fun u => decide (u = constraintTypes.centroid)) && ids.length == ts.length + 1 then
      some [freshConstraint constraintTypes.centroid ids []]
    else none
  | constraintTypes.monitor :: ts, x :: ids =>
    if ts.all (fun u => decide (u = constraintTypes.monitor)) && ids.length == ts.length then
      some [freshConstraint constraintTypes.monitor [x] ids]
    else none
  | _, _ => none

/-- A rule whose result pattern is one run of four Relative entries. -/
def relativeRunRule : inferenceRule :=
  { requirementIDs := [1, 2]
    requirementTypes := [constraintTypes.monitor, constraintTypes.monitor]
    resultIDs := [1, 2, 3, 4]
    resultTypes := [constraintTypes.relative, constraintTypes.relative,
      constraintTypes.relative, constraintTypes.relative] }

/-- A rule whose result pattern is a Centroid run followed by a Relative run. -/
def centroidThenRelativeRule : inferenceRule :=
  { requirementIDs := [1, 2]
    requirementTypes := [constraintTypes.monitor, constraintTypes.monitor]
    resultIDs := [1, 2, 3, 4]
    resultTypes := [constraintTypes.centroid, constraintTypes.centroid,
      constraintTypes.relative, constraintTypes.relative] }

/-- A rule whose result pattern has a Global slot, a Relative slot and a final
Centroid run of three. -/
def mixedResultRule : inferenceRule :=
  { requirementIDs := [1, 2]
    requirementTypes := [constraintTypes.monitor, constraintTypes.monitor]
    resultIDs := [5, 1, 2, 3, 4, 6]
    resultTypes := [constraintTypes.global, constraintTypes.relative, constraintTypes.relative,
      constraintTypes.centroid, constraintTypes.centroid, constraintTypes.centroid] }

/-- The sweep state of Scenario A before any derivation. -/
def sweepA : Sweep :=
  { heap := scenarioA.heap, constraintGraph := [0, 1], continueLoop := false }

/-! ## Vocabulary and inputs of the scanning claims -/

/-- The indices at which the test `haystack[startIndex] == typeToSlice` of
`sliceRequirementIDs` (cpp line 176) reads `haystack`, in the order of the
reads; the list argument is the part of `haystack` from `startIndex` on.  The
loop has no bound: when the run ends the vector, the next read is at index
`haystack.size()`. -/
def sliceProbes (typeToSlice : constraintTypes) : Nat → List constraintTypes → List Nat
  | startIndex, [] => [startIndex]
  | startIndex, t :: haystack =>
    startIndex ::
      (if t = typeToSlice then sliceProbes typeToSlice (startIndex + 1) haystack else [])

/-- A rule with three requirement kinds and two requirement ids. -/
def shortIdsRule : inferenceRule :=
  { requirementIDs := [1, 2]
    requirementTypes := [constraintTypes.monitor, constraintTypes.monitor,
      constraintTypes.centroid]
    resultIDs := [1, 2]
    resultTypes := [constraintTypes.relative, constraintTypes.relative] }

/-- A graph of two nodes, a Monitor with `groupIDs = [2]` (node 0) and a
Centroid over `[3, 4]` (node 1), with `shortIdsRule` loaded. -/
def shortIdsService : Service :=
  { heap := [leafNode (freshConstraint constraintTypes.monitor [2] [1]),
             leafNode (freshConstraint constraintTypes.centroid [3, 4] [])]
    nodeCombosThisIteration := []
    rulesAppliedThisIteration := []
    ruleList := [shortIdsRule]
    wordsBehind := [] }

/-- A graph of two Monitors with `groupIDs = [2]` (nodes 0 and 1), with the
rule `monitor{1,2} -> relative{1,2}` loaded. -/
def tailOnlyService : Service :=
  { heap := [leafNode (freshConstraint constraintTypes.monitor [2] [1]),
             leafNode (freshConstraint constraintTypes.monitor [2] [3])]
    nodeCombosThisIteration := []
    rulesAppliedThisIteration := []
    ruleList := [monitorRule 1 2]
    wordsBehind := [] }

/-! ## Concrete inputs of the assignor-loop claims -/

/-- Pools of one candidate each, a Centroid over `[1,2]` (node 0) and
`Monitor(1,3)` (node 1), with no rule loaded. -/
def singlePoolsState : Assignor :=
  startState
    [leafNode (freshConstraint constraintTypes.centroid [1, 2] []), leafNode (monitorTask 1 3)] []
    [] [0] [1]

/-- Pools of two candidates each: Centroids over `[5,6]` and `[1,2]` (nodes 0
and 1), `Monitor(1,3)` and `Monitor(3,1)` (nodes 2 and 3), with no rule
loaded. -/
def twoPoolsState : Assignor :=
  startState
    [leafNode (freshConstraint constraintTypes.centroid [5, 6] []),
     leafNode (freshConstraint constraintTypes.centroid [1, 2] []),
     leafNode (monitorTask 1 3), leafNode (monitorTask 3 1)] []
    [] [0, 1] [2, 3]

/-! ## Vocabulary of the output claims -/

/-- The first occurrence of each signature, as the specification words it: a
node of the list stays when no node before it in the list has a structurally
equal constraint.  `earlier` holds the nodes before the part still to be
looked at. -/
def firstOccurrencesFrom (heap : Heap) (earlier : List Nat) : List Nat → List Nat
  | [] => []
  | x :: rest =>
    if earlier.any (fun a => nodesEqual heap a x) then
      firstOccurrencesFrom heap (earlier ++ [x]) rest
    else x :: firstOccurrencesFrom heap (earlier ++ [x]) rest

/-- The first occurrences of a whole list. -/
def firstOccurrences (heap : Heap) (constraintGraph : List Nat) : List Nat :=
  firstOccurrencesFrom heap [] constraintGraph

/-- The constraints held by a list of nodes. -/
def constraintsOf (heap : Heap) (nodes : List Nat) : List constraint :=
  nodes.map (fun p => (deref heap p).data)

/-- Two constraints that the engine does not take for equal. -/
abbrev distinctConstraints (a b : constraint) : Prop :=
  constraintsEqual a b (engineFlag a.type) = false

/-- Where the nodes of the working graph come from: the pools are the ones the
loop started with, the heap extends the heap `heap0` of the start, the graph
nodes are allocated, and the constraints of the graph are, up to order, a
selection `gc` of the centroid candidates offered so far and a selection `gm`
of the monitor candidates offered so far, as many as the counters say. -/
def KeptFromPools (heap0 : Heap) (centroidOptions monitorOptions : List Nat)
    (st : Assignor) : Prop :=
  st.centroidOptions = centroidOptions ∧ st.monitorOptions = monitorOptions ∧
    HeapExtends heap0 st.service.heap ∧
    (∀ p ∈ st.constraintGraph, p < st.service.heap.length) ∧
    ∃ gc gm,
      List.Sublist gc ((constraintsOf heap0 centroidOptions).take st.centroidTaskToTry) ∧
        List.Sublist gm ((constraintsOf heap0 monitorOptions).take st.monitorTaskToTry) ∧
        (constraintsOf st.service.heap st.constraintGraph).Perm (gc ++ gm) ∧
        (gc.length : Int) = st.centroidsAssigned ∧ (gm.length : Int) = st.monitorsAssigned

/-! ## Vocabulary of the invariant claims -/

/-- The graph nodes are allocated and no two of them hold structurally equal
constraints. -/
def UniqueSignatures (h : Heap) (g : List Nat) : Prop :=
  (∀ p ∈ g, p < h.length) ∧ g.Pairwise (fun a b => nodesEqual h a b = false)

/-- Every node at an address from `n0` on has only children at smaller
addresses: a node built after the first `n0` is wired only to nodes that
existed before it. -/
def ChildrenBelowFrom (n0 : Nat) (h : Heap) : Prop :=
  ∀ p, n0 ≤ p → ∀ c ∈ (deref h p).children, c < p

/-- The invariant of the acyclicity claim: the children edges form no cycle,
the stored addresses are allocated, and the nodes built after the first `n0`
have only children at smaller addresses. -/
def AcyclicBelow (n0 : Nat) (h : Heap) (g : List Nat) : Prop :=
  Acyclic h ∧ ValidPointers h g ∧ ChildrenBelowFrom n0 h

/-- Two heaps with the same constraint and the same children list at every
address; they differ at most in the parents lists. -/
def SameButParents (h h2 : Heap) : Prop :=
  h2.length = h.length ∧
    ∀ p, (deref h2 p).data = (deref h p).data ∧ (deref h2 p).children = (deref h p).children

/-- Two sweep states with the same graph vector and flag whose heaps differ at
most in the parents lists. -/
def SameSweep (sw sw2 : Sweep) : Prop :=
  sw2.constraintGraph = sw.constraintGraph ∧ sw2.continueLoop = sw.continueLoop ∧
    SameButParents sw.heap sw2.heap

/-- The heap of Scenario A with parents lists filled with other addresses. -/
def scenarioAOtherParents : Heap :=
  scenarioA.heap.map (fun n => { n with parents := [7, 8] })

/-- The bookkeeping of the two cursors for pools of `nc` and `nm` candidates:
index 0 of both tried vectors holds `0`, each cursor is inside its pool or at
its end, and the flag of a pool is set exactly while its cursor is inside. -/
def Cursors (nc nm : Nat) (st : Assignor) : Prop :=
  st.centroidOptions.length = nc ∧ st.monitorOptions.length = nm ∧
    st.centroidTasksTried.head? = some 0 ∧ st.monitorTasksTried.head? = some 0 ∧
    st.centroidTaskToTry ≤ nc ∧ st.monitorTaskToTry ≤ nm ∧
    (st.continueLoopCentroid = true ↔ st.centroidTaskToTry < nc) ∧
    (st.continueLoopMonitor = true ↔ st.monitorTaskToTry < nm)

/-! ## Structural equality as the specification words it -/

/-- Structural equality of two constraints as the specification words it
(written from that text, to be compared with the engine test
`constraintsEqual` under the flag `type != centroid`): the kinds are equal;
the `groupIDs` are equal as a sequence for every kind except Centroid, where
they are equal up to order; for a Monitor the `monitorIDs` are equal as a
sequence as well. -/
def structurallyEqual (a b : constraint) : Bool :=
  decide (a.type = b.type) &&
    (if a.type = constraintTypes.centroid then a.groupIDs.isPerm b.groupIDs
      else decide (a.groupIDs = b.groupIDs)) &&
    (if a.type = constraintTypes.monitor then decide (a.monitorIDs = b.monitorIDs) else true)

/-- A Relative over `[1,2]` (node 0) and a Relative over `[2,1]` (node 1). -/
def swappedRelativeHeap : Heap :=
  [leafNode (freshConstraint constraintTypes.relative [1, 2] []),
   leafNode (freshConstraint constraintTypes.relative [2, 1] [])]

/-- The rule `monitor{1,2} -> centroid{a,b}`: one requirement run of two
Monitor entries, one result run of two Centroid entries. -/
def centroidResultRule (a b : Int) : inferenceRule :=
  { requirementIDs := [1, 2]
    requirementTypes := [constraintTypes.monitor, constraintTypes.monitor]
    resultIDs := [a, b]
    resultTypes := [constraintTypes.centroid, constraintTypes.centroid] }

/-- The graph `[Monitor(1,2)]` (node 0) with the rules
`monitor{1,2} -> centroid{1,2}` and `monitor{1,2} -> centroid{2,1}`. -/
def twoCentroidsService : Service :=
  { heap := [leafNode (monitorTask 1 2)]
    nodeCombosThisIteration := []
    rulesAppliedThisIteration := []
    ruleList := [centroidResultRule 1 2, centroidResultRule 2 1]
    wordsBehind := [] }

/-! ## Facts about `vectorIntsEqual` -/

theorem eraseFirst_none {x : Int} {right : List Int} :
    eraseFirst x right = none ↔ x ∉ right := by
  induction right with
  | nil => simp [eraseFirst]
  | cons y right ih =>
    by_cases h : x = y
    · simp [eraseFirst, h]
    · simp [eraseFirst, h, ih]

theorem eraseFirst_perm {x : Int} {right r : List Int}
    (h : eraseFirst x right = some r) : right.Perm (x :: r) := by
  induction right generalizing r with
  | nil => simp [eraseFirst] at h
  | cons y right ih =>
    by_cases hxy : x = y
    · simp [eraseFirst, hxy] at h
      subst h; subst hxy
      exact List.Perm.refl _
    · simp only [eraseFirst, hxy, if_false, Option.map_eq_some'] at h
      obtain ⟨r1, hr1, rfl⟩ := h
      exact ((ih hr1).cons y).trans (List.Perm.swap x y r1)

theorem matchLoop_iff_perm (left right : List Int) :
    matchLoop left right = true ↔ left.Perm right := by
  induction left generalizing right with
  | nil =>
    cases right <;> simp [matchLoop]
  | cons x left ih =>
    unfold matchLoop
    cases h : eraseFirst x right with
    | none =>
      have hx : x ∉ right := eraseFirst_none.mp h
      simp only [Bool.false_eq_true, false_iff]
      intro hp
      exact hx (hp.subset (List.mem_cons_self x left))
    | some r =>
      have hp := eraseFirst_perm h
      simp only [ih]
      constructor
      · intro hl
        exact (hl.cons x).trans hp.symm
      · intro hl
        exact (List.perm_cons x).mp (hl.trans hp)

theorem positionLoop_iff_eq (left right : List Int) (hlen : left.length = right.length) :
    positionLoop left right = true ↔ left = right := by
  induction left generalizing right with
  | nil =>
    cases right with
    | nil => simp [positionLoop]
    | cons y right => simp at hlen
  | cons x left ih =>
    cases right with
    | nil => simp at hlen
    | cons y right =>
      have hlen1 : left.length = right.length := by simpa using hlen
      by_cases hxy : x = y
      · simp [positionLoop, hxy, ih right hlen1]
      · simp [positionLoop, hxy]

theorem vectorIntsEqual_true_iff (left right : List Int) :
    vectorIntsEqual left right true = true ↔ left.Perm right := by
  unfold vectorIntsEqual
  by_cases hlen : left.length = right.length
  · simp [hlen, matchLoop_iff_perm]
  · simp only [ne_eq, hlen, not_false_eq_true, if_true, Bool.false_eq_true, false_iff]
    intro hp
    exact hlen hp.length_eq

theorem vectorIntsEqual_false_iff (left right : List Int) :
    vectorIntsEqual left right false = true ↔ left = right := by
  unfold vectorIntsEqual
  by_cases hlen : left.length = right.length
  · simp [hlen, positionLoop_iff_eq left right hlen]
  · simp only [ne_eq, hlen, not_false_eq_true, if_true, Bool.false_eq_true, false_iff]
    intro hp
    exact hlen (by rw [hp])

theorem vectorIntsEqual_comm (left right : List Int) (orderMatters : Bool) :
    vectorIntsEqual left right orderMatters = vectorIntsEqual right left orderMatters := by
  rw [Bool.eq_iff_iff]
  cases orderMatters with
  | true =>
    rw [vectorIntsEqual_true_iff, vectorIntsEqual_true_iff]
    exact List.perm_comm
  | false =>
    rw [vectorIntsEqual_false_iff, vectorIntsEqual_false_iff]
    exact eq_comm

/-- Unfolding of `constraintsEqual` as a conjunction. -/
theorem constraintsEqual_iff (a b : constraint) (f : Bool) :
    constraintsEqual a b f = true ↔
      a.type = b.type ∧ vectorIntsEqual a.groupIDs b.groupIDs f = true ∧
        (a.type = constraintTypes.monitor →
          vectorIntsEqual a.monitorIDs b.monitorIDs f = true) := by
  unfold constraintsEqual
  by_cases ht : a.type = b.type
  · by_cases hg : vectorIntsEqual a.groupIDs b.groupIDs f = true
    · by_cases hm : b.type = constraintTypes.monitor
      · by_cases hv : vectorIntsEqual a.monitorIDs b.monitorIDs f = true
        · simp [ht, hg, hv]
        · simp [ht, hg, hm, hv]
      · simp [ht, hg, hm]
    · simp [ht, hg]
  · simp [ht]

theorem constraintsEqual_comm (a b : constraint) (f : Bool) :
    constraintsEqual a b f = constraintsEqual b a f := by
  rw [Bool.eq_iff_iff, constraintsEqual_iff, constraintsEqual_iff,
    vectorIntsEqual_comm a.groupIDs, vectorIntsEqual_comm a.monitorIDs]
  constructor
  · rintro ⟨ht, hg, hm⟩
    exact ⟨ht.symm, hg, fun h => hm (ht.trans h)⟩
  · rintro ⟨ht, hg, hm⟩
    exact ⟨ht.symm, hg, fun h => hm (ht.trans h)⟩

theorem vectorIntsEqual_refl (l : List Int) (f : Bool) : vectorIntsEqual l l f = true := by
  cases f with
  | true => exact (vectorIntsEqual_true_iff l l).mpr (List.Perm.refl l)
  | false => exact (vectorIntsEqual_false_iff l l).mpr rfl

theorem vectorIntsEqual_trans {l m r : List Int} {f : Bool}
    (h1 : vectorIntsEqual l m f = true) (h2 : vectorIntsEqual m r f = true) :
    vectorIntsEqual l r f = true := by
  cases f with
  | true =>
    rw [vectorIntsEqual_true_iff] at *
    exact h1.trans h2
  | false =>
    rw [vectorIntsEqual_false_iff] at *
    exact h1.trans h2

/-- Engine equality of two constraints: `constraintsEqual` with the flag the
callers derive from the kind of the first one. -/
theorem constraintsEqual_engine_comm (a b : constraint) :
    constraintsEqual a b (engineFlag a.type) = constraintsEqual b a (engineFlag b.type) := by
  by_cases ht : a.type = b.type
  · rw [ht, constraintsEqual_comm]
  · have h1 : constraintsEqual a b (engineFlag a.type) = false := by
      simp [constraintsEqual, ht]
    have h2 : constraintsEqual b a (engineFlag b.type) = false := by
      simp [constraintsEqual, Ne.symm ht]
    rw [h1, h2]

theorem constraintsEqual_refl (a : constraint) (f : Bool) : constraintsEqual a a f = true := by
  rw [constraintsEqual_iff]
  exact ⟨rfl, vectorIntsEqual_refl _ _, fun _ => vectorIntsEqual_refl _ _⟩

theorem constraintsEqual_engine_trans {a b c : constraint}
    (h1 : constraintsEqual a b (engineFlag a.type) = true)
    (h2 : constraintsEqual b c (engineFlag b.type) = true) :
    constraintsEqual a c (engineFlag a.type) = true := by
  rw [constraintsEqual_iff] at *
  obtain ⟨t1, g1, m1⟩ := h1
  obtain ⟨t2, g2, m2⟩ := h2
  rw [← t1] at g2 m2
  exact ⟨t1.trans t2, vectorIntsEqual_trans g1 g2,
    fun hm => vectorIntsEqual_trans (m1 hm) (m2 hm)⟩

/-! ## Claims on the constraint model -/

/-- C1. Equality is symmetric: `constraintsEqual a b f` and `constraintsEqual b a f`
agree for both values of the flag, and they agree when each call derives the
flag from the kind of its own first argument, as the callers do. -/
theorem C1_constraintsEqual_symmetric (a b : constraint) (f : Bool) :
    constraintsEqual a b f = constraintsEqual b a f ∧
      constraintsEqual a b (engineFlag a.type) = constraintsEqual b a (engineFlag b.type) :=
  ⟨constraintsEqual_comm a b f, constraintsEqual_engine_comm a b⟩

/-- C2. On the code two Centroid constraints are compared position by position:
with the flag `(type != centroid)` the groups `[1,2,3]` and `[3,1,2]` are
reported different, and in general two Centroids are equal exactly when their
`groupIDs` are the same sequence. -/
theorem C2_centroid_compared_in_order :
    constraintsEqual (freshConstraint constraintTypes.centroid [1, 2, 3] [])
        (freshConstraint constraintTypes.centroid [3, 1, 2] [])
        (engineFlag constraintTypes.centroid) = false ∧
      ∀ g h m n : List Int,
        (constraintsEqual (freshConstraint constraintTypes.centroid g m)
            (freshConstraint constraintTypes.centroid h n)
            (engineFlag constraintTypes.centroid) = true ↔ g = h) := by
  refine ⟨by decide, ?_⟩
  intro g h m n
  rw [constraintsEqual_iff]
  simp [freshConstraint, engineFlag, vectorIntsEqual_false_iff]

/-- C3. On the code a Relative over `[a,b]` and a Relative over `[b,a]` are
reported equal under the engine comparison, for all ids `a` and `b`. -/
theorem C3_relative_swapped_equal (a b : Int) :
    constraintsEqual (freshConstraint constraintTypes.relative [a, b] [])
        (freshConstraint constraintTypes.relative [b, a] [])
        (engineFlag constraintTypes.relative) = true := by
  rw [constraintsEqual_iff]
  refine ⟨rfl, ?_, ?_⟩
  · show vectorIntsEqual [a, b] [b, a] (engineFlag constraintTypes.relative) = true
    have hr : engineFlag constraintTypes.relative = true := by decide
    rw [hr, vectorIntsEqual_true_iff]
    exact List.Perm.swap b a []
  · intro hm
    have hk : constraintTypes.relative = constraintTypes.monitor := hm
    exact absurd hk (by decide)

/-- C4. On the code two Monitor constraints are engine-equal exactly when their
`groupIDs` are permutations of each other and their `monitorIDs` are
permutations of each other; the Monitors `[1] / [2,3]` and `[1] / [3,2]` are
reported equal although their `monitorIDs` differ as sequences. -/
theorem C4_monitor_equal_up_to_order :
    constraintsEqual (freshConstraint constraintTypes.monitor [1] [2, 3])
        (freshConstraint constraintTypes.monitor [1] [3, 2])
        (engineFlag constraintTypes.monitor) = true ∧
      ∀ g h m n : List Int,
        (constraintsEqual (freshConstraint constraintTypes.monitor g m)
            (freshConstraint constraintTypes.monitor h n)
            (engineFlag constraintTypes.monitor) = true ↔ g.Perm h ∧ m.Perm n) := by
  refine ⟨by decide, ?_⟩
  intro g h m n
  have hr : engineFlag constraintTypes.monitor = true := by decide
  rw [constraintsEqual_iff, hr]
  simp [freshConstraint, vectorIntsEqual_true_iff]

/-- C5. The result of `constraintsEqual` depends only on the kind, the
`groupIDs` and, for a Monitor, the `monitorIDs` of its arguments: replacing
`a` and `b` by constraints that agree with them on these fields (whatever
their `centroidX`, `centroidY`, `monitorDistances`, and for other kinds their
`monitorIDs`) does not change the result. -/
theorem C5_identity_ignores_other_fields (a b a1 b1 : constraint) (f : Bool)
    (hta : a1.type = a.type) (hga : a1.groupIDs = a.groupIDs)
    (hma : a.type = constraintTypes.monitor → a1.monitorIDs = a.monitorIDs)
    (htb : b1.type = b.type) (hgb : b1.groupIDs = b.groupIDs)
    (hmb : b.type = constraintTypes.monitor → b1.monitorIDs = b.monitorIDs) :
    constraintsEqual a1 b1 f = constraintsEqual a b f := by
  rw [Bool.eq_iff_iff, constraintsEqual_iff, constraintsEqual_iff, hta, htb, hga, hgb]
  constructor
  · rintro ⟨ht, hg, hm⟩
    refine ⟨ht, hg, fun h => ?_⟩
    have := hm h
    rwa [hma h, hmb (ht ▸ h)] at this
  · rintro ⟨ht, hg, hm⟩
    refine ⟨ht, hg, fun h => ?_⟩
    have := hm h
    rwa [hma h, hmb (ht ▸ h)]

/-- Witness for C5: a Centroid whose coordinates, distances and monitor ids are
all changed still compares as before. -/
theorem C5_identity_ignores_other_fields_witness :
    constraintsEqual
        { type := constraintTypes.centroid, centroidX := 7, centroidY := 9,
          groupIDs := [1, 2], monitorIDs := [5], monitorDistances := [30] }
        { type := constraintTypes.centroid, centroidX := 4, centroidY := 4,
          groupIDs := [1, 2], monitorIDs := [6, 6], monitorDistances := [] }
        false
      = constraintsEqual (freshConstraint constraintTypes.centroid [1, 2] [])
          (freshConstraint constraintTypes.centroid [1, 2] []) false :=
  C5_identity_ignores_other_fields
    (freshConstraint constraintTypes.centroid [1, 2] [])
    (freshConstraint constraintTypes.centroid [1, 2] [])
    { type := constraintTypes.centroid, centroidX := 7, centroidY := 9,
      groupIDs := [1, 2], monitorIDs := [5], monitorDistances := [30] }
    { type := constraintTypes.centroid, centroidX := 4, centroidY := 4,
      groupIDs := [1, 2], monitorIDs := [6, 6], monitorDistances := [] }
    false rfl rfl (by decide) rfl rfl (by decide)

/-! ## Node lookup -/

theorem nodeIsPresentInGraph_cons_pos {heap : Heap} {n c : Nat} {g : List Nat}
    (h : presentAt heap n c) : nodeIsPresentInGraph heap n (c :: g) = some c := by
  obtain ⟨hne, heq⟩ := h
  have hne1 : ¬ n = c := fun e => hne e.symm
  simp [nodeIsPresentInGraph, heq, hne1]

theorem nodeIsPresentInGraph_cons_neg {heap : Heap} {n c : Nat} {g : List Nat}
    (h : ¬ presentAt heap n c) :
    nodeIsPresentInGraph heap n (c :: g) = nodeIsPresentInGraph heap n g := by
  unfold presentAt at h
  by_cases hne : n = c
  · simp [nodeIsPresentInGraph, hne]
  · have hne1 : c ≠ n := fun e => hne e.symm
    have heq : ¬ constraintsEqual (deref heap c).data (deref heap n).data
        (engineFlag (deref heap n).data.type) = true := fun e => h ⟨hne1, e⟩
    simp [nodeIsPresentInGraph, heq]

theorem nodeIsPresentInGraph_eq_none (heap : Heap) (n : Nat) (g : List Nat) :
    nodeIsPresentInGraph heap n g = none ↔ ∀ c ∈ g, ¬ presentAt heap n c := by
  induction g with
  | nil => simp [nodeIsPresentInGraph]
  | cons c g ih =>
    by_cases hq : presentAt heap n c
    · rw [nodeIsPresentInGraph_cons_pos hq]
      simp only [List.mem_cons, forall_eq_or_imp]
      constructor
      · intro h
        cases h
      · intro h
        exact absurd hq h.1
    · rw [nodeIsPresentInGraph_cons_neg hq, ih]
      simp [hq]

theorem nodeIsPresentInGraph_eq_some (heap : Heap) (n o : Nat) (g : List Nat) :
    nodeIsPresentInGraph heap n g = some o ↔
      ∃ pre post, g = pre ++ o :: post ∧ presentAt heap n o ∧
        ∀ c ∈ pre, ¬ presentAt heap n c := by
  induction g with
  | nil => simp [nodeIsPresentInGraph]
  | cons c g ih =>
    by_cases hq : presentAt heap n c
    · rw [nodeIsPresentInGraph_cons_pos hq]
      constructor
      · intro h
        have hco : c = o := Option.some.inj h
        subst hco
        exact ⟨[], g, rfl, hq, by simp⟩
      · rintro ⟨pre, post, hg, _, hpre⟩
        cases pre with
        | nil =>
          simp only [List.nil_append, List.cons.injEq] at hg
          rw [hg.1]
        | cons x pre =>
          simp only [List.cons_append, List.cons.injEq] at hg
          exact absurd hq (hg.1 ▸ hpre x (List.mem_cons_self x pre))
    · rw [nodeIsPresentInGraph_cons_neg hq, ih]
      constructor
      · rintro ⟨pre, post, hg, ho, hpre⟩
        refine ⟨c :: pre, post, by rw [hg]; rfl, ho, ?_⟩
        intro x hx
        rcases List.mem_cons.mp hx with rfl | hx
        · exact hq
        · exact hpre x hx
      · rintro ⟨pre, post, hg, ho, hpre⟩
        cases pre with
        | nil =>
          simp only [List.nil_append, List.cons.injEq] at hg
          exact absurd (hg.1 ▸ ho) hq
        | cons x pre =>
          simp only [List.cons_append, List.cons.injEq] at hg
          exact ⟨pre, post, hg.2, ho, fun y hy => hpre y (List.mem_cons_of_mem x hy)⟩

/-- What `nodeIsPresentInGraph(n, out, g)` tests: it returns false exactly when
no node of `g` other than `n` passes the engine test against `n`; it returns
true with `out = o` exactly when `o` is the first such node in graph order;
and when it returns false on the freshly wired node, the branch of
`checkCompatibility` appends the node to its graph and sets `continueLoop`. -/
theorem nodeIsPresentInGraph_first_present (heap : Heap) (n : Nat) (g : List Nat) :
    (nodeIsPresentInGraph heap n g = none ↔ ∀ c ∈ g, ¬ presentAt heap n c) ∧
      (∀ o, nodeIsPresentInGraph heap n g = some o ↔
        ∃ pre post, g = pre ++ o :: post ∧ presentAt heap n o ∧
          ∀ c ∈ pre, ¬ presentAt heap n c) ∧
      (∀ (combo : List Nat) (sw : Sweep),
        nodeIsPresentInGraph (wire n combo sw.heap) n sw.constraintGraph = none →
          resolve n combo sw = .ok (Exit.running,
            { heap := wire n combo sw.heap
              constraintGraph := sw.constraintGraph ++ [n]
              continueLoop := true })) := by
  refine ⟨nodeIsPresentInGraph_eq_none heap n g,
    fun o => nodeIsPresentInGraph_eq_some heap n o g, ?_⟩
  intro combo sw h
  simp [resolve, h]

/-! ## Descendants -/

theorem reaches_iff_head (heap : Heap) (p q : Nat) :
    Reaches heap p q ↔ q = p ∨ ∃ c ∈ (deref heap p).children, Reaches heap c q := by
  constructor
  · intro h
    rcases Relation.ReflTransGen.cases_head h with h | ⟨c, hc, hcq⟩
    · exact Or.inl h.symm
    · exact Or.inr ⟨c, hc, hcq⟩
  · rintro (h | ⟨c, hc, hcq⟩)
    · rw [h]
      exact Relation.ReflTransGen.refl
    · exact Relation.ReflTransGen.head hc hcq

/-- The fold over the children in `gatherDescendents`, given what each
recursive call returns. -/
theorem gatherDescendents_fold_sound (heap : Heap) (fuel : Nat)
    (ih : ∀ c acc res, gatherDescendents heap fuel c acc = .ok res →
      ∃ found, res = acc ++ found ∧ ∀ q, q ∈ found ↔ Reaches heap c q)
    (children : List Nat) (acc res : List Nat)
    (h : children.foldlM (fun found c => gatherDescendents heap fuel c found) acc = .ok res) :
    ∃ found, res = acc ++ found ∧ ∀ q, q ∈ found ↔ ∃ c ∈ children, Reaches heap c q := by
  induction children generalizing acc res with
  | nil =>
    simp only [List.foldlM_nil, pure, Except.pure, Except.ok.injEq] at h
    exact ⟨[], by simp [h], by simp⟩
  | cons c children ihc =>
    rw [List.foldlM_cons] at h
    cases hc : gatherDescendents heap fuel c acc with
    | error e => simp [hc, bind, Except.bind] at h
    | ok mid =>
      simp only [hc, bind, Except.bind] at h
      obtain ⟨f1, hmid, hf1⟩ := ih c acc mid hc
      obtain ⟨f2, hres, hf2⟩ := ihc mid res h
      refine ⟨f1 ++ f2, by rw [hres, hmid, List.append_assoc], ?_⟩
      intro q
      simp only [List.mem_append, hf1, hf2, List.mem_cons, exists_eq_or_imp]

theorem gatherDescendents_sound (heap : Heap) (fuel : Nat) :
    ∀ node acc res, gatherDescendents heap fuel node acc = .ok res →
      ∃ found, res = acc ++ found ∧ ∀ q, q ∈ found ↔ Reaches heap node q := by
  induction fuel with
  | zero =>
    intro node acc res h
    simp [gatherDescendents] at h
  | succ fuel ih =>
    intro node acc res h
    unfold gatherDescendents at h
    obtain ⟨found, hres, hfound⟩ :=
      gatherDescendents_fold_sound heap fuel ih _ _ _ h
    refine ⟨node :: found, by rw [hres]; simp, ?_⟩
    intro q
    rw [reaches_iff_head, List.mem_cons, hfound]

/-- The fold over the children succeeds when every recursive call does. -/
theorem gatherDescendents_fold_total (heap : Heap) (fuel : Nat) (children : List Nat)
    (ih : ∀ c ∈ children, ∀ acc, ∃ res, gatherDescendents heap fuel c acc = .ok res)
    (acc : List Nat) :
    ∃ res, children.foldlM (fun found c => gatherDescendents heap fuel c found) acc
      = .ok res := by
  induction children generalizing acc with
  | nil => exact ⟨acc, rfl⟩
  | cons c children ihc =>
    obtain ⟨mid, hmid⟩ := ih c (List.mem_cons_self c children) acc
    obtain ⟨res, hres⟩ := ihc (fun x hx => ih x (List.mem_cons_of_mem c hx)) mid
    refine ⟨res, ?_⟩
    rw [List.foldlM_cons]
    simp only [hmid, bind, Except.bind]
    exact hres

theorem childEdge_lt_length {heap : Heap} {p c : Nat} (h : childEdge heap p c) :
    p < heap.length := by
  by_contra hlt
  have hd : deref heap p = default := by
    unfold deref
    exact List.getD_eq_default _ _ (Nat.le_of_not_lt hlt)
  unfold childEdge at h
  rw [hd] at h
  simp [default, instInhabitedConstraintNode] at h

theorem nodup_bounded_length {n : Nat} {path : List Nat} (hnd : path.Nodup)
    (hlt : ∀ a ∈ path, a < n) : path.length ≤ n := by
  have hsub : path ⊆ List.range n := fun a ha => List.mem_range.mpr (hlt a ha)
  have := (List.subperm_of_subset hnd hsub).length_le
  simpa using this

/-- On an acyclic heap the recursion of `gatherDescendents` ends: `path` lists
the nodes on the way from the root to `node`, which are pairwise different, so
their number is bounded by the number of nodes that have children. -/
theorem gatherDescendents_total_aux (heap : Heap) (hac : Acyclic heap) (fuel : Nat) :
    ∀ (node : Nat) (path : List Nat), path.Nodup → (∀ a ∈ path, a < heap.length) →
      (∀ a ∈ path, Relation.TransGen (childEdge heap) a node) →
      heap.length + 1 ≤ fuel + path.length →
      ∀ acc, ∃ res, gatherDescendents heap fuel node acc = .ok res := by
  induction fuel with
  | zero =>
    intro node path hnd hlt _ hlen acc
    have := nodup_bounded_length hnd hlt
    omega
  | succ fuel ih =>
    intro node path hnd hlt hreach hlen acc
    unfold gatherDescendents
    apply gatherDescendents_fold_total
    intro c hc acc1
    have hedge : childEdge heap node c := hc
    have hnotin : node ∉ path := fun hin => hac node (hreach node hin)
    apply ih c (node :: path) (List.nodup_cons.mpr ⟨hnotin, hnd⟩)
    · intro a ha
      rcases List.mem_cons.mp ha with rfl | ha
      · exact childEdge_lt_length hedge
      · exact hlt a ha
    · intro a ha
      rcases List.mem_cons.mp ha with rfl | ha
      · exact Relation.TransGen.single hedge
      · exact Relation.TransGen.tail (hreach a ha) hedge
    · simp only [List.length_cons]
      omega

theorem gatherDescendents_total (heap : Heap) (hac : Acyclic heap) (fuel : Nat)
    (hfuel : heap.length + 1 ≤ fuel) (node : Nat) (acc : List Nat) :
    ∃ res, gatherDescendents heap fuel node acc = .ok res :=
  gatherDescendents_total_aux heap hac fuel node [] List.nodup_nil (by simp) (by simp)
    (by simpa using hfuel) acc

theorem foldlM_ok_congr (f g : List Nat → Nat → Except Fault (List Nat))
    (children : List Nat)
    (h : ∀ c ∈ children, ∀ acc r, f acc c = .ok r → g acc c = .ok r) :
    ∀ acc r, children.foldlM f acc = .ok r → children.foldlM g acc = .ok r := by
  induction children with
  | nil =>
    intro acc r hr
    exact hr
  | cons c children ih =>
    intro acc r hr
    rw [List.foldlM_cons] at hr ⊢
    cases hc : f acc c with
    | error e => simp [hc, bind, Except.bind] at hr
    | ok mid =>
      simp only [hc, bind, Except.bind] at hr
      simp only [h c (List.mem_cons_self c children) acc mid hc, bind, Except.bind]
      exact ih (fun x hx => h x (List.mem_cons_of_mem c hx)) mid r hr

/-- A larger recursion budget does not change a result of `gatherDescendents`. -/
theorem gatherDescendents_fuel_succ (heap : Heap) (fuel : Nat) :
    ∀ node acc r, gatherDescendents heap fuel node acc = .ok r →
      gatherDescendents heap (fuel + 1) node acc = .ok r := by
  induction fuel with
  | zero =>
    intro node acc r h
    simp [gatherDescendents] at h
  | succ fuel ih =>
    intro node acc r h
    exact foldlM_ok_congr (fun found c => gatherDescendents heap fuel c found)
      (fun found c => gatherDescendents heap (fuel + 1) c found)
      (deref heap node).children (fun c _ acc1 r1 h1 => ih c acc1 r1 h1)
      (acc ++ [node]) r h

theorem gatherDescendents_fuel_le (heap : Heap) {fuel fuel1 : Nat} (hle : fuel ≤ fuel1)
    {node : Nat} {acc r : List Nat} (h : gatherDescendents heap fuel node acc = .ok r) :
    gatherDescendents heap fuel1 node acc = .ok r := by
  induction hle with
  | refl => exact h
  | step _ ih => exact gatherDescendents_fuel_succ heap _ node acc r ih

/-- C8. On a heap whose children edges are acyclic, `gatherDescendents` returns
for every node: there is one list that it collects for every recursion budget
above the number of allocated nodes, and this list holds exactly the node
itself and the nodes reachable from it through children edges. -/
theorem C8_gatherDescendents_collects_descendant_set (heap : Heap) (hac : Acyclic heap)
    (node : Nat) :
    ∃ found, (∀ fuel, heap.length + 1 ≤ fuel →
        gatherDescendents heap fuel node [] = .ok found) ∧
      ∀ q, q ∈ found ↔ Reaches heap node q := by
  obtain ⟨res, hres⟩ :=
    gatherDescendents_total heap hac (heap.length + 1) (le_refl _) node []
  obtain ⟨found, hfound, hmem⟩ := gatherDescendents_sound heap _ node [] res hres
  refine ⟨res, fun fuel hfuel => gatherDescendents_fuel_le heap hfuel hres, ?_⟩
  intro q
  rw [hfound, List.nil_append]
  exact hmem q

/-! ## The superset test -/

theorem eraseFirstEqual_none {heap : Heap} {x : Nat} {l : List Nat} :
    eraseFirstEqual heap x l = none ↔ ∀ e ∈ l, nodesEqual heap x e = false := by
  induction l with
  | nil => simp [eraseFirstEqual]
  | cons y l ih =>
    by_cases h : nodesEqual heap x y = true
    · have h1 := h
      unfold nodesEqual at h1
      simp [eraseFirstEqual, h1, h]
    · have h1 := h
      unfold nodesEqual at h1
      simp only [Bool.not_eq_true] at h
      simp [eraseFirstEqual, h1, ih, h]

theorem eraseFirstEqual_some {heap : Heap} {x : Nat} {l l1 : List Nat}
    (h : eraseFirstEqual heap x l = some l1) :
    ∃ z, nodesEqual heap x z = true ∧ l.Perm (z :: l1) := by
  induction l generalizing l1 with
  | nil => simp [eraseFirstEqual] at h
  | cons y l ih =>
    by_cases hxy : nodesEqual heap x y = true
    · have h1 := hxy
      unfold nodesEqual at h1
      simp only [eraseFirstEqual, h1, if_true, Option.some.injEq] at h
      subst h
      exact ⟨y, hxy, List.Perm.refl _⟩
    · have h1 := hxy
      unfold nodesEqual at h1
      simp only [eraseFirstEqual, h1, Bool.false_eq_true, if_false, Option.map_eq_some'] at h
      obtain ⟨r, hr, rfl⟩ := h
      obtain ⟨z, hz, hp⟩ := ih hr
      exact ⟨z, hz, (hp.cons y).trans (List.Perm.swap z y r)⟩

theorem supersetLoop_sound (heap : Heap) (other node : List Nat)
    (h : supersetLoop heap other node = true) :
    ∀ d ∈ other, ∃ e ∈ node, nodesEqual heap d e = true := by
  induction other generalizing node with
  | nil => simp
  | cons x other ih =>
    unfold supersetLoop at h
    cases he : eraseFirstEqual heap x node with
    | none => simp [he] at h
    | some node1 =>
      simp only [he] at h
      obtain ⟨z, hz, hp⟩ := eraseFirstEqual_some he
      intro d hd
      rcases List.mem_cons.mp hd with rfl | hd
      · exact ⟨z, hp.symm.subset (List.mem_cons_self z node1), hz⟩
      · obtain ⟨e, he1, hde⟩ := ih node1 h d hd
        exact ⟨e, hp.symm.subset (List.mem_cons_of_mem z he1), hde⟩

/-- Two structurally equal nodes are equal to the same constraints. -/
theorem constraintsEqual_congr_right (heap : Heap) (c : constraint) {x z : Nat}
    (h : nodesEqual heap x z = true) :
    constraintsEqual c (deref heap x).data (engineFlag c.type)
      = constraintsEqual c (deref heap z).data (engineFlag c.type) := by
  unfold nodesEqual at h
  rw [Bool.eq_iff_iff]
  constructor
  · intro hc
    exact constraintsEqual_engine_trans hc h
  · intro hc
    have hs : constraintsEqual (deref heap z).data (deref heap x).data
        (engineFlag (deref heap z).data.type) = true := by
      rw [constraintsEqual_engine_comm]
      exact h
    exact constraintsEqual_engine_trans hc hs

theorem countEqual_cons (heap : Heap) (c : constraint) (x : Nat) (l : List Nat) :
    countEqual heap c (x :: l) = countEqual heap c l +
      (if constraintsEqual c (deref heap x).data (engineFlag c.type) = true then 1 else 0) := by
  unfold countEqual
  rw [List.countP_cons]

/-- The loop of `descendentsAreSuperset` succeeds exactly when, for every
constraint, the first list holds at most as many equal entries as the
second. -/
theorem supersetLoop_iff_count (heap : Heap) (other node : List Nat) :
    supersetLoop heap other node = true ↔
      ∀ c, countEqual heap c other ≤ countEqual heap c node := by
  induction other generalizing node with
  | nil => simp [supersetLoop, countEqual]
  | cons x other ih =>
    unfold supersetLoop
    cases he : eraseFirstEqual heap x node with
    | none =>
      simp only [Bool.false_eq_true, false_iff, not_forall, not_le]
      refine ⟨(deref heap x).data, ?_⟩
      have hz : countEqual heap (deref heap x).data node = 0 := by
        unfold countEqual
        rw [List.countP_eq_zero]
        intro e hmem
        have := eraseFirstEqual_none.mp he e hmem
        unfold nodesEqual at this
        simp [this]
      rw [hz, countEqual_cons, if_pos (constraintsEqual_refl _ _)]
      omega
    | some node1 =>
      simp only [ih]
      obtain ⟨z, hz, hp⟩ := eraseFirstEqual_some he
      have hcount : ∀ c, countEqual heap c node = countEqual heap c node1 +
          (if constraintsEqual c (deref heap x).data (engineFlag c.type) = true
            then 1 else 0) := by
        intro c
        have h1 : countEqual heap c node = countEqual heap c (z :: node1) := by
          unfold countEqual
          exact hp.countP_eq _
        rw [h1, countEqual_cons, constraintsEqual_congr_right heap c hz]
      constructor
      · intro h c
        rw [countEqual_cons, hcount c]
        have := h c
        omega
      · intro h c
        have := h c
        rw [countEqual_cons, hcount c] at this
        omega

theorem descendents_mem {heap : Heap} {p : Nat} {l : List Nat}
    (h : descendents heap p = .ok l) (q : Nat) : q ∈ l ↔ Reaches heap p q := by
  obtain ⟨found, hfound, hmem⟩ := gatherDescendents_sound heap _ p [] l h
  rw [hfound, List.nil_append]
  exact hmem q

theorem acyclic_of_childrenBelow {heap : Heap} (h : childrenBelow heap = true) :
    Acyclic heap := by
  have hedge : ∀ p c, childEdge heap p c → c < p := by
    intro p c hc
    have hp : p < heap.length := childEdge_lt_length hc
    unfold childrenBelow at h
    rw [List.all_eq_true] at h
    have := h p (List.mem_range.mpr hp)
    rw [List.all_eq_true] at this
    exact of_decide_eq_true (this c hc)
  have htrans : ∀ p q, Relation.TransGen (childEdge heap) p q → q < p := by
    intro p q hpq
    induction hpq with
    | single h1 => exact hedge _ _ h1
    | tail _ h2 ih => exact lt_trans (hedge _ _ h2) ih
  intro p hp
  exact lt_irrefl p (htrans p p hp)

/-! ## Claims on lookup, descendants and the conflict branch -/

/-- C6. On the code `nodeIsPresentInGraph` does not test structural equality
as the specification words it, because it compares through `vectorIntsEqual`,
whose two branches are swapped.  The Centroid over `[2,1]` (node 1 of Scenario
C) and the Centroid over `[1,2]` in the graph are structurally equal, yet the
function returns false, and the branch of `checkCompatibility` accepts the
node: the graph then holds two structurally equal nodes.  The Relative over
`[2,1]` and the Relative over `[1,2]` are not structurally equal, yet the
function returns true with the other node.  In general the function returns
false exactly when no node of the graph other than `n` passes the engine test
`constraintsEqual(.., .., type != centroid)` against `n`, and it returns the
first node that passes. -/
theorem C6_presence_test_is_not_structural_equality (heap : Heap) (n : Nat) (g : List Nat) :
    structurallyEqual (deref scenarioCHeap 1).data (deref scenarioCHeap 0).data = true ∧
      nodeIsPresentInGraph scenarioCHeap 1 [0] = none ∧
      resolve 1 [] { heap := scenarioCHeap, constraintGraph := [0], continueLoop := false }
        = .ok (Exit.running,
            { heap := scenarioCHeap, constraintGraph := [0, 1], continueLoop := true }) ∧
      structurallyEqual (deref swappedRelativeHeap 1).data (deref swappedRelativeHeap 0).data
        = false ∧
      nodeIsPresentInGraph swappedRelativeHeap 1 [0] = some 0 ∧
      (nodeIsPresentInGraph heap n g = none ↔ ∀ c ∈ g, ¬ presentAt heap n c) ∧
      (∀ o, nodeIsPresentInGraph heap n g = some o ↔
        ∃ pre post, g = pre ++ o :: post ∧ presentAt heap n o ∧
          ∀ c ∈ pre, ¬ presentAt heap n c) :=
  ⟨by decide, by decide, rfl, by decide, by decide,
    (nodeIsPresentInGraph_first_present heap n g).1,
    (nodeIsPresentInGraph_first_present heap n g).2.1⟩

/-- What `descendentsAreSuperset(n, o)` computes on an acyclic heap: it returns,
the two gathered lists hold exactly the descendant sets of `n` and of `o`, and
the result is true exactly when for every constraint the list gathered for
`o` holds at most as many equal entries as the list gathered for `n` (a member
is counted once per child path that reaches it).  A true result implies that
every descendant of `o` has an equal descendant of `n`. -/
theorem descendentsAreSuperset_counts (heap : Heap) (hac : Acyclic heap)
    (n o : Nat) :
    ∃ ln lo b, descendents heap n = .ok ln ∧ descendents heap o = .ok lo ∧
      (∀ q, q ∈ ln ↔ Reaches heap n q) ∧ (∀ q, q ∈ lo ↔ Reaches heap o q) ∧
      descendentsAreSuperset heap n o = .ok b ∧
      (b = true ↔ ∀ c, countEqual heap c lo ≤ countEqual heap c ln) ∧
      (b = true → ∀ d, Reaches heap o d →
        ∃ e, Reaches heap n e ∧ nodesEqual heap d e = true) := by
  obtain ⟨ln, hn⟩ := gatherDescendents_total heap hac (heap.length + 1) (le_refl _) n []
  obtain ⟨lo, ho⟩ := gatherDescendents_total heap hac (heap.length + 1) (le_refl _) o []
  have hn1 : descendents heap n = .ok ln := hn
  have ho1 : descendents heap o = .ok lo := ho
  refine ⟨ln, lo, supersetLoop heap lo ln, hn1, ho1, descendents_mem hn1,
    descendents_mem ho1, ?_, supersetLoop_iff_count heap lo ln, ?_⟩
  · unfold descendentsAreSuperset
    rw [hn1, ho1]
  · intro hb d hd
    obtain ⟨e, he, hde⟩ := supersetLoop_sound heap lo ln hb d ((descendents_mem ho1 d).mpr hd)
    exact ⟨e, (descendents_mem hn1 e).mp he, hde⟩

/-- C7. On the code `descendentsAreSuperset` does not test set inclusion.  In
`diamondHeap` every descendant of node 4 has a structurally equal descendant
of node 5 (equal under the wording of the specification and under the engine
test alike), yet `descendentsAreSuperset(5, 4)` returns false:
`gatherDescendents` lists node 0 twice under node 4 (once per child path) and
once under node 5, and the comparison erases a matched entry, so the second
copy finds no partner.  The comment of the function says that it checks
whether the descendants of the one node are a superset of those of the
other. -/
theorem C7_superset_test_counts_child_paths :
    Acyclic diamondHeap ∧
      descendents diamondHeap 4 = .ok [4, 1, 0, 2, 0] ∧
      descendents diamondHeap 5 = .ok [5, 1, 0, 3] ∧
      (∀ d, Reaches diamondHeap 4 d ↔ d ∈ [4, 1, 0, 2]) ∧
      (∀ e, Reaches diamondHeap 5 e ↔ e ∈ [5, 1, 0, 3]) ∧
      ([4, 1, 0, 2].all (fun d => [5, 1, 0, 3].any (fun e =>
          structurallyEqual (deref diamondHeap d).data (deref diamondHeap e).data
            && nodesEqual diamondHeap d e))) = true ∧
      descendentsAreSuperset diamondHeap 5 4 = .ok false ∧
      ¬ (descendentsAreSuperset diamondHeap 5 4 = .ok true ↔
          ∀ d, Reaches diamondHeap 4 d →
            ∃ e, Reaches diamondHeap 5 e ∧
              structurallyEqual (deref diamondHeap d).data (deref diamondHeap e).data = true) := by
  have h4 : descendents diamondHeap 4 = .ok [4, 1, 0, 2, 0] := rfl
  have h5 : descendents diamondHeap 5 = .ok [5, 1, 0, 3] := rfl
  have hfalse : descendentsAreSuperset diamondHeap 5 4 = .ok false := rfl
  have hincl : ∀ d ∈ [4, 1, 0, 2, 0], ∃ e ∈ [5, 1, 0, 3],
      structurallyEqual (deref diamondHeap d).data (deref diamondHeap e).data = true := by
    decide
  refine ⟨acyclic_of_childrenBelow (by decide), h4, h5, ?_, ?_, by decide, hfalse, ?_⟩
  · intro d
    rw [← descendents_mem h4 d]
    simp only [List.mem_cons, List.mem_singleton, List.not_mem_nil, or_false]
    omega
  · intro e
    exact (descendents_mem h5 e).symm
  · intro hiff
    have htrue : descendentsAreSuperset diamondHeap 5 4 = .ok true := by
      apply hiff.mpr
      intro d hd
      obtain ⟨e, he, hde⟩ := hincl d ((descendents_mem h4 d).mpr hd)
      exact ⟨e, (descendents_mem h5 e).mp he, hde⟩
    rw [hfalse] at htrue
    cases htrue

/-- Witness for C8 on `diamondHeap`: the descendants of node 4. -/
theorem C8_gatherDescendents_collects_descendant_set_witness :
    Acyclic diamondHeap ∧
      ∃ found, (∀ fuel, diamondHeap.length + 1 ≤ fuel →
          gatherDescendents diamondHeap fuel 4 [] = .ok found) ∧
        ∀ q, q ∈ found ↔ Reaches diamondHeap 4 q :=
  ⟨acyclic_of_childrenBelow (by decide),
    C8_gatherDescendents_collects_descendant_set diamondHeap
      (acyclic_of_childrenBelow (by decide)) 4⟩

/-- C10. On Scenario A the code rejects: each rule matches both Monitors (their
`groupIDs` are compared up to order), so four combinations are recorded; the
first derives `Relative [1,2]` from `Monitor(1,2)` as node 2, the second
derives the same Relative from `Monitor(2,1)`, finds node 2, fails the
descendant test, and `checkCompatibility` returns false with one derived
node in its graph. -/
theorem C10_scenarioA_is_rejected (fuel : Nat) :
    (rulesLoop [0, 1] scenarioA.ruleList false scenarioA).map
        (fun r => (r.1, r.2.nodeCombosThisIteration, r.2.rulesAppliedThisIteration))
        = .ok (true, [[0], [1], [0], [1]],
            [monitorRule 1 2, monitorRule 1 2, monitorRule 2 1, monitorRule 2 1]) ∧
      (checkCompatibility (fuel + 1) scenarioA [0, 1]).map
          (fun v => (v.accepted, v.constraintGraph,
            v.constraintGraph.map (fun p => (deref v.service.heap p).data)))
        = .ok (false, [0, 1, 2],
            [monitorTask 1 2, monitorTask 2 1,
              freshConstraint constraintTypes.relative [1, 2] []]) := by
  exact ⟨rfl, rfl⟩

/-! ## Heap updates -/

theorem deref_append_left (h x : Heap) {p : Nat} (hp : p < h.length) :
    deref (h ++ x) p = deref h p := by
  induction h generalizing p with
  | nil => simp at hp
  | cons n h ih =>
    cases p with
    | zero => rfl
    | succ p =>
      have hp1 : p < h.length := by simpa using hp
      simpa [deref] using ih hp1

theorem deref_append_length (h : Heap) (n : constraintNode) :
    deref (h ++ [n]) h.length = n := by
  induction h with
  | nil => rfl
  | cons m h ih =>
    simp only [List.cons_append, List.length_cons]
    exact ih

theorem deref_of_length_le {h : Heap} {p : Nat} (hp : h.length ≤ p) : deref h p = default := by
  unfold deref
  exact List.getD_eq_default _ _ hp

theorem length_modifyAt (f : constraintNode → constraintNode) (p : Nat) (h : Heap) :
    (modifyAt f p h).length = h.length := by
  induction h generalizing p with
  | nil => cases p <;> rfl
  | cons n h ih =>
    cases p with
    | zero => rfl
    | succ p => simp [modifyAt, ih]

theorem deref_modifyAt_ne (f : constraintNode → constraintNode) {p q : Nat} (hne : q ≠ p)
    (h : Heap) : deref (modifyAt f p h) q = deref h q := by
  induction h generalizing p q with
  | nil => cases p <;> rfl
  | cons n h ih =>
    cases p with
    | zero =>
      cases q with
      | zero => exact absurd rfl hne
      | succ q => rfl
    | succ p =>
      cases q with
      | zero => rfl
      | succ q =>
        have hne1 : q ≠ p := fun e => hne (by rw [e])
        simpa [deref, modifyAt] using ih hne1

theorem deref_modifyAt_eq (f : constraintNode → constraintNode) {p : Nat} (h : Heap)
    (hp : p < h.length) : deref (modifyAt f p h) p = f (deref h p) := by
  induction h generalizing p with
  | nil => simp at hp
  | cons n h ih =>
    cases p with
    | zero => rfl
    | succ p =>
      have hp1 : p < h.length := by simpa using hp
      simpa [deref, modifyAt] using ih hp1

theorem modifyAt_of_length_le (f : constraintNode → constraintNode) {p : Nat} (h : Heap)
    (hp : h.length ≤ p) : modifyAt f p h = h := by
  induction h generalizing p with
  | nil => cases p <;> rfl
  | cons n h ih =>
    cases p with
    | zero => simp at hp
    | succ p =>
      have hp1 : h.length ≤ p := by simpa using hp
      simp [modifyAt, ih hp1]

/-- Two heaps of the same length with the same node at every address are
equal. -/
theorem heap_ext {h1 h2 : Heap} (hlen : h1.length = h2.length)
    (hd : ∀ p, p < h1.length → deref h1 p = deref h2 p) : h1 = h2 := by
  induction h1 generalizing h2 with
  | nil =>
    cases h2 with
    | nil => rfl
    | cons m h2 => simp at hlen
  | cons n h1 ih =>
    cases h2 with
    | nil => simp at hlen
    | cons m h2 =>
      have h0 : n = m := hd 0 (by simp)
      have hlen1 : h1.length = h2.length := by simpa using hlen
      have ht : h1 = h2 := by
        apply ih hlen1
        intro p hp
        have := hd (p + 1) (by simpa using hp)
        simpa [deref] using this
      rw [h0, ht]

theorem deref_modifyAt (f : constraintNode → constraintNode) (p q : Nat) (h : Heap)
    (hp : p < h.length) :
    deref (modifyAt f q h) p = if p = q then f (deref h p) else deref h p := by
  by_cases hpq : p = q
  · subst hpq
    rw [if_pos rfl, deref_modifyAt_eq f h hp]
  · rw [if_neg hpq, deref_modifyAt_ne f hpq]

theorem length_wire (n : Nat) (combo : List Nat) (h : Heap) :
    (wire n combo h).length = h.length := by
  induction combo generalizing h with
  | nil => rfl
  | cons c combo ih =>
    show (wire n combo _).length = h.length
    rw [ih, length_modifyAt, length_modifyAt]

/-- The node at an allocated address after the wiring loop. -/
theorem deref_wire (n : Nat) (combo : List Nat) (h : Heap) (p : Nat) (hp : p < h.length) :
    deref (wire n combo h) p =
      { data := (deref h p).data
        parents := (deref h p).parents ++ List.replicate (combo.count p) n
        children := (deref h p).children ++ (if p = n then combo else []) } := by
  induction combo generalizing h with
  | nil => simp [wire]
  | cons c combo ih =>
    show deref (wire n combo _) p = _
    rw [ih _ (by rw [length_modifyAt, length_modifyAt]; exact hp),
      deref_modifyAt _ p c _ (by rw [length_modifyAt]; exact hp),
      deref_modifyAt _ p n h hp]
    by_cases hc : p = c
    · subst hc
      by_cases hn : p = n
      · subst hn
        simp [List.replicate_succ]
      · simp [hn, List.replicate_succ]
    · have hc1 : ¬ c = p := fun e => hc e.symm
      by_cases hn : p = n
      · subst hn
        simp [hc, hc1]
      · simp [hc, hc1, hn]

/-- The loop `currNode->parents.pop_back()` of the undo. -/
theorem deref_popParents (combo : List Nat) (h : Heap) (p : Nat) (hp : p < h.length) :
    deref (combo.foldl
        (fun h currNode =>
          modifyAt (fun n => { n with parents := n.parents.dropLast }) currNode h) h) p =
      { data := (deref h p).data
        parents := (List.dropLast)^[combo.count p] (deref h p).parents
        children := (deref h p).children } := by
  induction combo generalizing h with
  | nil => simp
  | cons c combo ih =>
    rw [List.foldl_cons, ih _ (by rw [length_modifyAt]; exact hp),
      deref_modifyAt _ p c h hp]
    by_cases hc : p = c
    · subst hc
      simp [Function.iterate_succ_apply]
    · have hc1 : ¬ c = p := fun e => hc e.symm
      simp [hc, hc1]

theorem length_popParents (combo : List Nat) (h : Heap) :
    (combo.foldl
        (fun h currNode =>
          modifyAt (fun n => { n with parents := n.parents.dropLast }) currNode h) h).length
      = h.length := by
  induction combo generalizing h with
  | nil => rfl
  | cons c combo ih => rw [List.foldl_cons, ih, length_modifyAt]

theorem length_unwire (n : Nat) (combo : List Nat) (h : Heap) :
    (unwire n combo h).length = h.length := by
  unfold unwire
  rw [length_popParents, length_modifyAt]

/-- The node at an allocated address after the undo of the wiring. -/
theorem deref_unwire (n : Nat) (combo : List Nat) (h : Heap) (p : Nat) (hp : p < h.length) :
    deref (unwire n combo h) p =
      { data := (deref h p).data
        parents := (List.dropLast)^[combo.count p] (deref h p).parents
        children := if p = n then [] else (deref h p).children } := by
  unfold unwire
  rw [deref_popParents _ _ _ (by rw [length_modifyAt]; exact hp), deref_modifyAt _ p n h hp]
  by_cases hn : p = n
  · simp [hn]
  · simp [hn]

theorem iterate_dropLast_append_replicate (l : List Nat) (k n : Nat) :
    (List.dropLast)^[k] (l ++ List.replicate k n) = l := by
  induction k with
  | zero => simp
  | succ k ih =>
    rw [Function.iterate_succ_apply, List.replicate_succ', ← List.append_assoc,
      List.dropLast_concat, ih]

/-- Undoing the wiring restores every node; only the children of `nodeToAdd`
are cleared. -/
theorem unwire_wire (n : Nat) (combo : List Nat) (h : Heap) :
    unwire n combo (wire n combo h) = modifyAt (fun nd => { nd with children := [] }) n h := by
  apply heap_ext
  · rw [length_unwire, length_wire, length_modifyAt]
  · intro p hp
    rw [length_unwire, length_wire] at hp
    rw [deref_unwire _ _ _ _ (by rw [length_wire]; exact hp), deref_wire _ _ _ _ hp,
      deref_modifyAt _ p n h hp]
    by_cases hn : p = n
    · simp [hn, iterate_dropLast_append_replicate]
    · simp [hn, iterate_dropLast_append_replicate]

/-! ## Frame of `ruleApplies` -/

theorem otherNodeStep_cases (heap : Heap) (currNode : Nat) (currType : constraintTypes)
    (slice : List Int) (scan : SlotScan) (o : Nat) :
    (otherNodeStep heap currNode currType slice scan o).applicableNodes
        = scan.applicableNodes ∨
      (otherNodeStep heap currNode currType slice scan o).applicableNodes
        = scan.applicableNodes ++ [o] := by
  unfold otherNodeStep
  split
  · exact Or.inr rfl
  · exact Or.inl rfl

theorem otherNodeStep_applicable (heap : Heap) (currNode : Nat) (currType : constraintTypes)
    (slice : List Int) (graph : List Nat) (scan : SlotScan) :
    ∃ extra, (graph.foldl (otherNodeStep heap currNode currType slice) scan).applicableNodes
        = scan.applicableNodes ++ extra ∧ ∀ x ∈ extra, x ∈ graph := by
  induction graph generalizing scan with
  | nil => exact ⟨[], by simp, by simp⟩
  | cons o graph ih =>
    rw [List.foldl_cons]
    obtain ⟨extra, he, hsub⟩ := ih (otherNodeStep heap currNode currType slice scan o)
    rcases otherNodeStep_cases heap currNode currType slice scan o with hc | hc
    · rw [hc] at he
      exact ⟨extra, he, fun x hx => List.mem_cons_of_mem _ (hsub x hx)⟩
    · rw [hc] at he
      refine ⟨o :: extra, ?_, ?_⟩
      · rw [he]
        simp
      · intro x hx
        rcases List.mem_cons.mp hx with rfl | hx
        · exact List.mem_cons_self _ _
        · exact List.mem_cons_of_mem _ (hsub x hx)

theorem remainingLoop_applicable {behind : List constraintTypes} (heap : Heap)
    (rule : inferenceRule) (graph : List Nat)
    (currNode : Nat) (fuel : Nat) :
    ∀ (remaining : List constraintTypes) (applicable nodes : List Nat),
      remainingLoop heap behind rule graph currNode fuel remaining applicable = .ok (some nodes) →
      ∃ extra, nodes = applicable ++ extra ∧ ∀ x ∈ extra, x ∈ graph := by
  induction fuel with
  | zero =>
    intro remaining applicable nodes h
    simp [remainingLoop] at h
  | succ fuel ih =>
    intro remaining applicable nodes h
    unfold remainingLoop at h
    by_cases hall : vectorContainsOnlyConstraintTypes constraintTypes.invalid remaining = true
    · simp only [hall, if_true, Except.ok.injEq, Option.some.injEq] at h
      exact ⟨[], by simp [h], by simp⟩
    · simp only [hall, Bool.false_eq_true, if_false] at h
      cases hf : findNextConstraintTypeWithPosition remaining with
      | error e => simp [hf] at h
      | ok r =>
        obtain ⟨currType, pos⟩ := r
        simp only [hf] at h
        cases hs : sliceRequirementIDs behind pos rule.requirementTypes rule.requirementIDs with
        | error e => simp [hs] at h
        | ok slice =>
          simp only [hs] at h
          split at h
          · cases h
          · obtain ⟨e1, h1, hs1⟩ := otherNodeStep_applicable heap currNode currType slice graph
              { applicableNodes := applicable, nodeFound := false,
                remainingRequirements := remaining, pos := pos }
            obtain ⟨e2, h2, hs2⟩ := ih _ _ _ h
            refine ⟨e1 ++ e2, ?_, ?_⟩
            · rw [h2, h1, List.append_assoc]
            · intro x hx
              rcases List.mem_append.mp hx with hx | hx
              · exact hs1 x hx
              · exact hs2 x hx

/-- What `ruleApplies` leaves behind: the heap and the rule list are untouched,
and the memo grows by combinations of graph nodes (and anchors), each paired
with the rule. -/
theorem ruleAppliesLoop_frame (rule : inferenceRule) (graph : List Nat)
    (pairs : List (Nat × Nat)) :
    ∀ (b : Bool) (sv : Service) (b1 : Bool) (sv1 : Service),
      ruleAppliesLoop rule graph pairs b sv = .ok (b1, sv1) →
      sv1.heap = sv.heap ∧ sv1.ruleList = sv.ruleList ∧
        ∃ combos, sv1.nodeCombosThisIteration = sv.nodeCombosThisIteration ++ combos ∧
          sv1.rulesAppliedThisIteration
            = sv.rulesAppliedThisIteration ++ List.replicate combos.length rule ∧
          ∀ c ∈ combos, ∀ x ∈ c, x ∈ graph ∨ ∃ pr ∈ pairs, x = pr.1 := by
  induction pairs with
  | nil =>
    intro b sv b1 sv1 h
    simp only [ruleAppliesLoop, Except.ok.injEq, Prod.mk.injEq] at h
    obtain ⟨_, rfl⟩ := h
    exact ⟨rfl, rfl, [], by simp, by simp, by simp⟩
  | cons pr rest ih =>
    obtain ⟨currNode, i⟩ := pr
    intro b sv b1 sv1 h
    unfold ruleAppliesLoop at h
    cases hs : sliceRequirementIDs sv.wordsBehind i rule.requirementTypes rule.requirementIDs with
    | error e => simp [hs] at h
    | ok slice =>
      simp only [hs] at h
      split at h
      · simp only [Except.ok.injEq, Prod.mk.injEq] at h
        obtain ⟨_, rfl⟩ := h
        exact ⟨rfl, rfl, [], by simp, by simp, by simp⟩
      · split at h
        · cases hr : remainingLoop sv.heap sv.wordsBehind rule graph currNode
              (rule.requirementTypes.length + 1)
              (invalidateRun (deref sv.heap currNode).data.type i rule.requirementTypes).1
              [currNode] with
          | error e => simp [hr] at h
          | ok res =>
            cases res with
            | none =>
              simp only [hr, Except.ok.injEq, Prod.mk.injEq] at h
              obtain ⟨_, rfl⟩ := h
              exact ⟨rfl, rfl, [], by simp, by simp, by simp⟩
            | some nodes =>
              simp only [hr] at h
              obtain ⟨extra, hnodes, hextra⟩ := remainingLoop_applicable _ _ _ _ _ _ _ _ hr
              split at h
              · obtain ⟨hh, hl, combos, hc, hrl, hmem⟩ := ih _ _ _ _ h
                refine ⟨hh, hl, combos, hc, hrl, ?_⟩
                intro c hcm x hx
                rcases hmem c hcm x hx with hg | ⟨pr, hpr, hxp⟩
                · exact Or.inl hg
                · exact Or.inr ⟨pr, List.mem_cons_of_mem _ hpr, hxp⟩
              · obtain ⟨hh, hl, combos, hc, hrl, hmem⟩ := ih _ _ _ _ h
                refine ⟨hh, hl, nodes :: combos, ?_, ?_, ?_⟩
                · rw [hc]
                  simp
                · rw [hrl]
                  simp [List.replicate_succ]
                · intro c hcm x hx
                  rcases List.mem_cons.mp hcm with rfl | hcm
                  · rw [hnodes] at hx
                    rcases List.mem_append.mp hx with hx | hx
                    · have hx1 : x = currNode := by simpa using hx
                      exact Or.inr ⟨(currNode, i), List.mem_cons_self _ _, hx1⟩
                    · exact Or.inl (hextra x hx)
                  · rcases hmem c hcm x hx with hg | ⟨pr, hpr, hxp⟩
                    · exact Or.inl hg
                    · exact Or.inr ⟨pr, List.mem_cons_of_mem _ hpr, hxp⟩
        · obtain ⟨hh, hl, combos, hc, hrl, hmem⟩ := ih _ _ _ _ h
          refine ⟨hh, hl, combos, hc, hrl, ?_⟩
          intro c hcm x hx
          rcases hmem c hcm x hx with hg | ⟨pr, hpr, hxp⟩
          · exact Or.inl hg
          · exact Or.inr ⟨pr, List.mem_cons_of_mem _ hpr, hxp⟩

theorem ruleAppliesLoop_words (rule : inferenceRule) (graph : List Nat)
    (pairs : List (Nat × Nat)) :
    ∀ (b : Bool) (sv : Service) (b1 : Bool) (sv1 : Service),
      ruleAppliesLoop rule graph pairs b sv = .ok (b1, sv1) →
      sv1.wordsBehind = sv.wordsBehind := by
  induction pairs with
  | nil =>
    intro b sv b1 sv1 h
    simp only [ruleAppliesLoop, Except.ok.injEq, Prod.mk.injEq] at h
    obtain ⟨_, rfl⟩ := h
    rfl
  | cons pr rest ih =>
    obtain ⟨currNode, i⟩ := pr
    intro b sv b1 sv1 h
    unfold ruleAppliesLoop at h
    cases hs : sliceRequirementIDs sv.wordsBehind i rule.requirementTypes rule.requirementIDs with
    | error e => simp [hs] at h
    | ok slice =>
      simp only [hs] at h
      split at h
      · simp only [Except.ok.injEq, Prod.mk.injEq] at h
        obtain ⟨_, rfl⟩ := h
        rfl
      · split at h
        · cases hr : remainingLoop sv.heap sv.wordsBehind rule graph currNode
              (rule.requirementTypes.length + 1)
              (invalidateRun (deref sv.heap currNode).data.type i rule.requirementTypes).1
              [currNode] with
          | error e => simp [hr] at h
          | ok res =>
            cases res with
            | none =>
              simp only [hr, Except.ok.injEq, Prod.mk.injEq] at h
              obtain ⟨_, rfl⟩ := h
              rfl
            | some nodes =>
              simp only [hr] at h
              split at h
              · exact ih _ _ _ _ h
              · have := ih _ _ _ _ h
                exact this
        · exact ih _ _ _ _ h

theorem rulesLoop_words (graph : List Nat) (rules : List inferenceRule) :
    ∀ (b : Bool) (sv : Service) (b1 : Bool) (sv1 : Service),
      rulesLoop graph rules b sv = .ok (b1, sv1) → sv1.wordsBehind = sv.wordsBehind := by
  induction rules with
  | nil =>
    intro b sv b1 sv1 h
    simp only [rulesLoop, Except.ok.injEq, Prod.mk.injEq] at h
    obtain ⟨_, rfl⟩ := h
    rfl
  | cons rule rules ih =>
    intro b sv b1 sv1 h
    unfold rulesLoop at h
    cases hr : ruleApplies (some rule) graph sv with
    | error e => simp [hr] at h
    | ok res =>
      obtain ⟨flag, sv0⟩ := res
      have h0 : sv0.wordsBehind = sv.wordsBehind :=
        ruleAppliesLoop_words rule graph _ _ _ _ _ hr
      cases flag with
      | true =>
        simp only [hr] at h
        exact (ih _ _ _ _ h).trans h0
      | false =>
        simp only [hr] at h
        exact (ih _ _ _ _ h).trans h0

theorem anchorPositions_fst {rule : inferenceRule} {graph : List Nat} {pr : Nat × Nat}
    (h : pr ∈ anchorPositions rule graph) : pr.1 ∈ graph ∧ pr.2 < rule.requirementTypes.length := by
  unfold anchorPositions at h
  simp only [List.mem_flatMap, List.mem_map, List.mem_range] at h
  obtain ⟨n, hn, i, hi, rfl⟩ := h
  exact ⟨hn, hi⟩

/-- The frame of a call `ruleApplies(&rule, graph)`. -/
theorem ruleApplies_frame (rule : inferenceRule) (graph : List Nat) (sv : Service)
    (b1 : Bool) (sv1 : Service) (h : ruleApplies (some rule) graph sv = .ok (b1, sv1)) :
    sv1.heap = sv.heap ∧ sv1.ruleList = sv.ruleList ∧
      ∃ combos, sv1.nodeCombosThisIteration = sv.nodeCombosThisIteration ++ combos ∧
        sv1.rulesAppliedThisIteration
          = sv.rulesAppliedThisIteration ++ List.replicate combos.length rule ∧
        ∀ c ∈ combos, ∀ x ∈ c, x ∈ graph := by
  obtain ⟨hh, hl, combos, hc, hrl, hmem⟩ := ruleAppliesLoop_frame rule graph _ _ _ _ _ h
  refine ⟨hh, hl, combos, hc, hrl, ?_⟩
  intro c hcm x hx
  rcases hmem c hcm x hx with hg | ⟨pr, hpr, hxp⟩
  · exact hg
  · rw [hxp]
    exact (anchorPositions_fst hpr).1

theorem rulesLoop_frame (graph : List Nat) (rules : List inferenceRule) :
    ∀ (b : Bool) (sv : Service) (b1 : Bool) (sv1 : Service),
      rulesLoop graph rules b sv = .ok (b1, sv1) →
      sv1.heap = sv.heap ∧ sv1.ruleList = sv.ruleList ∧
        ∃ combos applied,
          sv1.nodeCombosThisIteration = sv.nodeCombosThisIteration ++ combos ∧
          sv1.rulesAppliedThisIteration = sv.rulesAppliedThisIteration ++ applied ∧
          combos.length = applied.length ∧
          (∀ c ∈ combos, ∀ x ∈ c, x ∈ graph) ∧ ∀ r ∈ applied, r ∈ rules := by
  induction rules with
  | nil =>
    intro b sv b1 sv1 h
    simp only [rulesLoop, Except.ok.injEq, Prod.mk.injEq] at h
    obtain ⟨_, rfl⟩ := h
    exact ⟨rfl, rfl, [], [], by simp, by simp, rfl, by simp, by simp⟩
  | cons rule rules ih =>
    intro b sv b1 sv1 h
    unfold rulesLoop at h
    cases hr : ruleApplies (some rule) graph sv with
    | error e => simp [hr] at h
    | ok res =>
      obtain ⟨flag, sv0⟩ := res
      obtain ⟨hh0, hl0, combos0, hc0, hr0, hm0⟩ := ruleApplies_frame rule graph sv flag sv0 hr
      have key : ∀ b0, rulesLoop graph rules b0 sv0 = .ok (b1, sv1) →
          sv1.heap = sv.heap ∧ sv1.ruleList = sv.ruleList ∧
            ∃ combos applied,
              sv1.nodeCombosThisIteration = sv.nodeCombosThisIteration ++ combos ∧
              sv1.rulesAppliedThisIteration = sv.rulesAppliedThisIteration ++ applied ∧
              combos.length = applied.length ∧
              (∀ c ∈ combos, ∀ x ∈ c, x ∈ graph) ∧ ∀ r ∈ applied, r ∈ rule :: rules := by
        intro b0 h0
        obtain ⟨hh, hl, combos, applied, hc, hra, hlen, hm, hin⟩ := ih _ _ _ _ h0
        refine ⟨hh.trans hh0, hl.trans hl0, combos0 ++ combos,
          List.replicate combos0.length rule ++ applied, ?_, ?_, ?_, ?_, ?_⟩
        · rw [hc, hc0, List.append_assoc]
        · rw [hra, hr0, List.append_assoc]
        · simp [hlen]
        · intro c hcm x hx
          rcases List.mem_append.mp hcm with hcm | hcm
          · exact hm0 c hcm x hx
          · exact hm c hcm x hx
        · intro r hrm
          rcases List.mem_append.mp hrm with hrm | hrm
          · rw [(List.mem_replicate.mp hrm).2]
            exact List.mem_cons_self _ _
          · exact List.mem_cons_of_mem _ (hin r hrm)
      cases flag with
      | true =>
        simp only [hr] at h
        exact key _ h
      | false =>
        simp only [hr] at h
        exact key _ h

/-! ## Frame of `checkCompatibility` -/

theorem heapExtends_refl (h : Heap) : HeapExtends h h :=
  ⟨le_refl _, fun _ _ => ⟨rfl, rfl, List.prefix_refl _⟩⟩

theorem heapExtends_trans {h1 h2 h3 : Heap} (h12 : HeapExtends h1 h2)
    (h23 : HeapExtends h2 h3) : HeapExtends h1 h3 := by
  refine ⟨le_trans h12.1 h23.1, ?_⟩
  intro p hp
  obtain ⟨d1, c1, p1⟩ := h12.2 p hp
  obtain ⟨d2, c2, p2⟩ := h23.2 p (lt_of_lt_of_le hp h12.1)
  exact ⟨d2.trans d1, c2.trans c1, p1.trans p2⟩

theorem heapExtends_append (h x : Heap) : HeapExtends h (h ++ x) := by
  refine ⟨by simp, ?_⟩
  intro p hp
  rw [deref_append_left h x hp]
  exact ⟨rfl, rfl, List.prefix_refl _⟩

theorem heapExtends_wire {h h1 : Heap} (n : Nat) (combo : List Nat)
    (hn : h.length ≤ n) (hext : HeapExtends h h1) : HeapExtends h (wire n combo h1) := by
  refine ⟨by rw [length_wire]; exact hext.1, ?_⟩
  intro p hp
  obtain ⟨d1, c1, p1⟩ := hext.2 p hp
  have hp1 : p < h1.length := lt_of_lt_of_le hp hext.1
  have hne : p ≠ n := fun e => by omega
  rw [deref_wire n combo h1 p hp1]
  refine ⟨d1, ?_, ?_⟩
  · simp [hne, c1]
  · exact p1.trans (List.prefix_append _ _)

theorem heapExtends_modifyAt {h h1 : Heap} (f : constraintNode → constraintNode) (n : Nat)
    (hn : h.length ≤ n) (hext : HeapExtends h h1) : HeapExtends h (modifyAt f n h1) := by
  refine ⟨by rw [length_modifyAt]; exact hext.1, ?_⟩
  intro p hp
  have hne : p ≠ n := fun e => by omega
  rw [deref_modifyAt_ne f hne]
  exact hext.2 p hp

/-- The two ways the conflict branch ends: the node is accepted and stays
wired, or it is dropped and its wiring is undone. -/
theorem resolve_cases {n : Nat} {combo : List Nat} {sw sw1 : Sweep} {e : Exit}
    (h : resolve n combo sw = .ok (e, sw1)) :
    (nodeIsPresentInGraph (wire n combo sw.heap) n sw.constraintGraph = none ∧
        e = Exit.running ∧ sw1.heap = wire n combo sw.heap ∧
        sw1.constraintGraph = sw.constraintGraph ++ [n] ∧ sw1.continueLoop = true) ∨
      (∃ other, nodeIsPresentInGraph (wire n combo sw.heap) n sw.constraintGraph = some other ∧
        descendentsAreSuperset (wire n combo sw.heap) n other
          = .ok (decide (e = Exit.running)) ∧
        e ≠ Exit.invalidKind ∧
        sw1.heap = modifyAt (fun nd => { nd with children := [] }) n sw.heap ∧
        sw1.constraintGraph = sw.constraintGraph ∧ sw1.continueLoop = sw.continueLoop) := by
  unfold resolve at h
  cases hp : nodeIsPresentInGraph (wire n combo sw.heap) n sw.constraintGraph with
  | none =>
    simp only [hp, Except.ok.injEq, Prod.mk.injEq] at h
    obtain ⟨rfl, rfl⟩ := h
    exact Or.inl ⟨rfl, rfl, rfl, rfl, rfl⟩
  | some other =>
    simp only [hp] at h
    cases hd : descendentsAreSuperset (wire n combo sw.heap) n other with
    | error err => simp [hd] at h
    | ok b =>
      cases b with
      | true =>
        simp only [hd, Except.ok.injEq, Prod.mk.injEq] at h
        obtain ⟨rfl, rfl⟩ := h
        exact Or.inr ⟨other, rfl, by simpa using hd, by simp, unwire_wire n combo sw.heap, rfl, rfl⟩
      | false =>
        simp only [hd, Except.ok.injEq, Prod.mk.injEq] at h
        obtain ⟨rfl, rfl⟩ := h
        exact Or.inr ⟨other, rfl, by simpa using hd, by simp, unwire_wire n combo sw.heap, rfl, rfl⟩

theorem graphGrows_refl (h : Heap) (g : List Nat) : GraphGrows h g h g :=
  ⟨heapExtends_refl h, [], by simp, by simp⟩

theorem graphGrows_trans {h1 h2 h3 : Heap} {g1 g2 g3 : List Nat}
    (a : GraphGrows h1 g1 h2 g2) (b : GraphGrows h2 g2 h3 g3) : GraphGrows h1 g1 h3 g3 := by
  obtain ⟨e1, a1, ha1, hb1⟩ := a
  obtain ⟨e2, a2, ha2, hb2⟩ := b
  refine ⟨heapExtends_trans e1 e2, a1 ++ a2, by rw [ha2, ha1, List.append_assoc], ?_⟩
  intro x hx
  rcases List.mem_append.mp hx with hx | hx
  · exact ⟨(hb1 x hx).1, lt_of_lt_of_le (hb1 x hx).2 e2.1⟩
  · exact ⟨le_trans e1.1 (hb2 x hx).1, (hb2 x hx).2⟩

/-- One round of the result loop: allocate the node, then the conflict
branch. -/
theorem resolve_frame {c : constraint} {combo : List Nat} {sw sw1 : Sweep} {e : Exit}
    (h : resolve sw.heap.length combo
      { sw with heap := sw.heap ++ [{ data := c, parents := [], children := [] }] }
        = .ok (e, sw1)) :
    GraphGrows sw.heap sw.constraintGraph sw1.heap sw1.constraintGraph := by
  have hbase : HeapExtends sw.heap
      (sw.heap ++ [{ data := c, parents := [], children := [] }]) :=
    heapExtends_append _ _
  rcases resolve_cases h with ⟨_, _, hh, hg, _⟩ | ⟨_, _, _, _, hh, hg, _⟩
  · refine ⟨?_, [sw.heap.length], hg, ?_⟩
    · rw [hh]
      exact heapExtends_wire _ _ (le_refl _) hbase
    · intro x hx
      have hx1 : x = sw.heap.length := by simpa using hx
      rw [hx1, hh, length_wire]
      simp
  · refine ⟨?_, [], by simp [hg], by simp⟩
    rw [hh]
    exact heapExtends_modifyAt _ _ (le_refl _) hbase

theorem resultLoop_frame (combo : List Nat) (rule : inferenceRule) (fuel : Nat) :
    ∀ (i : Nat) (sw sw1 : Sweep) (e : Exit),
      resultLoop combo rule fuel i sw = .ok (e, sw1) →
      GraphGrows sw.heap sw.constraintGraph sw1.heap sw1.constraintGraph := by
  induction fuel with
  | zero =>
    intro i sw sw1 e h
    unfold resultLoop at h
    split at h
    · cases h
    · simp only [Except.ok.injEq, Prod.mk.injEq] at h
      obtain ⟨_, rfl⟩ := h
      exact graphGrows_refl _ _
  | succ fuel ih =>
    intro i sw sw1 e h
    unfold resultLoop at h
    cases ht : rule.resultTypes.get? i with
    | none =>
      simp only [ht, Except.ok.injEq, Prod.mk.injEq] at h
      obtain ⟨_, rfl⟩ := h
      exact graphGrows_refl _ _
    | some currType =>
      simp only [ht] at h
      cases hd : decodeResult rule i currType with
      | error err => simp [hd] at h
      | ok res =>
        cases res with
        | none =>
          simp only [hd, Except.ok.injEq, Prod.mk.injEq] at h
          obtain ⟨_, rfl⟩ := h
          exact ⟨heapExtends_append _ _, [], by simp, by simp⟩
        | some ci =>
          obtain ⟨c, i1⟩ := ci
          simp only [hd] at h
          cases hr : resolve sw.heap.length combo
              { sw with heap := sw.heap ++ [{ data := c, parents := [], children := [] }] } with
          | error err => simp [hr] at h
          | ok res1 =>
            obtain ⟨e1, sw2⟩ := res1
            have hstep := resolve_frame hr
            cases e1 with
            | running =>
              simp only [hr] at h
              exact graphGrows_trans hstep (ih _ _ _ _ h)
            | contradiction =>
              simp only [hr, Except.ok.injEq, Prod.mk.injEq] at h
              obtain ⟨_, rfl⟩ := h
              exact hstep
            | invalidKind =>
              simp only [hr, Except.ok.injEq, Prod.mk.injEq] at h
              obtain ⟨_, rfl⟩ := h
              exact hstep

theorem comboLoop_frame (applied : List inferenceRule) (combos : List (List Nat)) :
    ∀ (j : Nat) (sw sw1 : Sweep) (e : Exit),
      comboLoop applied combos j sw = .ok (e, sw1) →
      GraphGrows sw.heap sw.constraintGraph sw1.heap sw1.constraintGraph := by
  induction combos with
  | nil =>
    intro j sw sw1 e h
    simp only [comboLoop, Except.ok.injEq, Prod.mk.injEq] at h
    obtain ⟨_, rfl⟩ := h
    exact graphGrows_refl _ _
  | cons combo combos ih =>
    intro j sw sw1 e h
    unfold comboLoop at h
    split at h
    · cases h
    · split at h
      · cases h
      · rename_i hr
        exact graphGrows_trans (resultLoop_frame _ _ _ _ _ _ _ hr) (ih _ _ _ _ h)
      · rename_i hr
        simp only [Except.ok.injEq, Prod.mk.injEq] at h
        obtain ⟨rfl, rfl⟩ := h
        exact resultLoop_frame _ _ _ _ _ _ _ hr

/-- The frame of a call of `checkCompatibility`: the nodes allocated before the
call keep their constraint and children, their parents lists only grow at the
end, the rule list is untouched, and the callee's vector is the input vector
followed by nodes allocated during the call. -/
theorem checkCompatibility_frame (fuel : Nat) :
    ∀ (sv : Service) (g : List Nat) (v : Verdict),
      checkCompatibility fuel sv g = .ok v →
      GraphGrows sv.heap g v.service.heap v.constraintGraph ∧
        v.service.ruleList = sv.ruleList := by
  induction fuel with
  | zero =>
    intro sv g v h
    simp [checkCompatibility] at h
  | succ fuel ih =>
    intro sv g v h
    unfold checkCompatibility at h
    cases hr : rulesLoop g sv.ruleList false sv with
    | error err => simp [hr] at h
    | ok res =>
      obtain ⟨flag, sv1⟩ := res
      obtain ⟨hh, hl, _⟩ := rulesLoop_frame _ _ _ _ _ _ hr
      cases flag with
      | false =>
        simp only [hr, Except.ok.injEq] at h
        subst h
        simp only
        rw [hh]
        exact ⟨graphGrows_refl _ _, hl⟩
      | true =>
        simp only [hr] at h
        cases hc : comboLoop sv1.rulesAppliedThisIteration sv1.nodeCombosThisIteration 0
            { heap := sv1.heap, constraintGraph := g, continueLoop := false } with
        | error err => simp [hc] at h
        | ok res1 =>
          obtain ⟨e1, sw⟩ := res1
          have hstep := comboLoop_frame _ _ _ _ _ _ hc
          simp only [hh] at hstep
          cases e1 with
          | invalidKind =>
            simp only [hc, Except.ok.injEq] at h
            subst h
            exact ⟨hstep, hl⟩
          | contradiction =>
            simp only [hc, Except.ok.injEq] at h
            subst h
            exact ⟨hstep, hl⟩
          | running =>
            simp only [hc] at h
            split at h
            · obtain ⟨h1, h2⟩ := ih _ _ _ h
              exact ⟨graphGrows_trans hstep h1, h2.trans hl⟩
            · simp only [Except.ok.injEq] at h
              subst h
              exact ⟨hstep, hl⟩

/-! ## The turns of the assignor loop -/

theorem rejectMonitor_returns (st : Assignor) (sv : Service) (g : List Nat) (cursor : Nat)
    (b : Bool) :
    (∃ st1, rejectMonitor st sv g cursor b = .ok st1) ↔ cursor < st.monitorTasksTried.length := by
  unfold rejectMonitor writeAt
  by_cases h : cursor < st.monitorTasksTried.length
  · simp [h]
  · simp [h]

theorem rejectMonitor_ok {st st1 : Assignor} {sv : Service} {g : List Nat} {cursor : Nat}
    {b : Bool} (h : rejectMonitor st sv g cursor b = .ok st1) :
    st1.constraintGraph = g ∧ st1.monitorsAssigned = st.monitorsAssigned ∧
      st1.centroidsAssigned = st.centroidsAssigned ∧ st1.monitoringIDs = st.monitoringIDs := by
  unfold rejectMonitor at h
  split at h
  · cases h
  · simp only [Except.ok.injEq] at h
    subst h
    exact ⟨rfl, rfl, rfl, rfl⟩

theorem rejectCentroid_returns (st : Assignor) (sv : Service) (g : List Nat) (cursor : Nat)
    (b : Bool) :
    (∃ st1, rejectCentroid st sv g cursor b = .ok st1)
      ↔ cursor < st.centroidTasksTried.length := by
  unfold rejectCentroid writeAt
  by_cases h : cursor < st.centroidTasksTried.length
  · simp [h]
  · simp [h]

theorem rejectCentroid_ok {st st1 : Assignor} {sv : Service} {g : List Nat} {cursor : Nat}
    {b : Bool} (h : rejectCentroid st sv g cursor b = .ok st1) :
    st1.constraintGraph = g ∧ st1.monitorsAssigned = st.monitorsAssigned ∧
      st1.centroidsAssigned = st.centroidsAssigned ∧ st1.monitoringIDs = st.monitoringIDs := by
  unfold rejectCentroid at h
  split at h
  · cases h
  · simp only [Except.ok.injEq] at h
    subst h
    exact ⟨rfl, rfl, rfl, rfl⟩

/-- The monitor turn when the candidate is not kept. -/
theorem monitorTurn_reject (cf : Nat) (st : Assignor) (c : constraint) (g0 : Int)
    (hc : candidate st st.monitorOptions st.monitorTaskToTry = some c)
    (hg : c.groupIDs.get? 0 = some g0)
    (hcause : vectorContainsInt g0 st.monitoringIDs = true ∨
      ∃ v, tentativeCheck cf st c = .ok v ∧ v.accepted = false) :
    ∃ sv b, monitorTurn cf st
      = rejectMonitor st sv st.constraintGraph (st.monitorTaskToTry + 1) b := by
  unfold monitorTurn
  simp only [hc, hg]
  by_cases hcom : vectorContainsInt g0 st.monitoringIDs = true
  · simp only [hcom, if_true]
    exact ⟨_, _, rfl⟩
  · rcases hcause with h1 | ⟨v, hv, hacc⟩
    · exact absurd h1 hcom
    · simp only [hcom, Bool.false_eq_true, if_false, hv, hacc]
      exact ⟨_, _, rfl⟩

/-- The centroid turn when the candidate is not kept. -/
theorem centroidTurn_reject (cf : Nat) (st : Assignor) (c : constraint) (v : Verdict)
    (hc : candidate st st.centroidOptions st.centroidTaskToTry = some c)
    (hv : tentativeCheck cf st c = .ok v)
    (hcause : v.accepted = false ∨
      ∃ g0 g1, c.groupIDs.get? 0 = some g0 ∧ c.groupIDs.get? 1 = some g1 ∧
        vectorContainsInt g0 st.monitoringIDs = vectorContainsInt g1 st.monitoringIDs) :
    ∃ sv b, centroidTurn cf st
      = rejectCentroid st sv st.constraintGraph (st.centroidTaskToTry + 1) b := by
  unfold centroidTurn
  simp only [hc, hv]
  by_cases hacc : v.accepted = true
  · rcases hcause with h1 | ⟨g0, g1, h0, h1, hsame⟩
    · rw [h1] at hacc
      cases hacc
    · simp only [hacc, if_true, h0, h1, hsame]
      cases vectorContainsInt g1 st.monitoringIDs with
      | true => exact ⟨_, _, rfl⟩
      | false => exact ⟨_, _, rfl⟩
  · simp only [hacc, Bool.false_eq_true, if_false]
    exact ⟨_, _, rfl⟩

theorem monitorTurn_graph {cf : Nat} {st st1 : Assignor} (h : monitorTurn cf st = .ok st1) :
    st1.constraintGraph = st.constraintGraph ∨
      st1.constraintGraph = st.constraintGraph ++ [st.service.heap.length] := by
  unfold monitorTurn at h
  split at h
  · cases h
  · split at h
    · cases h
    · split at h
      · exact Or.inl (rejectMonitor_ok h).1
      · split at h
        · cases h
        · split at h
          · simp only [Except.ok.injEq] at h
            subst h
            exact Or.inr rfl
          · exact Or.inl (rejectMonitor_ok h).1

theorem centroidTurn_graph {cf : Nat} {st st1 : Assignor} (h : centroidTurn cf st = .ok st1) :
    st1.constraintGraph = st.constraintGraph ∨
      st1.constraintGraph = st.constraintGraph ++ [st.service.heap.length] := by
  unfold centroidTurn at h
  split at h
  · cases h
  · split at h
    · cases h
    · split at h
      · split at h
        · split at h
          · simp only [Except.ok.injEq] at h
            subst h
            exact Or.inr rfl
          · split at h
            · simp only [Except.ok.injEq] at h
              subst h
              exact Or.inr rfl
            · exact Or.inl (rejectCentroid_ok h).1
        · cases h
      · exact Or.inl (rejectCentroid_ok h).1

/-- C12. On the code the Centroids over `[1,2]` and `[2,1]` are not equal under
the engine comparison: `nodeIsPresentInGraph` does not report the second as
present when the first is in the graph, and the de-duplication pass keeps
both. -/
theorem C12_scenarioC_both_centroids_stay :
    constraintsEqual (deref scenarioCHeap 0).data (deref scenarioCHeap 1).data
        (engineFlag constraintTypes.centroid) = false ∧
      nodeIsPresentInGraph scenarioCHeap 1 [0] = none ∧
      dedupPass scenarioCHeap [0, 1] = .ok [0, 1] :=
  ⟨by decide, by decide, rfl⟩

/-- C14, as stated, fails: on `oneMonitorState` the check of the monitor turn
returns true after accepting the derived `Relative [1,2]` (node 2) into its own
copy of the graph, and the working graph after the turn holds the candidate
(node 1) only. -/
theorem C14_derived_node_not_in_caller_graph_counterexample :
    (tentativeCheck 3 oneMonitorState (monitorTask 1 2)).map
        (fun v => (v.accepted, v.constraintGraph, (deref v.service.heap 2).data))
        = .ok (true, [1, 2], freshConstraint constraintTypes.relative [1, 2] []) ∧
      (monitorTurn 3 oneMonitorState).map
          (fun st => (st.monitorsAssigned, st.constraintGraph)) = .ok (1, [1]) ∧
      2 ∉ [1] :=
  ⟨rfl, rfl, by decide⟩

/-- C14, amended. Derived nodes are appended to the copy of the graph that
`checkCompatibility` works on: at return that copy is the input vector
followed by nodes allocated during the call.  The caller's graph does not
receive them: after a turn of the assignor it is the previous vector, followed
by the candidate node if the candidate was kept. -/
theorem C14_derived_nodes_stay_in_callee_copy (fuel : Nat) (sv : Service) (g : List Nat)
    (cf : Nat) (st : Assignor) :
    (∀ v, checkCompatibility fuel sv g = .ok v →
        ∃ added, v.constraintGraph = g ++ added ∧
          ∀ x ∈ added, sv.heap.length ≤ x ∧ x < v.service.heap.length) ∧
      (∀ st1, monitorTurn cf st = .ok st1 →
        st1.constraintGraph = st.constraintGraph ∨
          st1.constraintGraph = st.constraintGraph ++ [st.service.heap.length]) ∧
      (∀ st1, centroidTurn cf st = .ok st1 →
        st1.constraintGraph = st.constraintGraph ∨
          st1.constraintGraph = st.constraintGraph ++ [st.service.heap.length]) :=
  ⟨fun v h => (checkCompatibility_frame fuel sv g v h).1.2,
    fun _ h => monitorTurn_graph h, fun _ h => centroidTurn_graph h⟩

/-- Witness for the amended C14 on `oneMonitorState`: the callee's copy ends as
`[1, 2]`, the caller's graph as `[1]`. -/
theorem C14_derived_nodes_stay_in_callee_copy_witness :
    ∃ v st1, tentativeCheck 3 oneMonitorState (monitorTask 1 2) = .ok v ∧
      monitorTurn 3 oneMonitorState = .ok st1 ∧
      (∃ added, v.constraintGraph = [1] ++ added ∧
        ∀ x ∈ added, 2 ≤ x ∧ x < v.service.heap.length) ∧
      (st1.constraintGraph = [] ∨ st1.constraintGraph = [] ++ [1]) :=
  ⟨_, _, rfl, rfl,
    (C14_derived_nodes_stay_in_callee_copy 3
      { oneMonitorState.service with
        heap := oneMonitorState.service.heap ++ [leafNode (monitorTask 1 2)] }
      [1] 3 oneMonitorState).1 _ rfl,
    (C14_derived_nodes_stay_in_callee_copy 3
      { oneMonitorState.service with
        heap := oneMonitorState.service.heap ++ [leafNode (monitorTask 1 2)] }
      [1] 3 oneMonitorState).2.1 _ rfl⟩

/-- C16. Rollback of the working graph: when a monitor turn does not keep its
candidate (the subject is already committed, or `checkCompatibility` returned
false) or a centroid turn does not keep its candidate (`checkCompatibility`
returned false, or its first two ids are both committed or both uncommitted),
the turn returns exactly when its write to the tried vector is inside the
vector, and then the graph vector and the count of accepted tasks are what
they were before the candidate was pushed. -/
theorem C16_rejected_turn_restores_graph (cf : Nat) (st : Assignor) (c : constraint) :
    (candidate st st.monitorOptions st.monitorTaskToTry = some c →
      ∀ g0, c.groupIDs.get? 0 = some g0 →
        (vectorContainsInt g0 st.monitoringIDs = true ∨
          ∃ v, tentativeCheck cf st c = .ok v ∧ v.accepted = false) →
        ((∃ st1, monitorTurn cf st = .ok st1)
            ↔ st.monitorTaskToTry + 1 < st.monitorTasksTried.length) ∧
          ∀ st1, monitorTurn cf st = .ok st1 →
            st1.constraintGraph = st.constraintGraph ∧
              st1.monitorsAssigned = st.monitorsAssigned) ∧
      (candidate st st.centroidOptions st.centroidTaskToTry = some c →
        ∀ v, tentativeCheck cf st c = .ok v →
          (v.accepted = false ∨
            ∃ g0 g1, c.groupIDs.get? 0 = some g0 ∧ c.groupIDs.get? 1 = some g1 ∧
              vectorContainsInt g0 st.monitoringIDs
                = vectorContainsInt g1 st.monitoringIDs) →
          ((∃ st1, centroidTurn cf st = .ok st1)
              ↔ st.centroidTaskToTry + 1 < st.centroidTasksTried.length) ∧
            ∀ st1, centroidTurn cf st = .ok st1 →
              st1.constraintGraph = st.constraintGraph ∧
                st1.centroidsAssigned = st.centroidsAssigned) := by
  constructor
  · intro hc g0 hg hcause
    obtain ⟨sv, b, hturn⟩ := monitorTurn_reject cf st c g0 hc hg hcause
    rw [hturn]
    refine ⟨rejectMonitor_returns _ _ _ _ _, ?_⟩
    intro st1 h1
    exact ⟨(rejectMonitor_ok h1).1, (rejectMonitor_ok h1).2.1⟩
  · intro hc v hv hcause
    obtain ⟨sv, b, hturn⟩ := centroidTurn_reject cf st c v hc hv hcause
    rw [hturn]
    refine ⟨rejectCentroid_returns _ _ _ _ _, ?_⟩
    intro st1 h1
    exact ⟨(rejectCentroid_ok h1).1, (rejectCentroid_ok h1).2.2.1⟩

/-- Witness for C16: in `committedState` the subject of the offered
`Monitor(1,2)` is already committed; the turn returns and leaves the graph
empty. -/
theorem C16_rejected_turn_restores_graph_witness :
    candidate committedState committedState.monitorOptions committedState.monitorTaskToTry
        = some (monitorTask 1 2) ∧
      vectorContainsInt 1 committedState.monitoringIDs = true ∧
      ((∃ st1, monitorTurn 3 committedState = .ok st1)
          ↔ committedState.monitorTaskToTry + 1 < committedState.monitorTasksTried.length) ∧
      ∀ st1, monitorTurn 3 committedState = .ok st1 →
        st1.constraintGraph = committedState.constraintGraph ∧
          st1.monitorsAssigned = committedState.monitorsAssigned :=
  ⟨rfl, rfl,
    (C16_rejected_turn_restores_graph 3 committedState (monitorTask 1 2)).1 rfl 1 rfl
      (Or.inl rfl)⟩

/-! ## Claims on the frame of `checkCompatibility` -/

/-- C17, as stated, fails: on Scenario A `checkCompatibility` returns false, and
node 0 of the input graph, whose parents list was empty, is left with the
derived node 2 as a parent; the wiring of the node accepted before the
contradiction is not undone. -/
theorem C17_accepted_wiring_kept_counterexample :
    (checkCompatibility 1 scenarioA [0, 1]).map
        (fun v => (v.accepted, (deref v.service.heap 0).parents,
          (deref v.service.heap 2).children))
        = .ok (false, [2], [0]) ∧
      (deref scenarioA.heap 0).parents = [] :=
  ⟨rfl, rfl⟩

/-- C17, amended. Whenever `checkCompatibility` returns (with either verdict),
every node allocated before the call has the same constraint and the same
children list as before, and its previous parents list is a prefix of its
parents list after the call.  A node that the conflict branch drops (as
redundant or as contradicting) has its wiring undone completely: every other
node is exactly as it was before the node was wired, and the dropped node has
no children.  A node that the branch accepts stays wired. -/
theorem C17_dropped_wiring_undone (fuel : Nat) (sv : Service) (g : List Nat) (v : Verdict)
    (h : checkCompatibility fuel sv g = .ok v) :
    (∀ p, p < sv.heap.length →
        (deref v.service.heap p).data = (deref sv.heap p).data ∧
          (deref v.service.heap p).children = (deref sv.heap p).children ∧
          (deref sv.heap p).parents <+: (deref v.service.heap p).parents) ∧
      (∀ (n : Nat) (combo : List Nat) (sw sw1 : Sweep) (e : Exit),
        resolve n combo sw = .ok (e, sw1) →
          (nodeIsPresentInGraph (wire n combo sw.heap) n sw.constraintGraph = none →
            sw1.heap = wire n combo sw.heap) ∧
          (nodeIsPresentInGraph (wire n combo sw.heap) n sw.constraintGraph ≠ none →
            (deref sw1.heap n).children = [] ∧
              ∀ p, p ≠ n → deref sw1.heap p = deref sw.heap p)) := by
  refine ⟨(checkCompatibility_frame fuel sv g v h).1.1.2, ?_⟩
  intro n combo sw sw1 e hr
  rcases resolve_cases hr with ⟨hnone, _, hh, _, _⟩ | ⟨other, hsome, _, _, hh, _, _⟩
  · exact ⟨fun _ => hh, fun hne => absurd hnone hne⟩
  · refine ⟨fun hnone => ?_, fun _ => ?_⟩
    · rw [hsome] at hnone
      cases hnone
    · rw [hh]
      refine ⟨?_, fun p hp => deref_modifyAt_ne _ hp _⟩
      by_cases hn : n < sw.heap.length
      · rw [deref_modifyAt_eq _ _ hn]
      · rw [modifyAt_of_length_le _ _ (Nat.le_of_not_lt hn),
          deref_of_length_le (Nat.le_of_not_lt hn)]
        rfl

/-- Witness for the amended C17 on Scenario A: the failing call leaves the
constraint and the children of nodes 0 and 1 as they were and only extends
their parents lists. -/
theorem C17_dropped_wiring_undone_witness :
    ∃ v, checkCompatibility 1 scenarioA [0, 1] = .ok v ∧ v.accepted = false ∧
      ∀ p, p < scenarioA.heap.length →
        (deref v.service.heap p).data = (deref scenarioA.heap p).data ∧
          (deref v.service.heap p).children = (deref scenarioA.heap p).children ∧
          (deref scenarioA.heap p).parents <+: (deref v.service.heap p).parents :=
  ⟨_, rfl, rfl, (C17_dropped_wiring_undone 1 scenarioA [0, 1] _ rfl).1⟩

/-! ## Rules that match no node -/

/-! ## What `sliceRequirementIDs` returns -/

theorem sliceLoop_eq (t : constraintTypes) (haystack behind : List constraintTypes)
    (ids : List Int) :
    ∀ (fuel s : Nat), 0 < fuel → ids.length < s + fuel →
      sliceLoop t haystack behind ids fuel s =
        if runLength t haystack behind s ≤ (ids.drop s).length then
          .ok ((ids.drop s).take (runLength t haystack behind s))
        else .error Fault.undefined := by
  intro fuel
  induction fuel with
  | zero => intro s h; omega
  | succ fuel ih =>
    intro s _ hlen
    unfold sliceLoop
    unfold runLength
    cases hw : (haystack ++ behind).get? s with
    | none =>
      have hd : (haystack ++ behind).drop s = [] :=
        List.drop_eq_nil_of_le (List.get?_eq_none.mp hw)
      simp [hd]
    | some u =>
      have hs : s < (haystack ++ behind).length := by
        by_contra hlt
        rw [List.get?_eq_none.mpr (Nat.le_of_not_lt hlt)] at hw
        cases hw
      have hu : (haystack ++ behind).get ⟨s, hs⟩ = u := by
        rw [List.get?_eq_get hs] at hw
        exact Option.some.inj hw
      have hd : (haystack ++ behind).drop s = u :: (haystack ++ behind).drop (s + 1) := by
        rw [← hu]
        exact List.drop_eq_getElem_cons hs
      by_cases hut : u = t
      · subst hut
        simp only [if_true, hd, List.takeWhile_cons, decide_True, List.length_cons]
        cases hid : ids.get? s with
        | none =>
          have hdi : ids.drop s = [] := List.drop_eq_nil_of_le (List.get?_eq_none.mp hid)
          simp [hdi]
        | some x =>
          have hsi : s < ids.length := by
            by_contra hlt
            rw [List.get?_eq_none.mpr (Nat.le_of_not_lt hlt)] at hid
            cases hid
          have hx : ids.get ⟨s, hsi⟩ = x := by
            rw [List.get?_eq_get hsi] at hid
            exact Option.some.inj hid
          have hdi : ids.drop s = x :: ids.drop (s + 1) := by
            rw [← hx]
            exact List.drop_eq_getElem_cons hsi
          have hrec := ih (s + 1) (by omega) (by omega)
          unfold runLength at hrec
          simp only [hrec, hdi, List.length_cons, Nat.add_le_add_iff_right, List.take_succ_cons]
          split <;> rfl
      · have hne : ¬ (some u = some t) := fun h => hut (Option.some.inj h)
        simp [hne, hd, List.takeWhile_cons, hut]

/-- What `sliceRequirementIDs` returns: the ids under the run of the kind at
`startIndex`, a run that goes on into the words behind the kind vector when
these hold the same kind; a fault when the ids end before the run does. -/
theorem sliceRequirementIDs_eq (behind : List constraintTypes) (s : Nat)
    (haystack : List constraintTypes) (ids : List Int) :
    sliceRequirementIDs behind s haystack ids =
      match haystack.get? s with
      | none => .error Fault.undefined
      | some k =>
        if runLength k haystack behind s ≤ (ids.drop s).length then
          .ok ((ids.drop s).take (runLength k haystack behind s))
        else .error Fault.undefined := by
  unfold sliceRequirementIDs
  cases haystack.get? s with
  | none => rfl
  | some k => exact sliceLoop_eq k haystack behind ids _ s (by omega) (by omega)

theorem runLength_pos {k : constraintTypes} {haystack behind : List constraintTypes} {s : Nat}
    (h : haystack.get? s = some k) : 0 < runLength k haystack behind s := by
  have hs : s < haystack.length := by
    by_contra hlt
    rw [List.get?_eq_none.mpr (Nat.le_of_not_lt hlt)] at h
    cases h
  have hs2 : s < (haystack ++ behind).length := by
    rw [List.length_append]; omega
  have hk : (haystack ++ behind).get ⟨s, hs2⟩ = k := by
    have : (haystack ++ behind).get? s = some k := by
      rw [List.get?_eq_getElem?, List.getElem?_append_left hs, ← List.get?_eq_getElem?]
      exact h
    rw [List.get?_eq_get hs2] at this
    exact Option.some.inj this
  unfold runLength
  rw [List.drop_eq_getElem_cons hs2]
  have hk2 : (haystack ++ behind)[s] = k := hk
  simp [hk2, List.takeWhile_cons]

/-- The slice cut by `sliceRequirementIDs` is never empty: the loop pushes
`vectorToSlice[startIndex]` before it can stop. -/
theorem sliceRequirementIDs_nonempty (behind : List constraintTypes) (i : Nat)
    (types : List constraintTypes) (ids : List Int) :
    sliceRequirementIDs behind i types ids ≠ .ok [] := by
  rw [sliceRequirementIDs_eq]
  cases hg : types.get? i with
  | none => simp
  | some k =>
    simp only
    have hpos := @runLength_pos _ _ behind _ hg
    split
    · rename_i hle
      intro h
      simp only [Except.ok.injEq, List.take_eq_nil_iff] at h
      rcases h with h | h
      · omega
      · rw [h] at hle
        simp at hle
        omega
    · intro h
      cases h

theorem sliceDefined_ok {behind : List constraintTypes} {rule : inferenceRule} {i : Nat}
    (hdef : sliceDefined behind rule i = true) :
    ∃ slice, sliceRequirementIDs behind i rule.requirementTypes rule.requirementIDs = .ok slice ∧
      slice.length ≠ 0 := by
  unfold sliceDefined at hdef
  cases hs : sliceRequirementIDs behind i rule.requirementTypes rule.requirementIDs with
  | error e => simp [hs] at hdef
  | ok slice =>
    refine ⟨slice, rfl, ?_⟩
    intro hl
    have : slice = [] := List.length_eq_zero.mp hl
    rw [this] at hs
    exact sliceRequirementIDs_nonempty _ _ _ _ hs

theorem slicesDefined_at {behind : List constraintTypes} {rule : inferenceRule}
    (hdef : slicesDefined behind rule = true) {i : Nat} (hi : i < rule.requirementTypes.length) :
    sliceDefined behind rule i = true := by
  unfold slicesDefined at hdef
  rw [List.all_eq_true] at hdef
  exact hdef i (List.mem_range.mpr hi)

theorem sliceRequirementIDs_ok {behind : List constraintTypes} {rule : inferenceRule}
    (hdef : slicesDefined behind rule = true) {i : Nat} (hi : i < rule.requirementTypes.length) :
    ∃ slice, sliceRequirementIDs behind i rule.requirementTypes rule.requirementIDs = .ok slice ∧
      slice.length ≠ 0 :=
  sliceDefined_ok (slicesDefined_at hdef hi)

theorem ruleAppliesLoop_no_match (rule : inferenceRule) (graph : List Nat)
    (pairs : List (Nat × Nat)) (b : Bool) (sv : Service)
    (hdef : slicesDefined sv.wordsBehind rule = true)
    (hno : ∀ pr ∈ pairs, pr.2 < rule.requirementTypes.length ∧
      anchorMatches sv.heap sv.wordsBehind rule pr.1 pr.2 = false) :
    ruleAppliesLoop rule graph pairs b sv = .ok (b, sv) := by
  induction pairs with
  | nil => rfl
  | cons pr rest ih =>
    obtain ⟨currNode, i⟩ := pr
    obtain ⟨hi, hm⟩ := hno (currNode, i) (List.mem_cons_self _ _)
    obtain ⟨slice, hs, hne⟩ := sliceRequirementIDs_ok hdef hi
    unfold anchorMatches at hm
    simp only [hs] at hm
    unfold ruleAppliesLoop
    simp only [hs, hne, if_false, hm, Bool.false_eq_true]
    exact ih (fun pr hpr => hno pr (List.mem_cons_of_mem _ hpr))

theorem rulesLoop_no_match (graph : List Nat) (rules : List inferenceRule) (b : Bool)
    (sv : Service)
    (hdef : ∀ r ∈ rules, slicesDefined sv.wordsBehind r = true)
    (hno : ∀ r ∈ rules, ∀ n ∈ graph, ∀ i, i < r.requirementTypes.length →
      anchorMatches sv.heap sv.wordsBehind r n i = false) :
    rulesLoop graph rules b sv = .ok (b, sv) := by
  induction rules generalizing b with
  | nil => rfl
  | cons rule rules ih =>
    have h1 : ruleApplies (some rule) graph sv = .ok (false, sv) := by
      unfold ruleApplies
      apply ruleAppliesLoop_no_match rule graph _ _ _ (hdef rule (List.mem_cons_self _ _))
      intro pr hpr
      obtain ⟨hg, hi⟩ := anchorPositions_fst hpr
      exact ⟨hi, hno rule (List.mem_cons_self _ _) pr.1 hg pr.2 hi⟩
    unfold rulesLoop
    simp only [h1]
    exact ih b (fun r hr => hdef r (List.mem_cons_of_mem _ hr))
      (fun r hr => hno r (List.mem_cons_of_mem _ hr))

/-- C18. If every call of `ruleApplies` of the first sweep returns false, then
`checkCompatibility` returns true, with the graph and every node as they were
and the memo cleared.  This is the case for an empty rule list, and for a list
of rules none of which is matched by a node of the graph at any position of
its pattern, provided every slice of every rule is cut inside the id vector
(with the words that lie behind the kind vectors in this run; a slice that
leaves the id vector is a fault of the source, not a rejection). -/
theorem C18_no_rule_matched_accepts (fuel : Nat) (sv : Service) (g : List Nat) :
    (∀ sv1, rulesLoop g sv.ruleList false sv = .ok (false, sv1) →
        checkCompatibility (fuel + 1) sv g = .ok
          { accepted := true
            service := { sv with nodeCombosThisIteration := []
                                 rulesAppliedThisIteration := [] }
            constraintGraph := g }) ∧
      (sv.ruleList = [] →
        checkCompatibility (fuel + 1) sv g = .ok
          { accepted := true
            service := { sv with nodeCombosThisIteration := []
                                 rulesAppliedThisIteration := [] }
            constraintGraph := g }) ∧
      ((∀ r ∈ sv.ruleList, slicesDefined sv.wordsBehind r = true) →
        (∀ r ∈ sv.ruleList, ∀ n ∈ g, ∀ i, i < r.requirementTypes.length →
          anchorMatches sv.heap sv.wordsBehind r n i = false) →
        checkCompatibility (fuel + 1) sv g = .ok
          { accepted := true
            service := { sv with nodeCombosThisIteration := []
                                 rulesAppliedThisIteration := [] }
            constraintGraph := g }) := by
  have key : ∀ sv1, rulesLoop g sv.ruleList false sv = .ok (false, sv1) →
      checkCompatibility (fuel + 1) sv g = .ok
        { accepted := true
          service := { sv with nodeCombosThisIteration := []
                               rulesAppliedThisIteration := [] }
          constraintGraph := g } := by
    intro sv1 h
    obtain ⟨hh, hl, _⟩ := rulesLoop_frame _ _ _ _ _ _ h
    have hw := rulesLoop_words _ _ _ _ _ _ h
    unfold checkCompatibility
    simp only [h]
    congr 2
    cases sv1
    cases sv
    simp only at hh hl hw
    simp [hh, hl, hw]
  refine ⟨key, ?_, ?_⟩
  · intro hnil
    apply key sv
    rw [hnil]
    rfl
  · intro hdef hno
    exact key sv (rulesLoop_no_match g sv.ruleList false sv hdef hno)

/-- Witness for C18: the rule `monitor{1,2} -> relative{1,2}` is not matched by
the two Centroids of Scenario C, here with a Centroid word behind the kind
vectors. -/
theorem C18_no_rule_matched_accepts_witness :
    checkCompatibility 1
        { heap := scenarioCHeap, nodeCombosThisIteration := [],
          rulesAppliedThisIteration := [], ruleList := [monitorRule 1 2],
          wordsBehind := [constraintTypes.centroid] } [0, 1]
      = .ok
        { accepted := true
          service := { heap := scenarioCHeap, nodeCombosThisIteration := [],
                       rulesAppliedThisIteration := [], ruleList := [monitorRule 1 2],
                       wordsBehind := [constraintTypes.centroid] }
          constraintGraph := [0, 1] } :=
  (C18_no_rule_matched_accepts 0
    { heap := scenarioCHeap, nodeCombosThisIteration := [],
      rulesAppliedThisIteration := [], ruleList := [monitorRule 1 2],
      wordsBehind := [constraintTypes.centroid] } [0, 1]).2.2
    (by decide) (by decide)

/-! ## Scenario B -/

theorem findNext_ok {haystack : List constraintTypes} {t : constraintTypes} {pos : Nat}
    (h : findNextConstraintTypeWithPosition haystack = .ok (t, pos)) :
    pos = 0 ∧ (haystack = [] ∨ ∃ rest, haystack = t :: rest ∧ t ≠ constraintTypes.invalid) := by
  unfold findNextConstraintTypeWithPosition at h
  split at h
  · simp only [Except.ok.injEq, Prod.mk.injEq] at h
    exact ⟨h.2.symm, Or.inl rfl⟩
  · rename_i currType rest
    split at h
    · rename_i hne
      simp only [Except.ok.injEq, Prod.mk.injEq] at h
      obtain ⟨rfl, rfl⟩ := h
      exact ⟨rfl, Or.inr ⟨rest, rfl, hne⟩⟩
    · cases h

theorem invalidateRun_head_invalid (t : constraintTypes) (pos : Nat)
    (rest : List constraintTypes) :
    ∃ rest1, (invalidateRun t pos (constraintTypes.invalid :: rest)).1
      = constraintTypes.invalid :: rest1 := by
  cases pos with
  | zero =>
    unfold invalidateRun
    split
    · exact ⟨_, rfl⟩
    · exact ⟨_, rfl⟩
  | succ pos =>
    unfold invalidateRun
    exact ⟨_, rfl⟩

theorem invalidateRun_zero_head (t : constraintTypes) (rest : List constraintTypes) :
    ∃ rest1, (invalidateRun t 0 (t :: rest)).1 = constraintTypes.invalid :: rest1 := by
  unfold invalidateRun
  simp only [if_true]
  exact ⟨_, rfl⟩

/-- The scan for one slot, started on a vector whose head is the kind looked
for: once a node is found, the head of the vector is `invalid`. -/
theorem otherNodeScan_head (heap : Heap) (currNode : Nat) (t : constraintTypes)
    (slice : List Int) (graph : List Nat) (scan : SlotScan)
    (hinv : (scan.nodeFound = false ∧ scan.pos = 0 ∧
        ∃ rest, scan.remainingRequirements = t :: rest) ∨
      (scan.nodeFound = true ∧
        ∃ rest, scan.remainingRequirements = constraintTypes.invalid :: rest)) :
    (graph.foldl (otherNodeStep heap currNode t slice) scan).nodeFound = true →
      ∃ rest, (graph.foldl (otherNodeStep heap currNode t slice) scan).remainingRequirements
        = constraintTypes.invalid :: rest := by
  induction graph generalizing scan with
  | nil =>
    intro hf
    rcases hinv with ⟨hnf, _⟩ | ⟨_, hrest⟩
    · rw [List.foldl_nil, hnf] at hf
      cases hf
    · exact hrest
  | cons o graph ih =>
    rw [List.foldl_cons]
    apply ih
    unfold otherNodeStep
    split
    · right
      refine ⟨rfl, ?_⟩
      rcases hinv with ⟨_, hpos, rest, hrest⟩ | ⟨_, rest, hrest⟩
      · rw [hrest, hpos]
        exact invalidateRun_zero_head t rest
      · rw [hrest]
        exact invalidateRun_head_invalid t _ rest
    · exact hinv

theorem children_append_leaf (h : Heap) (c : constraint) (p : Nat) :
    (deref (h ++ [leafNode c]) p).children = (deref h p).children := by
  rcases Nat.lt_trichotomy p h.length with hp | hp | hp
  · rw [deref_append_left h _ hp]
  · rw [hp, deref_append_length, deref_of_length_le (le_refl _)]
    rfl
  · rw [deref_of_length_le (by simp; omega), deref_of_length_le (le_of_lt hp)]

theorem childEdge_append_leaf (h : Heap) (c : constraint) (p q : Nat) :
    childEdge (h ++ [leafNode c]) p q ↔ childEdge h p q := by
  unfold childEdge
  rw [children_append_leaf]

theorem transGen_append_leaf (h : Heap) (c : constraint) (p q : Nat) :
    Relation.TransGen (childEdge (h ++ [leafNode c])) p q
      ↔ Relation.TransGen (childEdge h) p q := by
  have heq : childEdge (h ++ [leafNode c]) = childEdge h := by
    funext a b
    exact propext (childEdge_append_leaf h c a b)
  rw [heq]

theorem acyclic_append_leaf {h : Heap} (c : constraint) (hac : Acyclic h) :
    Acyclic (h ++ [leafNode c]) := by
  intro p hp
  exact hac p ((transGen_append_leaf h c p p).mp hp)

theorem validPointers_append_leaf {h : Heap} {g : List Nat} (c : constraint)
    (hv : ValidPointers h g) : ValidPointers (h ++ [leafNode c]) g := by
  refine ⟨?_, ?_⟩
  · intro p q hpq
    have := hv.1 p q ((childEdge_append_leaf h c p q).mp hpq)
    simp only [List.length_append, List.length_singleton]
    omega
  · intro p hp
    have := hv.2 p hp
    simp only [List.length_append, List.length_singleton]
    omega

theorem modifyAt_clear_fresh_leaf (h : Heap) (c : constraint) :
    modifyAt (fun nd => { nd with children := [] }) h.length (h ++ [leafNode c])
      = h ++ [leafNode c] := by
  apply heap_ext
  · rw [length_modifyAt]
  · intro p hp
    rw [length_modifyAt] at hp
    rw [deref_modifyAt _ p h.length _ hp]
    by_cases hpn : p = h.length
    · rw [if_pos hpn, hpn, deref_append_length]
      rfl
    · rw [if_neg hpn]

theorem childEdge_wire (n : Nat) (combo : List Nat) (h : Heap) (hn : n < h.length)
    (p q : Nat) :
    childEdge (wire n combo h) p q ↔ childEdge h p q ∨ (p = n ∧ q ∈ combo) := by
  unfold childEdge
  by_cases hp : p < h.length
  · rw [deref_wire n combo h p hp]
    by_cases hpn : p = n
    · simp [hpn]
    · simp [hpn]
  · have h1 : deref (wire n combo h) p = default :=
      deref_of_length_le (by rw [length_wire]; omega)
    have h2 : deref h p = default := deref_of_length_le (by omega)
    rw [h1, h2]
    have hpn : p ≠ n := fun e => hp (e ▸ hn)
    simp [hpn]

theorem no_transGen_into {h : Heap} {n : Nat} (hno : ∀ p, ¬ childEdge h p n) (a : Nat) :
    ¬ Relation.TransGen (childEdge h) a n := by
  intro ht
  cases ht with
  | single h1 => exact hno _ h1
  | tail _ h2 => exact hno _ h2

/-- Wiring a node that nothing points to under nodes other than itself creates
no cycle. -/
theorem acyclic_wire {h : Heap} {n : Nat} {combo : List Nat} (hac : Acyclic h)
    (hn : n < h.length) (hno : ∀ p, ¬ childEdge h p n) (hcombo : ∀ c ∈ combo, c ≠ n) :
    Acyclic (wire n combo h) := by
  have key : ∀ a b, Relation.TransGen (childEdge (wire n combo h)) a b →
      Relation.TransGen (childEdge h) a b ∨
        (a = n ∧ ∃ c ∈ combo, c = b ∨ Relation.TransGen (childEdge h) c b) := by
    intro a b hab
    induction hab with
    | single h1 =>
      rcases (childEdge_wire n combo h hn _ _).mp h1 with he | ⟨ha, hb⟩
      · exact Or.inl (Relation.TransGen.single he)
      · exact Or.inr ⟨ha, _, hb, Or.inl rfl⟩
    | tail _ h2 ih =>
      rename_i b c _
      rcases (childEdge_wire n combo h hn _ _).mp h2 with he | ⟨hb, hc⟩
      · rcases ih with ih | ⟨ha, c0, hc0, hor⟩
        · exact Or.inl (Relation.TransGen.tail ih he)
        · refine Or.inr ⟨ha, c0, hc0, Or.inr ?_⟩
          rcases hor with h0 | h0
          · rw [h0]
            exact Relation.TransGen.single he
          · exact Relation.TransGen.tail h0 he
      · subst hb
        rcases ih with ih | ⟨_, c0, hc0, hor⟩
        · exact absurd ih (no_transGen_into hno _)
        · rcases hor with h0 | h0
          · exact absurd h0 (hcombo c0 hc0)
          · exact absurd h0 (no_transGen_into hno _)
  intro p hp
  rcases key p p hp with h1 | ⟨hpn, c0, hc0, hor⟩
  · exact hac p h1
  · subst hpn
    rcases hor with h0 | h0
    · exact hcombo c0 hc0 h0
    · exact no_transGen_into hno _ h0

/-- The heap after a node has been allocated and wired under nodes of a valid
graph is acyclic and valid. -/
theorem invariant_wire_fresh {h : Heap} {g : List Nat} (c : constraint) (combo : List Nat)
    (hac : Acyclic h) (hv : ValidPointers h g) (hcombo : ∀ x ∈ combo, x ∈ g) :
    Acyclic (wire h.length combo (h ++ [leafNode c])) ∧
      ValidPointers (wire h.length combo (h ++ [leafNode c])) (g ++ [h.length]) := by
  have hn : h.length < (h ++ [leafNode c]).length := by simp
  have hlt : ∀ x ∈ combo, x < h.length := fun x hx => hv.2 x (hcombo x hx)
  refine ⟨?_, ?_, ?_⟩
  · apply acyclic_wire (acyclic_append_leaf c hac) hn
    · intro p hp
      have := hv.1 p _ ((childEdge_append_leaf h c p _).mp hp)
      omega
    · intro x hx e
      have := hlt x hx
      omega
  · intro p q hpq
    rw [length_wire]
    rcases (childEdge_wire _ combo _ hn p q).mp hpq with he | ⟨_, hq⟩
    · exact (validPointers_append_leaf c hv).1 p q he
    · have := hlt q hq
      simp only [List.length_append, List.length_singleton]
      omega
  · intro p hp
    rw [length_wire]
    simp only [List.length_append, List.length_singleton]
    rcases List.mem_append.mp hp with hp | hp
    · have := hv.2 p hp
      omega
    · have : p = h.length := by simpa using hp
      omega

/-! ## The number of derivable constraints still missing from the graph -/

theorem filter_length_le_of_imp {α : Type} (p q : α → Bool) (l : List α)
    (h : ∀ x ∈ l, q x = true → p x = true) : (l.filter q).length ≤ (l.filter p).length := by
  induction l with
  | nil => simp
  | cons a l ih =>
    have ih1 := ih (fun x hx => h x (List.mem_cons_of_mem _ hx))
    have ha := h a (List.mem_cons_self _ _)
    by_cases hq : q a = true
    · simp only [List.filter_cons, hq, ha hq, if_true, List.length_cons]
      omega
    · by_cases hp : p a = true
      · simp only [List.filter_cons, hq, hp, if_true, Bool.false_eq_true, if_false,
          List.length_cons]
        omega
      · simp only [List.filter_cons, hq, hp, Bool.false_eq_true, if_false]
        exact ih1

theorem filter_length_lt_of_imp {α : Type} (p q : α → Bool) (l : List α)
    (h : ∀ x ∈ l, q x = true → p x = true) (a : α) (ha : a ∈ l) (hpa : p a = true)
    (hqa : q a = false) : (l.filter q).length < (l.filter p).length := by
  induction l with
  | nil => simp at ha
  | cons b l ih =>
    have hle := filter_length_le_of_imp p q l (fun x hx => h x (List.mem_cons_of_mem _ hx))
    rcases List.mem_cons.mp ha with hab | hal
    · subst hab
      simp only [List.filter_cons, hqa, hpa, if_true, Bool.false_eq_true, if_false,
        List.length_cons]
      omega
    · have ih1 := ih (fun x hx => h x (List.mem_cons_of_mem _ hx)) hal
      have hb := h b (List.mem_cons_self _ _)
      by_cases hq : q b = true
      · simp only [List.filter_cons, hq, hb hq, if_true, List.length_cons]
        omega
      · by_cases hp : p b = true
        · simp only [List.filter_cons, hq, hp, if_true, Bool.false_eq_true, if_false,
            List.length_cons]
          omega
        · simp only [List.filter_cons, hq, hp, Bool.false_eq_true, if_false]
          exact ih1

theorem covered_iff (heap : Heap) (graph : List Nat) (u : constraint) :
    covered heap graph u = true ↔
      ∃ p ∈ graph, constraintsEqual (deref heap p).data u (engineFlag u.type) = true := by
  unfold covered
  simp [List.any_eq_true]

theorem covered_mono {h h1 : Heap} {g g1 : List Nat} {u : constraint}
    (hdata : ∀ p ∈ g, (deref h1 p).data = (deref h p).data) (hsub : ∀ p ∈ g, p ∈ g1)
    (hc : covered h g u = true) : covered h1 g1 u = true := by
  rw [covered_iff] at *
  obtain ⟨p, hp, heq⟩ := hc
  exact ⟨p, hsub p hp, by rw [hdata p hp]; exact heq⟩

theorem missing_le {h h1 : Heap} {g g1 : List Nat} (rules : List inferenceRule)
    (hdata : ∀ p ∈ g, (deref h1 p).data = (deref h p).data) (hsub : ∀ p ∈ g, p ∈ g1) :
    missing h1 g1 rules ≤ missing h g rules := by
  unfold missing
  apply filter_length_le_of_imp
  intro u _ hu
  simp only [Bool.not_eq_true', ← Bool.not_eq_true] at hu ⊢
  exact fun hc => hu (covered_mono hdata hsub hc)

theorem missing_lt {h h1 : Heap} {g g1 : List Nat} (rules : List inferenceRule)
    (hdata : ∀ p ∈ g, (deref h1 p).data = (deref h p).data) (hsub : ∀ p ∈ g, p ∈ g1)
    (u : constraint) (hu : u ∈ derivable rules) (hbefore : covered h g u = false)
    (hafter : covered h1 g1 u = true) :
    missing h1 g1 rules < missing h g rules := by
  unfold missing
  apply filter_length_lt_of_imp _ _ _ _ u hu
  · simp [hbefore]
  · simp [hafter]
  · intro x _ hx
    simp only [Bool.not_eq_true', ← Bool.not_eq_true] at hx ⊢
    exact fun hc => hx (covered_mono hdata hsub hc)

theorem mem_derivable {rules : List inferenceRule} {rule : inferenceRule} {i i1 : Nat}
    {t : constraintTypes} {c : constraint} (hr : rule ∈ rules)
    (ht : rule.resultTypes.get? i = some t)
    (hd : decodeResult rule i t = .ok (some (c, i1))) : c ∈ derivable rules := by
  unfold derivable
  rw [List.mem_flatMap]
  refine ⟨rule, hr, ?_⟩
  rw [List.mem_filterMap]
  refine ⟨i, ?_, ?_⟩
  · rw [List.mem_range]
    by_contra hcon
    have : rule.resultTypes.get? i = none := List.get?_eq_none.mpr (Nat.le_of_not_lt hcon)
    rw [this] at ht
    cases ht
  · unfold derivableAt
    simp only [ht, hd]

theorem descendentsAreSuperset_total (heap : Heap) (hac : Acyclic heap) (n o : Nat) :
    ∃ b, descendentsAreSuperset heap n o = .ok b := by
  obtain ⟨ln, hn⟩ := gatherDescendents_total heap hac (heap.length + 1) (le_refl _) n []
  obtain ⟨lo, ho⟩ := gatherDescendents_total heap hac (heap.length + 1) (le_refl _) o []
  have hn1 : descendents heap n = .ok ln := hn
  have ho1 : descendents heap o = .ok lo := ho
  refine ⟨supersetLoop heap lo ln, ?_⟩
  unfold descendentsAreSuperset
  rw [hn1, ho1]

theorem data_wire_fresh (h : Heap) (c : constraint) (combo : List Nat) (p : Nat)
    (hp : p ≤ h.length) :
    (deref (wire h.length combo (h ++ [leafNode c])) p).data
      = if p = h.length then c else (deref h p).data := by
  rw [deref_wire _ _ _ _ (by simp; omega)]
  simp only
  by_cases hpn : p = h.length
  · rw [if_pos hpn, hpn, deref_append_length]
    rfl
  · rw [if_neg hpn, deref_append_left h _ (by omega)]

/-! ## Termination of `checkCompatibility` -/

/-- One round of the result loop on an acyclic, valid state: the conflict branch
does not run out of budget, it keeps the state acyclic and valid, it does not
raise the number of missing constraints, and it lowers that number when it
accepts the node. -/
theorem resolve_round (rules : List inferenceRule) (sw : Sweep) (c : constraint)
    (combo : List Nat) (hac : Acyclic sw.heap)
    (hv : ValidPointers sw.heap sw.constraintGraph)
    (hcombo : ∀ x ∈ combo, x ∈ sw.constraintGraph) (hc : c ∈ derivable rules) :
    resolve sw.heap.length combo { sw with heap := sw.heap ++ [leafNode c] }
        ≠ .error Fault.fuel ∧
      ∀ e sw2, resolve sw.heap.length combo { sw with heap := sw.heap ++ [leafNode c] }
          = .ok (e, sw2) →
        Acyclic sw2.heap ∧ ValidPointers sw2.heap sw2.constraintGraph ∧
          (∀ x ∈ sw.constraintGraph, x ∈ sw2.constraintGraph) ∧
          missing sw2.heap sw2.constraintGraph rules
            ≤ missing sw.heap sw.constraintGraph rules ∧
          (sw2.continueLoop = true → sw.continueLoop = true ∨
            missing sw2.heap sw2.constraintGraph rules
              < missing sw.heap sw.constraintGraph rules) := by
  obtain ⟨hacw, hvw⟩ := invariant_wire_fresh c combo hac hv hcombo
  constructor
  · unfold resolve
    split
    · simp
    · rename_i other _
      obtain ⟨b, hb⟩ := descendentsAreSuperset_total _ hacw sw.heap.length other
      simp only at hb ⊢
      rw [hb]
      cases b <;> simp
  · intro e sw2 hres
    rcases resolve_cases hres with ⟨hnone, _, hh, hg, hcl⟩ | ⟨_, _, _, _, hh, hg, hcl⟩
    · simp only at hnone hh hg
      have hdata : ∀ p ∈ sw.constraintGraph,
          (deref sw2.heap p).data = (deref sw.heap p).data := by
        intro p hp
        have hlt := hv.2 p hp
        rw [hh, data_wire_fresh _ _ _ _ (le_of_lt hlt), if_neg (by omega)]
      have hsub : ∀ p ∈ sw.constraintGraph, p ∈ sw2.constraintGraph := by
        intro p hp
        rw [hg]
        exact List.mem_append_left _ hp
      refine ⟨hh ▸ hacw, by rw [hh, hg]; exact hvw, hsub,
        missing_le rules hdata hsub, fun _ => Or.inr ?_⟩
      apply missing_lt rules hdata hsub c hc
      · rw [← Bool.not_eq_true, covered_iff]
        rintro ⟨p, hp, heq⟩
        have hlt := hv.2 p hp
        have hnp := (nodeIsPresentInGraph_eq_none _ _ _).mp hnone p hp
        apply hnp
        refine ⟨by omega, ?_⟩
        rw [data_wire_fresh _ _ _ _ (le_of_lt hlt), if_neg (by omega),
          data_wire_fresh _ _ _ _ (le_refl _), if_pos rfl]
        exact heq
      · rw [covered_iff]
        refine ⟨sw.heap.length, by rw [hg]; simp, ?_⟩
        rw [hh, data_wire_fresh _ _ _ _ (le_refl _), if_pos rfl]
        exact constraintsEqual_refl _ _
    · simp only at hh hg hcl
      rw [modifyAt_clear_fresh_leaf] at hh
      have hdata : ∀ p ∈ sw.constraintGraph,
          (deref sw2.heap p).data = (deref sw.heap p).data := by
        intro p hp
        rw [hh, deref_append_left _ _ (hv.2 p hp)]
      have hsub : ∀ p ∈ sw.constraintGraph, p ∈ sw2.constraintGraph := by
        intro p hp
        rw [hg]
        exact hp
      refine ⟨hh ▸ acyclic_append_leaf c hac, ?_, hsub, missing_le rules hdata hsub, ?_⟩
      · rw [hh, hg]
        exact validPointers_append_leaf c hv
      · intro h1
        rw [hcl] at h1
        exact Or.inl h1

theorem decodeResult_error {rule : inferenceRule} {i : Nat} {t : constraintTypes} {e : Fault}
    (h : decodeResult rule i t = .error e) : e = Fault.undefined := by
  have hslot : ∀ (k : constraintTypes) (cur : constraintTypes) (ts : List constraintTypes)
      (ids : List Int) (e1 : Fault), slotLoop k cur ts ids = .error e1 →
      e1 = Fault.undefined := by
    intro k cur ts
    induction ts generalizing cur with
    | nil =>
      intro ids e1 h1
      simp [slotLoop] at h1
    | cons x ts ih =>
      intro ids e1 h1
      unfold slotLoop at h1
      split at h1
      · split at h1
        · simp only [Except.error.injEq] at h1
          exact h1.symm
        · rename_i y ids1
          cases hs : slotLoop k x ts ids1 with
          | error e2 =>
            rw [hs] at h1
            simp only [Except.map, Except.error.injEq] at h1
            subst h1
            exact ih _ _ _ hs
          | ok s =>
            rw [hs] at h1
            simp [Except.map] at h1
      · cases h1
  have hid : ∀ (ids : List Int) (k : Nat) (e1 : Fault), idAt ids k = .error e1 →
      e1 = Fault.undefined := by
    intro ids k e1 h1
    unfold idAt at h1
    split at h1
    · simp only [Except.error.injEq] at h1
      exact h1.symm
    · cases h1
  unfold decodeResult at h
  split at h
  · split at h
    · rename_i e1 he
      simp only [Except.error.injEq] at h
      subst h
      exact hid _ _ _ he
    · cases h
  · split at h
    · rename_i e1 he
      simp only [Except.error.injEq] at h
      subst h
      exact hslot _ _ _ _ _ he
    · cases h
  · split at h
    · rename_i e1 he
      simp only [Except.error.injEq] at h
      subst h
      exact hid _ _ _ he
    · split at h
      · rename_i e1 he
        simp only [Except.error.injEq] at h
        subst h
        exact hslot _ _ _ _ _ he
      · cases h
  · cases h1 : idAt rule.resultIDs i with
    | error e1 =>
      simp only [h1, Except.error.injEq] at h
      subst h
      exact hid _ _ _ h1
    | ok x =>
      cases h2 : idAt rule.resultIDs (i + 1) with
      | error e2 =>
        simp only [h1, h2, Except.error.injEq] at h
        subst h
        exact hid _ _ _ h2
      | ok y => simp [h1, h2] at h
  · cases h

theorem decodeResult_index {rule : inferenceRule} {i i1 : Nat} {t : constraintTypes}
    {c : constraint} (h : decodeResult rule i t = .ok (some (c, i1))) : i ≤ i1 := by
  unfold decodeResult at h
  split at h
  · split at h
    · cases h
    · simp only [Except.ok.injEq, Option.some.injEq, Prod.mk.injEq] at h
      omega
  · split at h
    · cases h
    · simp only [Except.ok.injEq, Option.some.injEq, Prod.mk.injEq] at h
      omega
  · split at h
    · cases h
    · split at h
      · cases h
      · simp only [Except.ok.injEq, Option.some.injEq, Prod.mk.injEq] at h
        omega
  · cases h1 : idAt rule.resultIDs i with
    | error e1 => simp [h1] at h
    | ok x =>
      cases h2 : idAt rule.resultIDs (i + 1) with
      | error e2 => simp [h1, h2] at h
      | ok y =>
        simp only [h1, h2, Except.ok.injEq, Option.some.injEq, Prod.mk.injEq] at h
        omega
  · cases h

theorem sweepStep_refl (rules : List inferenceRule) (sw : Sweep) (hac : Acyclic sw.heap)
    (hv : ValidPointers sw.heap sw.constraintGraph) : SweepStep rules sw sw :=
  ⟨hac, hv, fun _ hx => hx, le_refl _, fun h => Or.inl h⟩

theorem sweepStep_trans {rules : List inferenceRule} {sw sw1 sw2 : Sweep}
    (a : SweepStep rules sw sw1) (b : SweepStep rules sw1 sw2) : SweepStep rules sw sw2 := by
  obtain ⟨_, _, s1, m1, c1⟩ := a
  obtain ⟨ac2, v2, s2, m2, c2⟩ := b
  refine ⟨ac2, v2, fun x hx => s2 x (s1 x hx), le_trans m2 m1, ?_⟩
  intro h
  rcases c2 h with h1 | h1
  · rcases c1 h1 with h0 | h0
    · exact Or.inl h0
    · exact Or.inr (lt_of_le_of_lt m2 h0)
  · exact Or.inr (lt_of_lt_of_le h1 m1)

theorem resultLoop_terminates (rules : List inferenceRule) (combo : List Nat)
    (rule : inferenceRule) (hrule : rule ∈ rules) (fuel : Nat) :
    ∀ (i : Nat) (sw : Sweep), Acyclic sw.heap → ValidPointers sw.heap sw.constraintGraph →
      (∀ x ∈ combo, x ∈ sw.constraintGraph) → rule.resultTypes.length ≤ fuel + i →
      resultLoop combo rule fuel i sw ≠ .error Fault.fuel ∧
        ∀ e sw1, resultLoop combo rule fuel i sw = .ok (e, sw1) → SweepStep rules sw sw1 := by
  induction fuel with
  | zero =>
    intro i sw hac hv _ hlen
    unfold resultLoop
    have hi : ¬ i < rule.resultTypes.length := by omega
    simp only [hi, if_false]
    refine ⟨by simp, ?_⟩
    intro e sw1 h
    simp only [Except.ok.injEq, Prod.mk.injEq] at h
    obtain ⟨_, rfl⟩ := h
    exact sweepStep_refl rules sw hac hv
  | succ fuel ih =>
    intro i sw hac hv hcombo hlen
    unfold resultLoop
    split
    · refine ⟨by simp, ?_⟩
      intro e sw1 h
      simp only [Except.ok.injEq, Prod.mk.injEq] at h
      obtain ⟨_, rfl⟩ := h
      exact sweepStep_refl rules sw hac hv
    · rename_i currType ht
      split
      · rename_i e1 he
        rw [decodeResult_error he]
        exact ⟨by simp, fun e sw1 h => by cases h⟩
      · refine ⟨by simp, ?_⟩
        intro e sw1 h
        simp only [Except.ok.injEq, Prod.mk.injEq] at h
        obtain ⟨_, rfl⟩ := h
        refine ⟨acyclic_append_leaf default hac, validPointers_append_leaf default hv,
          fun _ hx => hx, ?_, fun h1 => Or.inl h1⟩
        exact missing_le rules
          (fun p hp => by
            show (deref (sw.heap ++ [leafNode default]) p).data = _
            rw [deref_append_left _ _ (hv.2 p hp)])
          (fun _ hx => hx)
      · rename_i c i1 hd
        have hc : c ∈ derivable rules := mem_derivable hrule ht hd
        obtain ⟨hnf, hstep⟩ := resolve_round rules sw c combo hac hv hcombo hc
        have hi1 := decodeResult_index hd
        split
        · rename_i e1 he
          refine ⟨?_, fun e sw1 h => by cases h⟩
          intro hcon
          simp only [Except.error.injEq] at hcon
          rw [hcon] at he
          exact hnf he
        · rename_i sw2 hr
          have hs2 : SweepStep rules sw sw2 := hstep _ _ hr
          obtain ⟨hnf2, hstep2⟩ := ih (i1 + 1) sw2 hs2.1 hs2.2.1
            (fun x hx => hs2.2.2.1 x (hcombo x hx)) (by omega)
          exact ⟨hnf2, fun e sw1 h => sweepStep_trans hs2 (hstep2 e sw1 h)⟩
        · rename_i e1 sw2 _ hr
          refine ⟨by simp, ?_⟩
          intro e sw1 h
          simp only [Except.ok.injEq, Prod.mk.injEq] at h
          obtain ⟨rfl, rfl⟩ := h
          exact hstep _ _ hr

theorem comboLoop_terminates (rules applied : List inferenceRule)
    (happlied : ∀ r ∈ applied, r ∈ rules) (combos : List (List Nat)) :
    ∀ (j : Nat) (sw : Sweep), Acyclic sw.heap → ValidPointers sw.heap sw.constraintGraph →
      (∀ c ∈ combos, ∀ x ∈ c, x ∈ sw.constraintGraph) →
      comboLoop applied combos j sw ≠ .error Fault.fuel ∧
        ∀ e sw1, comboLoop applied combos j sw = .ok (e, sw1) → SweepStep rules sw sw1 := by
  induction combos with
  | nil =>
    intro j sw hac hv _
    unfold comboLoop
    refine ⟨by simp, ?_⟩
    intro e sw1 h
    simp only [Except.ok.injEq, Prod.mk.injEq] at h
    obtain ⟨_, rfl⟩ := h
    exact sweepStep_refl rules sw hac hv
  | cons combo combos ih =>
    intro j sw hac hv hcombos
    unfold comboLoop
    split
    · exact ⟨by simp, fun e sw1 h => by cases h⟩
    · rename_i rule hj
      have hrule : rule ∈ rules := by
        apply happlied
        exact List.get?_mem hj
      obtain ⟨hnf, hstep⟩ := resultLoop_terminates rules combo rule hrule
        rule.resultTypes.length 0 sw hac hv
        (fun x hx => hcombos combo (List.mem_cons_self _ _) x hx) (by omega)
      split
      · rename_i e1 he
        refine ⟨?_, fun e sw1 h => by cases h⟩
        intro hcon
        simp only [Except.error.injEq] at hcon
        rw [hcon] at he
        exact hnf he
      · rename_i sw2 hr
        have hs2 : SweepStep rules sw sw2 := hstep _ _ hr
        obtain ⟨hnf2, hstep2⟩ := ih (j + 1) sw2 hs2.1 hs2.2.1
          (fun c hc x hx => hs2.2.2.1 x (hcombos c (List.mem_cons_of_mem _ hc) x hx))
        exact ⟨hnf2, fun e sw1 h => sweepStep_trans hs2 (hstep2 e sw1 h)⟩
      · rename_i e1 sw2 _ hr
        refine ⟨by simp, ?_⟩
        intro e sw1 h
        simp only [Except.ok.injEq, Prod.mk.injEq] at h
        obtain ⟨rfl, rfl⟩ := h
        exact hstep _ _ hr

/-- A larger sweep budget does not change a result of `checkCompatibility`. -/
theorem checkCompatibility_fuel_succ (fuel : Nat) :
    ∀ (sv : Service) (g : List Nat), checkCompatibility fuel sv g ≠ .error Fault.fuel →
      checkCompatibility (fuel + 1) sv g = checkCompatibility fuel sv g := by
  induction fuel with
  | zero =>
    intro sv g h
    exact absurd rfl h
  | succ fuel ih =>
    intro sv g h
    unfold checkCompatibility at h
    unfold checkCompatibility
    cases hrl : rulesLoop g sv.ruleList false sv with
    | error e => rfl
    | ok res =>
      obtain ⟨flag, sv1⟩ := res
      cases flag with
      | false => rfl
      | true =>
        simp only [hrl] at h ⊢
        cases hcl : comboLoop sv1.rulesAppliedThisIteration sv1.nodeCombosThisIteration 0
            { heap := sv1.heap, constraintGraph := g, continueLoop := false } with
        | error e => rfl
        | ok res1 =>
          obtain ⟨ex, sw⟩ := res1
          cases ex with
          | invalidKind => rfl
          | contradiction => rfl
          | running =>
            simp only [hcl] at h ⊢
            by_cases hcont : sw.continueLoop = true
            · simp only [hcont, if_true] at h ⊢
              exact ih _ _ h
            · simp only [hcont, Bool.false_eq_true, if_false]

theorem checkCompatibility_fuel_le {fuel fuel1 : Nat} (hle : fuel ≤ fuel1) (sv : Service)
    (g : List Nat) (h : checkCompatibility fuel sv g ≠ .error Fault.fuel) :
    checkCompatibility fuel1 sv g = checkCompatibility fuel sv g := by
  induction hle with
  | refl => rfl
  | step _ ih =>
    rw [checkCompatibility_fuel_succ _ sv g (by rw [ih]; exact h), ih]

theorem validPointers_of_childrenBelow {heap : Heap} {g : List Nat}
    (h : childrenBelow heap = true) (hg : ∀ p ∈ g, p < heap.length) : ValidPointers heap g := by
  refine ⟨?_, hg⟩
  intro p c hc
  have hp : p < heap.length := childEdge_lt_length hc
  unfold childrenBelow at h
  rw [List.all_eq_true] at h
  have := h p (List.mem_range.mpr hp)
  rw [List.all_eq_true] at this
  have hcp : c < p := of_decide_eq_true (this c hc)
  omega

theorem singleRun_cases {rule : inferenceRule} (h : singleRun rule = true) :
    ∃ t types, rule.requirementTypes = t :: types ∧ t ≠ constraintTypes.invalid ∧
      (∀ u ∈ types, u = t) ∧ rule.requirementTypes.length ≤ rule.requirementIDs.length := by
  unfold singleRun at h
  split at h
  · cases h
  · rename_i t types heq
    simp only [Bool.and_eq_true, decide_eq_true_eq, List.all_eq_true] at h
    exact ⟨t, types, heq, h.1.1, h.1.2, h.2⟩

/-- A pair that does not pass the anchor test is skipped. -/
theorem ruleAppliesLoop_skip (rule : inferenceRule) (graph : List Nat)
    (n i : Nat) (rest : List (Nat × Nat)) (b : Bool) (sv : Service)
    (hdef : sliceDefined sv.wordsBehind rule i = true)
    (hm : anchorMatches sv.heap sv.wordsBehind rule n i = false) :
    ruleAppliesLoop rule graph ((n, i) :: rest) b sv = ruleAppliesLoop rule graph rest b sv := by
  obtain ⟨slice, hs, hne⟩ := sliceDefined_ok hdef
  unfold anchorMatches at hm
  simp only [hs] at hm
  conv_lhs => unfold ruleAppliesLoop
  simp only [hs, hne, if_false, hm, Bool.false_eq_true]

theorem children_wire_fresh (h : Heap) (c : constraint) (combo : List Nat) (p : Nat)
    (hp : p ≤ h.length) :
    (deref (wire h.length combo (h ++ [leafNode c])) p).children
      = if p = h.length then combo else (deref h p).children := by
  rw [deref_wire _ _ _ _ (by simp; omega)]
  simp only
  by_cases hpn : p = h.length
  · rw [if_pos hpn, if_pos hpn, hpn, deref_append_length]
    rfl
  · rw [if_neg hpn, if_neg hpn, deref_append_left h _ (by omega), List.append_nil]

theorem nodesEqual_comm (heap : Heap) (a b : Nat) : nodesEqual heap a b = nodesEqual heap b a :=
  constraintsEqual_engine_comm _ _

theorem nodesEqual_trans {heap : Heap} {a b c : Nat} (h1 : nodesEqual heap a b = true)
    (h2 : nodesEqual heap b c = true) : nodesEqual heap a c = true :=
  constraintsEqual_engine_trans h1 h2

theorem otherNodeScan_congr (h1 h2 : Heap) (currNode : Nat) (currType : constraintTypes)
    (slice : List Int) (l : List Nat)
    (hd : ∀ n ∈ l, (deref h2 n).data = (deref h1 n).data) :
    ∀ scan : SlotScan, l.foldl (otherNodeStep h2 currNode currType slice) scan
      = l.foldl (otherNodeStep h1 currNode currType slice) scan := by
  induction l with
  | nil => intro scan; rfl
  | cons o l ih =>
    intro scan
    simp only [List.foldl_cons]
    have hstep : otherNodeStep h2 currNode currType slice scan o
        = otherNodeStep h1 currNode currType slice scan o := by
      unfold otherNodeStep
      rw [hd o (List.mem_cons_self _ _)]
    rw [hstep]
    exact ih (fun n hn => hd n (List.mem_cons_of_mem _ hn)) _

theorem remainingLoop_congr {behind : List constraintTypes} (h1 h2 : Heap)
    (rule : inferenceRule) (g : List Nat)
    (currNode : Nat) (hd : ∀ n ∈ g, (deref h2 n).data = (deref h1 n).data) (fuel : Nat) :
    ∀ (remaining : List constraintTypes) (applicable : List Nat),
      remainingLoop h2 behind rule g currNode fuel remaining applicable
        = remainingLoop h1 behind rule g currNode fuel remaining applicable := by
  induction fuel with
  | zero => intro remaining applicable; rfl
  | succ fuel ih =>
    intro remaining applicable
    unfold remainingLoop
    split
    · rfl
    · split
      · rfl
      · split
        · rfl
        · simp only [otherNodeScan_congr h1 h2 currNode _ _ g hd, ih]

theorem nodeIsPresentInGraph_congr (h1 h2 : Heap) (n : Nat) (l : List Nat)
    (hn : (deref h2 n).data = (deref h1 n).data)
    (hd : ∀ m ∈ l, (deref h2 m).data = (deref h1 m).data) :
    nodeIsPresentInGraph h2 n l = nodeIsPresentInGraph h1 n l := by
  induction l with
  | nil => rfl
  | cons m l ih =>
    unfold nodeIsPresentInGraph
    rw [hn, hd m (List.mem_cons_self _ _), ih (fun m hm => hd m (List.mem_cons_of_mem _ hm))]

theorem nodeCombosEqual_congr (h1 h2 : Heap) (a c : List Nat)
    (ha : ∀ n ∈ a, (deref h2 n).data = (deref h1 n).data)
    (hc : ∀ m ∈ c, (deref h2 m).data = (deref h1 m).data) :
    nodeCombosEqual h2 a c = nodeCombosEqual h1 a c := by
  induction a with
  | nil => rfl
  | cons n a ih =>
    unfold nodeCombosEqual
    rw [nodeIsPresentInGraph_congr h1 h2 n c (ha n (List.mem_cons_self _ _)) hc,
      ih (fun n hn => ha n (List.mem_cons_of_mem _ hn))]

theorem any_congr_mem {α : Type} (l : List α) (f g : α → Bool) (h : ∀ x ∈ l, f x = g x) :
    l.any f = l.any g := by
  induction l with
  | nil => rfl
  | cons x l ih =>
    simp only [List.any_cons]
    rw [h x (List.mem_cons_self _ _), ih (fun y hy => h y (List.mem_cons_of_mem _ hy))]

/-- The loops of `ruleApplies` on a heap that holds the same constraints at the
nodes of the graph: the same result, on the other heap. -/
theorem ruleAppliesLoop_congr (h1 h2 : Heap) (rule : inferenceRule) (g : List Nat)
    (hd : ∀ n ∈ g, (deref h2 n).data = (deref h1 n).data) :
    ∀ (pairs : List (Nat × Nat)), (∀ pr ∈ pairs, pr.1 ∈ g) →
      ∀ (b : Bool) (sv : Service), sv.heap = h1 →
        (∀ c ∈ sv.nodeCombosThisIteration, ∀ x ∈ c, x ∈ g) →
        ruleAppliesLoop rule g pairs b { sv with heap := h2 } =
          match ruleAppliesLoop rule g pairs b sv with
          | .ok (b1, sv1) => .ok (b1, { sv1 with heap := h2 })
          | .error e => .error e := by
  intro pairs
  induction pairs with
  | nil => intro _ b sv _ _; rfl
  | cons pr rest ih =>
    intro hpairs b sv hh hmemo
    subst hh
    obtain ⟨n, i⟩ := pr
    have hng : n ∈ g := hpairs (n, i) (List.mem_cons_self _ _)
    have hrest : ∀ pr ∈ rest, pr.1 ∈ g := fun pr hpr => hpairs pr (List.mem_cons_of_mem _ hpr)
    unfold ruleAppliesLoop
    cases hs : sliceRequirementIDs sv.wordsBehind i rule.requirementTypes rule.requirementIDs with
    | error e => rfl
    | ok slice =>
      simp only
      by_cases hz : slice.length = 0
      · simp only [hz, if_true]
      · simp only [hz, if_false]
        rw [hd n hng, remainingLoop_congr sv.heap h2 rule g n hd]
        split
        · cases hrem : remainingLoop sv.heap sv.wordsBehind rule g n (rule.requirementTypes.length + 1)
              (invalidateRun (deref sv.heap n).data.type i rule.requirementTypes).1 [n] with
          | error e => rfl
          | ok res =>
            cases res with
            | none => rfl
            | some applicable =>
              simp only
              have happ : ∀ x ∈ applicable, x ∈ g := by
                obtain ⟨extra, he, hextra⟩ := remainingLoop_applicable _ _ _ _ _ _ _ _ hrem
                intro x hx
                rw [he] at hx
                rcases List.mem_append.mp hx with h | h
                · simp only [List.mem_singleton] at h
                  rw [h]
                  exact hng
                · exact hextra x h
              have hany : sv.nodeCombosThisIteration.any
                    (fun combo => nodeCombosEqual h2 applicable combo)
                  = sv.nodeCombosThisIteration.any
                    (fun combo => nodeCombosEqual sv.heap applicable combo) := by
                apply any_congr_mem
                intro combo hc
                exact nodeCombosEqual_congr sv.heap h2 applicable combo
                  (fun x hx => hd x (happ x hx)) (fun x hx => hd x (hmemo combo hc x hx))
              rw [hany]
              split
              · exact ih hrest true sv rfl hmemo
              · exact ih hrest true
                  { sv with
                    nodeCombosThisIteration := sv.nodeCombosThisIteration ++ [applicable]
                    rulesAppliedThisIteration := sv.rulesAppliedThisIteration ++ [rule] } rfl
                  (by
                    intro c hc
                    rcases List.mem_append.mp hc with h | h
                    · exact hmemo c h
                    · simp only [List.mem_singleton] at h
                      rw [h]
                      exact happ)
        · exact ih hrest b sv rfl hmemo

/-- The rule loop of a sweep on a heap that holds the same constraints at the
nodes of the graph. -/
theorem rulesLoop_congr (h2 : Heap) (g : List Nat) :
    ∀ (rules : List inferenceRule) (b : Bool) (sv : Service),
      (∀ n ∈ g, (deref h2 n).data = (deref sv.heap n).data) →
      (∀ c ∈ sv.nodeCombosThisIteration, ∀ x ∈ c, x ∈ g) →
      rulesLoop g rules b { sv with heap := h2 } =
        match rulesLoop g rules b sv with
        | .ok (b1, sv1) => .ok (b1, { sv1 with heap := h2 })
        | .error e => .error e := by
  intro rules
  induction rules with
  | nil => intro b sv _ _; rfl
  | cons rule rules ih =>
    intro b sv hd hmemo
    have hra : ruleApplies (some rule) g { sv with heap := h2 } =
        match ruleApplies (some rule) g sv with
        | .ok (b1, sv1) => .ok (b1, { sv1 with heap := h2 })
        | .error e => .error e :=
      ruleAppliesLoop_congr sv.heap h2 rule g hd (anchorPositions rule g)
        (fun pr hpr => (anchorPositions_fst hpr).1) false sv rfl hmemo
    unfold rulesLoop
    rw [hra]
    cases hr : ruleApplies (some rule) g sv with
    | error e => rfl
    | ok res =>
      obtain ⟨b0, sv0⟩ := res
      obtain ⟨hh0, _, combos, hcombos, _, hin⟩ := ruleApplies_frame rule g sv b0 sv0 hr
      have hmemo0 : ∀ c ∈ sv0.nodeCombosThisIteration, ∀ x ∈ c, x ∈ g := by
        intro c hc x hx
        rw [hcombos] at hc
        rcases List.mem_append.mp hc with h | h
        · exact hmemo c h x hx
        · exact hin c h x hx
      have hd0 : ∀ n ∈ g, (deref h2 n).data = (deref sv0.heap n).data := by
        rw [hh0]
        exact hd
      cases b0 with
      | true => exact ih true sv0 hd0 hmemo0
      | false => exact ih b sv0 hd0 hmemo0

/-! ## Descendant lists read the children of reachable nodes only -/

theorem foldlM_congr_mem (f g : List Nat → Nat → Except Fault (List Nat)) (l : List Nat)
    (h : ∀ c ∈ l, ∀ acc, f acc c = g acc c) :
    ∀ acc, l.foldlM f acc = l.foldlM g acc := by
  induction l with
  | nil => intro acc; rfl
  | cons c l ih =>
    intro acc
    simp only [List.foldlM_cons]
    rw [h c (List.mem_cons_self _ _) acc]
    cases g acc c with
    | error e => rfl
    | ok mid => exact ih (fun c hc => h c (List.mem_cons_of_mem _ hc)) mid

/-- On two heaps that hold the same children lists below `bound`, a region
closed under children, the descendants of a node of the region are gathered
alike. -/
theorem gatherDescendents_congr (h1 h2 : Heap) (bound : Nat)
    (hch : ∀ p, p < bound → (deref h2 p).children = (deref h1 p).children)
    (hclosed : ∀ p, p < bound → ∀ c ∈ (deref h1 p).children, c < bound) (fuel : Nat) :
    ∀ (p : Nat) (acc : List Nat), p < bound →
      gatherDescendents h2 fuel p acc = gatherDescendents h1 fuel p acc := by
  induction fuel with
  | zero => intro p acc _; rfl
  | succ fuel ih =>
    intro p acc hp
    unfold gatherDescendents
    rw [hch p hp]
    exact foldlM_congr_mem _ _ _ (fun c hc acc1 => ih c acc1 (hclosed p hp c hc)) _

theorem foldlM_acc (f : List Nat → Nat → Except Fault (List Nat)) (bound : Nat) (l : List Nat)
    (hf : ∀ c ∈ l, ∀ acc r, f acc c = .ok r →
      ∃ found, r = acc ++ found ∧ (∀ q ∈ found, q < bound) ∧
        ∀ acc1, f acc1 c = .ok (acc1 ++ found)) :
    ∀ acc r, l.foldlM f acc = .ok r →
      ∃ found, r = acc ++ found ∧ (∀ q ∈ found, q < bound) ∧
        ∀ acc1, l.foldlM f acc1 = .ok (acc1 ++ found) := by
  induction l with
  | nil =>
    intro acc r h
    simp only [List.foldlM_nil] at h
    cases h
    exact ⟨[], by simp, by simp, fun acc1 => by simp; rfl⟩
  | cons c l ih =>
    intro acc r h
    simp only [List.foldlM_cons] at h
    cases hm : f acc c with
    | error e =>
      rw [hm] at h
      cases h
    | ok mid =>
      rw [hm] at h
      obtain ⟨f1, hmid, hb1, hall1⟩ := hf c (List.mem_cons_self _ _) acc mid hm
      obtain ⟨f2, hr, hb2, hall2⟩ :=
        ih (fun c hc => hf c (List.mem_cons_of_mem _ hc)) mid r h
      refine ⟨f1 ++ f2, ?_, ?_, ?_⟩
      · rw [hr, hmid, List.append_assoc]
      · intro q hq
        rcases List.mem_append.mp hq with h3 | h3
        · exact hb1 q h3
        · exact hb2 q h3
      · intro acc1
        simp only [List.foldlM_cons]
        rw [hall1 acc1]
        have := hall2 (acc1 ++ f1)
        rw [List.append_assoc] at this
        exact this

/-- The list gathered from a node is appended to the accumulator and does not
depend on it; inside a region closed under children it stays in the region. -/
theorem gatherDescendents_acc (heap : Heap) (bound : Nat)
    (hclosed : ∀ p, p < bound → ∀ c ∈ (deref heap p).children, c < bound) (fuel : Nat) :
    ∀ (p : Nat), p < bound → ∀ (acc r : List Nat), gatherDescendents heap fuel p acc = .ok r →
      ∃ found, r = acc ++ found ∧ (∀ q ∈ found, q < bound) ∧
        ∀ acc1, gatherDescendents heap fuel p acc1 = .ok (acc1 ++ found) := by
  induction fuel with
  | zero =>
    intro p _ acc r h
    cases h
  | succ fuel ih =>
    intro p hp acc r h
    unfold gatherDescendents at h
    obtain ⟨found, hr, hb, hall⟩ := foldlM_acc _ bound (deref heap p).children
      (fun c hc acc1 r1 h1 => ih c (hclosed p hp c hc) acc1 r1 h1) _ r h
    refine ⟨p :: found, ?_, ?_, ?_⟩
    · rw [hr]
      simp
    · intro q hq
      rcases List.mem_cons.mp hq with h3 | h3
      · rw [h3]
        exact hp
      · exact hb q h3
    · intro acc1
      unfold gatherDescendents
      rw [hall (acc1 ++ [p])]
      simp

theorem countEqual_map (h1 h2 : Heap) (c : constraint) (l1 l2 : List Nat)
    (h : l1.map (fun e => (deref h1 e).data) = l2.map (fun e => (deref h2 e).data)) :
    countEqual h1 c l1 = countEqual h2 c l2 := by
  unfold countEqual
  have e1 : l1.countP (fun e => constraintsEqual c (deref h1 e).data (engineFlag c.type))
      = (l1.map (fun e => (deref h1 e).data)).countP
          (fun d => constraintsEqual c d (engineFlag c.type)) := by
    rw [List.countP_map]
    rfl
  have e2 : l2.countP (fun e => constraintsEqual c (deref h2 e).data (engineFlag c.type))
      = (l2.map (fun e => (deref h2 e).data)).countP
          (fun d => constraintsEqual c d (engineFlag c.type)) := by
    rw [List.countP_map]
    rfl
  rw [e1, e2, h]

/-- The superset test reads the constraints of the listed nodes only. -/
theorem supersetLoop_map (h1 h2 : Heap) (o1 o2 n1 n2 : List Nat)
    (ho : o1.map (fun e => (deref h1 e).data) = o2.map (fun e => (deref h2 e).data))
    (hn : n1.map (fun e => (deref h1 e).data) = n2.map (fun e => (deref h2 e).data))
    (h : supersetLoop h1 o1 n1 = true) : supersetLoop h2 o2 n2 = true := by
  rw [supersetLoop_iff_count] at h ⊢
  intro c
  rw [← countEqual_map h1 h2 c o1 o2 ho, ← countEqual_map h1 h2 c n1 n2 hn]
  exact h c

/-! ## Replaying a sweep that accepted nothing -/

theorem nodeIsPresentInGraph_transfer (h1 h2 : Heap) (n1 n2 : Nat) (l : List Nat)
    (hn : (deref h2 n2).data = (deref h1 n1).data)
    (hl : ∀ m ∈ l, (deref h2 m).data = (deref h1 m).data ∧ m ≠ n1 ∧ m ≠ n2) :
    nodeIsPresentInGraph h2 n2 l = nodeIsPresentInGraph h1 n1 l := by
  induction l with
  | nil => rfl
  | cons m l ih =>
    obtain ⟨hm, hm1, hm2⟩ := hl m (List.mem_cons_self _ _)
    unfold nodeIsPresentInGraph
    rw [hn, hm, ih (fun m hm => hl m (List.mem_cons_of_mem _ hm))]
    have e1 : decide (n1 = m) = false := decide_eq_false (Ne.symm hm1)
    have e2 : decide (n2 = m) = false := decide_eq_false (Ne.symm hm2)
    rw [e1, e2]

theorem data_wire_base {h w : Heap} (hext : HeapExtends h w) (c : constraint)
    (combo : List Nat) {p : Nat} (hp : p < h.length) :
    (deref (wire w.length combo (w ++ [leafNode c])) p).data = (deref h p).data := by
  have hpw : p < w.length := lt_of_lt_of_le hp hext.1
  rw [data_wire_fresh w c combo p (le_of_lt hpw), if_neg (Nat.ne_of_lt hpw), (hext.2 p hp).1]

theorem children_wire_base {h w : Heap} (hext : HeapExtends h w) (c : constraint)
    (combo : List Nat) {p : Nat} (hp : p < h.length) :
    (deref (wire w.length combo (w ++ [leafNode c])) p).children = (deref h p).children := by
  have hpw : p < w.length := lt_of_lt_of_le hp hext.1
  rw [children_wire_fresh w c combo p (le_of_lt hpw), if_neg (Nat.ne_of_lt hpw),
    (hext.2 p hp).2.1]

/-- The descendant list of a freshly wired node: the node itself, followed by a
list of nodes of the base heap that does not depend on the address of the new
node nor on what was allocated after the base heap. -/
theorem descendents_wire_fresh (h : Heap) (g : List Nat) (hv : ValidPointers h g)
    (w1 w2 : Heap) (he1 : HeapExtends h w1) (he2 : HeapExtends h w2)
    (hle : w1.length ≤ w2.length) (c : constraint) (combo : List Nat)
    (hcombo : ∀ x ∈ combo, x ∈ g) (l1 : List Nat)
    (hdesc : descendents (wire w1.length combo (w1 ++ [leafNode c])) w1.length = .ok l1) :
    ∃ found, l1 = w1.length :: found ∧ (∀ q ∈ found, q < h.length) ∧
      descendents (wire w2.length combo (w2 ++ [leafNode c])) w2.length
        = .ok (w2.length :: found) := by
  have hclosed : ∀ p, p < h.length → ∀ x ∈ (deref h p).children, x < h.length :=
    fun p _ x hx => hv.1 p x hx
  have hfold : ∀ (w : Heap), HeapExtends h w →
      descendents (wire w.length combo (w ++ [leafNode c])) w.length
        = combo.foldlM (fun found x => gatherDescendents h (w.length + 1) x found)
            [w.length] := by
    intro w hew
    unfold descendents
    rw [length_wire, List.length_append, List.length_singleton]
    unfold gatherDescendents
    rw [children_wire_fresh w c combo w.length (le_refl _), if_pos rfl, List.nil_append]
    apply foldlM_congr_mem
    intro x hx acc
    exact gatherDescendents_congr h _ h.length
      (fun p hp => children_wire_base hew c combo hp) hclosed _ x acc (hv.2 x (hcombo x hx))
  rw [hfold w1 he1] at hdesc
  obtain ⟨found, hl1, hbound, hall⟩ := foldlM_acc _ h.length combo
    (fun x hx acc r hr =>
      gatherDescendents_acc h h.length hclosed _ x (hv.2 x (hcombo x hx)) acc r hr)
    _ _ hdesc
  refine ⟨found, by rw [hl1]; rfl, hbound, ?_⟩
  rw [hfold w2 he2]
  have := hall [w2.length]
  exact foldlM_ok_congr _ _ combo
    (fun x _ acc r hr => gatherDescendents_fuel_le h (by omega) hr) _ _ this

theorem descendents_base (h : Heap) (g : List Nat) (hv : ValidPointers h g)
    (w1 w2 : Heap) (he1 : HeapExtends h w1) (he2 : HeapExtends h w2)
    (hle : w1.length ≤ w2.length) (c : constraint) (combo : List Nat) (o : Nat)
    (ho : o < h.length) (lo : List Nat)
    (hdesc : descendents (wire w1.length combo (w1 ++ [leafNode c])) o = .ok lo) :
    (∀ q ∈ lo, q < h.length) ∧
      descendents (wire w2.length combo (w2 ++ [leafNode c])) o = .ok lo := by
  have hclosed : ∀ p, p < h.length → ∀ x ∈ (deref h p).children, x < h.length :=
    fun p _ x hx => hv.1 p x hx
  have hbase : ∀ (w : Heap), HeapExtends h w →
      descendents (wire w.length combo (w ++ [leafNode c])) o
        = gatherDescendents h (w.length + 1 + 1) o [] := by
    intro w hew
    unfold descendents
    rw [length_wire, List.length_append, List.length_singleton]
    exact gatherDescendents_congr h _ h.length
      (fun p hp => children_wire_base hew c combo hp) hclosed _ o [] ho
  rw [hbase w1 he1] at hdesc
  obtain ⟨found, hlo, hbound, _⟩ :=
    gatherDescendents_acc h h.length hclosed _ o ho [] lo hdesc
  constructor
  · rw [hlo]
    simpa using hbound
  · rw [hbase w2 he2]
    exact gatherDescendents_fuel_le h (by omega) hdesc

/-- A round of the conflict branch that dropped its node as redundant drops it
again when it is run on a heap with more nodes allocated after the base heap:
the address of the new node and the nodes outside the graph play no role. -/
theorem resolve_replay (h : Heap) (g : List Nat) (hv : ValidPointers h g)
    (w1 w2 : Heap) (he1 : HeapExtends h w1) (he2 : HeapExtends h w2)
    (hle : w1.length ≤ w2.length) (c : constraint) (combo : List Nat)
    (hcombo : ∀ x ∈ combo, x ∈ g) (sw1 : Sweep)
    (hres : resolve w1.length combo
      { heap := w1 ++ [leafNode c], constraintGraph := g, continueLoop := false }
        = .ok (Exit.running, sw1))
    (hcl : sw1.continueLoop = false) :
    sw1 = { heap := w1 ++ [leafNode c], constraintGraph := g, continueLoop := false } ∧
      resolve w2.length combo
        { heap := w2 ++ [leafNode c], constraintGraph := g, continueLoop := false }
          = .ok (Exit.running,
              { heap := w2 ++ [leafNode c], constraintGraph := g, continueLoop := false }) := by
  rcases resolve_cases hres with ⟨_, _, _, _, htrue⟩ | ⟨other, hpres, hsup, _, hheap, hgraph, hflag⟩
  · rw [htrue] at hcl
    cases hcl
  · simp only at hpres hsup hheap hgraph hflag
    constructor
    · rw [modifyAt_clear_fresh_leaf] at hheap
      cases sw1
      simp only at hheap hgraph hflag
      rw [hheap, hgraph, hflag]
    · have hog : other ∈ g := by
        obtain ⟨pre, post, hg, _, _⟩ := (nodeIsPresentInGraph_eq_some _ _ _ _).mp hpres
        rw [hg]
        simp
      have hoh : other < h.length := hv.2 other hog
      have hpres2 : nodeIsPresentInGraph (wire w2.length combo (w2 ++ [leafNode c]))
          w2.length g = some other := by
        rw [← hpres]
        apply nodeIsPresentInGraph_transfer
        · rw [data_wire_fresh w2 c combo _ (le_refl _), data_wire_fresh w1 c combo _ (le_refl _),
            if_pos rfl, if_pos rfl]
        · intro m hm
          have hmh : m < h.length := hv.2 m hm
          refine ⟨?_, ?_, ?_⟩
          · rw [data_wire_base he2 c combo hmh, data_wire_base he1 c combo hmh]
          · have := he1.1
            omega
          · have := he2.1
            omega
      have hsup2 : descendentsAreSuperset (wire w2.length combo (w2 ++ [leafNode c]))
          w2.length other = .ok true := by
        unfold descendentsAreSuperset at hsup
        cases hd1 : descendents (wire w1.length combo (w1 ++ [leafNode c])) w1.length with
        | error e =>
          rw [hd1] at hsup
          simp at hsup
        | ok l1 =>
          cases hd2 : descendents (wire w1.length combo (w1 ++ [leafNode c])) other with
          | error e =>
            rw [hd1, hd2] at hsup
            simp at hsup
          | ok lo =>
            rw [hd1, hd2] at hsup
            simp only [decide_True, Except.ok.injEq] at hsup
            obtain ⟨found, hl1, hbound, hnew⟩ :=
              descendents_wire_fresh h g hv w1 w2 he1 he2 hle c combo hcombo l1 hd1
            obtain ⟨hlob, hold⟩ :=
              descendents_base h g hv w1 w2 he1 he2 hle c combo other hoh lo hd2
            unfold descendentsAreSuperset
            rw [hnew, hold]
            simp only [Except.ok.injEq]
            apply supersetLoop_map (wire w1.length combo (w1 ++ [leafNode c])) _ lo lo l1 _ _ _
              hsup
            · apply List.map_congr_left
              intro q hq
              rw [data_wire_base he1 c combo (hlob q hq), data_wire_base he2 c combo (hlob q hq)]
            · rw [hl1]
              simp only [List.map_cons]
              rw [data_wire_fresh w2 c combo _ (le_refl _),
                data_wire_fresh w1 c combo _ (le_refl _), if_pos rfl, if_pos rfl]
              congr 1
              apply List.map_congr_left
              intro q hq
              rw [data_wire_base he1 c combo (hbound q hq),
                data_wire_base he2 c combo (hbound q hq)]
      unfold resolve
      simp only [hpres2, hsup2, unwire_wire, modifyAt_clear_fresh_leaf]

theorem resolve_flag_mono {n : Nat} {combo : List Nat} {sw sw1 : Sweep} {e : Exit}
    (h : resolve n combo sw = .ok (e, sw1)) (hcl : sw.continueLoop = true) :
    sw1.continueLoop = true := by
  rcases resolve_cases h with ⟨_, _, _, _, htrue⟩ | ⟨_, _, _, _, _, _, hflag⟩
  · exact htrue
  · rw [hflag]
    exact hcl

theorem resultLoop_flag_mono (combo : List Nat) (rule : inferenceRule) (fuel : Nat) :
    ∀ (i : Nat) (sw sw1 : Sweep) (e : Exit),
      resultLoop combo rule fuel i sw = .ok (e, sw1) → sw.continueLoop = true →
      sw1.continueLoop = true := by
  induction fuel with
  | zero =>
    intro i sw sw1 e h hcl
    unfold resultLoop at h
    split at h
    · cases h
    · simp only [Except.ok.injEq, Prod.mk.injEq] at h
      rw [← h.2]
      exact hcl
  | succ fuel ih =>
    intro i sw sw1 e h hcl
    unfold resultLoop at h
    cases hget : rule.resultTypes.get? i with
    | none =>
      simp only [hget, Except.ok.injEq, Prod.mk.injEq] at h
      rw [← h.2]
      exact hcl
    | some t =>
      simp only [hget] at h
      cases hdec : decodeResult rule i t with
      | error e1 =>
        simp only [hdec] at h
        cases h
      | ok res =>
        cases res with
        | none =>
          simp only [hdec, Except.ok.injEq, Prod.mk.injEq] at h
          rw [← h.2]
          exact hcl
        | some ci =>
          obtain ⟨c, i1⟩ := ci
          simp only [hdec] at h
          cases hres : resolve sw.heap.length combo
              { sw with heap := sw.heap ++ [{ data := c, parents := [], children := [] }] } with
          | error e1 =>
            simp only [hres] at h
            cases h
          | ok res1 =>
            obtain ⟨e1, swm⟩ := res1
            have hm : swm.continueLoop = true := resolve_flag_mono hres hcl
            cases e1 with
            | running =>
              simp only [hres] at h
              exact ih _ _ _ _ h hm
            | contradiction =>
              simp only [hres, Except.ok.injEq, Prod.mk.injEq] at h
              rw [← h.2]
              exact hm
            | invalidKind =>
              simp only [hres, Except.ok.injEq, Prod.mk.injEq] at h
              rw [← h.2]
              exact hm

/-- A run of the result loop that accepted nothing, replayed on a heap with more
nodes allocated after the base heap: it allocates the same nodes and accepts
nothing. -/
theorem resultLoop_replay (h : Heap) (g : List Nat) (hv : ValidPointers h g)
    (combo : List Nat) (hcombo : ∀ x ∈ combo, x ∈ g) (rule : inferenceRule) (fuel : Nat) :
    ∀ (i : Nat) (w1 w2 : Heap), HeapExtends h w1 → HeapExtends h w2 → w1.length ≤ w2.length →
      ∀ sw1, resultLoop combo rule fuel i
          { heap := w1, constraintGraph := g, continueLoop := false } = .ok (Exit.running, sw1) →
        sw1.continueLoop = false →
        ∃ junk, sw1 = { heap := w1 ++ junk, constraintGraph := g, continueLoop := false } ∧
          resultLoop combo rule fuel i
              { heap := w2, constraintGraph := g, continueLoop := false }
            = .ok (Exit.running,
                { heap := w2 ++ junk, constraintGraph := g, continueLoop := false }) := by
  induction fuel with
  | zero =>
    intro i w1 w2 _ _ _ sw1 hrun _
    unfold resultLoop at hrun ⊢
    by_cases hi : i < rule.resultTypes.length
    · simp only [hi, if_true] at hrun
      cases hrun
    · simp only [hi, if_false, Except.ok.injEq, Prod.mk.injEq, true_and] at hrun
      refine ⟨[], ?_, ?_⟩
      · rw [← hrun, List.append_nil]
      · simp only [hi, if_false, List.append_nil]
  | succ fuel ih =>
    intro i w1 w2 he1 he2 hle sw1 hrun hcl
    unfold resultLoop at hrun ⊢
    cases hget : rule.resultTypes.get? i with
    | none =>
      simp only [hget, Except.ok.injEq, Prod.mk.injEq, true_and] at hrun
      refine ⟨[], ?_, ?_⟩
      · rw [← hrun, List.append_nil]
      · simp only [List.append_nil]
    | some t =>
      simp only [hget] at hrun ⊢
      cases hdec : decodeResult rule i t with
      | error e1 =>
        simp only [hdec] at hrun
        cases hrun
      | ok res =>
        cases res with
        | none =>
          simp only [hdec, Except.ok.injEq, Prod.mk.injEq] at hrun
          cases hrun.1
        | some ci =>
          obtain ⟨c, i1⟩ := ci
          simp only [hdec] at hrun ⊢
          cases hres : resolve w1.length combo
              { heap := w1 ++ [leafNode c], constraintGraph := g, continueLoop := false } with
          | error e1 =>
            have hres1 : resolve w1.length combo
                { heap := w1 ++ [{ data := c, parents := [], children := [] }],
                  constraintGraph := g, continueLoop := false } = .error e1 := hres
            simp only [hres1] at hrun
            cases hrun
          | ok res1 =>
            obtain ⟨e1, swm⟩ := res1
            have hres1 : resolve w1.length combo
                { heap := w1 ++ [{ data := c, parents := [], children := [] }],
                  constraintGraph := g, continueLoop := false } = .ok (e1, swm) := hres
            cases e1 with
            | running =>
              simp only [hres1] at hrun
              have hm : swm.continueLoop = false := by
                cases hsm : swm.continueLoop
                · rfl
                · rw [resultLoop_flag_mono combo rule fuel _ _ _ _ hrun hsm] at hcl
                  cases hcl
              obtain ⟨hswm, hres2⟩ :=
                resolve_replay h g hv w1 w2 he1 he2 hle c combo hcombo swm hres hm
              rw [hswm] at hrun
              obtain ⟨junk, hsw1, hrun2⟩ := ih (i1 + 1) (w1 ++ [leafNode c]) (w2 ++ [leafNode c])
                (heapExtends_trans he1 (heapExtends_append _ _))
                (heapExtends_trans he2 (heapExtends_append _ _))
                (by simp only [List.length_append, List.length_singleton]; omega) sw1 hrun hcl
              refine ⟨leafNode c :: junk, ?_, ?_⟩
              · rw [hsw1]
                simp
              · have hres3 : resolve w2.length combo
                    { heap := w2 ++ [{ data := c, parents := [], children := [] }],
                      constraintGraph := g, continueLoop := false }
                    = .ok (Exit.running,
                        { heap := w2 ++ [leafNode c], constraintGraph := g,
                          continueLoop := false }) := hres2
                simp only [hres3]
                rw [hrun2]
                simp
            | contradiction =>
              simp only [hres1, Except.ok.injEq, Prod.mk.injEq] at hrun
              cases hrun.1
            | invalidKind =>
              simp only [hres1, Except.ok.injEq, Prod.mk.injEq] at hrun
              cases hrun.1

theorem comboLoop_flag_mono (applied : List inferenceRule) (combos : List (List Nat)) :
    ∀ (j : Nat) (sw sw1 : Sweep) (e : Exit),
      comboLoop applied combos j sw = .ok (e, sw1) → sw.continueLoop = true →
      sw1.continueLoop = true := by
  induction combos with
  | nil =>
    intro j sw sw1 e h hcl
    unfold comboLoop at h
    simp only [Except.ok.injEq, Prod.mk.injEq] at h
    rw [← h.2]
    exact hcl
  | cons combo combos ih =>
    intro j sw sw1 e h hcl
    unfold comboLoop at h
    cases hget : applied.get? j with
    | none =>
      simp only [hget] at h
      cases h
    | some rule =>
      simp only [hget] at h
      cases hres : resultLoop combo rule rule.resultTypes.length 0 sw with
      | error e1 =>
        simp only [hres] at h
        cases h
      | ok res1 =>
        obtain ⟨e1, swm⟩ := res1
        have hm := resultLoop_flag_mono combo rule _ _ _ _ _ hres hcl
        cases e1 with
        | running =>
          simp only [hres] at h
          exact ih _ _ _ _ h hm
        | contradiction =>
          simp only [hres, Except.ok.injEq, Prod.mk.injEq] at h
          rw [← h.2]
          exact hm
        | invalidKind =>
          simp only [hres, Except.ok.injEq, Prod.mk.injEq] at h
          rw [← h.2]
          exact hm

/-- A run of the combination loop that accepted nothing, replayed on a heap with
more nodes allocated after the base heap. -/
theorem comboLoop_replay (h : Heap) (g : List Nat) (hv : ValidPointers h g)
    (applied : List inferenceRule) (combos : List (List Nat)) :
    (∀ c ∈ combos, ∀ x ∈ c, x ∈ g) →
    ∀ (j : Nat) (w1 w2 : Heap), HeapExtends h w1 → HeapExtends h w2 → w1.length ≤ w2.length →
      ∀ sw1, comboLoop applied combos j
          { heap := w1, constraintGraph := g, continueLoop := false } = .ok (Exit.running, sw1) →
        sw1.continueLoop = false →
        ∃ junk, sw1 = { heap := w1 ++ junk, constraintGraph := g, continueLoop := false } ∧
          comboLoop applied combos j
              { heap := w2, constraintGraph := g, continueLoop := false }
            = .ok (Exit.running,
                { heap := w2 ++ junk, constraintGraph := g, continueLoop := false }) := by
  induction combos with
  | nil =>
    intro _ j w1 w2 _ _ _ sw1 hrun _
    unfold comboLoop at hrun ⊢
    simp only [Except.ok.injEq, Prod.mk.injEq, true_and] at hrun
    refine ⟨[], ?_, ?_⟩
    · rw [← hrun, List.append_nil]
    · simp only [List.append_nil]
  | cons combo combos ih =>
    intro hcombos j w1 w2 he1 he2 hle sw1 hrun hcl
    unfold comboLoop at hrun ⊢
    cases hget : applied.get? j with
    | none =>
      simp only [hget] at hrun
      cases hrun
    | some rule =>
      simp only [hget] at hrun ⊢
      cases hres : resultLoop combo rule rule.resultTypes.length 0
          { heap := w1, constraintGraph := g, continueLoop := false } with
      | error e1 =>
        simp only [hres] at hrun
        cases hrun
      | ok res1 =>
        obtain ⟨e1, swm⟩ := res1
        cases e1 with
        | running =>
          simp only [hres] at hrun
          have hm : swm.continueLoop = false := by
            cases hsm : swm.continueLoop
            · rfl
            · rw [comboLoop_flag_mono applied combos _ _ _ _ hrun hsm] at hcl
              cases hcl
          obtain ⟨junk1, hswm, hres2⟩ := resultLoop_replay h g hv combo
            (hcombos combo (List.mem_cons_self _ _)) rule _ 0 w1 w2 he1 he2 hle swm hres hm
          rw [hswm] at hrun
          obtain ⟨junk2, hsw1, hrun2⟩ := ih
            (fun c hc => hcombos c (List.mem_cons_of_mem _ hc)) (j + 1)
            (w1 ++ junk1) (w2 ++ junk1)
            (heapExtends_trans he1 (heapExtends_append _ _))
            (heapExtends_trans he2 (heapExtends_append _ _))
            (by simp only [List.length_append]; omega) sw1 hrun hcl
          refine ⟨junk1 ++ junk2, ?_, ?_⟩
          · rw [hsw1, List.append_assoc]
          · simp only [hres2]
            rw [hrun2, List.append_assoc]
        | contradiction =>
          simp only [hres, Except.ok.injEq, Prod.mk.injEq] at hrun
          cases hrun.1
        | invalidKind =>
          simp only [hres, Except.ok.injEq, Prod.mk.injEq] at hrun
          cases hrun.1

/-- A call that returned true, followed by a call on the graph it ended with:
the second call returns true in its first sweep and its graph is the graph it
was given. -/
theorem checkCompatibility_again (fuel : Nat) :
    ∀ (sv : Service) (g : List Nat), sv.nodeCombosThisIteration = [] →
      sv.rulesAppliedThisIteration = [] → Acyclic sv.heap → ValidPointers sv.heap g →
      ∀ v, checkCompatibility fuel sv g = .ok v → v.accepted = true →
        ∃ v2, checkCompatibility 1 v.service v.constraintGraph = .ok v2 ∧
          v2.accepted = true ∧ v2.constraintGraph = v.constraintGraph := by
  induction fuel with
  | zero =>
    intro sv g _ _ _ _ v h _
    cases h
  | succ fuel ih =>
    intro sv g hcombos happlied hac hv v h hacc
    unfold checkCompatibility at h
    cases hrl : rulesLoop g sv.ruleList false sv with
    | error e =>
      simp only [hrl] at h
      cases h
    | ok res =>
      obtain ⟨flag, sv1⟩ := res
      obtain ⟨hh1, hl1, combos, applied, hc1, ha1, hlen, hin, hrin⟩ :=
        rulesLoop_frame g sv.ruleList false sv flag sv1 hrl
      rw [hcombos, List.nil_append] at hc1
      rw [happlied, List.nil_append] at ha1
      cases flag with
      | false =>
        simp only [hrl, Except.ok.injEq] at h
        subst h
        have hsv : ({ sv1 with nodeCombosThisIteration := []
                               rulesAppliedThisIteration := [] } : Service) = sv := by
          have hw1 := rulesLoop_words g _ false _ _ _ hrl
          cases sv
          cases sv1
          simp only at hh1 hl1 hcombos happlied hw1
          simp only [Service.mk.injEq]
          exact ⟨hh1, hcombos.symm, happlied.symm, hl1, hw1⟩
        simp only
        rw [hsv]
        refine ⟨{ accepted := true
                  service := { sv1 with nodeCombosThisIteration := []
                                        rulesAppliedThisIteration := [] }
                  constraintGraph := g }, ?_, rfl, rfl⟩
        unfold checkCompatibility
        simp only [hrl]
      | true =>
        simp only [hrl] at h
        cases hcl : comboLoop sv1.rulesAppliedThisIteration sv1.nodeCombosThisIteration 0
            { heap := sv1.heap, constraintGraph := g, continueLoop := false } with
        | error e =>
          simp only [hcl] at h
          cases h
        | ok res1 =>
          obtain ⟨e, sw⟩ := res1
          cases e with
          | invalidKind =>
            simp only [hcl, Except.ok.injEq] at h
            subst h
            cases hacc
          | contradiction =>
            simp only [hcl, Except.ok.injEq] at h
            subst h
            cases hacc
          | running =>
            simp only [hcl] at h
            have hmem : ∀ c ∈ sv1.nodeCombosThisIteration, ∀ x ∈ c, x ∈ g := by
              rw [hc1]
              exact hin
            by_cases hflag : sw.continueLoop = true
            · simp only [hflag, if_true] at h
              have hstep := (comboLoop_terminates sv.ruleList sv1.rulesAppliedThisIteration
                (by rw [ha1]; exact hrin) sv1.nodeCombosThisIteration 0
                { heap := sv1.heap, constraintGraph := g, continueLoop := false }
                (by rw [hh1]; exact hac) (by rw [hh1]; exact hv) hmem).2 _ _ hcl
              exact ih _ _ rfl rfl hstep.1 hstep.2.1 v h hacc
            · simp only [hflag, Bool.false_eq_true, if_false, Except.ok.injEq] at h
              subst h
              have hflag1 : sw.continueLoop = false := by
                cases hs : sw.continueLoop
                · rfl
                · exact absurd hs hflag
              rw [hh1] at hcl
              obtain ⟨junk, hsw, _⟩ := comboLoop_replay sv.heap g hv
                sv1.rulesAppliedThisIteration sv1.nodeCombosThisIteration hmem 0 sv.heap sv.heap
                (heapExtends_refl _) (heapExtends_refl _) (le_refl _) sw hcl hflag1
              subst hsw
              simp only
              have hsvc : ({ sv1 with heap := sv.heap ++ junk
                                      nodeCombosThisIteration := []
                                      rulesAppliedThisIteration := [] } : Service)
                  = { sv with heap := sv.heap ++ junk } := by
                have hw1 := rulesLoop_words g _ false _ _ _ hrl
                cases sv
                cases sv1
                simp only at hl1 hcombos happlied hw1
                simp only [Service.mk.injEq, true_and]
                exact ⟨hcombos.symm, happlied.symm, hl1, hw1⟩
              rw [hsvc]
              have hrl2 := rulesLoop_congr (sv.heap ++ junk) g sv.ruleList false sv
                (fun n hn => by rw [deref_append_left _ _ (hv.2 n hn)])
                (by rw [hcombos]; intro c hc; cases hc)
              rw [hrl] at hrl2
              simp only at hrl2
              obtain ⟨junk2, hsw2, hrun3⟩ := comboLoop_replay sv.heap g hv
                sv1.rulesAppliedThisIteration sv1.nodeCombosThisIteration hmem 0 sv.heap
                (sv.heap ++ junk) (heapExtends_refl _) (heapExtends_append _ _)
                (by simp) _ hcl hflag1
              refine ⟨{ accepted := true
                        service := { sv1 with heap := sv.heap ++ junk ++ junk2
                                              nodeCombosThisIteration := []
                                              rulesAppliedThisIteration := [] }
                        constraintGraph := g }, ?_, rfl, rfl⟩
              unfold checkCompatibility
              simp only [hrl2, hrun3]
              rfl

/-- C15. Idempotent derivation.  Let `checkCompatibility` be called with an empty
memo on an acyclic heap whose stored addresses are allocated, and let it
return true.  Then a second call on the graph the first call ended with (its
own copy of the vector, which holds the derived nodes) returns true as well,
with any sweep budget, and the graph it ends with is the graph it was given:
every node it derives is dropped as redundant. -/
theorem C15_second_check_accepts_nothing (fuel fuel2 : Nat) (sv : Service) (g : List Nat)
    (v : Verdict) (hcombos : sv.nodeCombosThisIteration = [])
    (happlied : sv.rulesAppliedThisIteration = []) (hac : Acyclic sv.heap)
    (hv : ValidPointers sv.heap g) (h : checkCompatibility fuel sv g = .ok v)
    (hacc : v.accepted = true) :
    ∃ v2, checkCompatibility (fuel2 + 1) v.service v.constraintGraph = .ok v2 ∧
      v2.accepted = true ∧ v2.constraintGraph = v.constraintGraph := by
  obtain ⟨v2, h2, hacc2, hg2⟩ :=
    checkCompatibility_again fuel sv g hcombos happlied hac hv v h hacc
  refine ⟨v2, ?_, hacc2, hg2⟩
  rw [checkCompatibility_fuel_le (Nat.succ_le_succ (Nat.zero_le fuel2)) v.service
    v.constraintGraph (by rw [h2]; intro hne; cases hne)]
  exact h2

/-- Witness for C15 on the graph `[Monitor(1,2)]` with the rule
`monitor{1,2} -> relative{1,2}`: the first call accepts the derived Relative
and returns true with the graph `[0, 1]`; the second call, on `[0, 1]`,
returns true with the graph `[0, 1]`. -/
theorem C15_second_check_accepts_nothing_witness :
    ∃ v, checkCompatibility 2 oneMonitorState.service [0] = .ok v ∧ v.accepted = true ∧
      v.constraintGraph = [0, 1] ∧
      ∃ v2, checkCompatibility 1 v.service v.constraintGraph = .ok v2 ∧
        v2.accepted = true ∧ v2.constraintGraph = v.constraintGraph :=
  ⟨_, rfl, rfl, rfl,
    C15_second_check_accepts_nothing 2 0 oneMonitorState.service [0] _ rfl rfl
      (acyclic_of_childrenBelow (by decide))
      (validPointers_of_childrenBelow (by decide) (by decide)) rfl rfl⟩

/-! ## Claims on the combination memo -/

theorem nodeIsPresentInGraph_isSome (heap : Heap) (n : Nat) (g : List Nat) :
    (nodeIsPresentInGraph heap n g).isSome = true ↔ ∃ y ∈ g, presentAt heap n y := by
  cases h : nodeIsPresentInGraph heap n g with
  | none =>
    have := (nodeIsPresentInGraph_eq_none heap n g).mp h
    simp only [Option.isSome_none, Bool.false_eq_true, false_iff, not_exists, not_and]
    exact this
  | some o =>
    obtain ⟨pre, post, hg, hp, _⟩ := (nodeIsPresentInGraph_eq_some heap n o g).mp h
    simp only [Option.isSome_some, true_iff]
    exact ⟨o, by rw [hg]; simp, hp⟩

theorem nodeCombosEqual_iff (heap : Heap) (a b : List Nat) :
    nodeCombosEqual heap a b = true ↔ ∀ x ∈ a, ∃ y ∈ b, presentAt heap x y := by
  induction a with
  | nil => simp [nodeCombosEqual]
  | cons x a ih =>
    unfold nodeCombosEqual
    by_cases hx : (nodeIsPresentInGraph heap x b).isSome = true
    · simp only [hx, Bool.not_true, Bool.false_eq_true, if_false, ih, List.mem_cons,
        forall_eq_or_imp]
      exact ⟨fun h => ⟨(nodeIsPresentInGraph_isSome heap x b).mp hx, h⟩, fun h => h.2⟩
    · have hx1 : (nodeIsPresentInGraph heap x b).isSome = false := by
        cases hv : (nodeIsPresentInGraph heap x b).isSome
        · rfl
        · exact absurd hv hx
      simp only [hx1, Bool.not_false, if_true, Bool.false_eq_true, List.mem_cons,
        forall_eq_or_imp, false_iff, not_and]
      intro h
      exact absurd ((nodeIsPresentInGraph_isSome heap x b).mpr h) hx

/-- C22. On the code `nodeCombosEqual(a, b)` is not set equality over nodes: it
returns true exactly when every node of `a` has, in `b`, a node at another
address with an equal constraint (`nodeIsPresentInGraph` skips the node
itself).  So a combination of one node is never equal to itself, two
different nodes with equal constraints make equal combinations, and the test
looks from `a` into `b` only. -/
theorem C22_nodeCombosEqual_is_not_set_equality (heap : Heap) (a b : List Nat) (n : Nat) :
    (nodeCombosEqual heap a b = true ↔
        ∀ x ∈ a, ∃ y ∈ b, y ≠ x ∧
          constraintsEqual (deref heap y).data (deref heap x).data
            (engineFlag (deref heap x).data.type) = true) ∧
      nodeCombosEqual heap [n] [n] = false ∧
      nodeCombosEqual diamondHeap [2] [3] = true ∧
      nodeCombosEqual diamondHeap [2] [3, 0] = true ∧
      nodeCombosEqual diamondHeap [3, 0] [2] = false := by
  refine ⟨nodeCombosEqual_iff heap a b, ?_, by decide, by decide, by decide⟩
  cases h : nodeCombosEqual heap [n] [n]
  · rfl
  · obtain ⟨y, hy, hne, _⟩ := (nodeCombosEqual_iff heap [n] [n]).mp h n (List.mem_singleton.mpr rfl)
    exact absurd (List.mem_singleton.mp hy) hne

/-- C23. On the code the memo of one sweep holds equal combinations: in the
sweep on Scenario A the combinations `[0]` and `[1]` are recorded twice, once
with each rule, because `nodeCombosEqual` does not find a combination equal to
itself.  Every entry is recorded together with the rule whose call pushed
it. -/
theorem C23_memo_holds_equal_combinations (heap : Heap) (n : Nat) (memo : List (List Nat)) :
    (rulesLoop [0, 1] scenarioA.ruleList false scenarioA).map
        (fun r => (r.2.nodeCombosThisIteration, r.2.rulesAppliedThisIteration))
        = .ok ([[0], [1], [0], [1]],
            [monitorRule 1 2, monitorRule 1 2, monitorRule 2 1, monitorRule 2 1]) ∧
      ([[n]] ++ memo).any (fun combo => nodeCombosEqual heap [n] combo)
        = memo.any (fun combo => nodeCombosEqual heap [n] combo) := by
  refine ⟨rfl, ?_⟩
  have h : nodeCombosEqual heap [n] [n] = false := by
    cases h : nodeCombosEqual heap [n] [n]
    · rfl
    · obtain ⟨y, hy, hne, _⟩ :=
        (nodeCombosEqual_iff heap [n] [n]).mp h n (List.mem_singleton.mpr rfl)
      exact absurd (List.mem_singleton.mp hy) hne
  simp only [List.singleton_append, List.any_cons, h, Bool.false_or]

/-- C24. On the code `ruleApplies(NULL, graph)` returns true and clears
`nodeCombosThisIteration` only; `rulesAppliedThisIteration` keeps its entries.
After the call on `staleMemo`, the call for `monitor{2,1} -> relative{2,1}`
records `[0]` and `[1]` behind the stale rule, so the two vectors differ in
length and `nodeCombosThisIteration[0]` stands next to a rule that did not
produce it. -/
theorem C24_null_rule_clears_combinations_only (g : List Nat) (sv : Service) :
    ruleApplies none g sv = .ok (true, { sv with nodeCombosThisIteration := [] }) ∧
      (ruleApplies none [0, 1] staleMemo).map
          (fun r => (r.1, r.2.nodeCombosThisIteration, r.2.rulesAppliedThisIteration,
            r.2.heap))
        = .ok (true, [], [monitorRule 1 2], staleMemo.heap) ∧
      (ruleApplies (some (monitorRule 2 1)) [0, 1]
          { staleMemo with nodeCombosThisIteration := [] }).map
          (fun r => (r.2.nodeCombosThisIteration, r.2.rulesAppliedThisIteration))
        = .ok ([[0], [1]], [monitorRule 1 2, monitorRule 2 1, monitorRule 2 1]) :=
  ⟨rfl, rfl, rfl⟩

/-! ## Claims on the decoding of patterns -/

/-! ## Rules with fewer requirement ids than kinds -/

/-- C27. On the code a Monitor built by the deriver does not have the shape of a
Monitor candidate: the candidate `Monitor(1,2)` has `groupIDs = [1, 2]` and
`monitorIDs = [2]`, the Monitor decoded from the result run `monitor{1,2}` has
`groupIDs = [1]` and `monitorIDs = [2]`, and the engine does not take the two
for equal.  Every Monitor the deriver builds has one group id. -/
theorem C27_derived_monitor_has_one_group_id (rule : inferenceRule) (i : Nat) :
    (monitorTask 1 2).groupIDs = [1, 2] ∧ (monitorTask 1 2).monitorIDs = [2] ∧
      decodeResult monitorResultRule 0 constraintTypes.monitor
        = .ok (some (freshConstraint constraintTypes.monitor [1] [2], 2)) ∧
      constraintsEqual (monitorTask 1 2) (freshConstraint constraintTypes.monitor [1] [2])
        (engineFlag constraintTypes.monitor) = false ∧
      (match decodeResult rule i constraintTypes.monitor with
        | .ok (some (c, _)) => c.type = constraintTypes.monitor ∧ c.groupIDs.length = 1
        | _ => True) := by
  refine ⟨rfl, rfl, rfl, by decide, ?_⟩
  unfold decodeResult
  simp only
  cases idAt rule.resultIDs i with
  | error e => trivial
  | ok x =>
    simp only
    cases slotLoop constraintTypes.monitor constraintTypes.monitor
        (rule.resultTypes.drop (i + 1)) (rule.resultIDs.drop (i + 1)) with
    | error e => trivial
    | ok pushed => exact ⟨rfl, rfl⟩

/-! ## The turns of the assignor -/

theorem vectorContainsInt_iff (x : Int) (l : List Int) :
    vectorContainsInt x l = true ↔ x ∈ l := by
  induction l with
  | nil => simp [vectorContainsInt]
  | cons y l ih =>
    unfold vectorContainsInt
    by_cases hy : y = x
    · simp [hy]
    · simp only [hy, if_false, ih, List.mem_cons]
      constructor
      · intro h
        exact Or.inr h
      · rintro (h | h)
        · exact absurd h.symm hy
        · exact h

theorem vectorContainsInt_false_iff (x : Int) (l : List Int) :
    vectorContainsInt x l = false ↔ x ∉ l := by
  rw [← vectorContainsInt_iff]
  cases vectorContainsInt x l <;> simp

/-- Every return of a monitor turn: the candidate was dropped by the rejecting
branch, or its subject was not committed, the check accepted, and the
candidate was kept. -/
theorem monitorTurn_cases {cf : Nat} {st st1 : Assignor} (h : monitorTurn cf st = .ok st1) :
    ∃ c g0, candidate st st.monitorOptions st.monitorTaskToTry = some c ∧
      c.groupIDs.get? 0 = some g0 ∧
      ((∃ sv b, rejectMonitor st sv st.constraintGraph (st.monitorTaskToTry + 1) b = .ok st1) ∨
        (vectorContainsInt g0 st.monitoringIDs = false ∧
          ∃ v, tentativeCheck cf st c = .ok v ∧ v.accepted = true ∧
            st1 = keepMonitor st v.service g0)) := by
  unfold monitorTurn at h
  cases hc : candidate st st.monitorOptions st.monitorTaskToTry with
  | none =>
    simp only [hc] at h
    cases h
  | some c =>
    simp only [hc] at h
    cases hg : c.groupIDs.get? 0 with
    | none =>
      simp only [hg] at h
      cases h
    | some g0 =>
      simp only [hg] at h
      refine ⟨c, g0, rfl, hg, ?_⟩
      by_cases hcom : vectorContainsInt g0 st.monitoringIDs = true
      · simp only [hcom, if_true] at h
        exact Or.inl ⟨_, _, h⟩
      · have hcf : vectorContainsInt g0 st.monitoringIDs = false := by
          cases hv : vectorContainsInt g0 st.monitoringIDs
          · rfl
          · exact absurd hv hcom
        simp only [hcf, Bool.false_eq_true, if_false] at h
        cases hv : tentativeCheck cf st c with
        | error e =>
          simp only [hv] at h
          cases h
        | ok v =>
          simp only [hv] at h
          by_cases hacc : v.accepted = true
          · simp only [hacc, if_true, Except.ok.injEq] at h
            exact Or.inr ⟨hcf, v, rfl, hacc, h.symm⟩
          · simp only [hacc, Bool.false_eq_true, if_false] at h
            exact Or.inl ⟨_, _, h⟩

/-- Every return of a centroid turn: the candidate was dropped by a rejecting
branch, or the check accepted, exactly one of the first two group ids was
committed, and the candidate was kept with the other id committed. -/
theorem centroidTurn_cases {cf : Nat} {st st1 : Assignor} (h : centroidTurn cf st = .ok st1) :
    ∃ c v, candidate st st.centroidOptions st.centroidTaskToTry = some c ∧
      tentativeCheck cf st c = .ok v ∧
      ((∃ sv b, rejectCentroid st sv st.constraintGraph (st.centroidTaskToTry + 1) b = .ok st1) ∨
        (v.accepted = true ∧ ∃ g0 g1, c.groupIDs.get? 0 = some g0 ∧ c.groupIDs.get? 1 = some g1 ∧
          ((vectorContainsInt g0 st.monitoringIDs = true ∧
              vectorContainsInt g1 st.monitoringIDs = false ∧
              st1 = keepCentroid st v.service g1) ∨
            (vectorContainsInt g1 st.monitoringIDs = true ∧
              vectorContainsInt g0 st.monitoringIDs = false ∧
              st1 = keepCentroid st v.service g0)))) := by
  unfold centroidTurn at h
  cases hc : candidate st st.centroidOptions st.centroidTaskToTry with
  | none =>
    simp only [hc] at h
    cases h
  | some c =>
    simp only [hc] at h
    cases hv : tentativeCheck cf st c with
    | error e =>
      simp only [hv] at h
      cases h
    | ok v =>
      simp only [hv] at h
      refine ⟨c, v, rfl, hv, ?_⟩
      by_cases hacc : v.accepted = true
      · simp only [hacc, if_true] at h
        cases h0 : c.groupIDs.get? 0 with
        | none =>
          simp only [h0] at h
          cases h
        | some g0 =>
          cases h1 : c.groupIDs.get? 1 with
          | none =>
            simp only [h0, h1] at h
            cases h
          | some g1 =>
            simp only [h0, h1] at h
            cases ha : vectorContainsInt g0 st.monitoringIDs <;>
              cases hb : vectorContainsInt g1 st.monitoringIDs <;>
              simp only [ha, hb, Bool.not_true, Bool.not_false, Bool.and_true, Bool.and_false,
                Bool.true_and, Bool.false_and, Bool.false_eq_true, if_false, if_true,
                Except.ok.injEq] at h
            · exact Or.inl ⟨_, _, h⟩
            · exact Or.inr ⟨hacc, g0, g1, rfl, rfl, Or.inr ⟨hb, ha, h.symm⟩⟩
            · exact Or.inr ⟨hacc, g0, g1, rfl, rfl, Or.inl ⟨ha, hb, h.symm⟩⟩
            · exact Or.inl ⟨_, _, h⟩
      · simp only [hacc, Bool.false_eq_true, if_false] at h
        exact Or.inl ⟨_, _, h⟩

/-- A turn only appends to `monitoringIDs`, and what it appends is not in it. -/
theorem monitorTurn_committed {cf : Nat} {st st1 : Assignor} (h : monitorTurn cf st = .ok st1) :
    st1.monitoringIDs = st.monitoringIDs ∨
      ∃ x, x ∉ st.monitoringIDs ∧ st1.monitoringIDs = st.monitoringIDs ++ [x] := by
  obtain ⟨c, g0, _, _, hor⟩ := monitorTurn_cases h
  rcases hor with ⟨sv, b, hr⟩ | ⟨hcf, v, _, _, hst1⟩
  · exact Or.inl (rejectMonitor_ok hr).2.2.2
  · refine Or.inr ⟨g0, (vectorContainsInt_false_iff _ _).mp hcf, ?_⟩
    rw [hst1]
    rfl

theorem centroidTurn_committed {cf : Nat} {st st1 : Assignor}
    (h : centroidTurn cf st = .ok st1) :
    st1.monitoringIDs = st.monitoringIDs ∨
      ∃ x, x ∉ st.monitoringIDs ∧ st1.monitoringIDs = st.monitoringIDs ++ [x] := by
  obtain ⟨c, v, _, _, hor⟩ := centroidTurn_cases h
  rcases hor with ⟨sv, b, hr⟩ | ⟨_, g0, g1, _, _, hk⟩
  · exact Or.inl (rejectCentroid_ok hr).2.2.2
  · rcases hk with ⟨_, hb, hst1⟩ | ⟨_, hb, hst1⟩
    · refine Or.inr ⟨g1, (vectorContainsInt_false_iff _ _).mp hb, ?_⟩
      rw [hst1]
      rfl
    · refine Or.inr ⟨g0, (vectorContainsInt_false_iff _ _).mp hb, ?_⟩
      rw [hst1]
      rfl

theorem committed_step {l l1 : List Int}
    (h : l1 = l ∨ ∃ x, x ∉ l ∧ l1 = l ++ [x]) (hnd : l.Nodup) : l1.Nodup ∧ l <+: l1 := by
  rcases h with h | ⟨x, hx, h⟩
  · rw [h]
    exact ⟨hnd, List.prefix_refl _⟩
  · rw [h]
    refine ⟨?_, List.prefix_append _ _⟩
    rw [List.nodup_append]
    refine ⟨hnd, List.nodup_singleton x, ?_⟩
    intro a ha hb
    rw [List.mem_singleton] at hb
    rw [hb] at ha
    exact hx ha

theorem committed_extends {l l1 : List Int}
    (h : l1 = l ∨ ∃ x, x ∉ l ∧ l1 = l ++ [x]) : l <+: l1 := by
  rcases h with h | ⟨x, _, h⟩
  · rw [h]
  · rw [h]
    exact List.prefix_append _ _

/-- Along turns of the assignor `monitoringIDs` grows at its end. -/
theorem later_extends {cf : Nat} {st st1 : Assignor} (h : Later cf st st1) :
    st.monitoringIDs <+: st1.monitoringIDs := by
  induction h with
  | same => exact List.prefix_refl _
  | centroid _ ht ih => exact ih.trans (committed_extends (centroidTurn_committed ht))
  | monitor _ ht ih => exact ih.trans (committed_extends (monitorTurn_committed ht))

/-- Along turns of the assignor `monitoringIDs` stays free of duplicates. -/
theorem later_nodup {cf : Nat} {st st1 : Assignor} (h : Later cf st st1)
    (hnd : st.monitoringIDs.Nodup) : st1.monitoringIDs.Nodup := by
  induction h with
  | same => exact hnd
  | centroid _ ht ih => exact (committed_step (centroidTurn_committed ht) ih).1
  | monitor _ ht ih => exact (committed_step (monitorTurn_committed ht) ih).1

theorem assignorRound_later {cf : Nat} {st st1 : Assignor}
    (h : assignorRound cf st = .ok st1) : Later cf st st1 := by
  unfold assignorRound at h
  by_cases hc : st.continueLoopCentroid = true
  · simp only [hc, if_true] at h
    cases hct : centroidTurn cf st with
    | error e =>
      simp only [hct] at h
      cases h
    | ok st2 =>
      simp only [hct] at h
      by_cases hm : st2.continueLoopMonitor = true
      · simp only [hm, if_true] at h
        exact Later.monitor (Later.centroid (Later.same st) hct) h
      · simp only [hm, Bool.false_eq_true, if_false, Except.ok.injEq] at h
        rw [← h]
        exact Later.centroid (Later.same st) hct
  · simp only [hc, Bool.false_eq_true, if_false] at h
    by_cases hm : st.continueLoopMonitor = true
    · simp only [hm, if_true] at h
      exact Later.monitor (Later.same st) h
    · simp only [hm, Bool.false_eq_true, if_false, Except.ok.injEq] at h
      rw [← h]
      exact Later.same st

theorem later_trans {cf : Nat} {st st1 st2 : Assignor} (h1 : Later cf st st1)
    (h2 : Later cf st1 st2) : Later cf st st2 := by
  induction h2 with
  | same => exact h1
  | centroid _ ht ih => exact Later.centroid ih ht
  | monitor _ ht ih => exact Later.monitor ih ht

theorem assignorLoop_later (cf fuel : Nat) :
    ∀ (st st1 : Assignor), assignorLoop cf fuel st = .ok st1 → Later cf st st1 := by
  induction fuel with
  | zero =>
    intro st st1 h
    unfold assignorLoop at h
    split at h
    · cases h
    · simp only [Except.ok.injEq] at h
      rw [← h]
      exact Later.same st
  | succ fuel ih =>
    intro st st1 h
    unfold assignorLoop at h
    split at h
    · cases hr : assignorRound cf st with
      | error e =>
        simp only [hr] at h
        cases h
      | ok st2 =>
        simp only [hr] at h
        exact later_trans (assignorRound_later hr) (ih st2 st1 h)
    · simp only [Except.ok.injEq] at h
      rw [← h]
      exact Later.same st

/-- C29. The monitor turn.  When the subject of the candidate is already in
`monitoringIDs`, `checkCompatibility` is not run (the turn is the same with a
sweep budget of zero) and the candidate is not kept.  When the subject is
uncommitted and the check accepts, the turn returns and keeps the candidate:
the subject is appended to `monitoringIDs`, the candidate node is last in the
graph and `monitorsAssigned` has grown by one.  A returned turn has kept its
candidate exactly in that case; in every other case the graph and the count
are as before.  So `monitorsAssigned` changes only with these effects, a
candidate kept in a later turn has another subject, and a run of the loop
started without duplicates in `monitoringIDs` ends without duplicates. -/
theorem C29_monitor_turn_commits_subject (cf : Nat) (st : Assignor) (c : constraint) (g0 : Int)
    (hc : candidate st st.monitorOptions st.monitorTaskToTry = some c)
    (hg : c.groupIDs.get? 0 = some g0) :
    (vectorContainsInt g0 st.monitoringIDs = true →
        monitorTurn cf st = monitorTurn 0 st ∧
          ∀ st1, monitorTurn cf st = .ok st1 →
            st1.constraintGraph = st.constraintGraph ∧
              st1.monitorsAssigned = st.monitorsAssigned ∧
              st1.monitoringIDs = st.monitoringIDs) ∧
      (vectorContainsInt g0 st.monitoringIDs = false →
        ∀ v, tentativeCheck cf st c = .ok v → v.accepted = true →
          ∃ st1, monitorTurn cf st = .ok st1 ∧
            st1.monitoringIDs = st.monitoringIDs ++ [g0] ∧
            st1.constraintGraph = st.constraintGraph ++ [st.service.heap.length] ∧
            st1.constraintGraph.getLast? = some st.service.heap.length ∧
            (deref st1.service.heap st.service.heap.length).data = c ∧
            st1.monitorsAssigned = st.monitorsAssigned + 1) ∧
      (∀ st1, monitorTurn cf st = .ok st1 →
        (st1.constraintGraph = st.constraintGraph ++ [st.service.heap.length] ↔
          (vectorContainsInt g0 st.monitoringIDs = false ∧
            ∃ v, tentativeCheck cf st c = .ok v ∧ v.accepted = true)) ∧
        (st1.constraintGraph ≠ st.constraintGraph ++ [st.service.heap.length] →
          st1.constraintGraph = st.constraintGraph ∧
            st1.monitorsAssigned = st.monitorsAssigned ∧
            st1.monitoringIDs = st.monitoringIDs)) ∧
      (∀ st1, monitorTurn cf st = .ok st1 → st1.monitorsAssigned ≠ st.monitorsAssigned →
        vectorContainsInt g0 st.monitoringIDs = false ∧
          st1.monitoringIDs = st.monitoringIDs ++ [g0] ∧
          st1.constraintGraph = st.constraintGraph ++ [st.service.heap.length] ∧
          (deref st1.service.heap st.service.heap.length).data = c ∧
          st1.monitorsAssigned = st.monitorsAssigned + 1) ∧
      (∀ st1 st2 st3 c2 g2, monitorTurn cf st = .ok st1 →
        st1.constraintGraph = st.constraintGraph ++ [st.service.heap.length] →
        Later cf st1 st2 →
        candidate st2 st2.monitorOptions st2.monitorTaskToTry = some c2 →
        c2.groupIDs.get? 0 = some g2 → monitorTurn cf st2 = .ok st3 →
        st3.constraintGraph = st2.constraintGraph ++ [st2.service.heap.length] → g2 ≠ g0) ∧
      (∀ fuel st1, st.monitoringIDs.Nodup → assignorLoop cf fuel st = .ok st1 →
        st1.monitoringIDs.Nodup) := by
  have hgrow : ∀ (l : List Nat) (x : Nat), l ≠ l ++ [x] := by
    intro l x h
    have := congrArg List.length h
    simp at this
  have hcases : ∀ (st st1 : Assignor) (c : constraint) (g0 : Int),
      candidate st st.monitorOptions st.monitorTaskToTry = some c →
      c.groupIDs.get? 0 = some g0 → monitorTurn cf st = .ok st1 →
      (st1.constraintGraph = st.constraintGraph ∧
          st1.monitorsAssigned = st.monitorsAssigned ∧
          st1.monitoringIDs = st.monitoringIDs) ∨
        (vectorContainsInt g0 st.monitoringIDs = false ∧
          ∃ v, tentativeCheck cf st c = .ok v ∧ v.accepted = true ∧
            st1 = keepMonitor st v.service g0) := by
    intro st st1 c g0 hc hg h
    obtain ⟨c1, g1, hc1, hg1, hor⟩ := monitorTurn_cases h
    rw [hc] at hc1
    cases hc1
    rw [hg] at hg1
    cases hg1
    rcases hor with ⟨sv, b, hr⟩ | ⟨hcf, v, hv, hacc, hst1⟩
    · have := rejectMonitor_ok hr
      exact Or.inl ⟨this.1, this.2.1, this.2.2.2⟩
    · exact Or.inr ⟨hcf, v, hv, hacc, hst1⟩
  have hkeep : ∀ (st st1 : Assignor) (c : constraint) (g0 : Int),
      candidate st st.monitorOptions st.monitorTaskToTry = some c →
      c.groupIDs.get? 0 = some g0 → monitorTurn cf st = .ok st1 →
      st1.constraintGraph = st.constraintGraph ++ [st.service.heap.length] →
      vectorContainsInt g0 st.monitoringIDs = false ∧
        ∃ v, tentativeCheck cf st c = .ok v ∧ v.accepted = true ∧
          st1 = keepMonitor st v.service g0 := by
    intro st st1 c g0 hc hg h hgr
    rcases hcases st st1 c g0 hc hg h with ⟨hsame, _, _⟩ | hk
    · rw [hsame] at hgr
      exact absurd hgr (hgrow _ _)
    · exact hk
  have hdata : ∀ v, tentativeCheck cf st c = .ok v →
      (deref v.service.heap st.service.heap.length).data = c := by
    intro v hv
    have hext := (checkCompatibility_frame cf _ _ v hv).1.1
    have hd := (hext.2 st.service.heap.length (by simp)).1
    simp only at hd
    rw [deref_append_length] at hd
    exact hd
  refine ⟨?_, ?_, ?_, ?_, ?_, ?_⟩
  · intro hcom
    constructor
    · unfold monitorTurn
      simp only [hc, hg, hcom, if_true]
    · intro st1 h
      unfold monitorTurn at h
      simp only [hc, hg, hcom, if_true] at h
      have := rejectMonitor_ok h
      exact ⟨this.1, this.2.1, this.2.2.2⟩
  · intro hcf v hv hacc
    refine ⟨keepMonitor st v.service g0, ?_, rfl, rfl, ?_, hdata v hv, rfl⟩
    · unfold monitorTurn
      simp only [hc, hg, hcf, Bool.false_eq_true, if_false, hv, hacc, if_true]
    · show (st.constraintGraph ++ [st.service.heap.length]).getLast? = _
      simp
  · intro st1 h
    constructor
    · constructor
      · intro hgr
        obtain ⟨hcf, v, hv, hacc, _⟩ := hkeep st st1 c g0 hc hg h hgr
        exact ⟨hcf, v, hv, hacc⟩
      · rintro ⟨hcf, v, hv, hacc⟩
        have hturn : monitorTurn cf st = .ok (keepMonitor st v.service g0) := by
          unfold monitorTurn
          simp only [hc, hg, hcf, Bool.false_eq_true, if_false, hv, hacc, if_true]
        rw [hturn] at h
        cases h
        rfl
    · intro hne
      rcases hcases st st1 c g0 hc hg h with hsame | ⟨_, v, _, _, hst1⟩
      · exact hsame
      · rw [hst1] at hne
        exact absurd rfl hne
  · intro st1 h hne
    rcases hcases st st1 c g0 hc hg h with ⟨_, hsame, _⟩ | ⟨hcf, v, hv, _, hst1⟩
    · exact absurd hsame hne
    · rw [hst1]
      exact ⟨hcf, rfl, rfl, hdata v hv, rfl⟩
  · intro st1 st2 st3 c2 g2 h1 hgr1 hlater hc2 hg2 h3 hgr3
    obtain ⟨_, v, _, _, hst1⟩ := hkeep st st1 c g0 hc hg h1 hgr1
    obtain ⟨hcf2, _⟩ := hkeep st2 st3 c2 g2 hc2 hg2 h3 hgr3
    have hmem1 : g0 ∈ st1.monitoringIDs := by
      rw [hst1]
      show g0 ∈ st.monitoringIDs ++ [g0]
      simp
    have hmem2 : g0 ∈ st2.monitoringIDs := (later_extends hlater).subset hmem1
    intro heq
    rw [heq] at hcf2
    exact (vectorContainsInt_false_iff _ _).mp hcf2 hmem2
  · intro fuel st1 hnd h
    exact later_nodup (assignorLoop_later cf fuel st st1 h) hnd

/-- Witness for C29 on `oneMonitorState`: the subject 1 of `Monitor(1,2)` is not
committed and the check accepts; the turn returns with `[1]` as
`monitoringIDs`, the candidate node 1 as the graph, and one Monitor
assigned. -/
theorem C29_monitor_turn_commits_subject_witness :
    candidate oneMonitorState oneMonitorState.monitorOptions oneMonitorState.monitorTaskToTry
        = some (monitorTask 1 2) ∧
      ∃ v, tentativeCheck 3 oneMonitorState (monitorTask 1 2) = .ok v ∧ v.accepted = true ∧
        ∃ st1, monitorTurn 3 oneMonitorState = .ok st1 ∧
          st1.monitoringIDs = [] ++ [1] ∧
          st1.constraintGraph = [] ++ [1] ∧
          st1.constraintGraph.getLast? = some 1 ∧
          (deref st1.service.heap 1).data = monitorTask 1 2 ∧
          st1.monitorsAssigned = 0 + 1 :=
  ⟨rfl, _, rfl, rfl,
    (C29_monitor_turn_commits_subject 3 oneMonitorState (monitorTask 1 2) 1 rfl rfl).2.1
      rfl _ rfl rfl⟩

/-- C30. The centroid turn, for a candidate with at least two group ids on
which the check returned.  If the check accepted and exactly one of the first
two group ids is in `monitoringIDs`, the turn keeps the candidate: the node
stays last in the graph, the other of the two ids is appended to
`monitoringIDs` and `centroidsAssigned` grows by one.  Otherwise the turn
returns exactly when its write to the tried vector is inside the vector, and
then the graph, `centroidsAssigned` and `monitoringIDs` are as before.  So a
returned turn has kept its candidate if and only if the check accepted and
the side condition held. -/
theorem C30_centroid_kept_iff_side_condition (cf : Nat) (st : Assignor) (c : constraint)
    (v : Verdict) (g0 g1 : Int)
    (hc : candidate st st.centroidOptions st.centroidTaskToTry = some c)
    (hv : tentativeCheck cf st c = .ok v)
    (h0 : c.groupIDs.get? 0 = some g0) (h1 : c.groupIDs.get? 1 = some g1) :
    (v.accepted = true →
        vectorContainsInt g0 st.monitoringIDs ≠ vectorContainsInt g1 st.monitoringIDs →
        ∃ st1, centroidTurn cf st = .ok st1 ∧
          st1.constraintGraph = st.constraintGraph ++ [st.service.heap.length] ∧
          st1.monitoringIDs = st.monitoringIDs ++
            [if vectorContainsInt g0 st.monitoringIDs then g1 else g0] ∧
          st1.centroidsAssigned = st.centroidsAssigned + 1) ∧
      (¬ (v.accepted = true ∧
          vectorContainsInt g0 st.monitoringIDs ≠ vectorContainsInt g1 st.monitoringIDs) →
        ((∃ st1, centroidTurn cf st = .ok st1)
            ↔ st.centroidTaskToTry + 1 < st.centroidTasksTried.length) ∧
          ∀ st1, centroidTurn cf st = .ok st1 →
            st1.constraintGraph = st.constraintGraph ∧
              st1.centroidsAssigned = st.centroidsAssigned ∧
              st1.monitoringIDs = st.monitoringIDs) ∧
      (∀ st1, centroidTurn cf st = .ok st1 →
        (st1.constraintGraph = st.constraintGraph ++ [st.service.heap.length] ↔
          (v.accepted = true ∧
            vectorContainsInt g0 st.monitoringIDs
              ≠ vectorContainsInt g1 st.monitoringIDs))) := by
  have hkeep : v.accepted = true →
      vectorContainsInt g0 st.monitoringIDs ≠ vectorContainsInt g1 st.monitoringIDs →
      centroidTurn cf st = .ok (keepCentroid st v.service
        (if vectorContainsInt g0 st.monitoringIDs then g1 else g0)) := by
    intro hacc hne
    unfold centroidTurn
    simp only [hc, hv, hacc, if_true, h0, h1]
    cases ha : vectorContainsInt g0 st.monitoringIDs <;>
      cases hb : vectorContainsInt g1 st.monitoringIDs <;>
      simp [ha, hb] at hne ⊢
  have hdrop : ¬ (v.accepted = true ∧
        vectorContainsInt g0 st.monitoringIDs ≠ vectorContainsInt g1 st.monitoringIDs) →
      ∃ sv b, centroidTurn cf st
        = rejectCentroid st sv st.constraintGraph (st.centroidTaskToTry + 1) b := by
    intro hnot
    apply centroidTurn_reject cf st c v hc hv
    by_cases hacc : v.accepted = true
    · right
      refine ⟨g0, g1, h0, h1, ?_⟩
      by_contra hne
      exact hnot ⟨hacc, hne⟩
    · left
      cases hv2 : v.accepted
      · rfl
      · exact absurd hv2 hacc
  refine ⟨?_, ?_, ?_⟩
  · intro hacc hne
    exact ⟨_, hkeep hacc hne, rfl, rfl, rfl⟩
  · intro hnot
    obtain ⟨sv, b, hturn⟩ := hdrop hnot
    rw [hturn]
    refine ⟨rejectCentroid_returns _ _ _ _ _, ?_⟩
    intro st1 hst1
    have := rejectCentroid_ok hst1
    exact ⟨this.1, this.2.2.1, this.2.2.2⟩
  · intro st1 hst1
    by_cases hcond : v.accepted = true ∧
        vectorContainsInt g0 st.monitoringIDs ≠ vectorContainsInt g1 st.monitoringIDs
    · rw [hkeep hcond.1 hcond.2] at hst1
      simp only [Except.ok.injEq] at hst1
      rw [← hst1]
      exact ⟨fun _ => hcond, fun _ => rfl⟩
    · obtain ⟨sv, b, hturn⟩ := hdrop hcond
      rw [hturn] at hst1
      have hg := (rejectCentroid_ok hst1).1
      constructor
      · intro hgraph
        rw [hg] at hgraph
        have := congrArg List.length hgraph
        simp at this
      · intro h
        exact absurd h hcond

/-- Witness for C30 on `centroidPoolState`: vehicle 1 is committed, vehicle 2 is
not, no rule is loaded; the Centroid over `[1,2]` is kept and 2 is
committed. -/
theorem C30_centroid_kept_iff_side_condition_witness :
    vectorContainsInt 1 centroidPoolState.monitoringIDs = true ∧
      vectorContainsInt 2 centroidPoolState.monitoringIDs = false ∧
      ∃ st1, centroidTurn 1 centroidPoolState = .ok st1 ∧
        st1.constraintGraph
          = centroidPoolState.constraintGraph ++ [centroidPoolState.service.heap.length] ∧
        st1.monitoringIDs = centroidPoolState.monitoringIDs ++
          [if vectorContainsInt 1 centroidPoolState.monitoringIDs then 2 else 1] ∧
        st1.centroidsAssigned = centroidPoolState.centroidsAssigned + 1 :=
  ⟨rfl, rfl,
    (C30_centroid_kept_iff_side_condition 1 centroidPoolState
      (freshConstraint constraintTypes.centroid [1, 2] []) _ 1 2 rfl rfl rfl rfl).1 rfl
      (by decide)⟩

/-! ## The wiring of derived nodes -/

theorem otherNodeStep_slotTest (heap : Heap) (currNode : Nat) (currType : constraintTypes)
    (slice : List Int) (scan : SlotScan) (o : Nat) :
    otherNodeStep heap currNode currType slice scan o =
      if slotTest heap currNode currType slice o then
        { applicableNodes := scan.applicableNodes ++ [o]
          nodeFound := true
          remainingRequirements := (invalidateRun currType scan.pos scan.remainingRequirements).1
          pos := (invalidateRun currType scan.pos scan.remainingRequirements).2 }
      else scan := rfl

/-- The scan for one slot pushes every node of the graph vector that passes the
test, in the order of the vector. -/
theorem otherNodeScan_filter (heap : Heap) (currNode : Nat) (currType : constraintTypes)
    (slice : List Int) (g : List Nat) :
    ∀ scan : SlotScan,
      (g.foldl (otherNodeStep heap currNode currType slice) scan).applicableNodes
          = scan.applicableNodes ++ g.filter (slotTest heap currNode currType slice) ∧
        ((g.foldl (otherNodeStep heap currNode currType slice) scan).nodeFound = true →
          scan.nodeFound = true ∨ g.filter (slotTest heap currNode currType slice) ≠ []) := by
  induction g with
  | nil =>
    intro scan
    exact ⟨by simp, fun h => Or.inl h⟩
  | cons o g ih =>
    intro scan
    rw [List.foldl_cons, otherNodeStep_slotTest]
    by_cases ht : slotTest heap currNode currType slice o = true
    · simp only [ht, if_true, List.filter_cons_of_pos]
      obtain ⟨h1, _⟩ := ih
        { applicableNodes := scan.applicableNodes ++ [o]
          nodeFound := true
          remainingRequirements := (invalidateRun currType scan.pos scan.remainingRequirements).1
          pos := (invalidateRun currType scan.pos scan.remainingRequirements).2 }
      refine ⟨?_, fun _ => Or.inr (List.cons_ne_nil _ _)⟩
      rw [h1]
      simp
    · have htf : slotTest heap currNode currType slice o = false := by
        cases hv : slotTest heap currNode currType slice o
        · rfl
        · exact absurd hv ht
      simp only [htf, Bool.false_eq_true, if_false]
      rw [List.filter_cons_of_neg (by simp [htf])]
      exact ih scan

/-- A completed search for the remaining slots: nothing was left to find, or one
scan for the first slot pushed every node that passed its test. -/
theorem remainingLoop_shape {behind : List constraintTypes} (heap : Heap)
    (rule : inferenceRule) (g : List Nat)
    (currNode fuel : Nat) (remaining : List constraintTypes) (applicable nodes : List Nat)
    (h : remainingLoop heap behind rule g currNode fuel remaining applicable = .ok (some nodes)) :
    nodes = applicable ∨
      ∃ t rest slice, remaining = t :: rest ∧ t ≠ constraintTypes.invalid ∧
        sliceRequirementIDs behind 0 rule.requirementTypes rule.requirementIDs = .ok slice ∧
        g.filter (slotTest heap currNode t slice) ≠ [] ∧
        nodes = applicable ++ g.filter (slotTest heap currNode t slice) := by
  cases fuel with
  | zero => simp [remainingLoop] at h
  | succ fuel =>
    unfold remainingLoop at h
    by_cases hall : vectorContainsOnlyConstraintTypes constraintTypes.invalid remaining = true
    · simp only [hall, if_true, Except.ok.injEq, Option.some.injEq] at h
      exact Or.inl h.symm
    · simp only [hall, Bool.false_eq_true, if_false] at h
      cases hf : findNextConstraintTypeWithPosition remaining with
      | error e => simp [hf] at h
      | ok r =>
        obtain ⟨t, pos⟩ := r
        simp only [hf] at h
        obtain ⟨hpos, hrem⟩ := findNext_ok hf
        subst hpos
        rcases hrem with hnil | ⟨rest, hrest, hne⟩
        · rw [hnil] at hall
          exact absurd rfl hall
        · cases hs : sliceRequirementIDs behind 0 rule.requirementTypes rule.requirementIDs with
          | error e => simp [hs] at h
          | ok slice =>
            simp only [hs] at h
            obtain ⟨happ, hfound⟩ := otherNodeScan_filter heap currNode t slice g
              { applicableNodes := applicable, nodeFound := false,
                remainingRequirements := remaining, pos := 0 }
            split at h
            · cases h
            · rename_i hnf
              have hnf1 : (g.foldl (otherNodeStep heap currNode t slice)
                  { applicableNodes := applicable, nodeFound := false,
                    remainingRequirements := remaining, pos := 0 }).nodeFound = true := by
                simpa using hnf
              have hfilter : g.filter (slotTest heap currNode t slice) ≠ [] := by
                rcases hfound hnf1 with h1 | h1
                · cases h1
                · exact h1
              obtain ⟨rest1, hhead⟩ := otherNodeScan_head heap currNode t slice g
                { applicableNodes := applicable, nodeFound := false,
                  remainingRequirements := remaining, pos := 0 }
                (Or.inl ⟨rfl, rfl, rest, hrest⟩) hnf1
              right
              refine ⟨t, rest, slice, hrest, hne, rfl, hfilter, ?_⟩
              rw [hhead, happ] at h
              cases fuel with
              | zero => simp [remainingLoop] at h
              | succ fuel =>
                unfold remainingLoop at h
                by_cases hall2 : vectorContainsOnlyConstraintTypes constraintTypes.invalid
                    (constraintTypes.invalid :: rest1) = true
                · simp only [hall2, if_true, Except.ok.injEq, Option.some.injEq] at h
                  exact h.symm
                · simp only [hall2, Bool.false_eq_true, if_false,
                    findNextConstraintTypeWithPosition] at h
                  simp at h

theorem invalidateRun_head (ty t : constraintTypes) (i : Nat) (types rest : List constraintTypes)
    (h : (invalidateRun ty i types).1 = t :: rest) (hne : t ≠ constraintTypes.invalid) :
    types.head? = some t ∧ (types.get? i = some ty → 0 < i) := by
  cases types with
  | nil =>
    cases i <;> simp [invalidateRun] at h
  | cons x xs =>
    cases i with
    | zero =>
      unfold invalidateRun at h
      by_cases hx : x = ty
      · simp only [hx, if_true, List.cons.injEq] at h
        exact absurd h.1.symm hne
      · simp only [hx, if_false, List.cons.injEq] at h
        refine ⟨by simp [h.1], ?_⟩
        intro hget
        simp only [List.get?_cons_zero, Option.some.injEq] at hget
        exact absurd hget hx
    | succ i =>
      unfold invalidateRun at h
      simp only [List.cons.injEq] at h
      exact ⟨by simp [h.1], fun _ => Nat.succ_pos i⟩

/-- Every combination a returning run of the loops of `ruleApplies` records has
the shape `ComboShape`. -/
theorem ruleAppliesLoop_shape (rule : inferenceRule) (g : List Nat)
    (pairs : List (Nat × Nat)) :
    (∀ pr ∈ pairs, pr.1 ∈ g ∧ pr.2 < rule.requirementTypes.length) →
    ∀ (b : Bool) (sv : Service) (b1 : Bool) (sv1 : Service),
      ruleAppliesLoop rule g pairs b sv = .ok (b1, sv1) →
      ∃ combos, sv1.nodeCombosThisIteration = sv.nodeCombosThisIteration ++ combos ∧
        ∀ c ∈ combos, ComboShape sv.heap sv.wordsBehind rule g c := by
  induction pairs with
  | nil =>
    intro _ b sv b1 sv1 h
    simp only [ruleAppliesLoop, Except.ok.injEq, Prod.mk.injEq] at h
    obtain ⟨_, rfl⟩ := h
    exact ⟨[], by simp, by simp⟩
  | cons pr rest ih =>
    obtain ⟨n, i⟩ := pr
    intro hpairs b sv b1 sv1 h
    obtain ⟨hng, hi⟩ := hpairs (n, i) (List.mem_cons_self _ _)
    have hrest : ∀ pr ∈ rest, pr.1 ∈ g ∧ pr.2 < rule.requirementTypes.length :=
      fun pr hpr => hpairs pr (List.mem_cons_of_mem _ hpr)
    unfold ruleAppliesLoop at h
    cases hs : sliceRequirementIDs sv.wordsBehind i rule.requirementTypes rule.requirementIDs with
    | error e => simp [hs] at h
    | ok slice =>
      simp only [hs] at h
      split at h
      · simp only [Except.ok.injEq, Prod.mk.injEq] at h
        obtain ⟨_, rfl⟩ := h
        exact ⟨[], by simp, by simp⟩
      · split at h
        · rename_i hanchor
          have hm : anchorMatches sv.heap sv.wordsBehind rule n i = true := by
            unfold anchorMatches
            simp only [hs]
            exact hanchor
          have hty : rule.requirementTypes.get? i = some (deref sv.heap n).data.type := by
            simp only [Bool.and_eq_true, decide_eq_true_eq] at hanchor
            exact hanchor.1
          cases hr : remainingLoop sv.heap sv.wordsBehind rule g n (rule.requirementTypes.length + 1)
              (invalidateRun (deref sv.heap n).data.type i rule.requirementTypes).1 [n] with
          | error e => simp [hr] at h
          | ok res =>
            cases res with
            | none =>
              simp only [hr, Except.ok.injEq, Prod.mk.injEq] at h
              obtain ⟨_, rfl⟩ := h
              exact ⟨[], by simp, by simp⟩
            | some nodes =>
              simp only [hr] at h
              have hshape : ComboShape sv.heap sv.wordsBehind rule g nodes := by
                refine ⟨n, i, hng, hi, hm, ?_⟩
                rcases remainingLoop_shape _ _ _ _ _ _ _ _ hr with h1 | ⟨t, rest1, sl, hrem, hne,
                  hsl, hfil, hnodes⟩
                · exact Or.inl h1
                · obtain ⟨hhead, hpos⟩ := invalidateRun_head _ t i _ rest1 hrem hne
                  exact Or.inr ⟨t, sl, hpos hty, hhead, hsl, hfil, hnodes⟩
              split at h
              · exact ih hrest _ _ _ _ h
              · obtain ⟨combos, hc, hall⟩ := ih hrest _ _ _ _ h
                refine ⟨nodes :: combos, ?_, ?_⟩
                · rw [hc]
                  simp
                · intro c hcm
                  rcases List.mem_cons.mp hcm with rfl | hcm
                  · exact hshape
                  · exact hall c hcm
        · exact ih hrest _ _ _ _ h

theorem runCount_singleRun {rule : inferenceRule} (h : singleRun rule = true) :
    runCount rule.requirementTypes = 1 := by
  obtain ⟨t, types, htypes, _, hall, _⟩ := singleRun_cases h
  rw [htypes]
  clear htypes
  induction types with
  | nil => rfl
  | cons x xs ih =>
    have hx : x = t := hall x (List.mem_cons_self _ _)
    subst hx
    unfold runCount
    simp only [if_true, Nat.zero_add]
    exact ih (fun u hu => hall u (List.mem_cons_of_mem _ hu))

theorem comboShape_mem {behind : List constraintTypes} {heap : Heap} {rule : inferenceRule}
    {g combo : List Nat}
    (h : ComboShape heap behind rule g combo) : ∀ x ∈ combo, x ∈ g := by
  obtain ⟨n, i, hn, _, _, hor⟩ := h
  rcases hor with h1 | ⟨t, slice, _, _, _, _, h1⟩
  · rw [h1]
    intro x hx
    rw [List.mem_singleton.mp hx]
    exact hn
  · rw [h1]
    intro x hx
    rcases List.mem_cons.mp hx with h2 | h2
    · rw [h2]
      exact hn
    · exact (List.mem_filter.mp h2).1

theorem comboShape_nodup {behind : List constraintTypes} {heap : Heap} {rule : inferenceRule}
    {g combo : List Nat}
    (h : ComboShape heap behind rule g combo) (hg : g.Nodup) : combo.Nodup := by
  obtain ⟨n, i, hn, _, _, hor⟩ := h
  rcases hor with h1 | ⟨t, slice, _, _, _, _, h1⟩
  · rw [h1]
    exact List.nodup_singleton n
  · rw [h1, List.nodup_cons]
    refine ⟨?_, hg.filter _⟩
    intro hmem
    have := (List.mem_filter.mp hmem).2
    unfold slotTest at this
    simp at this

/-- C21, as stated, fails.  The rule `monitor{1,2} -> relative{1,2}` has one
requirement slot.  On `tailAnchorService` node 0 (a Monitor with `groupIDs = [2]`)
matches the rule from position 1 of the run; the scan for the slot then pushes
`Monitor(1,2)`, and the combination `[0, 1]` of two nodes is recorded. -/
theorem C21_combination_longer_than_slots_counterexample :
    runCount (monitorRule 1 2).requirementTypes = 1 ∧
      (ruleApplies (some (monitorRule 1 2)) [0, 1] tailAnchorService).map
          (fun r => (r.1, r.2.nodeCombosThisIteration)) = .ok (true, [[0, 1], [1]]) :=
  ⟨rfl, rfl⟩

/-- C21, amended. Every combination that a returning call of `ruleApplies`
records starts with its anchor, a node of the graph that matches the rule at
a position of the requirement pattern; it is the anchor alone, or (for an
anchor at a later position) the anchor followed by every node of the graph
vector that passes the test of the first slot.  Its nodes are nodes of the
graph, and they are pairwise distinct when the graph vector has no repeated
node.  When the rule has a single requirement run and no node matches it from
a later position of the run, the combination has exactly one node per
requirement slot. -/
theorem C21_recorded_combination_shape (rule : inferenceRule) (g : List Nat) (sv sv1 : Service)
    (b1 : Bool) (h : ruleApplies (some rule) g sv = .ok (b1, sv1)) :
    ∃ combos, sv1.nodeCombosThisIteration = sv.nodeCombosThisIteration ++ combos ∧
      ∀ c ∈ combos, ComboShape sv.heap sv.wordsBehind rule g c ∧ (∀ x ∈ c, x ∈ g) ∧ (g.Nodup → c.Nodup) ∧
        (singleRun rule = true →
          (∀ n ∈ g, ∀ i, i < rule.requirementTypes.length → 0 < i →
            anchorMatches sv.heap sv.wordsBehind rule n i = false) →
          c.length = runCount rule.requirementTypes) := by
  obtain ⟨combos, hc, hall⟩ := ruleAppliesLoop_shape rule g (anchorPositions rule g)
    (fun pr hpr => anchorPositions_fst hpr) false sv b1 sv1 h
  refine ⟨combos, hc, ?_⟩
  intro c hcm
  have hshape := hall c hcm
  refine ⟨hshape, comboShape_mem hshape, comboShape_nodup hshape, ?_⟩
  intro hsr hlater
  rw [runCount_singleRun hsr]
  obtain ⟨n, i, hn, hi, hm, hor⟩ := hshape
  rcases hor with h1 | ⟨t, slice, hpos, _, _, _, _⟩
  · rw [h1]
    rfl
  · rw [hlater n hn i hi hpos] at hm
    cases hm

/-- Witness for the amended C21 on Scenario A: the call for
`monitor{1,2} -> relative{1,2}` records `[0]` and `[1]`. -/
theorem C21_recorded_combination_shape_witness :
    ∃ sv1, ruleApplies (some (monitorRule 1 2)) [0, 1] scenarioA = .ok (true, sv1) ∧
      sv1.nodeCombosThisIteration = [[0], [1]] ∧
      ∃ combos, sv1.nodeCombosThisIteration = scenarioA.nodeCombosThisIteration ++ combos ∧
        ∀ c ∈ combos, ComboShape scenarioA.heap scenarioA.wordsBehind (monitorRule 1 2) [0, 1] c ∧
          (∀ x ∈ c, x ∈ [0, 1]) ∧ (([0, 1] : List Nat).Nodup → c.Nodup) ∧
          (singleRun (monitorRule 1 2) = true →
            (∀ n ∈ [0, 1], ∀ i, i < (monitorRule 1 2).requirementTypes.length → 0 < i →
              anchorMatches scenarioA.heap scenarioA.wordsBehind (monitorRule 1 2) n i = false) →
            c.length = runCount (monitorRule 1 2).requirementTypes) :=
  ⟨_, rfl, rfl, C21_recorded_combination_shape (monitorRule 1 2) [0, 1] scenarioA _ true rfl⟩

/-! ## Rules that all derive one fact from childless nodes -/

theorem drop_eq_cons {α : Type} : ∀ (l : List α) (i : Nat) (x : α) (rest : List α),
    l.drop i = x :: rest → l.get? i = some x ∧ l.drop (i + 1) = rest := by
  intro l
  induction l with
  | nil =>
    intro i x rest h
    simp at h
  | cons a l ih =>
    intro i x rest h
    cases i with
    | zero =>
      simp only [List.drop_zero, List.cons.injEq] at h
      simp [h.1, h.2]
    | succ i =>
      simp only [List.drop_succ_cons] at h
      simpa using ih i x rest h

/-- On a run of `kind` that ends the pattern, the loop of the centroid and
monitor branches pushes exactly the ids of the run. -/
theorem slotLoop_run (kind : constraintTypes) :
    ∀ (ts : List constraintTypes) (ids : List Int),
      (∀ u ∈ ts, u = kind) → ids.length = ts.length →
      slotLoop kind kind ts ids = .ok ids := by
  intro ts
  induction ts with
  | nil =>
    intro ids _ hl
    have hnil : ids = [] := List.length_eq_zero.mp hl
    rw [hnil]
    rfl
  | cons t ts ih =>
    intro ids hall hl
    cases ids with
    | nil => simp at hl
    | cons x ids =>
      have ht : t = kind := hall t (List.mem_cons_self _ _)
      unfold slotLoop
      simp only [if_true]
      rw [ht, ih ids (fun u hu => hall u (List.mem_cons_of_mem _ hu)) (by simpa using hl)]
      rfl

theorem decodeAll_past (rule : inferenceRule) (fuel i : Nat)
    (h : rule.resultTypes.length ≤ i) : decodeAll rule fuel i = .ok [] := by
  cases fuel with
  | zero =>
    unfold decodeAll
    rw [if_neg (by omega)]
  | succ fuel =>
    unfold decodeAll
    simp only [List.get?_eq_none.mpr h]

/-- On a pattern that can be cut into slots, the result loop decodes exactly the
slots. -/
theorem decodeAll_slots (rule : inferenceRule) :
    ∀ (fuel i : Nat) (ts : List constraintTypes) (ids : List Int) (cs : List constraint),
      rule.resultTypes.drop i = ts → rule.resultIDs.drop i = ids → ts.length ≤ fuel →
      resultSlots ts ids = some cs → decodeAll rule fuel i = .ok cs := by
  intro fuel
  induction fuel with
  | zero =>
    intro i ts ids cs hts hids hlen hslots
    have hnil : ts = [] := List.length_eq_zero.mp (Nat.le_zero.mp hlen)
    rw [hnil] at hts hslots
    simp only [resultSlots, Option.some.injEq] at hslots
    rw [← hslots]
    exact decodeAll_past rule 0 i (List.drop_eq_nil_iff.mp hts)
  | succ fuel ih =>
    intro i ts ids cs hts hids hlen hslots
    cases ts with
    | nil =>
      simp only [resultSlots, Option.some.injEq] at hslots
      rw [← hslots]
      exact decodeAll_past rule _ i (List.drop_eq_nil_iff.mp hts)
    | cons t ts1 =>
      obtain ⟨hget, hts1⟩ := drop_eq_cons _ _ _ _ hts
      have htl : rule.resultTypes.length = i + (ts1.length + 1) := by
        have := congrArg List.length hts
        simp only [List.length_drop, List.length_cons] at this
        omega
      unfold decodeAll
      simp only [hget]
      cases t with
      | global =>
        cases ids with
        | nil => simp [resultSlots] at hslots
        | cons x ids1 =>
          obtain ⟨hx, hids1⟩ := drop_eq_cons _ _ _ _ hids
          simp only [resultSlots, Option.map_eq_some'] at hslots
          obtain ⟨cs1, hcs1, rfl⟩ := hslots
          simp only [decodeResult, idAt, hx]
          rw [ih (i + 1) ts1 ids1 cs1 hts1 hids1 (by simpa using hlen) hcs1]
          rfl
      | centroid =>
        simp only [resultSlots] at hslots
        split at hslots
        · rename_i hcond
          simp only [Bool.and_eq_true, List.all_eq_true, decide_eq_true_eq, beq_iff_eq] at hcond
          obtain ⟨hall, hl⟩ := hcond
          simp only [Option.some.injEq] at hslots
          have hrun : slotLoop constraintTypes.centroid constraintTypes.centroid
              (rule.resultTypes.drop i) (rule.resultIDs.drop i) = .ok ids := by
            rw [hts, hids]
            apply slotLoop_run
            · intro u hu
              rcases List.mem_cons.mp hu with h1 | h1
              · exact h1
              · exact hall u h1
            · simpa using hl
          simp only [decodeResult, hrun]
          rw [decodeAll_past rule fuel _ (by omega), ← hslots]
          rfl
        · cases hslots
      | monitor =>
        cases ids with
        | nil => simp [resultSlots] at hslots
        | cons x ids1 =>
          obtain ⟨hx, hids1⟩ := drop_eq_cons _ _ _ _ hids
          simp only [resultSlots] at hslots
          split at hslots
          · rename_i hcond
            simp only [Bool.and_eq_true, List.all_eq_true, decide_eq_true_eq, beq_iff_eq] at hcond
            obtain ⟨hall, hl⟩ := hcond
            simp only [Option.some.injEq] at hslots
            have hrun : slotLoop constraintTypes.monitor constraintTypes.monitor
                (rule.resultTypes.drop (i + 1)) (rule.resultIDs.drop (i + 1)) = .ok ids1 := by
              rw [hts1, hids1]
              exact slotLoop_run _ _ _ hall hl
            simp only [decodeResult, idAt, hx, hrun]
            rw [decodeAll_past rule fuel _ (by omega), ← hslots]
            rfl
          · cases hslots
      | relative =>
        cases ts1 with
        | nil => cases ids <;> simp [resultSlots] at hslots
        | cons t2 ts2 =>
          cases t2 with
          | relative =>
            cases ids with
            | nil => simp [resultSlots] at hslots
            | cons x ids1 =>
              cases ids1 with
              | nil => simp [resultSlots] at hslots
              | cons y ids2 =>
                obtain ⟨hx, hids1⟩ := drop_eq_cons _ _ _ _ hids
                obtain ⟨hy, hids2⟩ := drop_eq_cons _ _ _ _ hids1
                obtain ⟨_, hts2⟩ := drop_eq_cons _ _ _ _ hts1
                simp only [resultSlots, Option.map_eq_some'] at hslots
                obtain ⟨cs1, hcs1, rfl⟩ := hslots
                simp only [decodeResult, idAt, hx, hy]
                rw [ih (i + 1 + 1) ts2 ids2 cs1 hts2 hids2
                  (by simp only [List.length_cons] at hlen; omega) hcs1]
                rfl
          | global => cases ids <;> simp [resultSlots] at hslots
          | centroid => cases ids <;> simp [resultSlots] at hslots
          | monitor => cases ids <;> simp [resultSlots] at hslots
          | invalid => cases ids <;> simp [resultSlots] at hslots
      | invalid => cases ids <;> simp [resultSlots] at hslots

/-- When the result loop runs to its end, the nodes it allocated hold, in order,
the constraints of `decodeAll`. -/
theorem resultLoop_builds (combo : List Nat) (rule : inferenceRule) (fuel : Nat) :
    ∀ (i : Nat) (sw sw1 : Sweep),
      resultLoop combo rule fuel i sw = .ok (Exit.running, sw1) →
      ∃ cs, decodeAll rule fuel i = .ok cs ∧
        sw1.heap.length = sw.heap.length + cs.length ∧
        ∀ k, k < cs.length → cs.get? k = some (deref sw1.heap (sw.heap.length + k)).data := by
  induction fuel with
  | zero =>
    intro i sw sw1 h
    unfold resultLoop at h
    split at h
    · cases h
    · rename_i hi
      simp only [Except.ok.injEq, Prod.mk.injEq] at h
      obtain ⟨_, rfl⟩ := h
      exact ⟨[], by simp [decodeAll, hi], by simp, by simp⟩
  | succ fuel ih =>
    intro i sw sw1 h
    unfold resultLoop at h
    unfold decodeAll
    cases ht : rule.resultTypes.get? i with
    | none =>
      simp only [ht, Except.ok.injEq, Prod.mk.injEq] at h
      obtain ⟨_, rfl⟩ := h
      exact ⟨[], rfl, by simp, by simp⟩
    | some currType =>
      simp only [ht] at h ⊢
      cases hd : decodeResult rule i currType with
      | error err => simp [hd] at h
      | ok res =>
        cases res with
        | none => simp [hd] at h
        | some ci =>
          obtain ⟨c, i1⟩ := ci
          simp only [hd] at h ⊢
          cases hr : resolve sw.heap.length combo
              { sw with heap := sw.heap ++ [{ data := c, parents := [], children := [] }] } with
          | error err => simp [hr] at h
          | ok res1 =>
            obtain ⟨e1, sw2⟩ := res1
            cases e1 with
            | running =>
              simp only [hr] at h
              obtain ⟨cs, hcs, hlen, hdata⟩ := ih _ _ _ h
              have hext := (resultLoop_frame combo rule fuel _ _ _ _ h).1
              have h2 : sw2.heap.length = sw.heap.length + 1 ∧
                  (deref sw2.heap sw.heap.length).data = c := by
                rcases resolve_cases hr with ⟨_, _, hh, _, _⟩ | ⟨_, _, _, _, hh, _, _⟩
                · simp only at hh
                  refine ⟨by rw [hh, length_wire]; simp, ?_⟩
                  rw [hh]
                  have hdw := data_wire_fresh sw.heap c combo sw.heap.length (le_refl _)
                  rw [if_pos rfl] at hdw
                  exact hdw
                · simp only at hh
                  have hh2 : sw2.heap = sw.heap ++ [leafNode c] := by
                    rw [hh]
                    exact modifyAt_clear_fresh_leaf sw.heap c
                  refine ⟨by rw [hh2]; simp, ?_⟩
                  rw [hh2, deref_append_length]
                  rfl
              refine ⟨c :: cs, by rw [hcs]; rfl, by simp only [List.length_cons]; omega, ?_⟩
              intro k hk
              cases k with
              | zero =>
                simp only [List.get?_cons_zero, Nat.add_zero]
                rw [(hext.2 sw.heap.length (by omega)).1, h2.2]
              | succ k =>
                simp only [List.get?_cons_succ]
                rw [hdata k (by simpa using hk)]
                have hidx : sw2.heap.length + k = sw.heap.length + (k + 1) := by omega
                rw [hidx]
            | contradiction => simp [hr] at h
            | invalidKind => simp [hr] at h

/-- C26, as stated, fails.  The result pattern of `relativeRunRule` is one run
of four Relative entries; the result loop builds two nodes from it,
`Relative[1,2]` and `Relative[3,4]`, not one node holding the four ids.  The
result pattern of `centroidThenRelativeRule` has two runs; the loop builds one
node, a Centroid holding `[1,2,3]`: it has taken the first id of the Relative
run, and no Relative node is built. -/
theorem C26_one_node_per_result_run_counterexample :
    (runCount relativeRunRule.resultTypes = 1 ∧
        (resultLoop [0] relativeRunRule relativeRunRule.resultTypes.length 0 sweepA).map
            (fun r => (r.1, (r.2.heap.drop 2).map (fun n => n.data)))
          = .ok (Exit.running,
              [freshConstraint constraintTypes.relative [1, 2] [],
               freshConstraint constraintTypes.relative [3, 4] []])) ∧
      (runCount centroidThenRelativeRule.resultTypes = 2 ∧
        (resultLoop [0] centroidThenRelativeRule
            centroidThenRelativeRule.resultTypes.length 0 sweepA).map
            (fun r => (r.1, (r.2.heap.drop 2).map (fun n => n.data)))
          = .ok (Exit.running, [freshConstraint constraintTypes.centroid [1, 2, 3] []])) :=
  ⟨⟨rfl, rfl⟩, rfl, rfl⟩

/-- C26, amended. Result-pattern decoding: for every rule whose result pattern
can be cut, from left to right, into slots (a Global entry with its one id;
two consecutive Relative entries with their two ids; a Centroid run or a
Monitor run that ends the pattern, with all of its ids), the deriver decodes
exactly one constraint per slot, holding exactly that slot's ids (Monitor:
the first id in `groupIDs`, the others in `monitorIDs`); and when the result
loop runs to its end, the nodes it allocated hold these constraints, in the
order of the slots. -/
theorem C26_one_node_per_result_slot (rule : inferenceRule) (cs : List constraint)
    (hslots : resultSlots rule.resultTypes rule.resultIDs = some cs) :
    decodeAll rule rule.resultTypes.length 0 = .ok cs ∧
      ∀ combo sw sw1,
        resultLoop combo rule rule.resultTypes.length 0 sw = .ok (Exit.running, sw1) →
        sw1.heap.length = sw.heap.length + cs.length ∧
          ∀ k, k < cs.length →
            cs.get? k = some (deref sw1.heap (sw.heap.length + k)).data := by
  have hdec := decodeAll_slots rule rule.resultTypes.length 0 rule.resultTypes rule.resultIDs cs
    rfl rfl (le_refl _) hslots
  refine ⟨hdec, ?_⟩
  intro combo sw sw1 hrun
  obtain ⟨cs1, hcs1, hlen, hdata⟩ := resultLoop_builds combo rule _ 0 sw sw1 hrun
  rw [hdec] at hcs1
  simp only [Except.ok.injEq] at hcs1
  rw [hcs1]
  exact ⟨hlen, hdata⟩

/-- Witness for the amended C26: the pattern of `mixedResultRule` has a Global
slot, a Relative slot and a final Centroid run of three; on Scenario A the
result loop allocates nodes 2, 3 and 4 for them. -/
theorem C26_one_node_per_result_slot_witness :
    resultSlots mixedResultRule.resultTypes mixedResultRule.resultIDs
        = some [freshConstraint constraintTypes.global [5] [],
                freshConstraint constraintTypes.relative [1, 2] [],
                freshConstraint constraintTypes.centroid [3, 4, 6] []] ∧
      decodeAll mixedResultRule mixedResultRule.resultTypes.length 0
        = .ok [freshConstraint constraintTypes.global [5] [],
               freshConstraint constraintTypes.relative [1, 2] [],
               freshConstraint constraintTypes.centroid [3, 4, 6] []] ∧
      ∃ sw1, resultLoop [0] mixedResultRule mixedResultRule.resultTypes.length 0 sweepA
          = .ok (Exit.running, sw1) ∧
        sw1.heap.length = 5 ∧
        (deref sw1.heap 4).data = freshConstraint constraintTypes.centroid [3, 4, 6] [] :=
  ⟨rfl,
    (C26_one_node_per_result_slot mixedResultRule _ rfl).1,
    _, rfl,
    ((C26_one_node_per_result_slot mixedResultRule _ rfl).2 [0] sweepA _ rfl).1,
    (Option.some.inj
      (((C26_one_node_per_result_slot mixedResultRule _ rfl).2 [0] sweepA _ rfl).2 2
        (by decide))).symm⟩

/-! ## Claims on the comparison of id vectors and on the scanning helpers -/

/-- C39. The flag of `vectorIntsEqual` as the code reads it: with the flag set
the function holds exactly when `l` is a permutation of `r`, with the flag
clear exactly when `l = r`; so the result with the flag clear implies the
result with the flag set; and for each fixed flag the relation is reflexive,
transitive and symmetric. -/
theorem C39_vectorIntsEqual_flag_semantics (l m r : List Int) (f : Bool) :
    (vectorIntsEqual l r true = true ↔ l.Perm r) ∧
      (vectorIntsEqual l r false = true ↔ l = r) ∧
      (vectorIntsEqual l r false = true → vectorIntsEqual l r true = true) ∧
      vectorIntsEqual l l f = true ∧
      (vectorIntsEqual l m f = true → vectorIntsEqual m r f = true →
        vectorIntsEqual l r f = true) ∧
      vectorIntsEqual l r f = vectorIntsEqual r l f := by
  refine ⟨vectorIntsEqual_true_iff l r, vectorIntsEqual_false_iff l r, ?_,
    vectorIntsEqual_refl l f, fun h1 h2 => vectorIntsEqual_trans h1 h2,
    vectorIntsEqual_comm l r f⟩
  intro h
  rw [(vectorIntsEqual_false_iff l r).mp h]
  exact vectorIntsEqual_refl r true

/-- Witness for C39: `[1, 2, 3]` and `[3, 1, 2]` are equal with the flag set and
different with the flag clear. -/
theorem C39_vectorIntsEqual_flag_semantics_witness :
    vectorIntsEqual [1, 2, 3] [3, 1, 2] true = true ∧
      vectorIntsEqual [1, 2, 3] [3, 1, 2] false = false ∧
      List.Perm [1, 2, 3] ([3, 1, 2] : List Int) ∧
      vectorIntsEqual [1, 2, 3] [1, 2, 3] false = true :=
  ⟨by decide, by decide,
    (C39_vectorIntsEqual_flag_semantics [1, 2, 3] [] [3, 1, 2] true).1.mp (by decide),
    (C39_vectorIntsEqual_flag_semantics [1, 2, 3] [] [1, 2, 3] false).2.1.mpr rfl⟩

theorem getLast?_cons_of_some {α : Type} (a x : α) :
    ∀ (l : List α), l.getLast? = some x → (a :: l).getLast? = some x := by
  intro l h
  cases l with
  | nil => cases h
  | cons b l => simpa [List.getLast?_cons_cons] using h

theorem sliceProbes_run (t : constraintTypes) :
    ∀ (n s : Nat), (sliceProbes t s (List.replicate n t)).getLast? = some (s + n) := by
  intro n
  induction n with
  | zero =>
    intro s
    rfl
  | succ n ih =>
    intro s
    rw [List.replicate_succ]
    unfold sliceProbes
    simp only [if_true]
    apply getLast?_cons_of_some
    rw [ih (s + 1)]
    congr 1
    omega

/-- C38. On the code the two scanning helpers do not stay inside the kind
vector.  `sliceRequirementIDs` tests `haystack[startIndex]` without a bound:
for a run that ends the vector (here `[monitor, monitor]` from index 0, and
every run of `n` equal kinds from any index) the test reads at index
`haystack.size()`, and it goes on behind the vector for as long as the words
there hold the kind of the run.  With a Centroid word behind
`[centroid, centroid]` the ids `[1, 2]` are not what is cut: the loop reads
`vectorToSlice[2]`, outside the id vector; with a Monitor word behind
`[monitor, monitor]` and a third id in the id vector, that id is cut as well.
In general the function returns the ids under the run that starts at
`startIndex` in the kind vector followed by the words behind it, and it reads
the id vector outside its bounds when the ids end before that run; when no
word behind the vector holds the kind, the run ends with the vector.
`findNextConstraintTypeWithPosition` steps with `*position++`, which moves the
pointer and not the counter: it returns the first kind with position 0 when
that kind is not `invalid`, and every call on a vector that starts with
`invalid` (here `[invalid, monitor]`, where the first non-invalid kind is at
index 1) runs into the memory behind the caller's variable. -/
theorem C38_scanning_helpers_leave_the_vector (t : constraintTypes) (n s : Nat)
    (rest haystack behind : List constraintTypes) (ids : List Int) :
    sliceRequirementIDs [] 0 [constraintTypes.monitor, constraintTypes.monitor] [1, 2]
        = .ok [1, 2] ∧
      sliceProbes constraintTypes.monitor 0 [constraintTypes.monitor, constraintTypes.monitor]
        = [0, 1, 2] ∧
      (sliceProbes t s (List.replicate n t)).getLast? = some (s + n) ∧
      sliceProbes constraintTypes.monitor 0
          [constraintTypes.monitor, constraintTypes.monitor, constraintTypes.centroid]
        = [0, 1, 2] ∧
      sliceRequirementIDs [constraintTypes.centroid] 0
          [constraintTypes.centroid, constraintTypes.centroid] [1, 2]
        = .error Fault.undefined ∧
      sliceRequirementIDs [constraintTypes.monitor] 0
          [constraintTypes.monitor, constraintTypes.monitor] [1, 2, 3]
        = .ok [1, 2, 3] ∧
      sliceRequirementIDs behind s haystack ids =
        (match haystack.get? s with
          | none => .error Fault.undefined
          | some k =>
            if runLength k haystack behind s ≤ (ids.drop s).length then
              .ok ((ids.drop s).take (runLength k haystack behind s))
            else .error Fault.undefined) ∧
      sliceRequirementIDs [] s haystack ids =
        (match haystack.get? s with
          | none => .error Fault.undefined
          | some k =>
            if ((haystack.drop s).takeWhile (fun u => decide (u = k))).length
                ≤ (ids.drop s).length then
              .ok ((ids.drop s).take
                ((haystack.drop s).takeWhile (fun u => decide (u = k))).length)
            else .error Fault.undefined) ∧
      findNextConstraintTypeWithPosition [constraintTypes.invalid, constraintTypes.monitor]
        = .error Fault.undefined ∧
      findNextConstraintTypeWithPosition (constraintTypes.invalid :: rest)
        = .error Fault.undefined ∧
      findNextConstraintTypeWithPosition (t :: rest)
        = (if t ≠ constraintTypes.invalid then .ok (t, 0) else .error Fault.undefined) ∧
      findNextConstraintTypeWithPosition [] = .ok (constraintTypes.invalid, 0) := by
  refine ⟨rfl, rfl, sliceProbes_run t n s, rfl, rfl, rfl,
    sliceRequirementIDs_eq behind s haystack ids, ?_, rfl, rfl, rfl, rfl⟩
  rw [sliceRequirementIDs_eq]
  simp only [runLength, List.append_nil]

/-! ## Claims on the anchors of `ruleApplies` -/

/-- C36, as stated, fails.  On `tailAnchorService` the call for
`monitor{1,2} -> relative{1,2}` records the combination `[0, 1]`.  Its first
node, node 0, has `groupIDs = [2]`, which do not match the ids `[1, 2]` of the
first slot: node 0 does not match the rule at position 0, it matches at
position 1, in the middle of the run. -/
theorem C36_anchor_from_the_middle_of_a_run_counterexample :
    (ruleApplies (some (monitorRule 1 2)) [0, 1] tailAnchorService).map
        (fun r => r.2.nodeCombosThisIteration) = .ok [[0, 1], [1]] ∧
      sliceRequirementIDs tailAnchorService.wordsBehind 0 (monitorRule 1 2).requirementTypes (monitorRule 1 2).requirementIDs
        = .ok [1, 2] ∧
      (deref tailAnchorService.heap 0).data.groupIDs = [2] ∧
      vectorIntsEqual (deref tailAnchorService.heap 0).data.groupIDs [1, 2]
        (engineFlag constraintTypes.monitor) = false ∧
      anchorMatches tailAnchorService.heap tailAnchorService.wordsBehind (monitorRule 1 2) 0 0 = false ∧
      anchorMatches tailAnchorService.heap tailAnchorService.wordsBehind (monitorRule 1 2) 0 1 = true :=
  ⟨rfl, rfl, rfl, by decide, by decide, by decide⟩

/-- C36, amended. For every combination that a returning call of `ruleApplies`
records, its first node (the anchor) is a node of the graph that, for some
position `i` of the requirement pattern, has the kind `requirementTypes[i]`
and `groupIDs` matching the ids that `sliceRequirementIDs` cuts at `i` (from
`i` to the end of the run that holds `i`); the position need not be the start
of the first slot. -/
theorem C36_anchor_matches_at_some_position (rule : inferenceRule) (g : List Nat)
    (sv sv1 : Service) (b1 : Bool) (h : ruleApplies (some rule) g sv = .ok (b1, sv1)) :
    ∃ combos, sv1.nodeCombosThisIteration = sv.nodeCombosThisIteration ++ combos ∧
      ∀ c ∈ combos, ∃ n i slice, c.head? = some n ∧ n ∈ g ∧
        i < rule.requirementTypes.length ∧
        rule.requirementTypes.get? i = some (deref sv.heap n).data.type ∧
        sliceRequirementIDs sv.wordsBehind i rule.requirementTypes rule.requirementIDs = .ok slice ∧
        vectorIntsEqual (deref sv.heap n).data.groupIDs slice
          (engineFlag (deref sv.heap n).data.type) = true := by
  obtain ⟨combos, hc, hall⟩ := ruleAppliesLoop_shape rule g (anchorPositions rule g)
    (fun pr hpr => anchorPositions_fst hpr) false sv b1 sv1 h
  refine ⟨combos, hc, ?_⟩
  intro c hcm
  obtain ⟨n, i, hn, hi, hm, hor⟩ := hall c hcm
  have hhead : c.head? = some n := by
    rcases hor with h1 | ⟨_, _, _, _, _, _, h1⟩
    · rw [h1]
      rfl
    · rw [h1]
      rfl
  unfold anchorMatches at hm
  cases hs : sliceRequirementIDs sv.wordsBehind i rule.requirementTypes rule.requirementIDs with
  | error e =>
    rw [hs] at hm
    cases hm
  | ok slice =>
    rw [hs] at hm
    simp only [Bool.and_eq_true, decide_eq_true_eq] at hm
    exact ⟨n, i, slice, hhead, hn, hi, hm.1, hs, hm.2⟩

/-- Witness for the amended C36 on `tailAnchorService`. -/
theorem C36_anchor_matches_at_some_position_witness :
    ∃ sv1, ruleApplies (some (monitorRule 1 2)) [0, 1] tailAnchorService = .ok (true, sv1) ∧
      sv1.nodeCombosThisIteration = [[0, 1], [1]] ∧
      ∃ combos, sv1.nodeCombosThisIteration
          = tailAnchorService.nodeCombosThisIteration ++ combos ∧
        ∀ c ∈ combos, ∃ n i slice, c.head? = some n ∧ n ∈ [0, 1] ∧
          i < (monitorRule 1 2).requirementTypes.length ∧
          (monitorRule 1 2).requirementTypes.get? i
            = some (deref tailAnchorService.heap n).data.type ∧
          sliceRequirementIDs tailAnchorService.wordsBehind i (monitorRule 1 2).requirementTypes
            (monitorRule 1 2).requirementIDs = .ok slice ∧
          vectorIntsEqual (deref tailAnchorService.heap n).data.groupIDs slice
            (engineFlag (deref tailAnchorService.heap n).data.type) = true :=
  ⟨_, rfl, rfl,
    C36_anchor_matches_at_some_position (monitorRule 1 2) [0, 1] tailAnchorService _ true rfl⟩

/-- The search for the remaining slots fails when no node of the graph passes
the test of the first open slot. -/
theorem remainingLoop_fails {behind : List constraintTypes} (heap : Heap)
    (rule : inferenceRule) (g : List Nat)
    (currNode fuel : Nat) (t : constraintTypes) (rest : List constraintTypes)
    (applicable : List Nat) (slice : List Int) (hne : t ≠ constraintTypes.invalid)
    (hs : sliceRequirementIDs behind 0 rule.requirementTypes rule.requirementIDs = .ok slice)
    (hnone : g.filter (slotTest heap currNode t slice) = []) :
    remainingLoop heap behind rule g currNode (fuel + 1) (t :: rest) applicable = .ok none := by
  unfold remainingLoop
  have hall : vectorContainsOnlyConstraintTypes constraintTypes.invalid (t :: rest) = false := by
    unfold vectorContainsOnlyConstraintTypes
    simp [hne]
  have hf : findNextConstraintTypeWithPosition (t :: rest) = .ok (t, 0) := by
    unfold findNextConstraintTypeWithPosition
    simp [hne]
  simp only [hall, Bool.false_eq_true, if_false, hf, hs]
  obtain ⟨_, hfound⟩ := otherNodeScan_filter heap currNode t slice g
    { applicableNodes := applicable, nodeFound := false,
      remainingRequirements := t :: rest, pos := 0 }
  have hnf : (g.foldl (otherNodeStep heap currNode t slice)
      { applicableNodes := applicable, nodeFound := false,
        remainingRequirements := t :: rest, pos := 0 }).nodeFound = false := by
    cases hv : (g.foldl (otherNodeStep heap currNode t slice)
      { applicableNodes := applicable, nodeFound := false,
        remainingRequirements := t :: rest, pos := 0 }).nodeFound
    · rfl
    · rcases hfound hv with h1 | h1
      · cases h1
      · exact absurd hnone h1
  simp [hnf]

theorem ruleAppliesLoop_skip_all (rule : inferenceRule) (graph : List Nat)
    (b : Bool) (sv : Service) (more : List (Nat × Nat)) :
    ∀ (pre : List (Nat × Nat)),
      (∀ pr ∈ pre, sliceDefined sv.wordsBehind rule pr.2 = true ∧
        anchorMatches sv.heap sv.wordsBehind rule pr.1 pr.2 = false) →
      ruleAppliesLoop rule graph (pre ++ more) b sv = ruleAppliesLoop rule graph more b sv := by
  intro pre
  induction pre with
  | nil =>
    intro _
    rfl
  | cons pr pre ih =>
    obtain ⟨n, i⟩ := pr
    intro hno
    obtain ⟨hi, hm⟩ := hno (n, i) (List.mem_cons_self _ _)
    rw [List.cons_append, ruleAppliesLoop_skip rule graph n i _ b sv hi hm]
    exact ih (fun pr hpr => hno pr (List.mem_cons_of_mem _ hpr))

/-- C37, as stated, fails.  On `shortIdsService` node 0 matches `shortIdsRule`
at position 1 and no node matches the open first slot; `ruleApplies` returns
false there, whatever positions and nodes remain: the positions `(0, 2)`,
`(1, 0)`, `(1, 1)`, `(1, 2)` are not examined.  Had the call gone on to
position `(0, 2)`, it would have read `requirementIDs[2]`, outside the
vector. -/
theorem C37_slot_failure_is_not_local_counterexample :
    anchorPositions shortIdsRule [0, 1] = [(0, 0), (0, 1), (0, 2), (1, 0), (1, 1), (1, 2)] ∧
      anchorMatches shortIdsService.heap shortIdsService.wordsBehind shortIdsRule 0 0 = false ∧
      anchorMatches shortIdsService.heap shortIdsService.wordsBehind shortIdsRule 0 1 = true ∧
      ruleApplies (some shortIdsRule) [0, 1] shortIdsService = .ok (false, shortIdsService) ∧
      (∀ rest b, ruleAppliesLoop shortIdsRule [0, 1] ((0, 1) :: rest) b shortIdsService
        = .ok (false, shortIdsService)) ∧
      ruleAppliesLoop shortIdsRule [0, 1] [(0, 2), (1, 0), (1, 1), (1, 2)] false shortIdsService
        = .error Fault.undefined :=
  ⟨rfl, by decide, by decide, rfl, fun _ _ => rfl, rfl⟩

/-- C37, amended. Slot failure ends the call: when the loops of `ruleApplies`
reach an anchor (a node that matches the rule at position `i`) and no node of
the graph passes the test of the first open slot, `ruleApplies` returns false
at once, whatever positions and nodes remain; no combination is recorded for
that anchor and the memo is as it was when the anchor was reached.  In
particular, when no earlier pair of the call matched, the call of
`ruleApplies` returns false and leaves the state as it was. -/
theorem C37_slot_failure_ends_the_call (rule : inferenceRule) (g : List Nat) (n i : Nat)
    (pre rest : List (Nat × Nat)) (b : Bool) (sv : Service) (t : constraintTypes)
    (remaining : List constraintTypes) (slice : List Int)
    (hm : anchorMatches sv.heap sv.wordsBehind rule n i = true)
    (hopen : (invalidateRun (deref sv.heap n).data.type i rule.requirementTypes).1
      = t :: remaining)
    (hne : t ≠ constraintTypes.invalid)
    (hs : sliceRequirementIDs sv.wordsBehind 0 rule.requirementTypes rule.requirementIDs = .ok slice)
    (hnone : g.filter (slotTest sv.heap n t slice) = []) :
    ruleAppliesLoop rule g ((n, i) :: rest) b sv = .ok (false, sv) ∧
      (anchorPositions rule g = pre ++ (n, i) :: rest →
        (∀ pr ∈ pre, sliceDefined sv.wordsBehind rule pr.2 = true ∧
          anchorMatches sv.heap sv.wordsBehind rule pr.1 pr.2 = false) →
        ruleApplies (some rule) g sv = .ok (false, sv)) := by
  have hloop : ∀ b1, ruleAppliesLoop rule g ((n, i) :: rest) b1 sv = .ok (false, sv) := by
    intro b1
    unfold ruleAppliesLoop
    have hm1 := hm
    unfold anchorMatches at hm1
    cases hsl : sliceRequirementIDs sv.wordsBehind i rule.requirementTypes rule.requirementIDs with
    | error e =>
      rw [hsl] at hm1
      cases hm1
    | ok sl =>
      rw [hsl] at hm1
      simp only at hm1
      have hlen : ¬ sl.length = 0 := by
        intro h0
        have hnil : sl = [] := List.length_eq_zero.mp h0
        rw [hnil] at hsl
        exact sliceRequirementIDs_nonempty _ i _ _ hsl
      simp only [hlen, if_false, hm1, if_true, hopen,
        remainingLoop_fails sv.heap rule g n _ t remaining [n] slice hne hs hnone]
  refine ⟨hloop b, ?_⟩
  intro hpos hpre
  unfold ruleApplies
  simp only
  rw [hpos, ruleAppliesLoop_skip_all rule g false sv _ pre hpre]
  exact hloop false

/-- Witness for the amended C37 on `tailOnlyService`: node 0, a Monitor with
`groupIDs = [2]`, matches `monitor{1,2} -> relative{1,2}` at position 1; no
node matches the first slot, and the call returns false without a record. -/
theorem C37_slot_failure_ends_the_call_witness :
    anchorMatches tailOnlyService.heap tailOnlyService.wordsBehind (monitorRule 1 2) 0 1 = true ∧
      [0, 1].filter (slotTest tailOnlyService.heap 0 constraintTypes.monitor [1, 2]) = [] ∧
      ruleAppliesLoop (monitorRule 1 2) [0, 1] [(0, 1), (1, 0), (1, 1)] false tailOnlyService
        = .ok (false, tailOnlyService) ∧
      ruleApplies (some (monitorRule 1 2)) [0, 1] tailOnlyService
        = .ok (false, tailOnlyService) :=
  ⟨by decide, by decide,
    (C37_slot_failure_ends_the_call (monitorRule 1 2) [0, 1] 0 1 [(0, 0)]
      [(1, 0), (1, 1)] false tailOnlyService constraintTypes.monitor
      [constraintTypes.invalid] [1, 2] (by decide) rfl (by decide) rfl (by decide)).1,
    (C37_slot_failure_ends_the_call (monitorRule 1 2) [0, 1] 0 1 [(0, 0)]
      [(1, 0), (1, 1)] false tailOnlyService constraintTypes.monitor
      [constraintTypes.invalid] [1, 2] (by decide) rfl (by decide) rfl (by decide)).2
      rfl (by decide)⟩

/-! ## The de-duplication pass -/

theorem firstEqualOther_skip (heap : Heap) (nodeI i : Nat) :
    ∀ (l1 l2 : List Nat) (j : Nat), (∀ a ∈ l1, nodesEqual heap nodeI a = false) →
      firstEqualOther heap nodeI i j (l1 ++ l2)
        = firstEqualOther heap nodeI i (j + l1.length) l2 := by
  intro l1
  induction l1 with
  | nil =>
    intro l2 j _
    rfl
  | cons a l1 ih =>
    intro l2 j hno
    have ha : nodesEqual heap nodeI a = false := hno a (List.mem_cons_self _ _)
    unfold nodesEqual at ha
    rw [List.cons_append, firstEqualOther]
    simp only [ha, Bool.false_and, Bool.false_eq_true, if_false]
    have hidx : j + 1 + l1.length = j + (a :: l1).length := by
      simp only [List.length_cons]
      omega
    rw [ih l2 (j + 1) (fun b hb => hno b (List.mem_cons_of_mem _ hb)), hidx]

theorem firstEqualOther_none (heap : Heap) (nodeI i : Nat) (l : List Nat) (j : Nat)
    (hno : ∀ a ∈ l, nodesEqual heap nodeI a = false) :
    firstEqualOther heap nodeI i j l = none := by
  have h := firstEqualOther_skip heap nodeI i l [] j hno
  rw [List.append_nil] at h
  rw [h]
  rfl

theorem firstEqualOther_self (heap : Heap) (nodeI i x : Nat) (l : List Nat) :
    firstEqualOther heap nodeI i i (x :: l) = firstEqualOther heap nodeI i (i + 1) l := by
  rw [firstEqualOther]
  simp

theorem firstEqualOther_hit (heap : Heap) (nodeI i j b : Nat) (l : List Nat)
    (hb : nodesEqual heap nodeI b = true) (hij : i ≠ j) :
    firstEqualOther heap nodeI i j (b :: l) = some j := by
  unfold nodesEqual at hb
  unfold firstEqualOther
  simp [hb, hij]

theorem first_true_split {α : Type} (p : α → Bool) :
    ∀ (l : List α), (∀ a ∈ l, p a = false) ∨
      ∃ l1 b l2, l = l1 ++ b :: l2 ∧ (∀ a ∈ l1, p a = false) ∧ p b = true := by
  intro l
  induction l with
  | nil => exact Or.inl (fun a ha => absurd ha (List.not_mem_nil _))
  | cons x l ih =>
    by_cases hx : p x = true
    · exact Or.inr ⟨[], x, l, rfl, fun a ha => absurd ha (List.not_mem_nil _), hx⟩
    · have hxf : p x = false := by
        cases hv : p x
        · rfl
        · exact absurd hv hx
      rcases ih with h | ⟨l1, b, l2, hl, h1, hb⟩
      · left
        intro a ha
        rcases List.mem_cons.mp ha with h2 | h2
        · rw [h2]
          exact hxf
        · exact h a h2
      · right
        refine ⟨x :: l1, b, l2, by rw [hl]; rfl, ?_, hb⟩
        intro a ha
        rcases List.mem_cons.mp ha with h2 | h2
        · rw [h2]
          exact hxf
        · exact h1 a h2

theorem eraseIdx_append_length {α : Type} (b : α) (l2 : List α) :
    ∀ (l1 : List α), (l1 ++ b :: l2).eraseIdx l1.length = l1 ++ l2 := by
  intro l1
  induction l1 with
  | nil => rfl
  | cons a l1 ih =>
    simp only [List.cons_append, List.length_cons, List.eraseIdx_cons_succ, ih]

theorem firstOccurrencesFrom_congr (heap : Heap) :
    ∀ (l e1 e2 : List Nat),
      (∀ y, e1.any (fun a => nodesEqual heap a y) = e2.any (fun a => nodesEqual heap a y)) →
      firstOccurrencesFrom heap e1 l = firstOccurrencesFrom heap e2 l := by
  intro l
  induction l with
  | nil =>
    intro e1 e2 _
    rfl
  | cons x l ih =>
    intro e1 e2 h
    unfold firstOccurrencesFrom
    have hrec : firstOccurrencesFrom heap (e1 ++ [x]) l
        = firstOccurrencesFrom heap (e2 ++ [x]) l := by
      apply ih
      intro y
      simp only [List.any_append, h y]
    rw [h x, hrec]

theorem firstOccurrencesFrom_erase (heap : Heap) (b : Nat) (p2 : List Nat) :
    ∀ (p1 earlier : List Nat), earlier.any (fun a => nodesEqual heap a b) = true →
      firstOccurrencesFrom heap earlier (p1 ++ b :: p2)
        = firstOccurrencesFrom heap earlier (p1 ++ p2) := by
  intro p1
  induction p1 with
  | nil =>
    intro earlier hb
    simp only [List.nil_append]
    rw [firstOccurrencesFrom]
    simp only [hb, if_true]
    apply firstOccurrencesFrom_congr
    intro y
    simp only [List.any_append, List.any_cons, List.any_nil, Bool.or_false]
    cases hby : nodesEqual heap b y
    · simp
    · obtain ⟨a, ha, hab⟩ := List.any_eq_true.mp hb
      have hay : nodesEqual heap a y = true := nodesEqual_trans hab hby
      have : earlier.any (fun a => nodesEqual heap a y) = true :=
        List.any_eq_true.mpr ⟨a, ha, hay⟩
      simp [this]
  | cons y p1 ih =>
    intro earlier hb
    simp only [List.cons_append]
    unfold firstOccurrencesFrom
    have hb1 : (earlier ++ [y]).any (fun a => nodesEqual heap a b) = true := by
      simp only [List.any_append, hb, Bool.true_or]
    rw [ih (earlier ++ [y]) hb1]

/-- The de-duplication loop, entered at index `pre.length` of `pre ++ rest` when
no node of `pre` equals a node of `rest`, leaves `pre` followed by the first
occurrences of `rest`. -/
theorem dedupLoop_spec (heap : Heap) :
    ∀ (fuel : Nat) (pre rest : List Nat),
      (∀ a ∈ pre, ∀ b ∈ rest, nodesEqual heap a b = false) →
      2 * (pre.length + rest.length) ≤ fuel + pre.length →
      dedupLoop heap fuel pre.length (pre ++ rest)
        = .ok (pre ++ firstOccurrencesFrom heap pre rest) := by
  intro fuel
  induction fuel with
  | zero =>
    intro pre rest _ hfuel
    have hrest : rest = [] := by
      apply List.length_eq_zero.mp
      omega
    subst hrest
    unfold dedupLoop
    simp [firstOccurrencesFrom]
  | succ fuel ih =>
    intro pre rest hinv hfuel
    cases rest with
    | nil =>
      unfold dedupLoop
      simp [firstOccurrencesFrom]
    | cons x post =>
      unfold dedupLoop
      have hget : (pre ++ x :: post).get? pre.length = some x := by
        rw [List.get?_eq_getElem?, List.getElem?_append_right (le_refl _)]
        simp
      simp only [hget]
      have hpre : ∀ a ∈ pre, nodesEqual heap x a = false := by
        intro a ha
        rw [nodesEqual_comm]
        exact hinv a ha x (List.mem_cons_self _ _)
      have hscan : firstEqualOther heap x pre.length 0 (pre ++ x :: post)
          = firstEqualOther heap x pre.length (pre.length + 1) post := by
        rw [firstEqualOther_skip heap x pre.length pre (x :: post) 0 hpre, Nat.zero_add,
          firstEqualOther_self]
      have hany : pre.any (fun a => nodesEqual heap a x) = false := by
        rw [List.any_eq_false]
        intro a ha
        rw [hinv a ha x (List.mem_cons_self _ _)]
        simp
      rw [hscan]
      rcases first_true_split (fun b => nodesEqual heap x b) post with hno | ⟨p1, b, p2, hpost, hp1, hb⟩
      · rw [firstEqualOther_none heap x pre.length post _ hno]
        simp only
        have hih := ih (pre ++ [x]) post
          (by
            intro a ha c hc
            rcases List.mem_append.mp ha with h1 | h1
            · exact hinv a h1 c (List.mem_cons_of_mem _ hc)
            · rw [List.mem_singleton.mp h1]
              exact hno c hc)
          (by
            simp only [List.length_append, List.length_cons, List.length_nil] at hfuel ⊢
            omega)
        simp only [List.length_append, List.length_cons, List.length_nil, List.append_assoc,
          List.singleton_append] at hih
        rw [hih]
        rw [firstOccurrencesFrom]
        simp only [hany, Bool.false_eq_true, if_false]
      · rw [hpost, firstEqualOther_skip heap x pre.length p1 (b :: p2) _ hp1,
          firstEqualOther_hit heap x pre.length _ b p2 hb (by omega)]
        simp only
        have herase : (pre ++ x :: (p1 ++ b :: p2)).eraseIdx (pre.length + 1 + p1.length)
            = pre ++ x :: (p1 ++ p2) := by
          have h1 := eraseIdx_append_length b p2 (pre ++ x :: p1)
          simp only [List.length_append, List.length_cons, List.append_assoc,
            List.cons_append] at h1
          have hidx : pre.length + 1 + p1.length = pre.length + (p1.length + 1) := by omega
          rw [hidx]
          exact h1
        rw [herase]
        have hih := ih pre (x :: (p1 ++ p2))
          (by
            intro a ha c hc
            apply hinv a ha c
            rcases List.mem_cons.mp hc with h1 | h1
            · rw [h1]
              exact List.mem_cons_self _ _
            · apply List.mem_cons_of_mem
              rw [hpost]
              rcases List.mem_append.mp h1 with h2 | h2
              · exact List.mem_append_left _ h2
              · exact List.mem_append_right _ (List.mem_cons_of_mem _ h2))
          (by
            rw [hpost] at hfuel
            simp only [List.length_append, List.length_cons] at hfuel ⊢
            omega)
        rw [hih]
        rw [firstOccurrencesFrom, firstOccurrencesFrom]
        simp only [hany, Bool.false_eq_true, if_false]
        rw [firstOccurrencesFrom_erase heap b p2 p1 (pre ++ [x])
          (by simp only [List.any_append, List.any_cons, List.any_nil, hb, Bool.or_false,
            Bool.or_true])]

theorem dedupPass_eq (heap : Heap) (g : List Nat) :
    dedupPass heap g = .ok (firstOccurrences heap g) := by
  have h := dedupLoop_spec heap (2 * g.length) [] g
    (fun a ha => absurd ha (List.not_mem_nil _)) (by simp)
  simpa [dedupPass, firstOccurrences] using h

/-- What stays of a list: a sublist in the original order, no node of which is
equal to a node of `earlier` or to another node that stays. -/
theorem firstOccurrencesFrom_facts (heap : Heap) :
    ∀ (l earlier : List Nat),
      List.Sublist (firstOccurrencesFrom heap earlier l) l ∧
        (∀ y ∈ firstOccurrencesFrom heap earlier l,
          earlier.any (fun a => nodesEqual heap a y) = false) ∧
        (firstOccurrencesFrom heap earlier l).Pairwise
          (fun a b => nodesEqual heap a b = false ∧ nodesEqual heap b a = false) := by
  intro l
  induction l with
  | nil =>
    intro earlier
    exact ⟨List.Sublist.slnil, fun y hy => absurd hy (List.not_mem_nil _), List.Pairwise.nil⟩
  | cons x l ih =>
    intro earlier
    obtain ⟨hsub, hearlier, hpw⟩ := ih (earlier ++ [x])
    have hdrop : ∀ y ∈ firstOccurrencesFrom heap (earlier ++ [x]) l,
        earlier.any (fun a => nodesEqual heap a y) = false ∧ nodesEqual heap x y = false := by
      intro y hy
      have h1 := hearlier y hy
      simp only [List.any_append, List.any_cons, List.any_nil, Bool.or_false,
        Bool.or_eq_false_iff] at h1
      exact h1
    unfold firstOccurrencesFrom
    by_cases hx : earlier.any (fun a => nodesEqual heap a x) = true
    · simp only [hx, if_true]
      exact ⟨List.Sublist.cons _ hsub, fun y hy => (hdrop y hy).1, hpw⟩
    · have hxf : earlier.any (fun a => nodesEqual heap a x) = false := by
        cases hv : earlier.any (fun a => nodesEqual heap a x)
        · rfl
        · exact absurd hv hx
      simp only [hxf, Bool.false_eq_true, if_false]
      refine ⟨List.Sublist.cons₂ _ hsub, ?_, ?_⟩
      · intro y hy
        rcases List.mem_cons.mp hy with h1 | h1
        · rw [h1]
          exact hxf
        · exact (hdrop y h1).1
      · rw [List.pairwise_cons]
        refine ⟨?_, hpw⟩
        intro y hy
        refine ⟨(hdrop y hy).2, ?_⟩
        rw [nodesEqual_comm]
        exact (hdrop y hy).2

theorem firstOccurrencesFrom_id (heap : Heap) :
    ∀ (l earlier : List Nat), (∀ a ∈ earlier, ∀ b ∈ l, nodesEqual heap a b = false) →
      l.Pairwise (fun a b => nodesEqual heap a b = false) →
      firstOccurrencesFrom heap earlier l = l := by
  intro l
  induction l with
  | nil =>
    intro earlier _ _
    rfl
  | cons x l ih =>
    intro earlier hno hpw
    rw [List.pairwise_cons] at hpw
    have hany : earlier.any (fun a => nodesEqual heap a x) = false := by
      rw [List.any_eq_false]
      intro a ha
      rw [hno a ha x (List.mem_cons_self _ _)]
      simp
    unfold firstOccurrencesFrom
    simp only [hany, Bool.false_eq_true, if_false]
    rw [ih (earlier ++ [x]) ?_ hpw.2]
    intro a ha b hb
    rcases List.mem_append.mp ha with h1 | h1
    · exact hno a h1 b (List.mem_cons_of_mem _ hb)
    · rw [List.mem_singleton.mp h1]
      exact hpw.1 b hb

/-! ## Where the nodes of the working graph come from -/

theorem rejectCentroid_fields {st st1 : Assignor} {sv : Service} {g : List Nat} {cursor : Nat}
    {b : Bool} (h : rejectCentroid st sv g cursor b = .ok st1) :
    st1.service = sv ∧ st1.constraintGraph = g ∧ st1.centroidTaskToTry = cursor ∧
      st1.centroidOptions = st.centroidOptions ∧ st1.monitorOptions = st.monitorOptions ∧
      st1.monitorTaskToTry = st.monitorTaskToTry ∧
      st1.centroidsAssigned = st.centroidsAssigned ∧
      st1.monitorsAssigned = st.monitorsAssigned := by
  unfold rejectCentroid at h
  split at h
  · cases h
  · simp only [Except.ok.injEq] at h
    subst h
    exact ⟨rfl, rfl, rfl, rfl, rfl, rfl, rfl, rfl⟩

theorem rejectMonitor_fields {st st1 : Assignor} {sv : Service} {g : List Nat} {cursor : Nat}
    {b : Bool} (h : rejectMonitor st sv g cursor b = .ok st1) :
    st1.service = sv ∧ st1.constraintGraph = g ∧ st1.monitorTaskToTry = cursor ∧
      st1.centroidOptions = st.centroidOptions ∧ st1.monitorOptions = st.monitorOptions ∧
      st1.centroidTaskToTry = st.centroidTaskToTry ∧
      st1.centroidsAssigned = st.centroidsAssigned ∧
      st1.monitorsAssigned = st.monitorsAssigned := by
  unfold rejectMonitor at h
  split at h
  · cases h
  · simp only [Except.ok.injEq] at h
    subst h
    exact ⟨rfl, rfl, rfl, rfl, rfl, rfl, rfl, rfl⟩

theorem tentativeCheck_heap {cf : Nat} {st : Assignor} {c : constraint} {v : Verdict}
    (hv : tentativeCheck cf st c = .ok v) :
    HeapExtends (st.service.heap ++ [leafNode c]) v.service.heap := by
  unfold tentativeCheck at hv
  exact (checkCompatibility_frame cf _ _ v hv).1.1

/-- Every return of a centroid turn: the cursor of the centroid pool has moved
by one, the heap extends the heap with the candidate allocated, and the
candidate node was appended to the graph and counted, or the graph and the
counter are as before. -/
theorem centroidTurn_summary {cf : Nat} {st st1 : Assignor}
    (h : centroidTurn cf st = .ok st1) :
    ∃ c, candidate st st.centroidOptions st.centroidTaskToTry = some c ∧
      HeapExtends (st.service.heap ++ [leafNode c]) st1.service.heap ∧
      st1.centroidOptions = st.centroidOptions ∧ st1.monitorOptions = st.monitorOptions ∧
      st1.centroidTaskToTry = st.centroidTaskToTry + 1 ∧
      st1.monitorTaskToTry = st.monitorTaskToTry ∧
      st1.monitorsAssigned = st.monitorsAssigned ∧
      ((st1.constraintGraph = st.constraintGraph ∧
          st1.centroidsAssigned = st.centroidsAssigned) ∨
        (st1.constraintGraph = st.constraintGraph ++ [st.service.heap.length] ∧
          st1.centroidsAssigned = st.centroidsAssigned + 1)) := by
  unfold centroidTurn at h
  cases hc : candidate st st.centroidOptions st.centroidTaskToTry with
  | none =>
    simp only [hc] at h
    cases h
  | some c =>
    simp only [hc] at h
    cases hv : tentativeCheck cf st c with
    | error e =>
      simp only [hv] at h
      cases h
    | ok v =>
      simp only [hv] at h
      have hext := tentativeCheck_heap hv
      have hrej : ∀ b, rejectCentroid st v.service st.constraintGraph
          (st.centroidTaskToTry + 1) b = .ok st1 →
          ∃ c1, some c = some c1 ∧
            HeapExtends (st.service.heap ++ [leafNode c1]) st1.service.heap ∧
            st1.centroidOptions = st.centroidOptions ∧
            st1.monitorOptions = st.monitorOptions ∧
            st1.centroidTaskToTry = st.centroidTaskToTry + 1 ∧
            st1.monitorTaskToTry = st.monitorTaskToTry ∧
            st1.monitorsAssigned = st.monitorsAssigned ∧
            ((st1.constraintGraph = st.constraintGraph ∧
                st1.centroidsAssigned = st.centroidsAssigned) ∨
              (st1.constraintGraph = st.constraintGraph ++ [st.service.heap.length] ∧
                st1.centroidsAssigned = st.centroidsAssigned + 1)) := by
        intro b hr
        obtain ⟨f1, f2, f3, f4, f5, f6, f7, f8⟩ := rejectCentroid_fields hr
        exact ⟨c, rfl, by rw [f1]; exact hext, f4, f5, f3, f6, f8, Or.inl ⟨f2, f7⟩⟩
      have hkeep : ∀ x, st1 = keepCentroid st v.service x →
          ∃ c1, some c = some c1 ∧
            HeapExtends (st.service.heap ++ [leafNode c1]) st1.service.heap ∧
            st1.centroidOptions = st.centroidOptions ∧
            st1.monitorOptions = st.monitorOptions ∧
            st1.centroidTaskToTry = st.centroidTaskToTry + 1 ∧
            st1.monitorTaskToTry = st.monitorTaskToTry ∧
            st1.monitorsAssigned = st.monitorsAssigned ∧
            ((st1.constraintGraph = st.constraintGraph ∧
                st1.centroidsAssigned = st.centroidsAssigned) ∨
              (st1.constraintGraph = st.constraintGraph ++ [st.service.heap.length] ∧
                st1.centroidsAssigned = st.centroidsAssigned + 1)) := by
        intro x hx
        subst hx
        exact ⟨c, rfl, hext, rfl, rfl, rfl, rfl, rfl, Or.inr ⟨rfl, rfl⟩⟩
      split at h
      · split at h
        · split at h
          · simp only [Except.ok.injEq] at h
            exact hkeep _ h.symm
          · split at h
            · simp only [Except.ok.injEq] at h
              exact hkeep _ h.symm
            · exact hrej _ h
        · cases h
      · exact hrej _ h

/-- Every return of a monitor turn, as `centroidTurn_summary`. -/
theorem monitorTurn_summary {cf : Nat} {st st1 : Assignor}
    (h : monitorTurn cf st = .ok st1) :
    ∃ c, candidate st st.monitorOptions st.monitorTaskToTry = some c ∧
      HeapExtends (st.service.heap ++ [leafNode c]) st1.service.heap ∧
      st1.centroidOptions = st.centroidOptions ∧ st1.monitorOptions = st.monitorOptions ∧
      st1.monitorTaskToTry = st.monitorTaskToTry + 1 ∧
      st1.centroidTaskToTry = st.centroidTaskToTry ∧
      st1.centroidsAssigned = st.centroidsAssigned ∧
      ((st1.constraintGraph = st.constraintGraph ∧
          st1.monitorsAssigned = st.monitorsAssigned) ∨
        (st1.constraintGraph = st.constraintGraph ++ [st.service.heap.length] ∧
          st1.monitorsAssigned = st.monitorsAssigned + 1)) := by
  unfold monitorTurn at h
  cases hc : candidate st st.monitorOptions st.monitorTaskToTry with
  | none =>
    simp only [hc] at h
    cases h
  | some c =>
    simp only [hc] at h
    split at h
    · cases h
    · split at h
      · obtain ⟨f1, f2, f3, f4, f5, f6, f7, f8⟩ := rejectMonitor_fields h
        exact ⟨c, rfl, by rw [f1]; exact heapExtends_refl _, f4, f5, f3, f6, f7,
          Or.inl ⟨f2, f8⟩⟩
      · cases hv : tentativeCheck cf st c with
        | error e =>
          simp only [hv] at h
          cases h
        | ok v =>
          simp only [hv] at h
          have hext := tentativeCheck_heap hv
          split at h
          · simp only [Except.ok.injEq] at h
            subst h
            exact ⟨c, rfl, hext, rfl, rfl, rfl, rfl, rfl, Or.inr ⟨rfl, rfl⟩⟩
          · obtain ⟨f1, f2, f3, f4, f5, f6, f7, f8⟩ := rejectMonitor_fields h
            exact ⟨c, rfl, by rw [f1]; exact hext, f4, f5, f3, f6, f7, Or.inl ⟨f2, f8⟩⟩

theorem take_succ_of_get? {α : Type} (c : α) :
    ∀ (l : List α) (i : Nat), l.get? i = some c → l.take (i + 1) = l.take i ++ [c] := by
  intro l
  induction l with
  | nil =>
    intro i h
    cases h
  | cons a l ih =>
    intro i h
    cases i with
    | zero =>
      simp only [List.get?_cons_zero, Option.some.injEq] at h
      simp [h]
    | succ i =>
      simp only [List.get?_cons_succ] at h
      simp only [List.take_succ_cons, List.cons_append, ih i h]

/-- The candidate a cursor points at is the constraint the pool node had at the
start. -/
theorem candidate_of_pool {heap0 : Heap} {st : Assignor} {options : List Nat} {cursor : Nat}
    {c : constraint} (hvalid : ∀ o ∈ options, o < heap0.length)
    (hext : HeapExtends heap0 st.service.heap)
    (hc : candidate st options cursor = some c) :
    (constraintsOf heap0 options).get? cursor = some c := by
  unfold candidate at hc
  unfold constraintsOf
  rw [List.get?_eq_getElem?, List.getElem?_map, ← List.get?_eq_getElem?]
  cases ho : options.get? cursor with
  | none =>
    rw [ho] at hc
    cases hc
  | some o =>
    rw [ho] at hc
    simp only [Option.map_some', Option.some.injEq] at hc ⊢
    rw [← hc]
    exact ((hext.2 o (hvalid o (List.get?_mem ho))).1).symm

/-- What a turn that moved the cursor of one pool does to the provenance of the
graph; `own` and `other` are the selections from the pool of the turn and from
the other pool. -/
theorem provenance_step {h h1 : Heap} {graph graph1 : List Nat} {c : constraint}
    {own other pool : List constraint} {cursor : Nat} {count count1 : Int}
    (hgv : ∀ p ∈ graph, p < h.length)
    (hext1 : HeapExtends (h ++ [leafNode c]) h1)
    (hget : pool.get? cursor = some c)
    (hown : List.Sublist own (pool.take cursor))
    (hperm : (constraintsOf h graph).Perm (own ++ other))
    (hcount : (own.length : Int) = count)
    (hor : (graph1 = graph ∧ count1 = count) ∨
      (graph1 = graph ++ [h.length] ∧ count1 = count + 1)) :
    HeapExtends h h1 ∧ (∀ p ∈ graph1, p < h1.length) ∧
      ∃ own1, List.Sublist own1 (pool.take (cursor + 1)) ∧
        (constraintsOf h1 graph1).Perm (own1 ++ other) ∧ (own1.length : Int) = count1 := by
  have hext2 : HeapExtends h h1 := heapExtends_trans (heapExtends_append _ _) hext1
  have hlen : h.length < h1.length := by
    have := hext1.1
    simp only [List.length_append, List.length_cons, List.length_nil] at this
    omega
  have hold : constraintsOf h1 graph = constraintsOf h graph := by
    unfold constraintsOf
    apply List.map_congr_left
    intro p hp
    exact (hext2.2 p (hgv p hp)).1
  have hnew : (deref h1 h.length).data = c := by
    rw [(hext1.2 h.length (by simp)).1, deref_append_length]
    rfl
  have htake := take_succ_of_get? c pool cursor hget
  refine ⟨hext2, ?_, ?_⟩
  · intro p hp
    rcases hor with ⟨hg, _⟩ | ⟨hg, _⟩
    · rw [hg] at hp
      exact lt_trans (hgv p hp) hlen
    · rw [hg] at hp
      rcases List.mem_append.mp hp with h2 | h2
      · exact lt_trans (hgv p h2) hlen
      · rw [List.mem_singleton.mp h2]
        exact hlen
  · rcases hor with ⟨hg, hcnt⟩ | ⟨hg, hcnt⟩
    · refine ⟨own, ?_, ?_, by rw [hcnt]; exact hcount⟩
      · rw [htake]
        exact hown.trans (List.sublist_append_left _ _)
      · rw [hg, hold]
        exact hperm
    · refine ⟨own ++ [c], ?_, ?_, ?_⟩
      · rw [htake]
        exact List.Sublist.append hown (List.Sublist.refl _)
      · rw [hg]
        unfold constraintsOf at hold ⊢
        rw [List.map_append, hold, List.map_cons, List.map_nil, hnew]
        unfold constraintsOf at hperm
        calc (List.map (fun p => (deref h p).data) graph ++ [c]).Perm ((own ++ other) ++ [c]) :=
              List.Perm.append_right _ hperm
          _ = own ++ (other ++ [c]) := List.append_assoc _ _ _
          _ |>.Perm (own ++ ([c] ++ other)) :=
              List.Perm.append_left _ List.perm_append_comm
          _ = (own ++ [c]) ++ other := (List.append_assoc _ _ _).symm
      · rw [hcnt, ← hcount]
        simp

theorem keptFromPools_centroidTurn {heap0 : Heap} {cOpts mOpts : List Nat} {cf : Nat}
    {st st1 : Assignor} (hvalid : ∀ o ∈ cOpts, o < heap0.length)
    (hk : KeptFromPools heap0 cOpts mOpts st) (h : centroidTurn cf st = .ok st1) :
    KeptFromPools heap0 cOpts mOpts st1 := by
  obtain ⟨hco, hmo, hext, hgv, gc, gm, hgc, hgm, hperm, hcl, hml⟩ := hk
  obtain ⟨c, hcand, hext1, ho1, ho2, hcur, hmcur, hma, hor⟩ := centroidTurn_summary h
  rw [hco] at hcand
  have hget := candidate_of_pool hvalid hext hcand
  obtain ⟨hext2, hgv1, own1, hown1, hperm1, hcount1⟩ :=
    provenance_step hgv hext1 hget hgc hperm hcl hor
  refine ⟨by rw [ho1, hco], by rw [ho2, hmo], heapExtends_trans hext hext2, hgv1,
    own1, gm, by rw [hcur]; exact hown1, by rw [hmcur]; exact hgm, hperm1, hcount1,
    by rw [hma]; exact hml⟩

theorem keptFromPools_monitorTurn {heap0 : Heap} {cOpts mOpts : List Nat} {cf : Nat}
    {st st1 : Assignor} (hvalid : ∀ o ∈ mOpts, o < heap0.length)
    (hk : KeptFromPools heap0 cOpts mOpts st) (h : monitorTurn cf st = .ok st1) :
    KeptFromPools heap0 cOpts mOpts st1 := by
  obtain ⟨hco, hmo, hext, hgv, gc, gm, hgc, hgm, hperm, hcl, hml⟩ := hk
  obtain ⟨c, hcand, hext1, ho1, ho2, hcur, hccur, hca, hor⟩ := monitorTurn_summary h
  rw [hmo] at hcand
  have hget := candidate_of_pool hvalid hext hcand
  obtain ⟨hext2, hgv1, own1, hown1, hperm1, hcount1⟩ :=
    provenance_step hgv hext1 hget hgm (hperm.trans List.perm_append_comm) hml hor
  refine ⟨by rw [ho1, hco], by rw [ho2, hmo], heapExtends_trans hext hext2, hgv1,
    gc, own1, by rw [hccur]; exact hgc, by rw [hcur]; exact hown1,
    hperm1.trans List.perm_append_comm, by rw [hca]; exact hcl, hcount1⟩

theorem keptFromPools_later {heap0 : Heap} {cOpts mOpts : List Nat} {cf : Nat}
    {st st1 : Assignor} (hc : ∀ o ∈ cOpts, o < heap0.length)
    (hm : ∀ o ∈ mOpts, o < heap0.length) (hk : KeptFromPools heap0 cOpts mOpts st)
    (h : Later cf st st1) : KeptFromPools heap0 cOpts mOpts st1 := by
  induction h with
  | same => exact hk
  | centroid _ ht ih => exact keptFromPools_centroidTurn hc ih ht
  | monitor _ ht ih => exact keptFromPools_monitorTurn hm ih ht

theorem keptFromPools_start (heap : Heap) (behind : List constraintTypes)
    (rules : List inferenceRule)
    (cOpts mOpts : List Nat) :
    KeptFromPools heap cOpts mOpts (startState heap behind rules cOpts mOpts) :=
  ⟨rfl, rfl, heapExtends_refl _, fun _ hp => absurd hp (List.not_mem_nil _), [], [],
    List.nil_sublist _, List.nil_sublist _, List.Perm.refl _, rfl, rfl⟩

/-- The state in which the assignor loop stops, started by `start`, has the
provenance `KeptFromPools`. -/
theorem assignorLoop_kept (cf fuel : Nat) (heap : Heap) (behind : List constraintTypes)
    (rules : List inferenceRule)
    (cOpts mOpts : List Nat) (st1 : Assignor) (hc : ∀ o ∈ cOpts, o < heap.length)
    (hm : ∀ o ∈ mOpts, o < heap.length)
    (h : assignorLoop cf fuel (startState heap behind rules cOpts mOpts) = .ok st1) :
    KeptFromPools heap cOpts mOpts st1 :=
  keptFromPools_later hc hm (keptFromPools_start heap behind rules cOpts mOpts)
    (assignorLoop_later cf fuel _ _ h)

theorem kept_length {heap0 : Heap} {cOpts mOpts : List Nat} {st : Assignor}
    (hk : KeptFromPools heap0 cOpts mOpts st) :
    (st.constraintGraph.length : Int) = st.centroidsAssigned + st.monitorsAssigned := by
  obtain ⟨_, _, _, _, gc, gm, _, _, hperm, hcl, hml⟩ := hk
  have h1 := hperm.length_eq
  unfold constraintsOf at h1
  rw [List.length_map, List.length_append] at h1
  rw [h1, ← hcl, ← hml]
  push_cast
  rfl

theorem kept_mem {heap0 : Heap} {cOpts mOpts : List Nat} {st : Assignor}
    (hk : KeptFromPools heap0 cOpts mOpts st) :
    ∀ p ∈ st.constraintGraph, ∃ o ∈ cOpts ++ mOpts,
      (deref st.service.heap p).data = (deref heap0 o).data := by
  obtain ⟨_, _, _, _, gc, gm, hgc, hgm, hperm, _, _⟩ := hk
  intro p hp
  have h1 : (deref st.service.heap p).data ∈ constraintsOf st.service.heap st.constraintGraph :=
    List.mem_map.mpr ⟨p, hp, rfl⟩
  have h2 := hperm.subset h1
  rcases List.mem_append.mp h2 with h3 | h3
  · have h4 := (List.take_sublist _ _).subset (hgc.subset h3)
    obtain ⟨o, ho, hdata⟩ := List.mem_map.mp h4
    exact ⟨o, List.mem_append_left _ ho, hdata.symm⟩
  · have h4 := (List.take_sublist _ _).subset (hgm.subset h3)
    obtain ⟨o, ho, hdata⟩ := List.mem_map.mp h4
    exact ⟨o, List.mem_append_right _ ho, hdata.symm⟩

theorem distinctConstraints_symm {a b : constraint} (h : distinctConstraints a b) :
    distinctConstraints b a := by
  unfold distinctConstraints at h ⊢
  rw [← constraintsEqual_engine_comm]
  exact h

theorem distinctConstraints_of_type {a b : constraint} (h : a.type ≠ b.type) :
    distinctConstraints a b := by
  unfold distinctConstraints constraintsEqual
  simp [h]

/-- When the two pools are pairwise distinct, so is the graph. -/
theorem kept_pairwise {heap0 : Heap} {cOpts mOpts : List Nat} {st : Assignor}
    (hk : KeptFromPools heap0 cOpts mOpts st)
    (hcd : (constraintsOf heap0 cOpts).Pairwise distinctConstraints)
    (hmd : (constraintsOf heap0 mOpts).Pairwise distinctConstraints)
    (hct : ∀ c ∈ constraintsOf heap0 cOpts, c.type = constraintTypes.centroid)
    (hmt : ∀ c ∈ constraintsOf heap0 mOpts, c.type = constraintTypes.monitor) :
    st.constraintGraph.Pairwise (fun a b => nodesEqual st.service.heap a b = false) := by
  obtain ⟨_, _, _, _, gc, gm, hgc, hgm, hperm, _, _⟩ := hk
  have hall : (constraintsOf heap0 cOpts ++ constraintsOf heap0 mOpts).Pairwise
      distinctConstraints := by
    rw [List.pairwise_append]
    refine ⟨hcd, hmd, ?_⟩
    intro a ha b hb
    apply distinctConstraints_of_type
    rw [hct a ha, hmt b hb]
    decide
  have hsub : List.Sublist (gc ++ gm)
      (constraintsOf heap0 cOpts ++ constraintsOf heap0 mOpts) :=
    List.Sublist.append (hgc.trans (List.take_sublist _ _)) (hgm.trans (List.take_sublist _ _))
  have hsel : (gc ++ gm).Pairwise distinctConstraints := hall.sublist hsub
  have hgraph : (constraintsOf st.service.heap st.constraintGraph).Pairwise
      distinctConstraints :=
    (hperm.pairwise_iff (fun h => distinctConstraints_symm h)).mpr hsel
  unfold constraintsOf at hgraph
  rw [List.pairwise_map] at hgraph
  exact hgraph

/-! ## Claims on the assignor loop and its output -/

/-! ## The cursors of the assignor loop -/

theorem head?_set_succ {α : Type} (l : List α) (k : Nat) (x : α) :
    (l.set (k + 1) x).head? = l.head? := by
  cases l <;> rfl

theorem vectorContainsInt_head {x : Int} {l : List Int} (h : l.head? = some x) :
    vectorContainsInt x l = true := by
  cases l with
  | nil => cases h
  | cons y l =>
    simp only [List.head?_cons, Option.some.injEq] at h
    unfold vectorContainsInt
    simp [h]

theorem rejectCentroid_state {st st1 : Assignor} {sv : Service} {g : List Nat} {k : Nat}
    {b : Bool} (hhead : st.centroidTasksTried.head? = some 0)
    (h : rejectCentroid st sv g (k + 1) b = .ok st1) :
    st1 = { st with service := sv, constraintGraph := g, centroidTaskToTry := k + 1,
                    centroidTasksTried := st.centroidTasksTried.set (k + 1) 1,
                    continueLoopCentroid := b } := by
  unfold rejectCentroid writeAt at h
  split at h
  · cases h
  · rename_i tried hw
    split at hw
    · simp only [Except.ok.injEq] at hw
      subst hw
      have hc : vectorContainsInt 0 (st.centroidTasksTried.set (k + 1) 1) = true :=
        vectorContainsInt_head (by rw [head?_set_succ]; exact hhead)
      simp only [hc, Bool.not_true, Bool.false_eq_true, if_false, Except.ok.injEq] at h
      exact h.symm
    · cases hw

theorem rejectMonitor_state {st st1 : Assignor} {sv : Service} {g : List Nat} {k : Nat}
    {b : Bool} (hhead : st.monitorTasksTried.head? = some 0)
    (h : rejectMonitor st sv g (k + 1) b = .ok st1) :
    st1 = { st with service := sv, constraintGraph := g, monitorTaskToTry := k + 1,
                    monitorTasksTried := st.monitorTasksTried.set (k + 1) 1,
                    continueLoopMonitor := b } := by
  unfold rejectMonitor writeAt at h
  split at h
  · cases h
  · rename_i tried hw
    split at hw
    · simp only [Except.ok.injEq] at hw
      subst hw
      have hc : vectorContainsInt 0 (st.monitorTasksTried.set (k + 1) 1) = true :=
        vectorContainsInt_head (by rw [head?_set_succ]; exact hhead)
      simp only [hc, Bool.not_true, Bool.false_eq_true, if_false, Except.ok.injEq] at h
      exact h.symm
    · cases hw

theorem flag_after {cursor n : Nat} (hlt : cursor < n) :
    ((if cursor + 1 = n then false else true) = true ↔ cursor + 1 < n) := by
  by_cases h : cursor + 1 = n
  · simp only [h, if_true, Bool.false_eq_true, false_iff]
    omega
  · simp only [h, if_false, true_iff]
    omega

/-- A centroid turn entered with the flag set moves the centroid cursor by one
and keeps the bookkeeping. -/
theorem cursors_centroidTurn {nc nm cf : Nat} {st st1 : Assignor} (hk : Cursors nc nm st)
    (hflag : st.continueLoopCentroid = true) (h : centroidTurn cf st = .ok st1) :
    Cursors nc nm st1 ∧ st1.centroidTaskToTry = st.centroidTaskToTry + 1 ∧
      st1.monitorTaskToTry = st.monitorTaskToTry := by
  obtain ⟨hnc, hnm, hhc, hhm, hcl, hml, hfc, hfm⟩ := hk
  have hlt : st.centroidTaskToTry < nc := hfc.mp hflag
  have hkeep : ∀ sv x, st1 = keepCentroid st sv x →
      Cursors nc nm st1 ∧ st1.centroidTaskToTry = st.centroidTaskToTry + 1 ∧
        st1.monitorTaskToTry = st.monitorTaskToTry := by
    intro sv x hx
    subst hx
    refine ⟨⟨hnc, hnm, hhc, hhm, ?_, hml, ?_, hfm⟩, rfl, rfl⟩
    · show st.centroidTaskToTry + 1 ≤ nc
      omega
    · show (if st.centroidTaskToTry + 1 = st.centroidOptions.length then false
        else st.continueLoopCentroid) = true ↔ st.centroidTaskToTry + 1 < nc
      rw [hnc, hflag]
      exact flag_after hlt
  have hrej : ∀ sv, rejectCentroid st sv st.constraintGraph (st.centroidTaskToTry + 1)
      (if st.centroidTaskToTry + 1 = st.centroidOptions.length then false
        else st.continueLoopCentroid) = .ok st1 →
      Cursors nc nm st1 ∧ st1.centroidTaskToTry = st.centroidTaskToTry + 1 ∧
        st1.monitorTaskToTry = st.monitorTaskToTry := by
    intro sv hr
    have hst := rejectCentroid_state hhc hr
    subst hst
    refine ⟨⟨hnc, hnm, ?_, hhm, ?_, hml, ?_, hfm⟩, rfl, rfl⟩
    · show (st.centroidTasksTried.set (st.centroidTaskToTry + 1) 1).head? = some 0
      rw [head?_set_succ]
      exact hhc
    · show st.centroidTaskToTry + 1 ≤ nc
      omega
    · show (if st.centroidTaskToTry + 1 = st.centroidOptions.length then false
        else st.continueLoopCentroid) = true ↔ st.centroidTaskToTry + 1 < nc
      rw [hnc, hflag]
      exact flag_after hlt
  unfold centroidTurn at h
  split at h
  · cases h
  · split at h
    · cases h
    · rename_i v _
      split at h
      · split at h
        · split at h
          · simp only [Except.ok.injEq] at h
            exact hkeep _ _ h.symm
          · split at h
            · simp only [Except.ok.injEq] at h
              exact hkeep _ _ h.symm
            · exact hrej _ h
        · cases h
      · exact hrej _ h

/-- A monitor turn entered with the flag set moves the monitor cursor by one and
keeps the bookkeeping. -/
theorem cursors_monitorTurn {nc nm cf : Nat} {st st1 : Assignor} (hk : Cursors nc nm st)
    (hflag : st.continueLoopMonitor = true) (h : monitorTurn cf st = .ok st1) :
    Cursors nc nm st1 ∧ st1.monitorTaskToTry = st.monitorTaskToTry + 1 ∧
      st1.centroidTaskToTry = st.centroidTaskToTry := by
  obtain ⟨hnc, hnm, hhc, hhm, hcl, hml, hfc, hfm⟩ := hk
  have hlt : st.monitorTaskToTry < nm := hfm.mp hflag
  have hkeep : ∀ sv x, st1 = keepMonitor st sv x →
      Cursors nc nm st1 ∧ st1.monitorTaskToTry = st.monitorTaskToTry + 1 ∧
        st1.centroidTaskToTry = st.centroidTaskToTry := by
    intro sv x hx
    subst hx
    refine ⟨⟨hnc, hnm, hhc, hhm, hcl, ?_, hfc, ?_⟩, rfl, rfl⟩
    · show st.monitorTaskToTry + 1 ≤ nm
      omega
    · show (if st.monitorTaskToTry + 1 = st.monitorOptions.length then false
        else st.continueLoopMonitor) = true ↔ st.monitorTaskToTry + 1 < nm
      rw [hnm, hflag]
      exact flag_after hlt
  have hrej : ∀ sv, rejectMonitor st sv st.constraintGraph (st.monitorTaskToTry + 1)
      (if st.monitorTaskToTry + 1 = st.monitorOptions.length then false
        else st.continueLoopMonitor) = .ok st1 →
      Cursors nc nm st1 ∧ st1.monitorTaskToTry = st.monitorTaskToTry + 1 ∧
        st1.centroidTaskToTry = st.centroidTaskToTry := by
    intro sv hr
    have hst := rejectMonitor_state hhm hr
    subst hst
    refine ⟨⟨hnc, hnm, hhc, ?_, hcl, ?_, hfc, ?_⟩, rfl, rfl⟩
    · show (st.monitorTasksTried.set (st.monitorTaskToTry + 1) 1).head? = some 0
      rw [head?_set_succ]
      exact hhm
    · show st.monitorTaskToTry + 1 ≤ nm
      omega
    · show (if st.monitorTaskToTry + 1 = st.monitorOptions.length then false
        else st.continueLoopMonitor) = true ↔ st.monitorTaskToTry + 1 < nm
      rw [hnm, hflag]
      exact flag_after hlt
  unfold monitorTurn at h
  split at h
  · cases h
  · split at h
    · cases h
    · split at h
      · exact hrej _ h
      · split at h
        · cases h
        · split at h
          · simp only [Except.ok.injEq] at h
            exact hkeep _ _ h.symm
          · exact hrej _ h

/-- One round of the loop moves the cursor of every pool that is not exhausted
by one. -/
theorem cursors_round {nc nm cf : Nat} {st st1 : Assignor} (hk : Cursors nc nm st)
    (h : assignorRound cf st = .ok st1) :
    Cursors nc nm st1 ∧
      st1.centroidTaskToTry = (if st.centroidTaskToTry < nc then st.centroidTaskToTry + 1
        else st.centroidTaskToTry) ∧
      st1.monitorTaskToTry = (if st.monitorTaskToTry < nm then st.monitorTaskToTry + 1
        else st.monitorTaskToTry) := by
  unfold assignorRound at h
  by_cases hc : st.continueLoopCentroid = true
  · have hltc : st.centroidTaskToTry < nc := hk.2.2.2.2.2.2.1.mp hc
    simp only [hc, if_true] at h
    cases hct : centroidTurn cf st with
    | error e =>
      simp only [hct] at h
      cases h
    | ok st2 =>
      simp only [hct] at h
      obtain ⟨hk2, hc2, hm2⟩ := cursors_centroidTurn hk hc hct
      by_cases hm : st2.continueLoopMonitor = true
      · have hltm : st2.monitorTaskToTry < nm := hk2.2.2.2.2.2.2.2.mp hm
        simp only [hm, if_true] at h
        obtain ⟨hk3, hm3, hc3⟩ := cursors_monitorTurn hk2 hm h
        refine ⟨hk3, ?_, ?_⟩
        · rw [hc3, hc2, if_pos hltc]
        · rw [hm3, hm2, if_pos (by rw [← hm2]; exact hltm)]
      · simp only [hm, Bool.false_eq_true, if_false, Except.ok.injEq] at h
        subst h
        have hnlt : ¬ st2.monitorTaskToTry < nm := fun hlt => hm (hk2.2.2.2.2.2.2.2.mpr hlt)
        refine ⟨hk2, ?_, ?_⟩
        · rw [hc2, if_pos hltc]
        · rw [hm2] at hnlt ⊢
          rw [if_neg hnlt]
  · have hnltc : ¬ st.centroidTaskToTry < nc := fun hlt => hc (hk.2.2.2.2.2.2.1.mpr hlt)
    simp only [hc, Bool.false_eq_true, if_false] at h
    by_cases hm : st.continueLoopMonitor = true
    · have hltm : st.monitorTaskToTry < nm := hk.2.2.2.2.2.2.2.mp hm
      simp only [hm, if_true] at h
      obtain ⟨hk3, hm3, hc3⟩ := cursors_monitorTurn hk hm h
      refine ⟨hk3, ?_, ?_⟩
      · rw [hc3, if_neg hnltc]
      · rw [hm3, if_pos hltm]
    · simp only [hm, Bool.false_eq_true, if_false, Except.ok.injEq] at h
      subst h
      have hnltm : ¬ st.monitorTaskToTry < nm := fun hlt => hm (hk.2.2.2.2.2.2.2.mpr hlt)
      exact ⟨hk, by rw [if_neg hnltc], by rw [if_neg hnltm]⟩

theorem cursors_guard {nc nm : Nat} {st : Assignor} (hk : Cursors nc nm st) :
    ((st.continueLoopCentroid || st.continueLoopMonitor) = true ↔
      st.centroidTaskToTry < nc ∨ st.monitorTaskToTry < nm) := by
  rw [Bool.or_eq_true, hk.2.2.2.2.2.2.1, hk.2.2.2.2.2.2.2]

/-- When the loop stops, both cursors are at the end of their pools, and the
number of rounds allowed was at least the number of candidates each cursor had
before it. -/
theorem assignorLoop_cursors (nc nm cf fuel : Nat) :
    ∀ (st st1 : Assignor), Cursors nc nm st → assignorLoop cf fuel st = .ok st1 →
      st1.centroidTaskToTry = nc ∧ st1.monitorTaskToTry = nm ∧
        nc - st.centroidTaskToTry ≤ fuel ∧ nm - st.monitorTaskToTry ≤ fuel := by
  induction fuel with
  | zero =>
    intro st st1 hk h
    unfold assignorLoop at h
    split at h
    · cases h
    · rename_i hg
      simp only [Except.ok.injEq] at h
      subst h
      have hno := (not_congr (cursors_guard hk)).mp hg
      have h1 := hk.2.2.2.2.1
      have h2 := hk.2.2.2.2.2.1
      omega
  | succ fuel ih =>
    intro st st1 hk h
    unfold assignorLoop at h
    split at h
    · cases hr : assignorRound cf st with
      | error e =>
        simp only [hr] at h
        cases h
      | ok st2 =>
        simp only [hr] at h
        obtain ⟨hk2, hc2, hm2⟩ := cursors_round hk hr
        obtain ⟨e1, e2, e3, e4⟩ := ih st2 st1 hk2 h
        refine ⟨e1, e2, ?_, ?_⟩
        · rw [hc2] at e3
          split at e3 <;> omega
        · rw [hm2] at e4
          split at e4 <;> omega
    · rename_i hg
      simp only [Except.ok.injEq] at h
      subst h
      have hno := (not_congr (cursors_guard hk)).mp hg
      have h1 := hk.2.2.2.2.1
      have h2 := hk.2.2.2.2.2.1
      omega

/-- A budget of rounds that covers what is left of both pools can be raised
without changing the outcome. -/
theorem assignorLoop_fuel_succ (nc nm cf fuel : Nat) :
    ∀ (st : Assignor), Cursors nc nm st →
      nc - st.centroidTaskToTry ≤ fuel → nm - st.monitorTaskToTry ≤ fuel →
      assignorLoop cf (fuel + 1) st = assignorLoop cf fuel st := by
  induction fuel with
  | zero =>
    intro st hk h1 h2
    have hg : ¬ (st.continueLoopCentroid || st.continueLoopMonitor) = true := by
      rw [cursors_guard hk]
      omega
    unfold assignorLoop
    simp only [hg, Bool.false_eq_true, if_false]
  | succ fuel ih =>
    intro st hk h1 h2
    rw [assignorLoop]
    conv_rhs => rw [assignorLoop]
    by_cases hg : (st.continueLoopCentroid || st.continueLoopMonitor) = true
    · simp only [hg, if_true]
      cases hr : assignorRound cf st with
      | error e => rfl
      | ok st2 =>
        simp only
        obtain ⟨hk2, hc2, hm2⟩ := cursors_round hk hr
        apply ih st2 hk2
        · rw [hc2]
          split <;> omega
        · rw [hm2]
          split <;> omega
    · simp only [hg, Bool.false_eq_true, if_false]

theorem assignorLoop_fuel_add (nc nm cf fuel : Nat) (st : Assignor) (hk : Cursors nc nm st)
    (h1 : nc - st.centroidTaskToTry ≤ fuel) (h2 : nm - st.monitorTaskToTry ≤ fuel) :
    ∀ extra, assignorLoop cf (fuel + extra) st = assignorLoop cf fuel st := by
  intro extra
  induction extra with
  | zero => rfl
  | succ extra ih =>
    rw [← Nat.add_assoc, assignorLoop_fuel_succ nc nm cf (fuel + extra) st hk (by omega)
      (by omega)]
    exact ih

theorem cursors_start (heap : Heap) (behind : List constraintTypes)
    (rules : List inferenceRule) (c m : Nat)
    (cs ms : List Nat) :
    Cursors (cs.length + 1) (ms.length + 1) (startState heap behind rules (c :: cs) (m :: ms)) := by
  refine ⟨rfl, rfl, rfl, rfl, Nat.zero_le _, Nat.zero_le _, ?_, ?_⟩
  · show true = true ↔ 0 < cs.length + 1
    simp
  · show true = true ↔ 0 < ms.length + 1
    simp

/-- C31. On the code a rejecting turn writes `tasksTried[taskToTry]` after the
cursor has been advanced: it marks the candidate after the rejected one, and
for the last candidate of a pool the index is the size of the vector.  With
pools of one candidate each (`singlePoolsState`) the first centroid turn
rejects its only candidate and the loop ends in that write, whatever the
number of rounds allowed; for every pool the rejecting branch at the last
candidate writes outside the vector that `start` sized to the pool.  On
`twoPoolsState` the rejected first Centroid marks index 1; that run never
rejects a last candidate, and the loop stops after two rounds (one is not
enough) with both cursors at the end of their pools.  In general, on
non-empty pools, whenever the loop stops both cursors are at the end of their
pools and the number of rounds allowed was at least the size of the larger
pool, and any number of rounds from that size on gives the same outcome. -/
theorem C31_tried_write_outside_the_vector (cf fuel : Nat) (heap : Heap)
    (behind : List constraintTypes)
    (rules : List inferenceRule) (cOpts mOpts : List Nat) (c m : Nat) (cs ms : List Nat)
    (sv : Service) (g : List Nat) (b : Bool) :
    assignorLoop 1 (fuel + 1) singlePoolsState = .error Fault.undefined ∧
      rejectCentroid (startState heap behind rules cOpts mOpts) sv g cOpts.length b
        = .error Fault.undefined ∧
      rejectMonitor (startState heap behind rules cOpts mOpts) sv g mOpts.length b
        = .error Fault.undefined ∧
      (centroidTurn 1 twoPoolsState).map
          (fun s => (s.constraintGraph, s.centroidTaskToTry, s.centroidTasksTried))
        = .ok ([], 1, [0, 1]) ∧
      (assignorLoop 1 2 twoPoolsState).map
          (fun s => (s.centroidTaskToTry, s.monitorTaskToTry, s.centroidTasksTried,
            s.monitorTasksTried))
        = .ok (2, 2, [0, 1], [0, 0]) ∧
      assignorLoop 1 1 twoPoolsState = .error Fault.fuel ∧
      (match assignorLoop cf fuel (startState heap behind rules (c :: cs) (m :: ms)) with
        | .ok st1 =>
          st1.centroidTaskToTry = cs.length + 1 ∧ st1.monitorTaskToTry = ms.length + 1 ∧
            max (cs.length + 1) (ms.length + 1) ≤ fuel
        | .error _ => True) ∧
      assignorLoop cf (max (cs.length + 1) (ms.length + 1) + fuel)
          (startState heap behind rules (c :: cs) (m :: ms))
        = assignorLoop cf (max (cs.length + 1) (ms.length + 1))
            (startState heap behind rules (c :: cs) (m :: ms)) := by
  have hk := cursors_start heap behind rules c m cs ms
  refine ⟨rfl, ?_, ?_, rfl, rfl, rfl, ?_, ?_⟩
  · simp [rejectCentroid, writeAt, startState]
  · simp [rejectMonitor, writeAt, startState]
  · cases hrun : assignorLoop cf fuel (startState heap behind rules (c :: cs) (m :: ms)) with
    | error e => trivial
    | ok st1 =>
      obtain ⟨e1, e2, e3, e4⟩ := assignorLoop_cursors _ _ cf fuel _ st1 hk hrun
      have e3a : cs.length + 1 ≤ fuel := by
        have : (startState heap behind rules (c :: cs) (m :: ms)).centroidTaskToTry = 0 := rfl
        rw [this] at e3
        omega
      have e4a : ms.length + 1 ≤ fuel := by
        have : (startState heap behind rules (c :: cs) (m :: ms)).monitorTaskToTry = 0 := rfl
        rw [this] at e4
        omega
      exact ⟨e1, e2, Nat.max_le.mpr ⟨e3a, e4a⟩⟩
  · exact assignorLoop_fuel_add _ _ cf _ _ hk
      (le_trans (Nat.sub_le _ _) (Nat.le_max_left _ _))
      (le_trans (Nat.sub_le _ _) (Nat.le_max_right _ _)) fuel

/-- C33. Output consistency: when the assignor loop, started by `start` on pools
of allocated nodes, stops, the number of nodes of the working graph is
`centroidsAssigned + monitorsAssigned`, and the constraint of every node of
the graph is the constraint of a candidate of one of the two pools. -/
theorem C33_output_consistency (cf fuel : Nat) (heap : Heap) (behind : List constraintTypes)
    (rules : List inferenceRule)
    (cOpts mOpts : List Nat) (st1 : Assignor) (hc : ∀ o ∈ cOpts, o < heap.length)
    (hm : ∀ o ∈ mOpts, o < heap.length)
    (h : assignorLoop cf fuel (startState heap behind rules cOpts mOpts) = .ok st1) :
    (st1.constraintGraph.length : Int) = st1.centroidsAssigned + st1.monitorsAssigned ∧
      ∀ p ∈ st1.constraintGraph, ∃ o ∈ cOpts ++ mOpts,
        (deref st1.service.heap p).data = (deref heap o).data :=
  ⟨kept_length (assignorLoop_kept cf fuel heap behind rules cOpts mOpts st1 hc hm h),
    kept_mem (assignorLoop_kept cf fuel heap behind rules cOpts mOpts st1 hc hm h)⟩

/-- Witness for C33 on `twoPoolsState`: the loop stops with three nodes, one
Centroid and two Monitors accepted. -/
theorem C33_output_consistency_witness :
    ∃ st1, assignorLoop 1 2 twoPoolsState = .ok st1 ∧
      st1.constraintGraph = [5, 6, 7] ∧ st1.centroidsAssigned = 1 ∧ st1.monitorsAssigned = 2 ∧
      (st1.constraintGraph.length : Int) = st1.centroidsAssigned + st1.monitorsAssigned ∧
      ∀ p ∈ st1.constraintGraph, ∃ o ∈ [0, 1] ++ [2, 3],
        (deref st1.service.heap p).data = (deref twoPoolsState.service.heap o).data :=
  ⟨_, rfl, rfl, rfl, rfl,
    C33_output_consistency 1 2 twoPoolsState.service.heap [] [] [0, 1] [2, 3] _
      (by decide) (by decide) rfl⟩

/-- What the final de-duplication pass computes: it returns on every list of
nodes, with the nodes that no earlier node of the list equals under the
engine test, in the original order; no two nodes of the result pass the
engine test; the pass leaves a list as it is when no two of its nodes pass
the engine test; and the graph with which the assignor loop stops is such a
list when the candidates of each pool are pairwise non-equal under the engine
test (a pool of Centroids and a pool of Monitors, as `start` builds them). -/
theorem dedupPass_first_occurrences (heap : Heap) (g : List Nat) :
    dedupPass heap g = .ok (firstOccurrences heap g) ∧
      List.Sublist (firstOccurrences heap g) g ∧
      (firstOccurrences heap g).Pairwise
        (fun a b => nodesEqual heap a b = false ∧ nodesEqual heap b a = false) ∧
      (g.Pairwise (fun a b => nodesEqual heap a b = false) → dedupPass heap g = .ok g) ∧
      ∀ (cf fuel : Nat) (heap0 : Heap) (behind : List constraintTypes)
        (rules : List inferenceRule) (cOpts mOpts : List Nat) (st1 : Assignor),
        (∀ o ∈ cOpts, o < heap0.length) → (∀ o ∈ mOpts, o < heap0.length) →
        (constraintsOf heap0 cOpts).Pairwise distinctConstraints →
        (constraintsOf heap0 mOpts).Pairwise distinctConstraints →
        (∀ c ∈ constraintsOf heap0 cOpts, c.type = constraintTypes.centroid) →
        (∀ c ∈ constraintsOf heap0 mOpts, c.type = constraintTypes.monitor) →
        assignorLoop cf fuel (startState heap0 behind rules cOpts mOpts) = .ok st1 →
        dedupPass st1.service.heap st1.constraintGraph = .ok st1.constraintGraph := by
  have hnoop : ∀ (h : Heap) (l : List Nat),
      l.Pairwise (fun a b => nodesEqual h a b = false) → dedupPass h l = .ok l := by
    intro h l hpw
    rw [dedupPass_eq]
    unfold firstOccurrences
    rw [firstOccurrencesFrom_id h l [] (fun a ha => absurd ha (List.not_mem_nil _)) hpw]
  refine ⟨dedupPass_eq heap g, (firstOccurrencesFrom_facts heap g []).1,
    (firstOccurrencesFrom_facts heap g []).2.2, hnoop heap g, ?_⟩
  intro cf fuel heap0 behind rules cOpts mOpts st1 hc hm hcd hmd hct hmt hrun
  exact hnoop _ _
    (kept_pairwise (assignorLoop_kept cf fuel heap0 behind rules cOpts mOpts st1 hc hm hrun)
      hcd hmd hct hmt)

/-- C32. On the code the final de-duplication pass does not leave a graph
without structurally equal nodes, because it compares through
`vectorIntsEqual`, whose two branches are swapped.  On the Centroid over
`[1,2]` and the Centroid over `[2,1]`, which are structurally equal, the pass
keeps both; on the Relative over `[1,2]` and the Relative over `[2,1]`, which
are not, it erases the second.  What the pass returns on every list is the
first occurrence of each node under the engine test
`constraintsEqual(.., .., type != centroid)`, in the original order. -/
theorem C32_dedup_keeps_equal_centroids (heap : Heap) (g : List Nat) :
    structurallyEqual (deref scenarioCHeap 0).data (deref scenarioCHeap 1).data = true ∧
      dedupPass scenarioCHeap [0, 1] = .ok [0, 1] ∧
      structurallyEqual (deref swappedRelativeHeap 0).data (deref swappedRelativeHeap 1).data
        = false ∧
      dedupPass swappedRelativeHeap [0, 1] = .ok [0] ∧
      dedupPass heap g = .ok (firstOccurrences heap g) ∧
      List.Sublist (firstOccurrences heap g) g ∧
      (firstOccurrences heap g).Pairwise
        (fun a b => nodesEqual heap a b = false ∧ nodesEqual heap b a = false) :=
  ⟨by decide, rfl, by decide, rfl, (dedupPass_first_occurrences heap g).1,
    (dedupPass_first_occurrences heap g).2.1, (dedupPass_first_occurrences heap g).2.2.1⟩

/-! ## Invariants of the graph under `checkCompatibility` -/

/-- An invariant `P` of heap and graph that allocation of a leaf keeps and that
every round of the result loop keeps (for combinations admitted by `A`) is
kept by the result loop. -/
theorem resultLoop_invariant (P : Heap → List Nat → Prop)
    (A : List Nat → Heap → List Nat → Prop)
    (hleaf : ∀ h g c, P h g → P (h ++ [leafNode c]) g)
    (hmono : ∀ combo h g h1 g1, GraphGrows h g h1 g1 → A combo h g → A combo h1 g1)
    (hstep : ∀ (combo : List Nat) (sw : Sweep) (c : constraint) (e : Exit) (sw1 : Sweep),
      A combo sw.heap sw.constraintGraph → P sw.heap sw.constraintGraph →
      resolve sw.heap.length combo { sw with heap := sw.heap ++ [leafNode c] } = .ok (e, sw1) →
      P sw1.heap sw1.constraintGraph)
    (combo : List Nat) (rule : inferenceRule) (fuel : Nat) :
    ∀ (i : Nat) (sw sw1 : Sweep) (e : Exit),
      A combo sw.heap sw.constraintGraph → P sw.heap sw.constraintGraph →
      resultLoop combo rule fuel i sw = .ok (e, sw1) → P sw1.heap sw1.constraintGraph := by
  induction fuel with
  | zero =>
    intro i sw sw1 e _ hP h
    unfold resultLoop at h
    split at h
    · cases h
    · simp only [Except.ok.injEq, Prod.mk.injEq] at h
      obtain ⟨_, rfl⟩ := h
      exact hP
  | succ fuel ih =>
    intro i sw sw1 e hA hP h
    unfold resultLoop at h
    cases ht : rule.resultTypes.get? i with
    | none =>
      simp only [ht, Except.ok.injEq, Prod.mk.injEq] at h
      obtain ⟨_, rfl⟩ := h
      exact hP
    | some currType =>
      simp only [ht] at h
      cases hd : decodeResult rule i currType with
      | error err => simp [hd] at h
      | ok res =>
        cases res with
        | none =>
          simp only [hd, Except.ok.injEq, Prod.mk.injEq] at h
          obtain ⟨_, rfl⟩ := h
          exact hleaf _ _ default hP
        | some ci =>
          obtain ⟨c, i1⟩ := ci
          simp only [hd] at h
          cases hr : resolve sw.heap.length combo
              { sw with heap := sw.heap ++ [{ data := c, parents := [], children := [] }] } with
          | error err => simp [hr] at h
          | ok res1 =>
            obtain ⟨e1, sw2⟩ := res1
            have hP2 : P sw2.heap sw2.constraintGraph := hstep combo sw c e1 sw2 hA hP hr
            have hA2 : A combo sw2.heap sw2.constraintGraph :=
              hmono _ _ _ _ _ (resolve_frame hr) hA
            cases e1 with
            | running =>
              simp only [hr] at h
              exact ih _ _ _ _ hA2 hP2 h
            | contradiction =>
              simp only [hr, Except.ok.injEq, Prod.mk.injEq] at h
              obtain ⟨_, rfl⟩ := h
              exact hP2
            | invalidKind =>
              simp only [hr, Except.ok.injEq, Prod.mk.injEq] at h
              obtain ⟨_, rfl⟩ := h
              exact hP2

theorem comboLoop_invariant (P : Heap → List Nat → Prop)
    (A : List Nat → Heap → List Nat → Prop)
    (hleaf : ∀ h g c, P h g → P (h ++ [leafNode c]) g)
    (hmono : ∀ combo h g h1 g1, GraphGrows h g h1 g1 → A combo h g → A combo h1 g1)
    (hstep : ∀ (combo : List Nat) (sw : Sweep) (c : constraint) (e : Exit) (sw1 : Sweep),
      A combo sw.heap sw.constraintGraph → P sw.heap sw.constraintGraph →
      resolve sw.heap.length combo { sw with heap := sw.heap ++ [leafNode c] } = .ok (e, sw1) →
      P sw1.heap sw1.constraintGraph)
    (applied : List inferenceRule) (combos : List (List Nat)) :
    ∀ (j : Nat) (sw sw1 : Sweep) (e : Exit),
      (∀ c ∈ combos, A c sw.heap sw.constraintGraph) → P sw.heap sw.constraintGraph →
      comboLoop applied combos j sw = .ok (e, sw1) → P sw1.heap sw1.constraintGraph := by
  induction combos with
  | nil =>
    intro j sw sw1 e _ hP h
    simp only [comboLoop, Except.ok.injEq, Prod.mk.injEq] at h
    obtain ⟨_, rfl⟩ := h
    exact hP
  | cons combo combos ih =>
    intro j sw sw1 e hA hP h
    unfold comboLoop at h
    split at h
    · cases h
    · split at h
      · cases h
      · rename_i hr
        have hP2 := resultLoop_invariant P A hleaf hmono hstep combo _ _ _ _ _ _
          (hA combo (List.mem_cons_self _ _)) hP hr
        refine ih _ _ _ _ ?_ hP2 h
        intro c hc
        exact hmono _ _ _ _ _ (resultLoop_frame _ _ _ _ _ _ _ hr)
          (hA c (List.mem_cons_of_mem _ hc))
      · rename_i hr
        simp only [Except.ok.injEq, Prod.mk.injEq] at h
        obtain ⟨rfl, rfl⟩ := h
        exact resultLoop_invariant P A hleaf hmono hstep combo _ _ _ _ _ _
          (hA combo (List.mem_cons_self _ _)) hP hr

/-- The invariant principle of `checkCompatibility`: an invariant of heap and
graph that allocation keeps and that every round of the deriver keeps holds
for the callee's graph at the return, whatever the verdict. -/
theorem checkCompatibility_invariant (P : Heap → List Nat → Prop)
    (A : List Nat → Heap → List Nat → Prop)
    (hleaf : ∀ h g c, P h g → P (h ++ [leafNode c]) g)
    (hmono : ∀ combo h g h1 g1, GraphGrows h g h1 g1 → A combo h g → A combo h1 g1)
    (hnew : ∀ combo h g, P h g → (∀ x ∈ combo, x ∈ g) → A combo h g)
    (hstep : ∀ (combo : List Nat) (sw : Sweep) (c : constraint) (e : Exit) (sw1 : Sweep),
      A combo sw.heap sw.constraintGraph → P sw.heap sw.constraintGraph →
      resolve sw.heap.length combo { sw with heap := sw.heap ++ [leafNode c] } = .ok (e, sw1) →
      P sw1.heap sw1.constraintGraph)
    (fuel : Nat) :
    ∀ (sv : Service) (g : List Nat) (v : Verdict),
      (∀ c ∈ sv.nodeCombosThisIteration, A c sv.heap g) → P sv.heap g →
      checkCompatibility fuel sv g = .ok v → P v.service.heap v.constraintGraph := by
  induction fuel with
  | zero =>
    intro sv g v _ _ h
    simp [checkCompatibility] at h
  | succ fuel ih =>
    intro sv g v hA hP h
    unfold checkCompatibility at h
    cases hr : rulesLoop g sv.ruleList false sv with
    | error err => simp [hr] at h
    | ok res =>
      obtain ⟨flag, sv1⟩ := res
      obtain ⟨hh, _, combos, applied, hcs, _, _, hcg, _⟩ := rulesLoop_frame _ _ _ _ _ _ hr
      cases flag with
      | false =>
        simp only [hr, Except.ok.injEq] at h
        subst h
        simp only
        rw [hh]
        exact hP
      | true =>
        simp only [hr] at h
        cases hc : comboLoop sv1.rulesAppliedThisIteration sv1.nodeCombosThisIteration 0
            { heap := sv1.heap, constraintGraph := g, continueLoop := false } with
        | error err => simp [hc] at h
        | ok res1 =>
          obtain ⟨e1, sw⟩ := res1
          have hP1 : P sw.heap sw.constraintGraph := by
            refine comboLoop_invariant P A hleaf hmono hstep _ _ _ _ _ _ ?_ ?_ hc
            · intro c hcm
              simp only [hh]
              rw [hcs] at hcm
              rcases List.mem_append.mp hcm with h1 | h1
              · exact hA c h1
              · exact hnew c _ _ hP (hcg c h1)
            · simp only [hh]
              exact hP
          cases e1 with
          | invalidKind =>
            simp only [hc, Except.ok.injEq] at h
            subst h
            exact hP1
          | contradiction =>
            simp only [hc, Except.ok.injEq] at h
            subst h
            exact hP1
          | running =>
            simp only [hc] at h
            split at h
            · exact ih _ _ _ (fun c hcm => absurd hcm (List.not_mem_nil _)) hP1 h
            · simp only [Except.ok.injEq] at h
              subst h
              exact hP1

theorem constraintsEqual_flag (a b : constraint) :
    constraintsEqual a b (engineFlag a.type) = constraintsEqual a b (engineFlag b.type) := by
  by_cases h : a.type = b.type
  · rw [h]
  · unfold constraintsEqual
    simp [h]

theorem uniqueSignatures_extend {h : Heap} (h1 : Heap) {g : List Nat}
    (hu : UniqueSignatures h g) (hlen : h.length ≤ h1.length)
    (hdata : ∀ p, p < h.length → (deref h1 p).data = (deref h p).data) :
    UniqueSignatures h1 g := by
  refine ⟨fun p hp => lt_of_lt_of_le (hu.1 p hp) hlen, ?_⟩
  refine List.Pairwise.imp_of_mem ?_ hu.2
  intro a b ha hb hab
  unfold nodesEqual at hab ⊢
  rw [hdata a (hu.1 a ha), hdata b (hu.1 b hb)]
  exact hab

theorem uniqueSignatures_leaf (h : Heap) (g : List Nat) (c : constraint)
    (hu : UniqueSignatures h g) : UniqueSignatures (h ++ [leafNode c]) g := by
  apply uniqueSignatures_extend _ hu
  · simp
  · intro p hp
    rw [deref_append_left _ _ hp]

/-- One round of the deriver keeps the signatures of the graph unique: the new
node is pushed only when no node of the graph holds an equal constraint. -/
theorem uniqueSignatures_resolve (combo : List Nat) (sw : Sweep) (c : constraint) (e : Exit)
    (sw1 : Sweep) (hu : UniqueSignatures sw.heap sw.constraintGraph)
    (h : resolve sw.heap.length combo { sw with heap := sw.heap ++ [leafNode c] }
      = .ok (e, sw1)) :
    UniqueSignatures sw1.heap sw1.constraintGraph := by
  rcases resolve_cases h with ⟨hnone, _, hh, hg, _⟩ | ⟨_, _, _, _, hh, hg, _⟩
  · simp only at hnone hh hg
    have hdata : ∀ p, p ≤ sw.heap.length → (deref sw1.heap p).data
        = if p = sw.heap.length then c else (deref sw.heap p).data := by
      intro p hp
      rw [hh]
      exact data_wire_fresh sw.heap c combo p hp
    have hold := uniqueSignatures_extend sw1.heap hu
      (by rw [hh, length_wire]; simp)
      (by
        intro p hp
        rw [hdata p (le_of_lt hp), if_neg (by omega)])
    rw [hg]
    refine ⟨?_, ?_⟩
    · intro p hp
      rcases List.mem_append.mp hp with h1 | h1
      · exact hold.1 p h1
      · rw [List.mem_singleton.mp h1, hh, length_wire]
        simp
    · rw [List.pairwise_append]
      refine ⟨hold.2, List.pairwise_singleton _ _, ?_⟩
      intro a ha b hb
      rw [List.mem_singleton.mp hb]
      have hpres := (nodeIsPresentInGraph_eq_none _ _ _).mp hnone a ha
      unfold presentAt at hpres
      have hne : a ≠ sw.heap.length := Nat.ne_of_lt (hu.1 a ha)
      have hce : constraintsEqual
          (deref (wire sw.heap.length combo (sw.heap ++ [leafNode c])) a).data
          (deref (wire sw.heap.length combo (sw.heap ++ [leafNode c])) sw.heap.length).data
          (engineFlag (deref (wire sw.heap.length combo
            (sw.heap ++ [leafNode c])) sw.heap.length).data.type) = false := by
        cases hv : constraintsEqual
          (deref (wire sw.heap.length combo (sw.heap ++ [leafNode c])) a).data
          (deref (wire sw.heap.length combo (sw.heap ++ [leafNode c])) sw.heap.length).data
          (engineFlag (deref (wire sw.heap.length combo
            (sw.heap ++ [leafNode c])) sw.heap.length).data.type)
        · rfl
        · exact absurd ⟨hne, hv⟩ hpres
      unfold nodesEqual
      rw [hh, constraintsEqual_flag]
      exact hce
  · simp only at hh hg
    rw [modifyAt_clear_fresh_leaf] at hh
    rw [hh, hg]
    exact uniqueSignatures_leaf _ _ c hu

/-- What `checkCompatibility` preserves: if no two nodes of the graph passed to
it (a vector of allocated nodes) pass the engine test, then neither do two
nodes of the graph after any round of the deriver (a derived node is pushed
only when `nodeIsPresentInGraph` finds no node that passes), and neither do
two nodes of the callee's graph when the call returns, whatever the
verdict. -/
theorem uniqueSignatures_preserved (fuel : Nat) (sv : Service) (g : List Nat)
    (v : Verdict) (hv : ∀ p ∈ g, p < sv.heap.length)
    (hu : g.Pairwise (fun a b => nodesEqual sv.heap a b = false))
    (h : checkCompatibility fuel sv g = .ok v) :
    v.constraintGraph.Pairwise
        (fun a b => nodesEqual v.service.heap a b = false ∧
          nodesEqual v.service.heap b a = false) ∧
      ∀ (combo : List Nat) (sw : Sweep) (c : constraint) (e : Exit) (sw1 : Sweep),
        UniqueSignatures sw.heap sw.constraintGraph →
        resolve sw.heap.length combo { sw with heap := sw.heap ++ [leafNode c] }
          = .ok (e, sw1) →
        UniqueSignatures sw1.heap sw1.constraintGraph := by
  have hfinal := checkCompatibility_invariant UniqueSignatures (fun _ _ _ => True)
    uniqueSignatures_leaf (fun _ _ _ _ _ _ _ => trivial) (fun _ _ _ _ _ => trivial)
    (fun combo sw c e sw1 _ hP hr => uniqueSignatures_resolve combo sw c e sw1 hP hr)
    fuel sv g v (fun _ _ => trivial) ⟨hv, hu⟩ h
  refine ⟨?_, fun combo sw c e sw1 hP hr => uniqueSignatures_resolve combo sw c e sw1 hP hr⟩
  refine List.Pairwise.imp ?_ hfinal.2
  intro a b hab
  exact ⟨hab, by rw [nodesEqual_comm]; exact hab⟩

theorem acyclicBelow_leaf (n0 : Nat) (h : Heap) (g : List Nat) (c : constraint)
    (hP : AcyclicBelow n0 h g) : AcyclicBelow n0 (h ++ [leafNode c]) g := by
  obtain ⟨hac, hv, hcb⟩ := hP
  refine ⟨acyclic_append_leaf c hac, validPointers_append_leaf c hv, ?_⟩
  intro p hp x hx
  rw [children_append_leaf] at hx
  exact hcb p hp x hx

/-- One round of the deriver keeps the children edges acyclic: the new node is
wired to nodes that were allocated before it, and no other children list is
changed. -/
theorem acyclicBelow_resolve (n0 : Nat) (combo : List Nat) (sw : Sweep) (c : constraint)
    (e : Exit) (sw1 : Sweep) (hcombo : ∀ x ∈ combo, x < sw.heap.length)
    (hP : AcyclicBelow n0 sw.heap sw.constraintGraph)
    (h : resolve sw.heap.length combo { sw with heap := sw.heap ++ [leafNode c] }
      = .ok (e, sw1)) :
    AcyclicBelow n0 sw1.heap sw1.constraintGraph := by
  obtain ⟨hac, hv, hcb⟩ := hP
  rcases resolve_cases h with ⟨_, _, hh, hg, _⟩ | ⟨_, _, _, _, hh, hg, _⟩
  · simp only at hh hg
    have hvR : ValidPointers sw.heap (List.range sw.heap.length) :=
      ⟨hv.1, fun p hp => List.mem_range.mp hp⟩
    obtain ⟨hac1, hv1⟩ := invariant_wire_fresh c combo hac hvR
      (fun x hx => List.mem_range.mpr (hcombo x hx))
    have hlen : sw1.heap.length = sw.heap.length + 1 := by
      rw [hh, length_wire]
      simp
    refine ⟨hh ▸ hac1, ⟨?_, ?_⟩, ?_⟩
    · rw [hh]
      exact hv1.1
    · intro p hp
      rw [hg] at hp
      rcases List.mem_append.mp hp with h1 | h1
      · have := hv.2 p h1
        omega
      · rw [List.mem_singleton.mp h1]
        omega
    · intro p hp x hx
      by_cases hpl : p ≤ sw.heap.length
      · rw [hh, children_wire_fresh sw.heap c combo p hpl] at hx
        by_cases hpn : p = sw.heap.length
        · rw [if_pos hpn] at hx
          rw [hpn]
          exact hcombo x hx
        · rw [if_neg hpn] at hx
          exact hcb p hp x hx
      · rw [deref_of_length_le (by omega)] at hx
        cases hx
  · simp only at hh hg
    rw [modifyAt_clear_fresh_leaf] at hh
    rw [hh, hg]
    exact acyclicBelow_leaf n0 _ _ c ⟨hac, hv, hcb⟩

/-- C35. Acyclicity is preserved: if the children edges of the heap are acyclic
on entry (all stored addresses, those of recorded combinations included,
being allocated), then after any run of `checkCompatibility`, whatever the
verdict, the children edges over all existing and newly created nodes are
acyclic; no existing node's children list has changed, and the children of
every newly created node are nodes at smaller addresses, which existed
before it. -/
theorem C35_acyclicity_preserved (fuel : Nat) (sv : Service) (g : List Nat) (v : Verdict)
    (hac : Acyclic sv.heap) (hv : ValidPointers sv.heap g)
    (hmemo : ∀ c ∈ sv.nodeCombosThisIteration, ∀ x ∈ c, x < sv.heap.length)
    (h : checkCompatibility fuel sv g = .ok v) :
    Acyclic v.service.heap ∧
      (∀ p, p < sv.heap.length →
        (deref v.service.heap p).children = (deref sv.heap p).children) ∧
      (∀ p, sv.heap.length ≤ p → ∀ c ∈ (deref v.service.heap p).children, c < p) := by
  have hinit : AcyclicBelow sv.heap.length sv.heap g := by
    refine ⟨hac, hv, ?_⟩
    intro p hp x hx
    rw [deref_of_length_le hp] at hx
    cases hx
  have hfinal := checkCompatibility_invariant (AcyclicBelow sv.heap.length)
    (fun combo h1 _ => ∀ x ∈ combo, x < h1.length)
    (acyclicBelow_leaf sv.heap.length)
    (fun combo h1 g1 h2 g2 hgrow hA x hx => lt_of_lt_of_le (hA x hx) hgrow.1.1)
    (fun combo h1 g1 hP hsub x hx => hP.2.1.2 x (hsub x hx))
    (fun combo sw c e sw1 hA hP hr => acyclicBelow_resolve sv.heap.length combo sw c e sw1 hA hP hr)
    fuel sv g v hmemo hinit h
  refine ⟨hfinal.1, ?_, hfinal.2.2⟩
  intro p hp
  exact ((checkCompatibility_frame fuel sv g v h).1.1.2 p hp).2.1

/-- C34. On the code signature uniqueness is not preserved, because the deriver
looks for an equal node through `vectorIntsEqual`, whose two branches are
swapped.  On the graph `[Monitor(1,2)]`, which holds no two structurally equal
nodes, with the rules `monitor{1,2} -> centroid{1,2}` and
`monitor{1,2} -> centroid{2,1}`, `checkCompatibility` returns true and its
graph ends with the Centroid over `[1,2]` and the Centroid over `[2,1]`: the
second is accepted although it is structurally equal to the first, and both
are still there after the second sweep. -/
theorem C34_two_equal_centroids_accepted :
    (checkCompatibility 2 twoCentroidsService [0]).map
        (fun v => (v.accepted, v.constraintGraph,
          v.constraintGraph.map (fun p => (deref v.service.heap p).data)))
      = .ok (true, [0, 1, 2],
          [monitorTask 1 2, freshConstraint constraintTypes.centroid [1, 2] [],
            freshConstraint constraintTypes.centroid [2, 1] []]) ∧
      structurallyEqual (freshConstraint constraintTypes.centroid [1, 2] [])
        (freshConstraint constraintTypes.centroid [2, 1] []) = true ∧
      constraintsEqual (freshConstraint constraintTypes.centroid [1, 2] [])
        (freshConstraint constraintTypes.centroid [2, 1] [])
        (engineFlag constraintTypes.centroid) = false ∧
      checkCompatibility 1 twoCentroidsService [0] = .error Fault.fuel ∧
      ∃ v, checkCompatibility 2 twoCentroidsService [0] = .ok v ∧
        v.constraintGraph = [0, 1, 2] ∧
        structurallyEqual (deref v.service.heap 1).data (deref v.service.heap 2).data = true :=
  ⟨rfl, by decide, by decide, rfl, _, rfl, rfl, rfl⟩

/-- Witness for C35 on Scenario A, a rejecting run: the heap at the return is
acyclic, and the derived node 2 has the child 0. -/
theorem C35_acyclicity_preserved_witness :
    ∃ v, checkCompatibility 3 scenarioA [0, 1] = .ok v ∧ v.accepted = false ∧
      (deref v.service.heap 2).children = [0] ∧ Acyclic v.service.heap :=
  ⟨_, rfl, rfl, rfl,
    (C35_acyclicity_preserved 3 scenarioA [0, 1] _ (acyclic_of_childrenBelow (by decide))
      (validPointers_of_childrenBelow (by decide) (by decide)) (by decide) rfl).1⟩

/-! ## `checkCompatibility` does not read the parents lists -/

theorem sameButParents_of_lt {h h2 : Heap} (hlen : h2.length = h.length)
    (hlt : ∀ p, p < h.length →
      (deref h2 p).data = (deref h p).data ∧ (deref h2 p).children = (deref h p).children) :
    SameButParents h h2 := by
  refine ⟨hlen, ?_⟩
  intro p
  by_cases hp : p < h.length
  · exact hlt p hp
  · rw [deref_of_length_le (h := h) (by omega), deref_of_length_le (h := h2) (by omega)]
    exact ⟨rfl, rfl⟩

theorem sameButParents_refl (h : Heap) : SameButParents h h :=
  ⟨rfl, fun _ => ⟨rfl, rfl⟩⟩

theorem sameButParents_append {h h2 : Heap} (x : constraintNode) (hs : SameButParents h h2) :
    SameButParents (h ++ [x]) (h2 ++ [x]) := by
  apply sameButParents_of_lt
  · simp [hs.1]
  · intro p hp
    simp only [List.length_append, List.length_cons, List.length_nil] at hp
    by_cases hpl : p < h.length
    · rw [deref_append_left h _ hpl, deref_append_left h2 _ (by rw [hs.1]; exact hpl)]
      exact hs.2 p
    · have hpe : p = h.length := by omega
      have h1 : deref (h ++ [x]) p = x := by
        rw [hpe]
        exact deref_append_length h x
      have h2e : deref (h2 ++ [x]) p = x := by
        rw [hpe, ← hs.1]
        exact deref_append_length h2 x
      rw [h1, h2e]
      exact ⟨rfl, rfl⟩

theorem sameButParents_wire {h h2 : Heap} (n : Nat) (combo : List Nat)
    (hs : SameButParents h h2) : SameButParents (wire n combo h) (wire n combo h2) := by
  apply sameButParents_of_lt
  · rw [length_wire, length_wire, hs.1]
  · intro p hp
    rw [length_wire] at hp
    rw [deref_wire n combo h p hp, deref_wire n combo h2 p (by rw [hs.1]; exact hp)]
    simp only
    exact ⟨(hs.2 p).1, by rw [(hs.2 p).2]⟩

theorem sameButParents_clear {h h2 : Heap} (n : Nat) (hs : SameButParents h h2) :
    SameButParents (modifyAt (fun nd => { nd with children := [] }) n h)
      (modifyAt (fun nd => { nd with children := [] }) n h2) := by
  apply sameButParents_of_lt
  · rw [length_modifyAt, length_modifyAt, hs.1]
  · intro p hp
    rw [length_modifyAt] at hp
    rw [deref_modifyAt _ p n h hp, deref_modifyAt _ p n h2 (by rw [hs.1]; exact hp)]
    by_cases hpn : p = n
    · simp only [hpn, if_true]
      exact ⟨(hs.2 n).1, trivial⟩
    · simp only [hpn, if_false]
      exact hs.2 p

theorem nodeIsPresentInGraph_same {h h2 : Heap} (hs : SameButParents h h2) (n : Nat)
    (l : List Nat) : nodeIsPresentInGraph h2 n l = nodeIsPresentInGraph h n l :=
  nodeIsPresentInGraph_congr h h2 n l (hs.2 n).1 (fun m _ => (hs.2 m).1)

theorem gatherDescendents_same {h h2 : Heap} (hs : SameButParents h h2) (fuel : Nat) :
    ∀ (p : Nat) (acc : List Nat),
      gatherDescendents h2 fuel p acc = gatherDescendents h fuel p acc := by
  induction fuel with
  | zero =>
    intro p acc
    rfl
  | succ fuel ih =>
    intro p acc
    unfold gatherDescendents
    have hf : (fun found currNode => gatherDescendents h2 fuel currNode found)
        = (fun found currNode => gatherDescendents h fuel currNode found) := by
      funext found currNode
      exact ih currNode found
    rw [(hs.2 p).2, hf]

theorem eraseFirstEqual_same {h h2 : Heap} (hs : SameButParents h h2) (x : Nat) :
    ∀ (l : List Nat), eraseFirstEqual h2 x l = eraseFirstEqual h x l := by
  intro l
  induction l with
  | nil => rfl
  | cons y l ih =>
    unfold eraseFirstEqual
    rw [(hs.2 x).1, (hs.2 y).1, ih]

theorem supersetLoop_same {h h2 : Heap} (hs : SameButParents h h2) :
    ∀ (l1 l2 : List Nat), supersetLoop h2 l1 l2 = supersetLoop h l1 l2 := by
  intro l1
  induction l1 with
  | nil =>
    intro l2
    rfl
  | cons x l1 ih =>
    intro l2
    unfold supersetLoop
    rw [eraseFirstEqual_same hs]
    cases eraseFirstEqual h x l2 with
    | none => rfl
    | some r => exact ih r

theorem descendentsAreSuperset_same {h h2 : Heap} (hs : SameButParents h h2) (n o : Nat) :
    descendentsAreSuperset h2 n o = descendentsAreSuperset h n o := by
  have hfun : supersetLoop h2 = supersetLoop h := by
    funext a b
    exact supersetLoop_same hs a b
  unfold descendentsAreSuperset descendents
  simp only [hs.1, gatherDescendents_same hs, hfun]

/-- The conflict branch gives the same exit, graph and flag on heaps that differ
in the parents lists only, and leaves heaps that differ in the parents lists
only. -/
theorem resolve_same {n : Nat} {combo : List Nat} {sw sw2 s : Sweep} {e : Exit}
    (hs : SameSweep sw sw2) (h : resolve n combo sw = .ok (e, s)) :
    ∃ s2, resolve n combo sw2 = .ok (e, s2) ∧ SameSweep s s2 := by
  obtain ⟨hg, hf, hh⟩ := hs
  have hw := sameButParents_wire n combo hh
  unfold resolve at h ⊢
  rw [hg, nodeIsPresentInGraph_same hw]
  cases hp : nodeIsPresentInGraph (wire n combo sw.heap) n sw.constraintGraph with
  | none =>
    simp only [hp, Except.ok.injEq, Prod.mk.injEq] at h
    obtain ⟨rfl, rfl⟩ := h
    exact ⟨_, rfl, rfl, rfl, hw⟩
  | some other =>
    simp only [hp] at h
    simp only
    rw [descendentsAreSuperset_same hw]
    cases hd : descendentsAreSuperset (wire n combo sw.heap) n other with
    | error err => simp [hd] at h
    | ok b =>
      have hclear : SameButParents (unwire n combo (wire n combo sw.heap))
          (unwire n combo (wire n combo sw2.heap)) := by
        rw [unwire_wire, unwire_wire]
        exact sameButParents_clear n hh
      cases b with
      | true =>
        simp only [hd, Except.ok.injEq, Prod.mk.injEq] at h
        obtain ⟨rfl, rfl⟩ := h
        exact ⟨_, rfl, rfl, hf, hclear⟩
      | false =>
        simp only [hd, Except.ok.injEq, Prod.mk.injEq] at h
        obtain ⟨rfl, rfl⟩ := h
        exact ⟨_, rfl, rfl, hf, hclear⟩

theorem resultLoop_same (combo : List Nat) (rule : inferenceRule) (fuel : Nat) :
    ∀ (i : Nat) (sw sw2 s : Sweep) (e : Exit), SameSweep sw sw2 →
      resultLoop combo rule fuel i sw = .ok (e, s) →
      ∃ s2, resultLoop combo rule fuel i sw2 = .ok (e, s2) ∧ SameSweep s s2 := by
  induction fuel with
  | zero =>
    intro i sw sw2 s e hs h
    unfold resultLoop at h ⊢
    split at h
    · cases h
    · rename_i hi
      simp only [Except.ok.injEq, Prod.mk.injEq] at h
      obtain ⟨rfl, rfl⟩ := h
      exact ⟨sw2, by simp [hi], hs⟩
  | succ fuel ih =>
    intro i sw sw2 s e hs h
    unfold resultLoop at h ⊢
    cases ht : rule.resultTypes.get? i with
    | none =>
      simp only [ht, Except.ok.injEq, Prod.mk.injEq] at h
      obtain ⟨rfl, rfl⟩ := h
      exact ⟨sw2, rfl, hs⟩
    | some currType =>
      simp only [ht] at h ⊢
      cases hd : decodeResult rule i currType with
      | error err => simp [hd] at h
      | ok res =>
        cases res with
        | none =>
          simp only [hd, Except.ok.injEq, Prod.mk.injEq] at h
          obtain ⟨rfl, rfl⟩ := h
          exact ⟨_, rfl, hs.1, hs.2.1, sameButParents_append _ hs.2.2⟩
        | some ci =>
          obtain ⟨c, i1⟩ := ci
          simp only [hd] at h ⊢
          have hs1 : SameSweep
              { sw with heap := sw.heap ++ [{ data := c, parents := [], children := [] }] }
              { sw2 with heap := sw2.heap ++ [{ data := c, parents := [], children := [] }] } :=
            ⟨hs.1, hs.2.1, sameButParents_append _ hs.2.2⟩
          rw [hs.2.2.1]
          cases hr : resolve sw.heap.length combo
              { sw with heap := sw.heap ++ [{ data := c, parents := [], children := [] }] } with
          | error err => simp [hr] at h
          | ok res1 =>
            obtain ⟨e1, sw1⟩ := res1
            obtain ⟨s1, hr2, hss⟩ := resolve_same hs1 hr
            rw [hr2]
            cases e1 with
            | running =>
              simp only [hr] at h
              simp only
              exact ih _ _ _ _ _ hss h
            | contradiction =>
              simp only [hr, Except.ok.injEq, Prod.mk.injEq] at h
              obtain ⟨rfl, rfl⟩ := h
              exact ⟨s1, rfl, hss⟩
            | invalidKind =>
              simp only [hr, Except.ok.injEq, Prod.mk.injEq] at h
              obtain ⟨rfl, rfl⟩ := h
              exact ⟨s1, rfl, hss⟩

theorem comboLoop_same (applied : List inferenceRule) (combos : List (List Nat)) :
    ∀ (j : Nat) (sw sw2 s : Sweep) (e : Exit), SameSweep sw sw2 →
      comboLoop applied combos j sw = .ok (e, s) →
      ∃ s2, comboLoop applied combos j sw2 = .ok (e, s2) ∧ SameSweep s s2 := by
  induction combos with
  | nil =>
    intro j sw sw2 s e hs h
    simp only [comboLoop, Except.ok.injEq, Prod.mk.injEq] at h
    obtain ⟨rfl, rfl⟩ := h
    exact ⟨sw2, rfl, hs⟩
  | cons combo combos ih =>
    intro j sw sw2 s e hs h
    unfold comboLoop at h ⊢
    cases hj : applied.get? j with
    | none =>
      simp only [hj] at h
      cases h
    | some rule =>
      simp only [hj] at h ⊢
      cases hr : resultLoop combo rule rule.resultTypes.length 0 sw with
      | error err => simp [hr] at h
      | ok res =>
        obtain ⟨e1, sw1⟩ := res
        obtain ⟨s1, hr2, hss⟩ := resultLoop_same combo rule _ 0 sw sw2 sw1 e1 hs hr
        rw [hr2]
        cases e1 with
        | running =>
          simp only [hr] at h
          simp only
          exact ih _ _ _ _ _ hss h
        | contradiction =>
          simp only [hr, Except.ok.injEq, Prod.mk.injEq] at h
          obtain ⟨rfl, rfl⟩ := h
          exact ⟨s1, rfl, hss⟩
        | invalidKind =>
          simp only [hr, Except.ok.injEq, Prod.mk.injEq] at h
          obtain ⟨rfl, rfl⟩ := h
          exact ⟨s1, rfl, hss⟩

/-- The verdict of `checkCompatibility` and the callee's graph are the same on
two heaps that differ in the parents lists only. -/
theorem checkCompatibility_same (fuel : Nat) :
    ∀ (sv : Service) (h2 : Heap) (g : List Nat) (v : Verdict),
      SameButParents sv.heap h2 →
      (∀ c ∈ sv.nodeCombosThisIteration, ∀ x ∈ c, x ∈ g) →
      checkCompatibility fuel sv g = .ok v →
      ∃ v2, checkCompatibility fuel { sv with heap := h2 } g = .ok v2 ∧
        v2.accepted = v.accepted ∧ v2.constraintGraph = v.constraintGraph ∧
        SameButParents v.service.heap v2.service.heap := by
  induction fuel with
  | zero =>
    intro sv h2 g v _ _ h
    simp [checkCompatibility] at h
  | succ fuel ih =>
    intro sv h2 g v hs hmemo h
    unfold checkCompatibility at h ⊢
    have hcongr := rulesLoop_congr h2 g sv.ruleList false sv (fun n _ => (hs.2 n).1) hmemo
    simp only
    rw [hcongr]
    cases hr : rulesLoop g sv.ruleList false sv with
    | error err => simp [hr] at h
    | ok res =>
      obtain ⟨flag, sv1⟩ := res
      obtain ⟨hh, _, _⟩ := rulesLoop_frame _ _ _ _ _ _ hr
      cases flag with
      | false =>
        simp only [hr, Except.ok.injEq] at h
        subst h
        refine ⟨_, rfl, rfl, rfl, ?_⟩
        simp only [hh]
        exact hs
      | true =>
        simp only [hr] at h
        simp only
        have hs0 : SameSweep
            { heap := sv1.heap, constraintGraph := g, continueLoop := false }
            { heap := h2, constraintGraph := g, continueLoop := false } :=
          ⟨rfl, rfl, by simp only [hh]; exact hs⟩
        cases hc : comboLoop sv1.rulesAppliedThisIteration sv1.nodeCombosThisIteration 0
            { heap := sv1.heap, constraintGraph := g, continueLoop := false } with
        | error err => simp [hc] at h
        | ok res1 =>
          obtain ⟨e1, sw⟩ := res1
          obtain ⟨sw2, hc2, hg2, hf2, hh2⟩ := comboLoop_same _ _ _ _ _ _ _ hs0 hc
          rw [hc2]
          cases e1 with
          | invalidKind =>
            simp only [hc, Except.ok.injEq] at h
            subst h
            exact ⟨_, rfl, rfl, hg2, hh2⟩
          | contradiction =>
            simp only [hc, Except.ok.injEq] at h
            subst h
            exact ⟨_, rfl, rfl, hg2, hh2⟩
          | running =>
            simp only [hc] at h
            simp only [hf2, hg2]
            split at h
            · rename_i hcl
              simp only [hcl, if_true]
              exact ih
                { sv1 with heap := sw.heap, nodeCombosThisIteration := [],
                           rulesAppliedThisIteration := [] }
                sw2.heap sw.constraintGraph v hh2
                (fun c hcm => absurd hcm (List.not_mem_nil _)) h
            · rename_i hcl
              simp only [hcl, if_false, Except.ok.injEq] at h ⊢
              subst h
              exact ⟨_, rfl, rfl, rfl, hh2⟩

/-! ## The memo at the return of `checkCompatibility` -/

theorem decodeResult_none {rule : inferenceRule} {i : Nat} {t : constraintTypes}
    (h : decodeResult rule i t = .ok none) : t = constraintTypes.invalid := by
  cases t with
  | invalid => rfl
  | global =>
    unfold decodeResult at h
    simp only at h
    split at h <;> simp at h
  | centroid =>
    unfold decodeResult at h
    simp only at h
    split at h <;> simp at h
  | monitor =>
    unfold decodeResult at h
    simp only at h
    split at h
    · simp at h
    · split at h <;> simp at h
  | relative =>
    unfold decodeResult at h
    simp only at h
    split at h <;> simp at h

/-- The result loop of a rule without an `invalid` result kind is not left by
the unknown-kind branch. -/
theorem resultLoop_exit (combo : List Nat) (rule : inferenceRule)
    (hk : constraintTypes.invalid ∉ rule.resultTypes) (fuel : Nat) :
    ∀ (i : Nat) (sw sw1 : Sweep) (e : Exit),
      resultLoop combo rule fuel i sw = .ok (e, sw1) → e ≠ Exit.invalidKind := by
  induction fuel with
  | zero =>
    intro i sw sw1 e h
    unfold resultLoop at h
    split at h
    · cases h
    · simp only [Except.ok.injEq, Prod.mk.injEq] at h
      rw [← h.1]
      decide
  | succ fuel ih =>
    intro i sw sw1 e h
    unfold resultLoop at h
    cases ht : rule.resultTypes.get? i with
    | none =>
      simp only [ht, Except.ok.injEq, Prod.mk.injEq] at h
      rw [← h.1]
      decide
    | some currType =>
      simp only [ht] at h
      cases hd : decodeResult rule i currType with
      | error err => simp [hd] at h
      | ok res =>
        cases res with
        | none =>
          have hinv := decodeResult_none hd
          rw [hinv] at ht
          exact absurd (List.get?_mem ht) hk
        | some ci =>
          obtain ⟨c, i1⟩ := ci
          simp only [hd] at h
          cases hr : resolve sw.heap.length combo
              { sw with heap := sw.heap ++ [{ data := c, parents := [], children := [] }] } with
          | error err => simp [hr] at h
          | ok res1 =>
            obtain ⟨e1, sw2⟩ := res1
            have he1 : e1 ≠ Exit.invalidKind := by
              rcases resolve_cases hr with ⟨_, he, _⟩ | ⟨_, _, _, he, _⟩
              · rw [he]
                decide
              · exact he
            cases e1 with
            | running =>
              simp only [hr] at h
              exact ih _ _ _ _ h
            | contradiction =>
              simp only [hr, Except.ok.injEq, Prod.mk.injEq] at h
              rw [← h.1]
              decide
            | invalidKind => exact absurd rfl he1

theorem comboLoop_exit (applied : List inferenceRule)
    (hk : ∀ r ∈ applied, constraintTypes.invalid ∉ r.resultTypes) (combos : List (List Nat)) :
    ∀ (j : Nat) (sw sw1 : Sweep) (e : Exit),
      comboLoop applied combos j sw = .ok (e, sw1) → e ≠ Exit.invalidKind := by
  induction combos with
  | nil =>
    intro j sw sw1 e h
    simp only [comboLoop, Except.ok.injEq, Prod.mk.injEq] at h
    rw [← h.1]
    decide
  | cons combo combos ih =>
    intro j sw sw1 e h
    unfold comboLoop at h
    cases hj : applied.get? j with
    | none =>
      simp only [hj] at h
      cases h
    | some rule =>
      simp only [hj] at h
      have hrule := hk rule (List.get?_mem hj)
      cases hr : resultLoop combo rule rule.resultTypes.length 0 sw with
      | error err => simp [hr] at h
      | ok res =>
        obtain ⟨e1, sw2⟩ := res
        have he1 := resultLoop_exit combo rule hrule _ _ _ _ _ hr
        cases e1 with
        | running =>
          simp only [hr] at h
          exact ih _ _ _ _ h
        | contradiction =>
          simp only [hr, Except.ok.injEq, Prod.mk.injEq] at h
          rw [← h.1]
          decide
        | invalidKind => exact absurd rfl he1

/-- With no `invalid` result kind in the rule list, a call entered with an empty
memo returns with an empty memo. -/
theorem checkCompatibility_memo (fuel : Nat) :
    ∀ (sv : Service) (g : List Nat) (v : Verdict),
      sv.nodeCombosThisIteration = [] → sv.rulesAppliedThisIteration = [] →
      (∀ r ∈ sv.ruleList, constraintTypes.invalid ∉ r.resultTypes) →
      checkCompatibility fuel sv g = .ok v →
      v.service.nodeCombosThisIteration = [] ∧ v.service.rulesAppliedThisIteration = [] := by
  induction fuel with
  | zero =>
    intro sv g v _ _ _ h
    simp [checkCompatibility] at h
  | succ fuel ih =>
    intro sv g v hc0 hr0 hk h
    unfold checkCompatibility at h
    cases hr : rulesLoop g sv.ruleList false sv with
    | error err => simp [hr] at h
    | ok res =>
      obtain ⟨flag, sv1⟩ := res
      obtain ⟨_, hl, combos, applied, _, has, _, _, har⟩ := rulesLoop_frame _ _ _ _ _ _ hr
      cases flag with
      | false =>
        simp only [hr, Except.ok.injEq] at h
        subst h
        exact ⟨rfl, rfl⟩
      | true =>
        simp only [hr] at h
        cases hc : comboLoop sv1.rulesAppliedThisIteration sv1.nodeCombosThisIteration 0
            { heap := sv1.heap, constraintGraph := g, continueLoop := false } with
        | error err => simp [hc] at h
        | ok res1 =>
          obtain ⟨e1, sw⟩ := res1
          have he1 : e1 ≠ Exit.invalidKind := by
            refine comboLoop_exit _ ?_ _ _ _ _ _ hc
            intro r hrm
            rw [has, hr0, List.nil_append] at hrm
            exact hk r (har r hrm)
          cases e1 with
          | invalidKind => exact absurd rfl he1
          | contradiction =>
            simp only [hc, Except.ok.injEq] at h
            subst h
            exact ⟨rfl, rfl⟩
          | running =>
            simp only [hc] at h
            split at h
            · exact ih _ _ _ rfl rfl (by simp only; rw [hl]; exact hk) h
            · simp only [Except.ok.injEq] at h
              subst h
              exact ⟨rfl, rfl⟩

/-- C40. Scratch hygiene and frame of `checkCompatibility`.  For a call entered
with empty memo lists under a rule list without an `invalid` result kind:
on every return both memo lists are empty; at every point of the rule loop
(after any number of rules) the two lists have equal length, and every call
of `ruleApplies` keeps them of equal length; the call leaves the constraint
and the children list of every node allocated before it as they were; and
on a heap that differs only in the parents lists the call returns the same
verdict with the same graph (the parents lists are not read), leaving heaps
that again differ only in the parents lists. -/
theorem C40_scratch_hygiene_and_frame (fuel : Nat) (sv : Service) (g : List Nat) (v : Verdict)
    (hc0 : sv.nodeCombosThisIteration = []) (hr0 : sv.rulesAppliedThisIteration = [])
    (hkinds : ∀ r ∈ sv.ruleList, constraintTypes.invalid ∉ r.resultTypes)
    (h : checkCompatibility fuel sv g = .ok v) :
    v.service.nodeCombosThisIteration = [] ∧ v.service.rulesAppliedThisIteration = [] ∧
      (∀ rules b b1 sv1, rulesLoop g rules b sv = .ok (b1, sv1) →
        sv1.nodeCombosThisIteration.length = sv1.rulesAppliedThisIteration.length) ∧
      (∀ rule graph st b1 st1,
        st.nodeCombosThisIteration.length = st.rulesAppliedThisIteration.length →
        ruleApplies (some rule) graph st = .ok (b1, st1) →
        st1.nodeCombosThisIteration.length = st1.rulesAppliedThisIteration.length) ∧
      (∀ p, p < sv.heap.length →
        (deref v.service.heap p).data = (deref sv.heap p).data ∧
          (deref v.service.heap p).children = (deref sv.heap p).children) ∧
      ∀ h2, SameButParents sv.heap h2 →
        ∃ v2, checkCompatibility fuel { sv with heap := h2 } g = .ok v2 ∧
          v2.accepted = v.accepted ∧ v2.constraintGraph = v.constraintGraph ∧
          SameButParents v.service.heap v2.service.heap := by
  obtain ⟨hm1, hm2⟩ := checkCompatibility_memo fuel sv g v hc0 hr0 hkinds h
  refine ⟨hm1, hm2, ?_, ?_, ?_, ?_⟩
  · intro rules b b1 sv1 hrl
    obtain ⟨_, _, combos, applied, hcs, has, hlen, _, _⟩ := rulesLoop_frame _ _ _ _ _ _ hrl
    rw [hcs, has, hc0, hr0]
    simpa using hlen
  · intro rule graph st b1 st1 hlen hra
    obtain ⟨_, _, combos, hcs, has, _⟩ := ruleApplies_frame rule graph st b1 st1 hra
    rw [hcs, has, List.length_append, List.length_append, List.length_replicate, hlen]
  · intro p hp
    have hf := ((checkCompatibility_frame fuel sv g v h).1.1.2 p hp)
    exact ⟨hf.1, hf.2.1⟩
  · intro h2 hs
    exact checkCompatibility_same fuel sv h2 g v hs
      (fun c hc => by rw [hc0] at hc; exact absurd hc (List.not_mem_nil _)) h

/-- Witness for C40 on Scenario A: the call returns (rejecting) with an empty
memo, and on the heap with other parents lists it returns the same verdict
and graph. -/
theorem C40_scratch_hygiene_and_frame_witness :
    ∃ v, checkCompatibility 3 scenarioA [0, 1] = .ok v ∧ v.accepted = false ∧
      v.service.nodeCombosThisIteration = [] ∧ v.service.rulesAppliedThisIteration = [] ∧
      ∃ v2, checkCompatibility 3 { scenarioA with heap := scenarioAOtherParents } [0, 1]
          = .ok v2 ∧
        v2.accepted = v.accepted ∧ v2.constraintGraph = v.constraintGraph ∧
        SameButParents v.service.heap v2.service.heap :=
  ⟨_, rfl, rfl,
    (C40_scratch_hygiene_and_frame 3 scenarioA [0, 1] _ rfl rfl (by decide) rfl).1,
    (C40_scratch_hygiene_and_frame 3 scenarioA [0, 1] _ rfl rfl (by decide) rfl).2.1,
    (C40_scratch_hygiene_and_frame 3 scenarioA [0, 1] _ rfl rfl (by decide) rfl).2.2.2.2.2
      scenarioAOtherParents (sameButParents_of_lt rfl (by decide))⟩

end Icarous
